import Mathlib

/-!
# simpleconfig: the node tree and the path resolver

A shallow embedding of `src/sconf.c` and `src/array.c`.

Conventions of the embedding.

* A C string is the list of its characters (`CStr`); a `char *` that may be
  `NULL` is an `Option CStr`.
* The tree is a value. A C function that mutates the tree through a pointer
  returns the tree after the call; a returned pointer into the tree is the slot
  of its parent it points to, together with the node stored there.
* `int` results keep their C values (`1`, `0`, `-1`) as `Int`.
* An outer `Option` around a result is `none` when the C call does not return
  normally: an `assert` fails or an object is accessed outside its bounds.
* Allocation (`calloc`, `realloc`, `strdup`) is taken to succeed.
* A string argument is the list of the characters at the pointer when the call
  is made. `sconf_node_str_init` reads it after it has freed the buffer of the
  node that it overwrites; what it reads when the pointer points into that
  buffer is a separate input of the call (`SConfData.freed`).
* `long` is 64 bits wide and `uint32_t` arithmetic is modulo `2 ^ 32` (LP64).
-/

namespace SConf

/-- A NUL-terminated C string, as the list of the characters before the NUL. -/
abbrev CStr := List Char

/-! ## Constants of `include/sconf.h` and `src/array.c` -/

@[reducible] def SCONF_MAX_DEPTH : Nat := 20
@[reducible] def SCONF_ARRAY_MAX_SIZE : Nat := 65536
@[reducible] def SCONF_TYPE_UNKNOWN : Nat := 0
@[reducible] def SCONF_TYPE_DICT : Nat := 1
@[reducible] def SCONF_TYPE_ARRAY : Nat := 2
@[reducible] def SCONF_TYPE_STR : Nat := 3
@[reducible] def SCONF_TYPE_INT : Nat := 4
@[reducible] def SCONF_TYPE_BOOL : Nat := 5
@[reducible] def SCONF_TYPE_FLOAT : Nat := 6
@[reducible] def SCONF_TYPE_YAML_FILE : Nat := 7
@[reducible] def SCONF_TYPE_USAGE : Nat := 8
@[reducible] def SCONF_TYPE_MAX : Nat := 9

/-- Width of `uint32_t`. -/
@[reducible] def UINT32_MOD : Nat := 4294967296
/-- Largest `long` (LP64). -/
@[reducible] def LONG_MAX : Int := 9223372036854775807
/-- Smallest `long` (LP64). -/
@[reducible] def LONG_MIN : Int := -9223372036854775808

/-! ## Nodes -/

/-- The node of `struct SConfNode` (`include/sconf_private.h`): the `type` tag
with the member of the union that the tag selects. A dictionary is the list of
its (name, node) entries, an array is its `entries` vector (`size` is the
length, a `NULL` entry is `none`), a double is kept as its 64-bit pattern. -/
inductive SConfNode where
  | dict (dictionary : List (CStr × SConfNode))
  | array (entries : List (Option SConfNode))
  | str (string : CStr)
  | int (integer : Int)
  | bool (boolean : Bool)
  | float (fp : Nat)

/-- The store of `struct SConfArray` (`src/array.h`): `entries`, with
`size = entries.length`. -/
abbrev SConfArray := List (Option SConfNode)

/-- What a `void *data` argument points to, read through each of the casts the
init functions apply to it: `(char *)data`, `*(int64_t *)data`,
`*(bool *)data` and `*(double *)data`.

The string is read by `strdup` in `sconf_node_str_init`, after the function has
freed the buffer `node->string` of the node that it overwrites. The pointer can
point into that very buffer (`sconf_get_str` hands out `node->string`), and
then `strdup` reads freed memory: `freed` is `some g` in that case, with `g`
the characters that `strdup` finds there, which the program does not determine.
It is `none` when the pointer does not point into the buffer that the call
frees, as for every buffer that is not owned by the tree. -/
structure SConfData where
  string : CStr
  integer : Int
  boolean : Bool
  fp : Nat
  freed : Option CStr

/-- The place in a container a node pointer points to. -/
inductive SConfSlot where
  | name (key : CStr)
  | index (i : Nat)

/-- The function `sconf_type`: the tag of a node. -/
def sconf_type : SConfNode → Nat
  | .dict _ => SCONF_TYPE_DICT
  | .array _ => SCONF_TYPE_ARRAY
  | .str _ => SCONF_TYPE_STR
  | .int _ => SCONF_TYPE_INT
  | .bool _ => SCONF_TYPE_BOOL
  | .float _ => SCONF_TYPE_FLOAT

/-! ## The dictionary index -/

/-- Modelled from the spec: `art_search` of the bundled radix tree (`art.h`,
whose source is not under `src/`), the exact lookup `search(name) ->
found(node) | not_found` of the Dictionary Index. -/
def art_search : List (CStr × SConfNode) → CStr → Option SConfNode
  | [], _ => none
  | (k, v) :: t, key => if k = key then some v else art_search t key

/-- Modelled from the spec: `art_insert` of the bundled radix tree,
`insert(name, node) -> ok | error(duplicate)` of the Dictionary Index. The
first component is the value the C function returns: the node already stored
under the key, `none` (`NULL`) when the key is new and the node was added. -/
def art_insert (t : List (CStr × SConfNode)) (key : CStr) (value : SConfNode) :
    Option SConfNode × List (CStr × SConfNode) :=
  match art_search t key with
  | some old => (some old, t)
  | none => (none, t ++ [(key, value)])

/-- A write through a pointer that `art_search` returned: the entry found under
`key` now holds `value`. -/
def art_store : List (CStr × SConfNode) → CStr → SConfNode → List (CStr × SConfNode)
  | [], _, _ => []
  | (k, v) :: t, key, value =>
    if k = key then (k, value) :: t else (k, v) :: art_store t key value

/-- A write through a node pointer: the slot of `parent` now holds `child`. -/
def SConfNode.store (parent : SConfNode) (slot : SConfSlot) (child : SConfNode) : SConfNode :=
  match parent, slot with
  | .dict d, .name key => .dict (art_store d key child)
  | .array a, .index i => .array (a.set i (some child))
  | p, _ => p

/-- A read through a node pointer: the node that a slot of a container
holds. -/
def SConfNode.fetch (parent : SConfNode) (slot : SConfSlot) : Option SConfNode :=
  match parent, slot with
  | .dict d, .name key => art_search d key
  | .array a, .index i => a.getD i none
  | _, _ => none

/-! ## `src/array.c` -/

/-- The function `sconf_array_create`: `none` is `NULL`. -/
def sconf_array_create (size : Nat) : Option SConfArray :=
  if size = 0 then none
  else if size > SCONF_ARRAY_MAX_SIZE then none
  else some (List.replicate size none)

/-- The function `sconf_array_grow`: the result code and the store after the call. -/
def sconf_array_grow (array : SConfArray) (size_needed : Nat) : Int × SConfArray :=
  if array.length ≥ size_needed then (0, array)
  else if size_needed > SCONF_ARRAY_MAX_SIZE then (-1, array)
  else (0, array ++ List.replicate (size_needed - array.length) none)

/-- The function `sconf_array_insert`: the result code and the store after the call. The
argument of the grow step is `index + 1` in `uint32_t`; `entries[index]` is
read after it, and the call has no defined result when `index` is not below
the size. -/
def sconf_array_insert (array : SConfArray) (index : Nat) (node : Option SConfNode) :
    Option (Int × SConfArray) :=
  match node with
  | none => some (-1, array)
  | some n =>
    let g := sconf_array_grow array ((index + 1) % UINT32_MOD)
    if g.1 ≠ 0 then some (-1, g.2)
    else if index < g.2.length then
      match g.2.getD index none with
      | some _ => some (-1, g.2)
      | none => some (0, g.2.set index (some n))
    else none

/-! ## `strtol` -/

/-- The function `isspace` in the C locale. -/
def isspace (c : Char) : Bool :=
  c = ' ' || c = '\t' || c = '\n' || c = '\x0b' || c = '\x0c' || c = '\r'

/-- The function `isdigit`. -/
def isdigit (c : Char) : Bool := decide (48 ≤ c.toNat) && decide (c.toNat ≤ 57)

/-- The value of a run of decimal digits read after the value `acc`. -/
def strtol_value : List Char → Nat → Nat
  | [], acc => acc
  | c :: cs, acc => strtol_value cs (acc * 10 + (c.toNat - 48))

/-- What `strtol(str, &endptr, 10)` leaves behind: the value returned, the
offset of `endptr` from `str`, and whether `errno` was set to `ERANGE`. -/
structure StrtolResult where
  num : Int
  endptr : Nat
  erange : Bool

/-- The C library's `strtol` in base 10 (ISO C 7.22.1.4): optional white space,
an optional sign, then the longest run of digits; without a digit nothing is
consumed; a value outside `long` is clamped and reported with `ERANGE`. -/
def strtol (str : CStr) : StrtolResult :=
  let ws := str.takeWhile isspace
  let s1 := str.dropWhile isspace
  let neg := s1.head? = some '-'
  let sign := if s1.head? = some '-' ∨ s1.head? = some '+' then 1 else 0
  let digits := (s1.drop sign).takeWhile isdigit
  if digits = [] then ⟨0, 0, false⟩
  else
    let v : Int := if neg then -(strtol_value digits 0 : Int) else (strtol_value digits 0 : Int)
    let e := ws.length + sign + digits.length
    if v > LONG_MAX then ⟨LONG_MAX, e, true⟩
    else if v < LONG_MIN then ⟨LONG_MIN, e, true⟩
    else ⟨v, e, false⟩

/-! ## `src/sconf.c` -/

/-- The function `sconf_array_get_index_from_string`: the result code and `*index` after
the call (`index` is its value before). The value is stored by the assignment
`*index = num`, from `long` to `uint32_t`. -/
def sconf_array_get_index_from_string (str : CStr) (index : Nat) : Int × Nat :=
  if str.head? ≠ some '[' ∨ str.getLast? ≠ some ']' then (-1, index)
  else
    let r := strtol (str.drop 1)
    if r.erange then (-1, index)
    else if r.endptr = 0 then (-1, index)
    else (0, (r.num % (UINT32_MOD : Int)).toNat)

/-- The function `sconf_node_dict_insert`: the result code and the parent after the call. -/
def sconf_node_dict_insert (name : Option CStr) (parent : Option SConfNode)
    (node : Option SConfNode) : Int × Option SConfNode :=
  match name, parent, node with
  | none, _, _ => (-1, parent)
  | _, none, _ => (-1, parent)
  | _, _, none => (-1, parent)
  | some nm, some (.dict d), some n =>
    match art_insert d nm n with
    | (some _, d') => (-1, some (.dict d'))
    | (none, d') => (0, some (.dict d'))
  | some _, some _, some _ => (-1, parent)

/-- The function `sconf_node_dict_search`: the result code and `*node` after the call
(`node` is its value before). -/
def sconf_node_dict_search (name : Option CStr) (parent : Option SConfNode)
    (node : Option SConfNode) : Int × Option SConfNode :=
  match name, parent with
  | none, _ => (-1, node)
  | _, none => (-1, node)
  | some nm, some (.dict d) => (0, art_search d nm)
  | some _, some _ => (-1, node)

/-- The function `sconf_node_array_insert`: the result code and the parent after the call. -/
def sconf_node_array_insert (index : Nat) (parent : Option SConfNode)
    (node : Option SConfNode) : Option (Int × Option SConfNode) :=
  match parent, node with
  | none, _ => some (-1, parent)
  | _, none => some (-1, parent)
  | some (.array a), some n =>
    match sconf_array_insert a index (some n) with
    | none => none
    | some (r, a') => some (if r = -1 then -1 else 0, some (.array a'))
  | some _, some _ => some (-1, parent)

/-- The function `sconf_node_array_search`: the result code and `*node` after the call
(`node` is its value before). -/
def sconf_node_array_search (index : Nat) (parent : Option SConfNode)
    (node : Option SConfNode) : Int × Option SConfNode :=
  match parent with
  | none => (-1, node)
  | some (.array a) => if a.length > index then (0, a.getD index none) else (0, node)
  | some _ => (-1, node)

/-- The function `sconf_node_str_init`: the result code and the node after the call.
`has_string` says that `node->string` is not `NULL`: it is `NULL` in the node
that `sconf_node_create` has just allocated, and a buffer in a node of the
tree. A buffer is freed before `strdup(str)` reads `str`, so a `str` that
points into it is read from freed memory (`freed` of `SConfData`). -/
def sconf_node_str_init (has_string : Bool) (node : SConfNode) (data : Option SConfData) :
    Option (Int × SConfNode) :=
  match node, data with
  | .str _, some d =>
    some (0, .str (if has_string then d.freed.getD d.string else d.string))
  | _, _ => none

/-- The function `sconf_node_int_init`. -/
def sconf_node_int_init (node : SConfNode) (data : Option SConfData) :
    Option (Int × SConfNode) :=
  match node, data with
  | .int _, some d => some (0, .int d.integer)
  | _, _ => none

/-- The function `sconf_node_bool_init`. -/
def sconf_node_bool_init (node : SConfNode) (data : Option SConfData) :
    Option (Int × SConfNode) :=
  match node, data with
  | .bool _, some d => some (0, .bool d.boolean)
  | _, _ => none

/-- The function `sconf_node_float_init`. -/
def sconf_node_float_init (node : SConfNode) (data : Option SConfData) :
    Option (Int × SConfNode) :=
  match node, data with
  | .float _, some d => some (0, .float d.fp)
  | _, _ => none

/-- The function `sconf_node_create`: the inner `none` is `NULL`. A fresh node has a zeroed
union, which the scalar init functions overwrite. -/
def sconf_node_create (type : Nat) (data : Option SConfData) : Option (Option SConfNode) :=
  if type = SCONF_TYPE_DICT then some (some (.dict []))
  else if type = SCONF_TYPE_ARRAY then some ((sconf_array_create 1).map .array)
  else if type = SCONF_TYPE_STR then (sconf_node_str_init false (.str []) data).map (some ·.2)
  else if type = SCONF_TYPE_INT then (sconf_node_int_init (.int 0) data).map (some ·.2)
  else if type = SCONF_TYPE_BOOL then (sconf_node_bool_init (.bool false) data).map (some ·.2)
  else if type = SCONF_TYPE_FLOAT then (sconf_node_float_init (.float 0) data).map (some ·.2)
  else some none

/-- What `sconf_node_create_and_insert` leaves behind: the parent after the
call and the returned pointer, `none` for `NULL`. -/
structure SConfInserted where
  parent : SConfNode
  node : Option (SConfSlot × SConfNode)

/-- The `switch (type)` of `sconf_node_create_and_insert` that replaces the
value of an existing node. -/
def sconf_node_replace (type : Nat) (node : SConfNode) (data : Option SConfData) :
    Option (Int × SConfNode) :=
  if type = SCONF_TYPE_STR then sconf_node_str_init true node data
  else if type = SCONF_TYPE_INT then sconf_node_int_init node data
  else if type = SCONF_TYPE_BOOL then sconf_node_bool_init node data
  else if type = SCONF_TYPE_FLOAT then sconf_node_float_init node data
  else some (0, node)

/-- The function `sconf_node_create_and_insert`. -/
def sconf_node_create_and_insert (name : Option CStr) (type : Nat) (parent : SConfNode)
    (index : Nat) (data : Option SConfData) : Option SConfInserted :=
  let p : Int × Nat :=
    match name with
    | some nm =>
      if nm.head? = some '[' ∧ sconf_type parent = SCONF_TYPE_ARRAY then
        sconf_array_get_index_from_string nm index
      else (0, index)
    | none => (0, index)
  if p.1 = -1 then some ⟨parent, none⟩
  else
    let index := p.2
    let found : Option (Int × Option SConfNode × SConfSlot) :=
      match parent with
      | .dict _ =>
        let s := sconf_node_dict_search name (some parent) none
        some (s.1, s.2, .name (name.getD []))
      | .array _ =>
        let s := sconf_node_array_search index (some parent) none
        some (s.1, s.2, .index index)
      | _ => none
    match found with
    | none => some ⟨parent, none⟩
    | some (r, node, slot) =>
      if r = -1 then some ⟨parent, none⟩
      else
        match node with
        | some n =>
          if sconf_type n ≠ type then some ⟨parent, none⟩
          else
            match sconf_node_replace type n data with
            | none => none
            | some (r, n') =>
              if r = -1 then some ⟨parent.store slot n', none⟩
              else some ⟨parent.store slot n', some (slot, n')⟩
        | none =>
          match sconf_node_create type data with
          | none => none
          | some none => some ⟨parent, none⟩
          | some (some n) =>
            let ins : Option (Int × Option SConfNode) :=
              match parent with
              | .dict _ => some (sconf_node_dict_insert name (some parent) (some n))
              | _ => sconf_node_array_insert index (some parent) (some n)
            match ins with
            | none => none
            | some (r, parent') =>
              if r = -1 then some ⟨parent'.getD parent, none⟩
              else some ⟨parent'.getD parent, some (slot, n)⟩

/-- The tokens that the successive `strtok_r(…, ".", &save_ptr)` calls return:
the maximal runs of characters other than the delimiter, in order. `acc` is
the run read so far, last character first. -/
def strtok_r : CStr → CStr → List CStr
  | [], acc => if acc = [] then [] else [acc.reverse]
  | c :: cs, acc =>
    if c = '.' then (if acc = [] then strtok_r cs [] else acc.reverse :: strtok_r cs [])
    else strtok_r cs (c :: acc)

/-- The `if (curr) { … }` block in the loop of `sconf_get`: an early return
value, or `parent` after the block. -/
def sconf_get_descend (parent : SConfNode) (parent_index : Nat) (curr : Option CStr) :
    Except Int SConfNode :=
  match curr with
  | none => .ok parent
  | some c =>
    if c.head? = some '[' ∧ sconf_type parent ≠ SCONF_TYPE_ARRAY then .error 0
    else
      let s : Option (Int × Option SConfNode) :=
        match parent with
        | .dict _ => some (sconf_node_dict_search (some c) (some parent) none)
        | .array _ => some (sconf_node_array_search parent_index (some parent) none)
        | _ => none
      match s with
      | none => .error (-1)
      | some (r, tmp) =>
        if r = -1 then .error (-1)
        else
          match tmp with
          | none => .error 0
          | some n => .ok n

/-- The `while (next != NULL)` loop of `sconf_get` and the lookup that follows
it, entered with the tokens still to be returned by `strtok_r` (the first of
them is `next`). The result is the return value and `*node`, `none` when it is
not assigned. -/
def sconf_get_loop : SConfNode → Nat → Option CStr → List CStr → Int × Option SConfNode
  | parent, parent_index, curr, [] =>
    let s : Option (Int × Option SConfNode) :=
      match parent with
      | .dict _ => some (sconf_node_dict_search curr (some parent) none)
      | .array _ => some (sconf_node_array_search parent_index (some parent) none)
      | _ => none
    match s with
    | none => (-1, none)
    | some (r, found) =>
      if r = -1 then (-1, none)
      else
        match found with
        | some n => (1, some n)
        | none => (0, none)
  | parent, parent_index, curr, next :: rest =>
    match sconf_get_descend parent parent_index curr with
    | .error rc => (rc, none)
    | .ok parent =>
      if sconf_type parent = SCONF_TYPE_ARRAY ∧ next.head? = some '[' then
        let r := sconf_array_get_index_from_string next parent_index
        if r.1 = -1 then (-1, none)
        else sconf_get_loop parent r.2 (some next) rest
      else sconf_get_loop parent parent_index (some next) rest

/-- The function `sconf_get`: the return value and `*node`, `none` when it is not
assigned. -/
def sconf_get (root : Option SConfNode) (path : Option CStr) : Int × Option SConfNode :=
  match root, path with
  | none, _ => (-1, none)
  | _, none => (-1, none)
  | some r, some p => sconf_get_loop r 0 none (strtok_r p [])

/-- The function `sconf_get_str`: the return value and `*str`, `none` when it is not
assigned. The pointer that the function stores in `*str` is `node->string`, the
buffer of the node itself; the model keeps its characters. -/
def sconf_get_str (root : Option SConfNode) (path : Option CStr) : Int × Option CStr :=
  let g := sconf_get root path
  if g.1 ≠ 1 then (g.1, none)
  else
    match g.2 with
    | none => (-1, none)
    | some (.str s) => (1, some s)
    | some _ => (-1, none)

/-- The function `sconf_get_int`. -/
def sconf_get_int (root : Option SConfNode) (path : Option CStr) : Int × Option Int :=
  let g := sconf_get root path
  if g.1 ≠ 1 then (g.1, none)
  else
    match g.2 with
    | none => (-1, none)
    | some (.int i) => (1, some i)
    | some _ => (-1, none)

/-- The function `sconf_get_bool`. -/
def sconf_get_bool (root : Option SConfNode) (path : Option CStr) : Int × Option Bool :=
  let g := sconf_get root path
  if g.1 ≠ 1 then (g.1, none)
  else
    match g.2 with
    | none => (-1, none)
    | some (.bool b) => (1, some b)
    | some _ => (-1, none)

/-- The function `sconf_get_float`. -/
def sconf_get_float (root : Option SConfNode) (path : Option CStr) : Int × Option Nat :=
  let g := sconf_get root path
  if g.1 ≠ 1 then (g.1, none)
  else
    match g.2 with
    | none => (-1, none)
    | some (.float f) => (1, some f)
    | some _ => (-1, none)

/-- The `while (next != NULL)` loop of `sconf_set` and the insertion of the
leaf that follows it, entered with the tokens still to be returned by
`strtok_r`. The result is the return value and the node `parent` pointed to on
entry, as it is after the call. The variable `parent_index` is `0`
throughout. -/
def sconf_set_loop (type : Nat) (value : Option SConfData) :
    SConfNode → Option CStr → Nat → List CStr → Option (Int × SConfNode)
  | parent, curr, _, [] =>
    match sconf_node_create_and_insert curr type parent 0 value with
    | none => none
    | some r =>
      match r.node with
      | none => some (-1, r.parent)
      | some _ => some (0, r.parent)
  | parent, none, depth, next :: rest =>
    if depth ≥ SCONF_MAX_DEPTH then some (-1, parent)
    else sconf_set_loop type value parent (some next) (depth + 1) rest
  | parent, some c, depth, next :: rest =>
    let curr_type := if next.head? = some '[' then SCONF_TYPE_ARRAY else SCONF_TYPE_DICT
    match sconf_node_create_and_insert (some c) curr_type parent 0 none with
    | none => none
    | some r =>
      match r.node with
      | none => some (-1, r.parent)
      | some (slot, child) =>
        if depth ≥ SCONF_MAX_DEPTH then some (-1, r.parent)
        else
          match sconf_set_loop type value child (some next) (depth + 1) rest with
          | none => none
          | some (rc, child') => some (rc, r.parent.store slot child')

/-- The function `sconf_set`: the return value and the tree under `root` after the call. -/
def sconf_set (root : Option SConfNode) (path : Option CStr) (type : Nat)
    (value : Option SConfData) : Option (Int × Option SConfNode) :=
  match root, value, path with
  | none, _, _ => some (-1, root)
  | _, none, _ => some (-1, root)
  | _, _, none => some (-1, root)
  | some r, some v, some p =>
    (sconf_set_loop type (some v) r none 1 (strtok_r p [])).map (fun x => (x.1, some x.2))

/-! ## Iteration over arrays (`src/sconf.c`) -/

/-- The `for` loop of `sconf_node_array_next`, as a scan of the entries from
index `i` on (`entries` is the part of the vector from `i` to `size - 1`): the
index and the node of the first entry that is not `NULL`, `none` when the end
of the vector is reached. -/
def array_next_scan : List (Option SConfNode) → Nat → Option (Nat × SConfNode)
  | [], _ => none
  | none :: t, i => array_next_scan t (i + 1)
  | some n :: _, i => some (i, n)

/-- The function `sconf_node_array_next`: the return value, `*node` and `*next` after
the call (`node` and `next` are their values before). The index `i` stays below
`size`, a `uint32_t`, so `i + 1` does not wrap. -/
def sconf_node_array_next (array : Option SConfNode) (node : Option SConfNode) (next : Nat) :
    Int × Option SConfNode × Nat :=
  match array with
  | none => (-1, node, next)
  | some (.array a) =>
    match array_next_scan (a.drop next) next with
    | some (i, n) => (1, some n, i + 1)
    | none => (0, node, next)
  | some _ => (-1, node, next)

/-- The loop `while ((r = sconf_node_array_next(array, &node, &next, &err)) == 1)`
of the header and the tests, run at most `fuel` times from the cursor `next`:
the index (`next - 1` after the call) and the node of every round, and the
return value that ended the loop, `none` when the rounds ran out first. -/
def array_next_iterate (array : Option SConfNode) :
    Nat → Nat → List (Nat × SConfNode) × Option Int
  | 0, _ => ([], none)
  | fuel + 1, next =>
    match sconf_node_array_next array none next with
    | (1, some n, next') =>
      let rest := array_next_iterate array fuel next'
      ((next' - 1, n) :: rest.1, rest.2)
    | (r, _, _) => ([], some r)

/-- The `for` loop of `sconf_node_array_foreach`, as a scan of the entries from
index `i` on. The callback is a function of the index, the node and the user
data, giving its return value and the user data after the call. -/
def array_foreach_loop {σ : Type} (cb : Nat → SConfNode → σ → Int × σ) :
    List (Option SConfNode) → Nat → σ → Int × σ
  | [], _, user => (0, user)
  | none :: t, i, user => array_foreach_loop cb t (i + 1) user
  | some n :: t, i, user =>
    if (cb i n user).1 ≠ 0 then (-1, (cb i n user).2)
    else array_foreach_loop cb t (i + 1) (cb i n user).2

/-- The function `sconf_node_array_foreach`: the return value and the user data after
the call. -/
def sconf_node_array_foreach {σ : Type} (array : Option SConfNode)
    (cb : Option (Nat → SConfNode → σ → Int × σ)) (user : σ) : Int × σ :=
  match array, cb with
  | none, _ => (-1, user)
  | _, none => (-1, user)
  | some (.array a), some f => array_foreach_loop f a 0 user
  | some _, some _ => (-1, user)

/-! ## `src/convert.c` -/

@[reducible] def NUMBER_BASE_OCTAL : Nat := 8
@[reducible] def NUMBER_BASE_DECIMAL : Nat := 10
@[reducible] def NUMBER_BASE_HEXADECIMAL : Nat := 16
/-- Largest `long long`. -/
@[reducible] def LLONG_MAX : Int := 9223372036854775807
/-- Smallest `long long`. -/
@[reducible] def LLONG_MIN : Int := -9223372036854775808

/-- The value of a character as a digit: `0`-`9`, then the letters of either
case from 10 on. -/
def digit_value (c : Char) : Option Nat :=
  if 48 ≤ c.toNat ∧ c.toNat ≤ 57 then some (c.toNat - 48)
  else if 97 ≤ c.toNat ∧ c.toNat ≤ 122 then some (c.toNat - 97 + 10)
  else if 65 ≤ c.toNat ∧ c.toNat ≤ 90 then some (c.toNat - 65 + 10)
  else none

/-- A digit of the base. -/
def is_base_digit (base : Nat) (c : Char) : Bool :=
  match digit_value c with
  | some v => decide (v < base)
  | none => false

/-- The value of a run of digits of the base read after the value `acc`. -/
def strtoll_value (base : Nat) : List Char → Nat → Nat
  | [], acc => acc
  | c :: cs, acc => strtoll_value base cs (acc * base + (digit_value c).getD 0)

/-- The subject sequence of `strtoll(str, &endptr, base)` for a base of 8, 10 or
16 (ISO C 7.22.1.4): after optional white space, an optional sign, for base 16
an optional `0x` or `0X` that a hexadecimal digit follows, then the longest run
of digits of the base. The result is the value of the sequence with its sign
and the number of characters up to its end, `0` when there is no digit. -/
def strtoll_scan (str : CStr) (base : Nat) : Int × Nat :=
  let ws := str.takeWhile isspace
  let s1 := str.dropWhile isspace
  let sign := if s1.head? = some '-' ∨ s1.head? = some '+' then 1 else 0
  let s2 := s1.drop sign
  let pre :=
    if base = 16 ∧ s2.head? = some '0' ∧ ((s2.drop 1).head? = some 'x' ∨
        (s2.drop 1).head? = some 'X') ∧ ((s2.drop 2).head?.map (is_base_digit 16)) = some true
    then 2 else 0
  let digits := (s2.drop pre).takeWhile (is_base_digit base)
  if digits = [] then (0, 0)
  else
    (if s1.head? = some '-' then -(strtoll_value base digits 0 : Int)
      else (strtoll_value base digits 0 : Int),
     ws.length + sign + pre + digits.length)

/-- What `strtoll(str, &endptr, base)` leaves behind: the value returned (the
value of the subject sequence, or the nearest bound of `long long` when it is
out of range), the offset of `endptr` from `str`, and whether `errno` was set
to `ERANGE`. -/
def strtoll (str : CStr) (base : Nat) : StrtolResult :=
  let p := strtoll_scan str base
  if p.1 > LLONG_MAX then ⟨LLONG_MAX, p.2, true⟩
  else if p.1 < LLONG_MIN then ⟨LLONG_MIN, p.2, true⟩
  else ⟨p.1, p.2, false⟩

/-- The base that `sconf_string_to_integer` passes to `strtoll`. -/
def sconf_integer_base (string : CStr) : Nat :=
  if string.head? = some '0' ∧ (string.drop 1).head? = some 'x' then NUMBER_BASE_HEXADECIMAL
  else if string.head? = some '0' ∧ string.length > 1 then NUMBER_BASE_OCTAL
  else NUMBER_BASE_DECIMAL

/-- The function `sconf_string_to_integer`: the return value and `*integer` after the
call. The test `*endptr != '\0'` holds when `endptr` is before the end of the
string. -/
def sconf_string_to_integer (string : CStr) : Int × Int :=
  let r := strtoll string (sconf_integer_base string)
  if r.endptr < string.length then (0, r.num)
  else if r.erange then (-1, r.num)
  else (1, r.num)

/-- The test `strncmp(s, t, n) == 0` of the C library: the first `n` characters
of the two strings agree (fewer when both end before). -/
def strncmp_eq (s t : CStr) (n : Nat) : Bool := decide (s.take n = t.take n)

/-- The function `sconf_string_to_bool`: the return value and `*boolean` after the call,
`none` when it is not assigned. -/
def sconf_string_to_bool (string : CStr) : Int × Option Bool :=
  if strncmp_eq string "true".toList 4 then (1, some true)
  else if strncmp_eq string "false".toList 5 then (1, some false)
  else if strncmp_eq string "yes".toList 3 then (1, some true)
  else if strncmp_eq string "no".toList 2 then (1, some false)
  else if strncmp_eq string "on".toList 2 then (1, some true)
  else if strncmp_eq string "off".toList 3 then (1, some false)
  else (0, none)

/-! ## Error messages (`src/sconf.c`) -/

/-- Maximum length of error messages. -/
@[reducible] def ERR_MSG_MAX_LEN : Nat := 256

/-- The C library's `vsnprintf(buf, size, fmt, ap)` for a size above 0, given
the text `m` that the format and its arguments expand to: the string left in
the buffer, which holds at most `size - 1` characters of the text, and the
value returned, the length of the whole text. -/
def vsnprintf (size : Nat) (m : CStr) : CStr × Int := (m.take (size - 1), (m.length : Int))

/-- The function `sconf_err_set`: the message in `err->msg` after the call, `none` when
`err` is `NULL`. The argument `m` is the text that the format and its
arguments expand to. -/
def sconf_err_set (err : Option CStr) (m : CStr) : Option CStr :=
  match err with
  | none => none
  | some _ =>
    let r := vsnprintf (ERR_MSG_MAX_LEN - 1) m
    if r.2 > ((ERR_MSG_MAX_LEN - 1 : Nat) : Int) then some "setting error message failed".toList
    else some r.1

/-! ## Floating-point coercion (`src/convert.c`) -/

/-- What `strtod(str, &endptr)` leaves behind: the value returned (a `double`,
kept as the number that stands for it in a node), the offset of `endptr` from
`str`, and whether `errno` was set to `ERANGE`. -/
structure StrtodResult where
  fp : Nat
  endptr : Nat
  erange : Bool

/-- The function `sconf_string_to_float`: the return value and `*fp` after the call. The
C library's `strtod` is a parameter. -/
def sconf_string_to_float (strtod : CStr → StrtodResult) (string : CStr) : Int × Nat :=
  let r := strtod string
  if r.endptr < string.length then (0, r.fp)
  else if r.erange then (-1, r.fp)
  else (1, r.fp)

/-! ## Ingestion of YAML events (`src/yaml.c`) -/

@[reducible] def SCONF_YAML_STATE_START : Nat := 0
@[reducible] def SCONF_YAML_STATE_STOP : Nat := 1
@[reducible] def SCONF_YAML_STATE_STREAM : Nat := 2
@[reducible] def SCONF_YAML_STATE_DOCUMENT : Nat := 3
@[reducible] def SCONF_YAML_STATE_BLOCK : Nat := 4
@[reducible] def SCONF_YAML_STATE_BLOCK_CONTENT : Nat := 5
@[reducible] def SCONF_YAML_STATE_SEQUENCE : Nat := 6

@[reducible] def YAML_ANY_SCALAR_STYLE : Nat := 0
@[reducible] def YAML_PLAIN_SCALAR_STYLE : Nat := 1
@[reducible] def YAML_SINGLE_QUOTED_SCALAR_STYLE : Nat := 2
@[reducible] def YAML_DOUBLE_QUOTED_SCALAR_STYLE : Nat := 3
@[reducible] def YAML_LITERAL_SCALAR_STYLE : Nat := 4
@[reducible] def YAML_FOLDED_SCALAR_STYLE : Nat := 5

/-- An event of libyaml, by its `type`: `YAML_NO_EVENT`,
`YAML_STREAM_START_EVENT`, `YAML_STREAM_END_EVENT`, `YAML_DOCUMENT_START_EVENT`,
`YAML_DOCUMENT_END_EVENT`, `YAML_ALIAS_EVENT`, `YAML_SCALAR_EVENT` with
`data.scalar.value` and `data.scalar.style`, `YAML_SEQUENCE_START_EVENT`,
`YAML_SEQUENCE_END_EVENT`, `YAML_MAPPING_START_EVENT`,
`YAML_MAPPING_END_EVENT`. -/
inductive yaml_event_t where
  | no_event
  | stream_start
  | stream_end
  | document_start
  | document_end
  | alias
  | scalar (value : CStr) (style : Nat)
  | sequence_start
  | sequence_end
  | mapping_start
  | mapping_end

/-- The node at the end of a chain of slots from a node. -/
def SConfNode.fetch_path : SConfNode → List SConfSlot → Option SConfNode
  | n, [] => some n
  | n, s :: rest =>
    match n.fetch s with
    | some c => c.fetch_path rest
    | none => none

/-- A write through a node pointer: the node at the end of a chain of slots
from `n` is now `x`. -/
def SConfNode.store_path : SConfNode → List SConfSlot → SConfNode → SConfNode
  | _, [], x => x
  | n, s :: rest, x =>
    match n.fetch s with
    | some c => n.store s (c.store_path rest x)
    | none => n

/-- The structure `struct SConfYAMLParent`, one frame of the parent stack (the link `next`
is the rest of the list that holds the frame). The pointer `parent` is kept as
the place of the node in the tree: the chain of slots that leads to it from
the root. -/
structure SConfYAMLParent where
  parent : List SConfSlot
  curr_index : Nat

/-- The structure `struct SConfYAMLState`; `curr_parent` is the stack, top first. -/
structure SConfYAMLState where
  state : Nat
  depth : Int
  curr_key : Option CStr
  curr_parent : List SConfYAMLParent

/-- The function `sconf_yaml_parent_stack_push`: the return value and the state after
the call. -/
def sconf_yaml_parent_stack_push (parent : List SConfSlot) (state : SConfYAMLState) :
    Int × SConfYAMLState :=
  if state.depth ≥ (SCONF_MAX_DEPTH : Int) - 1 then (-1, state)
  else (0, { state with depth := state.depth + 1,
                        curr_parent := ⟨parent, 0⟩ :: state.curr_parent })

/-- The function `sconf_yaml_parent_stack_pop`. -/
def sconf_yaml_parent_stack_pop (state : SConfYAMLState) : Int × SConfYAMLState :=
  match state.curr_parent with
  | [] => (-1, state)
  | _ :: next => (0, { state with depth := state.depth - 1, curr_parent := next })

/-- The function `sconf_yaml_parent_add`: the return value, the tree under the root and
the state after the call; `none` when `sconf_node_create_and_insert` has no
defined result. -/
def sconf_yaml_parent_add (root : SConfNode) (state : SConfYAMLState) (type : Nat) :
    Option (Int × SConfNode × SConfYAMLState) :=
  match state.curr_parent with
  | [] => some (-1, root, state)
  | p :: next =>
    match root.fetch_path p.parent with
    | none => none
    | some pn =>
      if sconf_type pn = SCONF_TYPE_DICT ∧ state.curr_key = none then some (-1, root, state)
      else
        match sconf_node_create_and_insert state.curr_key type pn p.curr_index none with
        | none => none
        | some r =>
          match r.node with
          | none => some (-1, root.store_path p.parent r.parent, state)
          | some (slot, _) =>
            let pushed := sconf_yaml_parent_stack_push (p.parent ++ [slot]) state
            if pushed.1 ≠ 0 then some (-1, root.store_path p.parent r.parent, state)
            else if sconf_type pn = SCONF_TYPE_ARRAY then
              some (0, root.store_path p.parent r.parent,
                { pushed.2 with curr_parent :=
                    ⟨p.parent ++ [slot], 0⟩ ::
                      ⟨p.parent, (p.curr_index + 1) % UINT32_MOD⟩ :: next })
            else if sconf_type pn = SCONF_TYPE_DICT then
              some (0, root.store_path p.parent r.parent, { pushed.2 with curr_key := none })
            else some (0, root.store_path p.parent r.parent, pushed.2)

/-- The function `sconf_yaml_parent_remove`. -/
def sconf_yaml_parent_remove (state : SConfYAMLState) : Int × SConfYAMLState :=
  match state.curr_parent with
  | [] => (-1, state)
  | _ :: _ => sconf_yaml_parent_stack_pop state

/-- The type and the data that `sconf_yaml_node_add` infers from the text and
the style of a scalar, with the return value `r` of the last conversion that
was tried (`0` when none was). The data is the record of which
`sconf_node_create_and_insert` reads the field of the type: the text, `integer`,
`fp` or `boolean`. -/
def yaml_scalar_infer (strtod : CStr → StrtodResult) (value_str : CStr) (style : Nat) :
    Int × Nat × SConfData :=
  if style = YAML_DOUBLE_QUOTED_SCALAR_STYLE ∨ style = YAML_SINGLE_QUOTED_SCALAR_STYLE ∨
      value_str.length = 0 then
    (0, SCONF_TYPE_STR, ⟨value_str, 0, false, 0, none⟩)
  else if (sconf_string_to_integer value_str).1 ≠ 0 then
    ((sconf_string_to_integer value_str).1, SCONF_TYPE_INT,
      ⟨[], (sconf_string_to_integer value_str).2, false, 0, none⟩)
  else if (sconf_string_to_float strtod value_str).1 ≠ 0 then
    ((sconf_string_to_float strtod value_str).1, SCONF_TYPE_FLOAT,
      ⟨[], 0, false, (sconf_string_to_float strtod value_str).2, none⟩)
  else if (sconf_string_to_bool value_str).1 ≠ 0 then
    ((sconf_string_to_bool value_str).1, SCONF_TYPE_BOOL,
      ⟨[], 0, ((sconf_string_to_bool value_str).2).getD false, 0, none⟩)
  else (0, SCONF_TYPE_STR, ⟨value_str, 0, false, 0, none⟩)

/-- The function `sconf_yaml_node_add` for a scalar event with the given text and
style. -/
def sconf_yaml_node_add (strtod : CStr → StrtodResult) (root : SConfNode)
    (state : SConfYAMLState) (parent_type : Nat) (value_str : CStr) (style : Nat) :
    Option (Int × SConfNode × SConfYAMLState) :=
  match state.curr_parent with
  | [] => some (-1, root, state)
  | p :: next =>
    match root.fetch_path p.parent with
    | none => none
    | some pn =>
      if parent_type ≠ sconf_type pn then some (-1, root, state)
      else
        let inferred := yaml_scalar_infer strtod value_str style
        if inferred.1 = -1 then some (-1, root, state)
        else
          match sconf_node_create_and_insert state.curr_key inferred.2.1 pn p.curr_index
              (some inferred.2.2) with
          | none => none
          | some r =>
            match r.node with
            | none => some (-1, root.store_path p.parent r.parent, state)
            | some _ =>
              if parent_type = SCONF_TYPE_ARRAY then
                some (0, root.store_path p.parent r.parent,
                  { state with curr_parent :=
                      ⟨p.parent, (p.curr_index + 1) % UINT32_MOD⟩ :: next })
              else if parent_type = SCONF_TYPE_DICT then
                some (0, root.store_path p.parent r.parent, { state with curr_key := none })
              else some (0, root.store_path p.parent r.parent, state)

/-- The `case SCONF_YAML_STATE_START` of `sconf_yaml_consume_event`: the return
value (1 on success, 0 otherwise), the tree under the root and the state. -/
def yaml_consume_start (root : SConfNode) (event : yaml_event_t) (state : SConfYAMLState) :
    Option (Int × SConfNode × SConfYAMLState) :=
  match event with
  | .stream_start => some (1, root, { state with state := SCONF_YAML_STATE_STREAM })
  | _ => some (0, root, state)

/-- The `case SCONF_YAML_STATE_STREAM` of `sconf_yaml_consume_event`. -/
def yaml_consume_stream (root : SConfNode) (event : yaml_event_t) (state : SConfYAMLState) :
    Option (Int × SConfNode × SConfYAMLState) :=
  match event with
  | .document_start => some (1, root, { state with state := SCONF_YAML_STATE_DOCUMENT })
  | .stream_end => some (1, root, { state with state := SCONF_YAML_STATE_STOP })
  | _ => some (0, root, state)

/-- The `case SCONF_YAML_STATE_DOCUMENT` of `sconf_yaml_consume_event`; the root
is the node at the empty chain of slots. -/
def yaml_consume_document (root : SConfNode) (event : yaml_event_t) (state : SConfYAMLState) :
    Option (Int × SConfNode × SConfYAMLState) :=
  match event with
  | .mapping_start =>
    if (sconf_yaml_parent_stack_push [] state).1 = -1 then some (0, root, state)
    else some (1, root,
      { (sconf_yaml_parent_stack_push [] state).2 with state := SCONF_YAML_STATE_BLOCK })
  | .document_end => some (1, root, { state with state := SCONF_YAML_STATE_STREAM })
  | _ => some (0, root, state)

/-- The `case SCONF_YAML_STATE_BLOCK` of `sconf_yaml_consume_event`. -/
def yaml_consume_block (root : SConfNode) (event : yaml_event_t) (state : SConfYAMLState) :
    Option (Int × SConfNode × SConfYAMLState) :=
  match event with
  | .scalar value _ =>
    match state.curr_key with
    | some _ => some (0, root, { state with curr_key := none })
    | none => some (1, root,
        { state with curr_key := some value, state := SCONF_YAML_STATE_BLOCK_CONTENT })
  | .sequence_end =>
    if (sconf_yaml_parent_remove state).1 ≠ 0 then some (0, root, state)
    else some (1, root, (sconf_yaml_parent_remove state).2)
  | .mapping_end =>
    if (sconf_yaml_parent_remove state).1 ≠ 0 then some (0, root, state)
    else
      match (sconf_yaml_parent_remove state).2.curr_parent with
      | [] => some (1, root, (sconf_yaml_parent_remove state).2)
      | p :: _ =>
        match root.fetch_path p.parent with
        | none => none
        | some pn =>
          if sconf_type pn = SCONF_TYPE_ARRAY then
            some (1, root,
              { (sconf_yaml_parent_remove state).2 with state := SCONF_YAML_STATE_SEQUENCE })
          else some (1, root, (sconf_yaml_parent_remove state).2)
  | .mapping_start =>
    match sconf_yaml_parent_add root state SCONF_TYPE_DICT with
    | none => none
    | some (r, root', state') =>
      if r ≠ 0 then some (0, root', state') else some (1, root', state')
  | .document_end => some (1, root, { state with state := SCONF_YAML_STATE_STREAM })
  | _ => some (0, root, state)

/-- The `case SCONF_YAML_STATE_BLOCK_CONTENT` of `sconf_yaml_consume_event`. -/
def yaml_consume_block_content (strtod : CStr → StrtodResult) (root : SConfNode)
    (event : yaml_event_t) (state : SConfYAMLState) :
    Option (Int × SConfNode × SConfYAMLState) :=
  match event with
  | .scalar value style =>
    match sconf_yaml_node_add strtod root state SCONF_TYPE_DICT value style with
    | none => none
    | some (r, root', state') =>
      if r ≠ 0 then some (0, root', state')
      else some (1, root', { state' with state := SCONF_YAML_STATE_BLOCK })
  | .mapping_start =>
    match sconf_yaml_parent_add root state SCONF_TYPE_DICT with
    | none => none
    | some (r, root', state') =>
      if r ≠ 0 then some (0, root', state')
      else some (1, root', { state' with state := SCONF_YAML_STATE_BLOCK })
  | .sequence_start =>
    match sconf_yaml_parent_add root state SCONF_TYPE_ARRAY with
    | none => none
    | some (r, root', state') =>
      if r ≠ 0 then some (0, root', state')
      else some (1, root', { state' with state := SCONF_YAML_STATE_SEQUENCE })
  | _ => some (0, root, state)

/-- The `case SCONF_YAML_STATE_SEQUENCE` of `sconf_yaml_consume_event`. -/
def yaml_consume_sequence (strtod : CStr → StrtodResult) (root : SConfNode)
    (event : yaml_event_t) (state : SConfYAMLState) :
    Option (Int × SConfNode × SConfYAMLState) :=
  match event with
  | .scalar value style =>
    match sconf_yaml_node_add strtod root state SCONF_TYPE_ARRAY value style with
    | none => none
    | some (r, root', state') =>
      if r ≠ 0 then some (0, root', state') else some (1, root', state')
  | .mapping_start =>
    match sconf_yaml_parent_add root state SCONF_TYPE_DICT with
    | none => none
    | some (r, root', state') =>
      if r ≠ 0 then some (0, root', state')
      else some (1, root', { state' with state := SCONF_YAML_STATE_BLOCK })
  | .sequence_start =>
    match sconf_yaml_parent_add root state SCONF_TYPE_ARRAY with
    | none => none
    | some (r, root', state') =>
      if r ≠ 0 then some (0, root', state')
      else some (1, root', { state' with state := SCONF_YAML_STATE_SEQUENCE })
  | .sequence_end =>
    if (sconf_yaml_parent_remove state).1 ≠ 0 then some (0, root, state)
    else some (1, root,
      { (sconf_yaml_parent_remove state).2 with state := SCONF_YAML_STATE_BLOCK })
  | _ => some (0, root, state)

/-- The function `sconf_yaml_consume_event`: the return value (1 on success, 0
otherwise), the tree under the root and the state after the call. In a state
without a `case` of its own the `switch` does nothing. -/
def sconf_yaml_consume_event (strtod : CStr → StrtodResult) (root : SConfNode)
    (event : yaml_event_t) (state : SConfYAMLState) :
    Option (Int × SConfNode × SConfYAMLState) :=
  if state.state = SCONF_YAML_STATE_START then yaml_consume_start root event state
  else if state.state = SCONF_YAML_STATE_STREAM then yaml_consume_stream root event state
  else if state.state = SCONF_YAML_STATE_DOCUMENT then yaml_consume_document root event state
  else if state.state = SCONF_YAML_STATE_BLOCK then yaml_consume_block root event state
  else if state.state = SCONF_YAML_STATE_BLOCK_CONTENT then
    yaml_consume_block_content strtod root event state
  else if state.state = SCONF_YAML_STATE_SEQUENCE then
    yaml_consume_sequence strtod root event state
  else some (1, root, state)

/-- The `do … while (state.state != SCONF_YAML_STATE_STOP)` loop of
`sconf_yaml_read` over the events that `yaml_parser_parse` delivers, in order:
the return code and the tree under the root at the end. The list holds the
events that are parsed with success; when it is used up, the next call of
`yaml_parser_parse` fails. -/
def sconf_yaml_read_loop (strtod : CStr → StrtodResult) :
    SConfNode → SConfYAMLState → List yaml_event_t → Option (Int × SConfNode)
  | root, _, [] => some (-1, root)
  | root, state, event :: events =>
    match sconf_yaml_consume_event strtod root event state with
    | none => none
    | some (success, root', state') =>
      if success = 0 then some (-1, root')
      else if state'.state ≠ SCONF_YAML_STATE_STOP then
        sconf_yaml_read_loop strtod root' state' events
      else some (0, root')

/-- The function `sconf_yaml_read`: the return value and the tree under the root after
the call. The files are a parameter: `fopen_events filename` is `none` when
the file cannot be opened and otherwise the events that libyaml parses from
it. -/
def sconf_yaml_read (strtod : CStr → StrtodResult)
    (fopen_events : CStr → Option (List yaml_event_t)) (root : SConfNode) (filename : CStr) :
    Option (Int × SConfNode) :=
  match fopen_events filename with
  | none => some (-1, root)
  | some events =>
    sconf_yaml_read_loop strtod root ⟨SCONF_YAML_STATE_START, 0, none, []⟩ events

/-! ## The typed setters (`src/sconf.c`) -/

/-- The function `sconf_set_str` on a root that is not `NULL`: the return value and the
tree under the root after the call. `freed` is what is read at `str` once the
call has freed the buffer of the node that it overwrites, when `str` points
into that buffer (`freed` of `SConfData`), and `none` otherwise. -/
def sconf_set_str (root : SConfNode) (path : Option CStr) (str : Option CStr)
    (freed : Option CStr) : Option (Int × SConfNode) :=
  (sconf_set (some root) path SCONF_TYPE_STR (str.map (fun s => ⟨s, 0, false, 0, freed⟩))).map
    (fun x => (x.1, x.2.getD root))

/-- The function `sconf_set_int` on a root that is not `NULL`. -/
def sconf_set_int (root : SConfNode) (path : Option CStr) (integer : Int) :
    Option (Int × SConfNode) :=
  (sconf_set (some root) path SCONF_TYPE_INT (some ⟨[], integer, false, 0, none⟩)).map
    (fun x => (x.1, x.2.getD root))

/-- The function `sconf_set_bool` on a root that is not `NULL`. -/
def sconf_set_bool (root : SConfNode) (path : Option CStr) (boolean : Bool) :
    Option (Int × SConfNode) :=
  (sconf_set (some root) path SCONF_TYPE_BOOL (some ⟨[], 0, boolean, 0, none⟩)).map
    (fun x => (x.1, x.2.getD root))

/-- The function `sconf_set_float` on a root that is not `NULL`. -/
def sconf_set_float (root : SConfNode) (path : Option CStr) (fp : Nat) :
    Option (Int × SConfNode) :=
  (sconf_set (some root) path SCONF_TYPE_FLOAT (some ⟨[], 0, false, fp, none⟩)).map
    (fun x => (x.1, x.2.getD root))

/-! ## The config map -/

/-- The structure `struct SConfMap` with the fields that the defaults, the environment
and the validation read (the fields of the option parser are left out). The
callback `validate_func` is a function of the path, the node (`none` for
`NULL`) and the user data that gives its return value and the user data after
the call. -/
structure SConfMap (σ : Type) where
  path : Option CStr
  type : Nat
  env : Option CStr
  default_value : Option CStr
  required : Bool
  validate_func : Option (CStr → Option SConfNode → σ → Int × σ)

/-! ## Defaults (`src/defaults.c`) -/

/-- The function `sconf_defaults_handle_str` for the path and the default value of an
entry: the return value and the tree under the root after the call. -/
def sconf_defaults_handle_str (root : SConfNode) (path default_value : CStr) :
    Option (Int × SConfNode) :=
  let r := (sconf_get_str (some root) (some path)).1
  if r = -1 then some (-1, root)
  else if r = 1 then some (0, root)
  else
    match sconf_set_str root (some path) (some default_value) none with
    | none => none
    | some s => if s.1 = -1 then some (-1, s.2) else some (0, s.2)

/-- The function `sconf_defaults_handle_int`. -/
def sconf_defaults_handle_int (root : SConfNode) (path default_value : CStr) :
    Option (Int × SConfNode) :=
  let r := (sconf_get (some root) (some path)).1
  if r = -1 then some (-1, root)
  else if r = 1 then some (0, root)
  else
    let c := sconf_string_to_integer default_value
    if c.1 = -1 then some (-1, root)
    else if c.1 = 0 then some (-1, root)
    else
      match sconf_set_int root (some path) c.2 with
      | none => none
      | some s => if s.1 = -1 then some (-1, s.2) else some (0, s.2)

/-- The function `sconf_defaults_handle_float`. -/
def sconf_defaults_handle_float (strtod : CStr → StrtodResult) (root : SConfNode)
    (path default_value : CStr) : Option (Int × SConfNode) :=
  let r := (sconf_get (some root) (some path)).1
  if r = -1 then some (-1, root)
  else if r = 1 then some (0, root)
  else
    let c := sconf_string_to_float strtod default_value
    if c.1 = -1 then some (-1, root)
    else if c.1 = 0 then some (-1, root)
    else
      match sconf_set_float root (some path) c.2 with
      | none => none
      | some s => if s.1 = -1 then some (-1, s.2) else some (0, s.2)

/-- The function `sconf_defaults_handle_bool`. When `sconf_string_to_bool` returns
neither -1 nor 0 it has assigned `boolean`. -/
def sconf_defaults_handle_bool (root : SConfNode) (path default_value : CStr) :
    Option (Int × SConfNode) :=
  let r := (sconf_get (some root) (some path)).1
  if r = -1 then some (-1, root)
  else if r = 1 then some (0, root)
  else
    let c := sconf_string_to_bool default_value
    if c.1 = -1 then some (-1, root)
    else if c.1 = 0 then some (-1, root)
    else
      match sconf_set_bool root (some path) (c.2.getD false) with
      | none => none
      | some s => if s.1 = -1 then some (-1, s.2) else some (0, s.2)

/-- The function `sconf_defaults_handle_yaml_file`. -/
def sconf_defaults_handle_yaml_file (strtod : CStr → StrtodResult)
    (fopen_events : CStr → Option (List yaml_event_t)) (root : SConfNode)
    (path default_value : CStr) : Option (Int × SConfNode) :=
  let r := (sconf_get_str (some root) (some path)).1
  if r = -1 then some (-1, root)
  else if r = 1 then some (0, root)
  else
    match sconf_yaml_read strtod fopen_events root default_value with
    | none => none
    | some y =>
      if y.1 = -1 then some (-1, y.2)
      else
        match sconf_set_str y.2 (some path) (some default_value) none with
        | none => none
        | some s => if s.1 = -1 then some (-1, s.2) else some (0, s.2)

/-- The `for` loop of `sconf_defaults` over the entries of the map from `entry`
on: the list holds the entries up to the terminating one, and the loop ends at
the first entry whose type is 0. -/
def sconf_defaults_loop {σ : Type} (strtod : CStr → StrtodResult)
    (fopen_events : CStr → Option (List yaml_event_t)) :
    SConfNode → List (SConfMap σ) → Option (Int × SConfNode)
  | root, [] => some (0, root)
  | root, entry :: rest =>
    if entry.type = 0 then some (0, root)
    else
      match entry.default_value with
      | none => sconf_defaults_loop strtod fopen_events root rest
      | some dv =>
        match entry.path with
        | none => some (-1, root)
        | some path =>
          let handled : Option (Option (Int × SConfNode)) :=
            if entry.type = SCONF_TYPE_STR then
              some (sconf_defaults_handle_str root path dv)
            else if entry.type = SCONF_TYPE_INT then
              some (sconf_defaults_handle_int root path dv)
            else if entry.type = SCONF_TYPE_FLOAT then
              some (sconf_defaults_handle_float strtod root path dv)
            else if entry.type = SCONF_TYPE_BOOL then
              some (sconf_defaults_handle_bool root path dv)
            else if entry.type = SCONF_TYPE_YAML_FILE then
              some (sconf_defaults_handle_yaml_file strtod fopen_events root path dv)
            else none
          match handled with
          | none => some (-1, root)
          | some none => none
          | some (some h) =>
            if h.1 = -1 then some (-1, h.2)
            else sconf_defaults_loop strtod fopen_events h.2 rest

/-- The function `sconf_defaults`: the return value and the tree under the root after
the call. -/
def sconf_defaults {σ : Type} (strtod : CStr → StrtodResult)
    (fopen_events : CStr → Option (List yaml_event_t)) (root : Option SConfNode)
    (map : Option (List (SConfMap σ))) : Option (Int × Option SConfNode) :=
  match root, map with
  | none, _ => some (-1, none)
  | some r, none => some (-1, some r)
  | some r, some m =>
    (sconf_defaults_loop strtod fopen_events r m).map (fun x => (x.1, some x.2))

/-! ## Environment variables (`src/env.c`) -/

/-- The function `sconf_env_set_str`. -/
def sconf_env_set_str (root : SConfNode) (path value : CStr) : Option (Int × SConfNode) :=
  match sconf_set_str root (some path) (some value) none with
  | none => none
  | some s => if s.1 = -1 then some (-1, s.2) else some (0, s.2)

/-- The function `sconf_env_set_int`. -/
def sconf_env_set_int (root : SConfNode) (path value : CStr) : Option (Int × SConfNode) :=
  let c := sconf_string_to_integer value
  if c.1 = -1 then some (-1, root)
  else if c.1 = 0 then some (-1, root)
  else
    match sconf_set_int root (some path) c.2 with
    | none => none
    | some s => if s.1 = -1 then some (-1, s.2) else some (0, s.2)

/-- The function `sconf_env_set_float`. -/
def sconf_env_set_float (strtod : CStr → StrtodResult) (root : SConfNode) (path value : CStr) :
    Option (Int × SConfNode) :=
  let c := sconf_string_to_float strtod value
  if c.1 = -1 then some (-1, root)
  else if c.1 = 0 then some (-1, root)
  else
    match sconf_set_float root (some path) c.2 with
    | none => none
    | some s => if s.1 = -1 then some (-1, s.2) else some (0, s.2)

/-- The function `sconf_env_set_bool`. -/
def sconf_env_set_bool (root : SConfNode) (path value : CStr) : Option (Int × SConfNode) :=
  let c := sconf_string_to_bool value
  if c.1 = 0 then some (-1, root)
  else
    match sconf_set_bool root (some path) (c.2.getD false) with
    | none => none
    | some s => if s.1 = -1 then some (-1, s.2) else some (0, s.2)

/-- The function `sconf_env_yaml_file`. -/
def sconf_env_yaml_file (strtod : CStr → StrtodResult)
    (fopen_events : CStr → Option (List yaml_event_t)) (root : SConfNode) (path value : CStr) :
    Option (Int × SConfNode) :=
  match sconf_yaml_read strtod fopen_events root value with
  | none => none
  | some y =>
    if y.1 = -1 then some (-1, y.2)
    else
      match sconf_set_str y.2 (some path) (some value) none with
      | none => none
      | some s => if s.1 = -1 then some (-1, s.2) else some (0, s.2)

/-- The `for` loop of `sconf_env_read` over the entries of the map from `entry`
on; `getenv` is the environment of the process. -/
def sconf_env_read_loop {σ : Type} (strtod : CStr → StrtodResult)
    (fopen_events : CStr → Option (List yaml_event_t)) (getenv : CStr → Option CStr) :
    SConfNode → List (SConfMap σ) → Option (Int × SConfNode)
  | root, [] => some (0, root)
  | root, entry :: rest =>
    if entry.type = 0 then some (0, root)
    else
      match entry.env with
      | none => sconf_env_read_loop strtod fopen_events getenv root rest
      | some env =>
        match entry.path with
        | none => some (-1, root)
        | some path =>
          match getenv env with
          | none => sconf_env_read_loop strtod fopen_events getenv root rest
          | some value =>
            let handled : Option (Option (Int × SConfNode)) :=
              if entry.type = SCONF_TYPE_STR then some (sconf_env_set_str root path value)
              else if entry.type = SCONF_TYPE_INT then some (sconf_env_set_int root path value)
              else if entry.type = SCONF_TYPE_FLOAT then
                some (sconf_env_set_float strtod root path value)
              else if entry.type = SCONF_TYPE_BOOL then
                some (sconf_env_set_bool root path value)
              else if entry.type = SCONF_TYPE_YAML_FILE then
                some (sconf_env_yaml_file strtod fopen_events root path value)
              else none
            match handled with
            | none => some (-1, root)
            | some none => none
            | some (some h) =>
              if h.1 = -1 then some (-1, h.2)
              else sconf_env_read_loop strtod fopen_events getenv h.2 rest

/-- The function `sconf_env_read`. -/
def sconf_env_read {σ : Type} (strtod : CStr → StrtodResult)
    (fopen_events : CStr → Option (List yaml_event_t)) (getenv : CStr → Option CStr)
    (root : Option SConfNode) (map : Option (List (SConfMap σ))) :
    Option (Int × Option SConfNode) :=
  match root, map with
  | none, _ => some (-1, none)
  | some r, none => some (-1, some r)
  | some r, some m =>
    (sconf_env_read_loop strtod fopen_events getenv r m).map (fun x => (x.1, some x.2))

/-! ## Validation (`src/validate.c`) -/

/-- The function `sconf_validate_check_required`. -/
def sconf_validate_check_required {σ : Type} (root : SConfNode) (curr : SConfMap σ) : Int :=
  if curr.required = false then 0
  else
    match curr.path with
    | none => -1
    | some path =>
      let g := sconf_get (some root) (some path)
      if g.1 = -1 then -1
      else if g.1 = 0 then -1
      else
        match g.2 with
        | none => -1
        | some node => if curr.type ≠ sconf_type node then -1 else 0

/-- The function `sconf_validate_run_validate_func`: the return value and the user data
after the call. -/
def sconf_validate_run_validate_func {σ : Type} (root : SConfNode) (curr : SConfMap σ)
    (user : σ) : Int × σ :=
  match curr.validate_func with
  | none => (0, user)
  | some f =>
    match curr.path with
    | none => (-1, user)
    | some path =>
      let g := sconf_get (some root) (some path)
      if g.1 = -1 then (-1, user)
      else if (f path g.2 user).1 ≠ 0 then (-1, (f path g.2 user).2)
      else (0, (f path g.2 user).2)

/-- The `for` loop of `sconf_validate` over the entries of the map from `entry`
on. -/
def sconf_validate_loop {σ : Type} (root : SConfNode) : List (SConfMap σ) → σ → Int × σ
  | [], user => (0, user)
  | entry :: rest, user =>
    if entry.type = 0 then (0, user)
    else if sconf_validate_check_required root entry = -1 then (-1, user)
    else if (sconf_validate_run_validate_func root entry user).1 = -1 then
      (-1, (sconf_validate_run_validate_func root entry user).2)
    else sconf_validate_loop root rest (sconf_validate_run_validate_func root entry user).2

/-- The function `sconf_validate`: the return value and the user data after the call. -/
def sconf_validate {σ : Type} (root : Option SConfNode) (map : Option (List (SConfMap σ)))
    (user : σ) : Int × σ :=
  match root, map with
  | none, _ => (-1, user)
  | _, none => (-1, user)
  | some r, some m => sconf_validate_loop r m user

/-! ## Auxiliary definitions for the proofs -/

/-- The slot that `sconf_node_create_and_insert` addresses for a name, with
`index` passed as `0`: `none` when it returns `NULL` before any lookup. -/
def set_slot (parent : SConfNode) (name : Option CStr) : Option SConfSlot :=
  match parent, name with
  | .dict _, some c => some (.name c)
  | .dict _, none => none
  | .array _, some c =>
    if c.head? = some '[' then
      (if (sconf_array_get_index_from_string c 0).1 = -1 then none
       else some (.index (sconf_array_get_index_from_string c 0).2))
    else some (.index 0)
  | .array _, none => some (.index 0)
  | _, _ => none

/-- The insertion of a fresh node into an empty slot. -/
def insert_at (parent : SConfNode) (slot : SConfSlot) (n : SConfNode) : Option SConfInserted :=
  match parent, slot with
  | .dict d, .name k => some ⟨.dict (d ++ [(k, n)]), some (slot, n)⟩
  | .array a, .index i =>
    (sconf_array_insert a i (some n)).map (fun x =>
      if x.1 = -1 then ⟨.array x.2, none⟩ else ⟨.array x.2, some (slot, n)⟩)
  | _, _ => some ⟨parent, none⟩

/-- The slot that `sconf_get` looks in for the segment `c`, with the value of
`parent_index` at that point. -/
def get_slot (parent : SConfNode) (c : Option CStr) (parent_index : Nat) : Option SConfSlot :=
  match parent, c with
  | .dict _, some c => some (.name c)
  | .dict _, none => none
  | .array _, _ => some (.index parent_index)
  | _, _ => none

/-- The type `sconf_set` asks of the node at the end of the tokens `toks` when
the path goes on with `suf`: the type to set when nothing follows, a
container chosen by the syntax of the next segment otherwise. -/
def asked_type (ty : Nat) (suf : List CStr) : Nat :=
  match suf with
  | [] => ty
  | s :: _ => if s.head? = some '[' then SCONF_TYPE_ARRAY else SCONF_TYPE_DICT

mutual
/-- The entries of a tree without the scalar values: every dictionary keeps its
names, every array its size and its occupied indices, every node its type;
each scalar payload is replaced by a fixed one. Two trees with the same shape
have the same set of entries in every container. -/
def SConfNode.shape : SConfNode → SConfNode
  | .dict d => .dict (shape_dict d)
  | .array a => .array (shape_array a)
  | .str _ => .str []
  | .int _ => .int 0
  | .bool _ => .bool false
  | .float _ => .float 0
/-- The shape of the entries of a dictionary. -/
def shape_dict : List (CStr × SConfNode) → List (CStr × SConfNode)
  | [] => []
  | (k, v) :: t => (k, v.shape) :: shape_dict t
/-- The shape of the entries of an array. -/
def shape_array : List (Option SConfNode) → List (Option SConfNode)
  | [] => []
  | none :: t => none :: shape_array t
  | some v :: t => some v.shape :: shape_array t
end

/-! ### The path syntax and the resolution of segments in the words of the specification -/

/-- The value of a run of decimal digits. -/
def spec_decimal (digits : List Char) : Nat :=
  digits.foldl (fun acc c => acc * 10 + (c.toNat - 48)) 0

/-- Specification, path syntax: the value of an index segment, which is
exactly `[`, one or more decimal digits, `]`; `none` for every other segment. -/
def spec_index (seg : CStr) : Option Nat :=
  match seg with
  | '[' :: body =>
    if body.getLast? = some ']' ∧ body.dropLast ≠ [] ∧ body.dropLast.all isdigit then
      some (spec_decimal body.dropLast)
    else none
  | _ => none

/-- Specification, path syntax: a segment is a non-empty name or, when it
begins with `[`, an index segment. -/
def spec_valid_segment (seg : CStr) : Bool :=
  seg ≠ [] && (seg.head? ≠ some '[' || (spec_index seg).isSome)

/-- The index of an index segment is below `2 ^ 32`. -/
def spec_index_fits (seg : CStr) : Bool :=
  match spec_index seg with
  | some i => decide (i < UINT32_MOD)
  | none => true

/-- Specification, path resolver: the node is a container of the kind the
syntax of the segment expects, an array for a bracketed segment and a
dictionary for a plain name. -/
def spec_kind_ok (c : SConfNode) (seg : CStr) : Bool :=
  match c with
  | .dict _ => seg.head? ≠ some '['
  | .array _ => seg.head? = some '['
  | _ => false

/-- Specification, path resolver: what a segment resolves to in a node. A plain
name resolves in a dictionary to the node stored under it, an index segment
resolves in an array to the node stored at its 32-bit index; nothing else
resolves. -/
def spec_lookup (c : SConfNode) (seg : CStr) : Option SConfNode :=
  match c with
  | .dict d => if seg.head? = some '[' then none else art_search d seg
  | .array a =>
    match spec_index seg with
    | some i => if i < UINT32_MOD then a.getD i none else none
    | none => none
  | _ => none

/-- Specification, path resolver: the node that a list of segments resolves to
from a node, `none` when one of them does not resolve. -/
def spec_resolve : SConfNode → List CStr → Option SConfNode
  | c, [] => some c
  | c, s :: rest =>
    match spec_lookup c s with
    | some child => spec_resolve child rest
    | none => none

/-- Specification, "not found": every node that exists along the segments is a
container of the kind the segment applied to it expects, and one of the
segments, interior or final, is absent. -/
def spec_not_found : SConfNode → List CStr → Bool
  | _, [] => false
  | c, s :: rest =>
    spec_kind_ok c s &&
      (match spec_lookup c s with
       | some child => spec_not_found child rest
       | none => true)

/-- The part of the loop body of `sconf_get` that follows the descent to `ch`,
with the rest of the loop: the index of `next` is read when `ch` is an array. -/
def get_continue (ch : SConfNode) (pidx : Nat) (next : CStr) (rest : List CStr) :
    Int × Option SConfNode :=
  if sconf_type ch = SCONF_TYPE_ARRAY ∧ next.head? = some '[' then
    if (sconf_array_get_index_from_string next pidx).1 = -1 then (-1, none)
    else sconf_get_loop ch (sconf_array_get_index_from_string next pidx).2 (some next) rest
  else sconf_get_loop ch pidx (some next) rest

/-- The occupied entries of a vector with their indices, in increasing index
order (`entries` is the part of the vector from index `i` on). -/
def array_occupied : List (Option SConfNode) → Nat → List (Nat × SConfNode)
  | [], _ => []
  | none :: t, i => array_occupied t (i + 1)
  | some n :: t, i => (i, n) :: array_occupied t (i + 1)

/-- A callback that also records each of its calls: the index, the node and
the value it returned. -/
def logged_cb {σ : Type} (cb : Nat → SConfNode → σ → Int × σ) :
    Nat → SConfNode → σ × List (Nat × SConfNode × Int) → Int × σ × List (Nat × SConfNode × Int) :=
  fun i n u => ((cb i n u.1).1, (cb i n u.1).2, u.2 ++ [(i, n, (cb i n u.1).1)])

/-- The index and node of a recorded call. -/
def call_entry (c : Nat × SConfNode × Int) : Nat × SConfNode := (c.1, c.2.1)

/-- A walk over a list of entries in the words of the header of
`sconf_node_array_foreach`: the callback is called on each entry in turn; the
walk ends with -1 at the first call that does not return 0, and with 0 after
the last entry. -/
def array_visit {σ : Type} (cb : Nat → SConfNode → σ → Int × σ) :
    List (Nat × SConfNode) → σ → Int × σ
  | [], user => (0, user)
  | (i, n) :: t, user =>
    if (cb i n user).1 ≠ 0 then (-1, (cb i n user).2) else array_visit cb t (cb i n user).2

/-- A sequence of `sconf_array_insert` calls on a store, whatever each call
returns: the store after the last call, `none` when one of the calls has no
defined result. -/
def array_insert_all : SConfArray → List (Nat × Option SConfNode) → Option SConfArray
  | a, [] => some a
  | a, (i, n) :: t =>
    match sconf_array_insert a i n with
    | none => none
    | some (_, a') => array_insert_all a' t

/-- A sequence of `sconf_node_dict_insert` calls on a parent, one for each pair
of a name and a node, whatever each call returns: the parent after the last
call. -/
def dict_insert_all : Option SConfNode → List (CStr × SConfNode) → Option SConfNode
  | parent, [] => parent
  | parent, (k, n) :: t => dict_insert_all (sconf_node_dict_insert (some k) parent (some n)).2 t

/-- The slot that `sconf_node_create_and_insert` addresses for a name and an
index argument: `none` when it returns `NULL` before any lookup. -/
def create_slot (parent : SConfNode) (name : Option CStr) (index : Nat) : Option SConfSlot :=
  match parent, name with
  | .dict _, some c => some (.name c)
  | .dict _, none => none
  | .array _, some c =>
    if c.head? = some '[' then
      (if (sconf_array_get_index_from_string c index).1 = -1 then none
       else some (.index (sconf_array_get_index_from_string c index).2))
    else some (.index index)
  | .array _, none => some (.index index)
  | _, _ => none

/-- Specification: the slot that a call names, in the words of the header. In
a dictionary it is the name; in an array it is the index argument, or the
index written in the name when the name is an index segment of the path
syntax. -/
def spec_slot (parent : SConfNode) (name : Option CStr) (index : Nat) : Option SConfSlot :=
  match parent, name with
  | .dict _, some c => some (.name c)
  | .array _, none => some (.index index)
  | .array _, some c =>
    if c.head? = some '[' then
      match spec_index c with
      | some i => if i < UINT32_MOD then some (.index i) else none
      | none => none
    else some (.index index)
  | _, _ => none

/-- A slot within the capacity of its container: any name, and an index below
`SCONF_ARRAY_MAX_SIZE`. -/
def spec_slot_in_capacity : SConfSlot → Bool
  | .name _ => true
  | .index i => decide (i < SCONF_ARRAY_MAX_SIZE)

/-- Specification: a node with its payload replaced by the data, for a scalar
type; a container is left as it is. -/
def spec_replaced (type : Nat) (d : SConfData) (n : SConfNode) : SConfNode :=
  if type = SCONF_TYPE_STR then .str d.string
  else if type = SCONF_TYPE_INT then .int d.integer
  else if type = SCONF_TYPE_BOOL then .bool d.boolean
  else if type = SCONF_TYPE_FLOAT then .float d.fp
  else n

/-- Specification: the node of a type built from the data: an empty
dictionary, an array of one empty slot, or the scalar that holds the data. -/
def spec_created (type : Nat) (d : SConfData) : SConfNode :=
  spec_replaced type d (if type = SCONF_TYPE_DICT then .dict [] else .array [none])

/-- The entries of a map: those before the first entry whose type is 0, the
terminating entry of the array. -/
def map_entries {σ : Type} (map : List (SConfMap σ)) : List (SConfMap σ) :=
  map.takeWhile (fun e => decide (e.type ≠ 0))

/-- Specification, required field: an entry that is marked required has a path
at which `sconf_get` finds a node of the declared type. -/
def spec_required_ok {σ : Type} (root : SConfNode) (e : SConfMap σ) : Prop :=
  e.required = true →
    ∃ path node, e.path = some path ∧ sconf_get (some root) (some path) = (1, some node) ∧
      sconf_type node = e.type

/-- Specification, validator: an entry with a validator has a path on which
`sconf_get` does not fail, and its validator returns 0 for the path and the
node found (`none` when nothing is found), whatever the user data. -/
def spec_validator_ok {σ : Type} (root : SConfNode) (e : SConfMap σ) : Prop :=
  ∀ f, e.validate_func = some f →
    ∃ path, e.path = some path ∧ (sconf_get (some root) (some path)).1 ≠ -1 ∧
      ∀ user, (f path (sconf_get (some root) (some path)).2 user).1 = 0

/-- Specification, validator: the validator of the entry is called and
returns a value other than 0, whatever the user data. -/
def spec_validator_rejects {σ : Type} (root : SConfNode) (e : SConfMap σ) : Prop :=
  ∃ f path, e.validate_func = some f ∧ e.path = some path ∧
    ∀ user, (f path (sconf_get (some root) (some path)).2 user).1 ≠ 0

/-- The node that `sconf_set` goes to from a node for a segment: the entry
under the name in a dictionary, and in an array the entry at the index that
the segment parses to, the index 0 for a plain name. -/
def set_descend (parent : SConfNode) (c : CStr) : Option SConfNode :=
  match set_slot parent (some c) with
  | some slot => parent.fetch slot
  | none => none

/-- The node that `sconf_set` reaches from a node along a list of segments,
`none` when one of them is not there. -/
def set_resolve : SConfNode → List CStr → Option SConfNode
  | n, [] => some n
  | n, c :: rest =>
    match set_descend n c with
    | some ch => set_resolve ch rest
    | none => none

/-- The container type that `sconf_set` asks of the node before the segment
`next`: an array when the segment begins with `[`, a dictionary otherwise. -/
def container_kind (next : CStr) : Nat :=
  if next.head? = some '[' then SCONF_TYPE_ARRAY else SCONF_TYPE_DICT

/-! ### Documents and the events that libyaml delivers for them -/

/-- A value of a YAML document: a scalar with its text and style, a mapping
with its keys and values in order, or a sequence with its items in order. -/
inductive YamlValue where
  | scalar (value : CStr) (style : Nat)
  | mapping (entries : List (CStr × YamlValue))
  | sequence (items : List YamlValue)

mutual
/-- The events of a value, in the order in which the parser delivers them. -/
def YamlValue.events : YamlValue → List yaml_event_t
  | .scalar value style => [.scalar value style]
  | .mapping entries => .mapping_start :: (entries_events entries ++ [.mapping_end])
  | .sequence items => .sequence_start :: (items_events items ++ [.sequence_end])
/-- The events of the entries of a mapping: for each, the scalar of the key and
the events of the value. -/
def entries_events : List (CStr × YamlValue) → List yaml_event_t
  | [] => []
  | (k, v) :: t => .scalar k YAML_PLAIN_SCALAR_STYLE :: (v.events ++ entries_events t)
/-- The events of the items of a sequence. -/
def items_events : List YamlValue → List yaml_event_t
  | [] => []
  | v :: t => v.events ++ items_events t
end

/-- The events of a stream of documents, each with a root value. -/
def stream_events (docs : List YamlValue) : List yaml_event_t :=
  .stream_start ::
    (docs.flatMap (fun doc => .document_start :: (doc.events ++ [.document_end])) ++
      [.stream_end])

mutual
/-- The number of containers around the innermost value, the value itself
counted when it is a container. -/
def YamlValue.depth : YamlValue → Nat
  | .scalar _ _ => 0
  | .mapping entries => 1 + entries_depth entries
  | .sequence items => 1 + items_depth items
/-- The largest depth among the values of the entries. -/
def entries_depth : List (CStr × YamlValue) → Nat
  | [] => 0
  | (_, v) :: t => max v.depth (entries_depth t)
/-- The largest depth among the items. -/
def items_depth : List YamlValue → Nat
  | [] => 0
  | v :: t => max v.depth (items_depth t)
end

/-- A key that a path can name: not empty, without `.`, and not beginning with
`[`. -/
def spec_key_ok (k : CStr) : Prop := k ≠ [] ∧ '.' ∉ k ∧ k.head? ≠ some '['

/-- The value is a sequence. -/
def YamlValue.is_sequence : YamlValue → Bool
  | .sequence _ => true
  | _ => false

mutual
/-- The shape of document that the ingestion takes: in every mapping the keys
are distinct and can be named by a path; the items of a sequence are scalars
and mappings, at most `SCONF_ARRAY_MAX_SIZE` of them; no scalar is a numeral
out of range. -/
def YamlValue.wf (strtod : CStr → StrtodResult) : YamlValue → Prop
  | .scalar value style => (yaml_scalar_infer strtod value style).1 ≠ -1
  | .mapping entries => entries_wf strtod entries
  | .sequence items => items.length ≤ SCONF_ARRAY_MAX_SIZE ∧ items_wf strtod items
/-- The entries of a mapping of that shape. -/
def entries_wf (strtod : CStr → StrtodResult) : List (CStr × YamlValue) → Prop
  | [] => True
  | (k, v) :: t =>
    spec_key_ok k ∧ (∀ e ∈ t, e.1 ≠ k) ∧ v.wf strtod ∧ entries_wf strtod t
/-- The items of a sequence of that shape. -/
def items_wf (strtod : CStr → StrtodResult) : List YamlValue → Prop
  | [] => True
  | v :: t => v.is_sequence = false ∧ v.wf strtod ∧ items_wf strtod t
end

mutual
/-- What a slot holds does not stand in the way of a value: the slot is empty,
or it holds a node of the type of the scalar, or a dictionary whose entries do
not stand in the way of the entries of the mapping, or an array whose first
entries do not stand in the way of the items of the sequence. -/
def yaml_compat (strtod : CStr → StrtodResult) : Option SConfNode → YamlValue → Prop
  | o, .scalar value style =>
    ∀ n, o = some n → sconf_type n = (yaml_scalar_infer strtod value style).2.1
  | o, .mapping entries => ∀ n, o = some n → ∃ d, n = .dict d ∧ entries_compat strtod d entries
  | o, .sequence items => ∀ n, o = some n → ∃ a, n = .array a ∧ items_compat strtod a 0 items
/-- The entries of a dictionary do not stand in the way of the entries of a
mapping. -/
def entries_compat (strtod : CStr → StrtodResult) (d : List (CStr × SConfNode)) :
    List (CStr × YamlValue) → Prop
  | [] => True
  | (k, v) :: t => yaml_compat strtod (art_search d k) v ∧ entries_compat strtod d t
/-- The entries of an array from index `i` on do not stand in the way of the
items of a sequence. -/
def items_compat (strtod : CStr → StrtodResult) (a : List (Option SConfNode)) :
    Nat → List YamlValue → Prop
  | _, [] => True
  | i, v :: t => yaml_compat strtod (a.getD i none) v ∧ items_compat strtod a (i + 1) t
end

mutual
/-- The node holds the value: it is the node built for the scalar, or a
dictionary that holds each value of the mapping under its key, or an array
that holds each item of the sequence at its position. -/
def yaml_realises (strtod : CStr → StrtodResult) : SConfNode → YamlValue → Prop
  | n, .scalar value style =>
    sconf_node_create (yaml_scalar_infer strtod value style).2.1
      (some (yaml_scalar_infer strtod value style).2.2) = some (some n)
  | n, .mapping entries => ∃ d, n = .dict d ∧ entries_realised strtod d entries
  | n, .sequence items => ∃ a, n = .array a ∧ items_realised strtod a 0 items
/-- The dictionary holds each value of the entries under its key. -/
def entries_realised (strtod : CStr → StrtodResult) (d : List (CStr × SConfNode)) :
    List (CStr × YamlValue) → Prop
  | [] => True
  | (k, v) :: t =>
    (∃ c, art_search d k = some c ∧ yaml_realises strtod c v) ∧ entries_realised strtod d t
/-- The array holds each of the items at its position, counted from `i`. -/
def items_realised (strtod : CStr → StrtodResult) (a : List (Option SConfNode)) :
    Nat → List YamlValue → Prop
  | _, [] => True
  | i, v :: t =>
    (∃ c, a.getD i none = some c ∧ yaml_realises strtod c v) ∧
      items_realised strtod a (i + 1) t
end

/-- The events consumed in turn by `sconf_yaml_consume_event`, as the loop of
`sconf_yaml_read` does: up to the first event that fails (first component 0),
or the state `SCONF_YAML_STATE_STOP`, or the end of the list (first
component 1). -/
def yaml_run (strtod : CStr → StrtodResult) :
    SConfNode → SConfYAMLState → List yaml_event_t →
      Option (Int × SConfNode × SConfYAMLState)
  | root, state, [] => some (1, root, state)
  | root, state, event :: events =>
    match sconf_yaml_consume_event strtod root event state with
    | none => none
    | some (success, root', state') =>
      if success = 0 then some (0, root', state')
      else if state'.state ≠ SCONF_YAML_STATE_STOP then yaml_run strtod root' state' events
      else some (1, root', state')

/-- The state in which the events of a value begin: `SCONF_YAML_STATE_SEQUENCE`
under an array and `SCONF_YAML_STATE_BLOCK_CONTENT` under a dictionary. -/
def value_state (pn : SConfNode) : Nat := if sconf_type pn = 2 then 6 else 5

/-- The state after the events of a value: `SCONF_YAML_STATE_SEQUENCE` under an
array and `SCONF_YAML_STATE_BLOCK` under a dictionary. -/
def after_state (pn : SConfNode) : Nat := if sconf_type pn = 2 then 6 else 4

/-- The index of the frame after the events of a value: the next one under an
array. -/
def next_index (pn : SConfNode) (ci : Nat) : Nat := if sconf_type pn = 2 then ci + 1 else ci

/-- The size of the store of an array node, 0 for the other nodes. -/
def node_len : SConfNode → Nat
  | .array a => a.length
  | _ => 0

/-- The size that an array needs to hold a slot, 0 for a name. -/
def slot_bound : SConfSlot → Nat
  | .index i => i + 1
  | .name _ => 0

/-- The events of the value, consumed with the parent `pn` on top of the
stack, put a node that holds the value in the slot that the key or the index
of the frame names, and leave the rest of the parent and of the state as they
were. -/
def yaml_value_ok (strtod : CStr → StrtodResult) (v : YamlValue) : Prop :=
  ∀ (root : SConfNode) (d : Int) (key : Option CStr) (P : List SConfSlot) (ci : Nat)
    (rest : List SConfYAMLParent) (pn : SConfNode) (slot : SConfSlot),
    root.fetch_path P = some pn → create_slot pn key ci = some slot →
    spec_slot_in_capacity slot = true →
    (sconf_type pn = 2 → key = none ∧ v.is_sequence = false) →
    v.wf strtod → yaml_compat strtod (pn.fetch slot) v → d + (v.depth : Int) ≤ 19 →
    ∃ pn' n,
      yaml_run strtod root ⟨value_state pn, d, key, ⟨P, ci⟩ :: rest⟩ v.events =
        some (1, root.store_path P pn',
          ⟨after_state pn, d, none, ⟨P, next_index pn ci⟩ :: rest⟩) ∧
      sconf_type pn' = sconf_type pn ∧ pn'.fetch slot = some n ∧ yaml_realises strtod n v ∧
      (∀ other, other ≠ slot → pn'.fetch other = pn.fetch other) ∧
      node_len pn' ≤ max (node_len pn) (slot_bound slot)

/-- The events of the entries of a mapping, consumed with a dictionary on top
of the stack, put the values under their keys and leave the other keys as they
were. -/
def yaml_entries_ok (strtod : CStr → StrtodResult) (es : List (CStr × YamlValue)) : Prop :=
  ∀ (root : SConfNode) (d : Int) (P : List SConfSlot) (ci : Nat)
    (rest : List SConfYAMLParent) (dd : List (CStr × SConfNode)),
    root.fetch_path P = some (.dict dd) → entries_wf strtod es → entries_compat strtod dd es →
    d + (entries_depth es : Int) ≤ 19 →
    ∃ dd',
      yaml_run strtod root ⟨4, d, none, ⟨P, ci⟩ :: rest⟩ (entries_events es) =
        some (1, root.store_path P (.dict dd'), ⟨4, d, none, ⟨P, ci⟩ :: rest⟩) ∧
      entries_realised strtod dd' es ∧
      ∀ k', (∀ e ∈ es, e.1 ≠ k') → art_search dd' k' = art_search dd k'

/-- The events of the items of a sequence, consumed with an array on top of
the stack, put the items at the indices from that of the frame on and leave
the other entries as they were. -/
def yaml_items_ok (strtod : CStr → StrtodResult) (xs : List YamlValue) : Prop :=
  ∀ (root : SConfNode) (d : Int) (P : List SConfSlot) (ci : Nat)
    (rest : List SConfYAMLParent) (a : List (Option SConfNode)),
    root.fetch_path P = some (.array a) → items_wf strtod xs →
    ci + xs.length ≤ SCONF_ARRAY_MAX_SIZE → items_compat strtod a ci xs →
    d + (items_depth xs : Int) ≤ 19 →
    ∃ a',
      yaml_run strtod root ⟨6, d, none, ⟨P, ci⟩ :: rest⟩ (items_events xs) =
        some (1, root.store_path P (.array a'), ⟨6, d, none, ⟨P, ci + xs.length⟩ :: rest⟩) ∧
      items_realised strtod a' ci xs ∧
      (∀ j, (j < ci ∨ ci + xs.length ≤ j) → a'.getD j none = a.getD j none) ∧
      a'.length ≤ max a.length (ci + xs.length)

mutual
/-- Specification, addressing in a document: the value that a list of segments
leads to. A segment of a mapping is one of its keys, a segment of a sequence is
an index segment with the 0-based position of an item. -/
def YamlValue.select : YamlValue → List CStr → Option YamlValue
  | v, [] => some v
  | .scalar _ _, _ :: _ => none
  | .mapping entries, seg :: rest => entries_select entries seg rest
  | .sequence items, seg :: rest =>
    match spec_index seg with
    | some i => items_select items i rest
    | none => none
/-- The value that the segments lead to from the entry with the key `seg`. -/
def entries_select : List (CStr × YamlValue) → CStr → List CStr → Option YamlValue
  | [], _, _ => none
  | (k, v) :: t, seg, rest => if k = seg then v.select rest else entries_select t seg rest
/-- The value that the segments lead to from the item at the position `i`. -/
def items_select : List YamlValue → Nat → List CStr → Option YamlValue
  | [], _, _ => none
  | v :: _, 0, rest => v.select rest
  | _ :: t, i + 1, rest => items_select t i rest
end

/-- The document `a: [ {b: 1}, {c: 2} ]`. -/
def yaml_doc_nested : YamlValue :=
  .mapping [("a".toList, .sequence [
    .mapping [("b".toList, .scalar "1".toList YAML_PLAIN_SCALAR_STYLE)],
    .mapping [("c".toList, .scalar "2".toList YAML_PLAIN_SCALAR_STYLE)]])]

/-- A `strtod` that converts nothing, for texts that do not begin with a
number. -/
def strtod_no_number : CStr → StrtodResult := fun _ => ⟨0, 0, false⟩

/-- The counter `depth` of the state is the number of frames of the parent
stack, and the stack holds at most `SCONF_MAX_DEPTH - 1` frames. -/
def yaml_state_ok (state : SConfYAMLState) : Prop :=
  state.depth = (state.curr_parent.length : Int) ∧ state.curr_parent.length ≤ 19

/-- A scalar or other value under a chain of keys: `k1: k2: … : v`. -/
def yaml_chain : List CStr → YamlValue → YamlValue
  | [], v => v
  | k :: t, v => .mapping [(k, yaml_chain t v)]

/-- The tree of the string `v` under a chain of `n` keys `k`. -/
def yaml_chain_node : Nat → SConfNode
  | 0 => .str "v".toList
  | n + 1 => .dict [("k".toList, yaml_chain_node n)]

/-- Specification, coercion of a literal: the data that a text gives for a
scalar type, `none` when the text is not a valid value of the type. A string
is the text itself; an integer, a float and a boolean are what
`sconf_string_to_integer`, `sconf_string_to_float` and `sconf_string_to_bool`
convert the text to when they return 1. -/
def spec_coerce (strtod : CStr → StrtodResult) (type : Nat) (text : CStr) : Option SConfData :=
  if type = SCONF_TYPE_STR then some ⟨text, 0, false, 0, none⟩
  else if type = SCONF_TYPE_INT then
    (if (sconf_string_to_integer text).1 = 1 then
      some ⟨[], (sconf_string_to_integer text).2, false, 0, none⟩ else none)
  else if type = SCONF_TYPE_FLOAT then
    (if (sconf_string_to_float strtod text).1 = 1 then
      some ⟨[], 0, false, (sconf_string_to_float strtod text).2, none⟩ else none)
  else if type = SCONF_TYPE_BOOL then
    (if (sconf_string_to_bool text).1 = 1 then
      some ⟨[], 0, ((sconf_string_to_bool text).2).getD false, 0, none⟩ else none)
  else none

/-- An entry that `sconf_env_read` passes over: it is not the terminating entry,
and it names no environment variable or one that is not set (and has a path). -/
def spec_env_skipped {σ : Type} (getenv : CStr → Option CStr) (e : SConfMap σ) : Prop :=
  e.type ≠ 0 ∧ (e.env = none ∨ ∃ env, e.env = some env ∧ e.path ≠ none ∧ getenv env = none)

/-- The tree `p'` extends the tree `p`: node for node the types agree, a
scalar of `p` stands in the relation `S` to the scalar of `p'`, and every slot
of a container of `p` that holds a node holds in `p'` a node that extends it.
Slots that are empty in `p` may hold anything in `p'`. -/
inductive NodeExt (S : SConfNode → SConfNode → Prop) : SConfNode → SConfNode → Prop
  | mk (p p' : SConfNode) : sconf_type p' = sconf_type p → (3 ≤ sconf_type p → S p p') →
      (∀ slot c, p.fetch slot = some c → ∃ c', p'.fetch slot = some c') →
      (∀ slot c c', p.fetch slot = some c → p'.fetch slot = some c' → NodeExt S c c') →
      NodeExt S p p'

/-- The relation of a scalar to a scalar of the same type. -/
def same_type (n n' : SConfNode) : Prop := sconf_type n' = sconf_type n

/-- The return value of the lookup with which the defaults handler of a type
begins: `sconf_get_str` for a string, `sconf_get` for the other types. -/
def defaults_lookup (root : SConfNode) (type : Nat) (path : CStr) : Int :=
  if type = SCONF_TYPE_STR then (sconf_get_str (some root) (some path)).1
  else (sconf_get (some root) (some path)).1

/-- The path does not begin with a bracketed segment that other segments
follow, when it is applied to a dictionary (`root_type` is the type of the
root). -/
def spec_path_plain (root_type : Nat) (path : CStr) : Prop :=
  root_type = 1 → ((strtok_r path []).head?.bind List.head?) = some '[' →
    (strtok_r path []).length ≤ 1

/-- An entry that `sconf_defaults` can handle without reading a file: when it
has a default its type is not `SCONF_TYPE_YAML_FILE` and its path is plain. -/
def spec_default_plain {σ : Type} (root_type : Nat) (e : SConfMap σ) : Prop :=
  e.default_value ≠ none →
    e.type ≠ SCONF_TYPE_YAML_FILE ∧ ∀ p, e.path = some p → spec_path_plain root_type p

/-- The scalars of a tree are kept in another: the roots have the same type, and
at every path at which `sconf_get` finds a scalar node in the first tree it
finds the same node in the second. -/
def scalars_kept (root root' : SConfNode) : Prop :=
  sconf_type root' = sconf_type root ∧
    ∀ q n, sconf_get (some root) (some q) = (1, some n) → 3 ≤ sconf_type n →
      sconf_get (some root') (some q) = (1, some n)

/-- Specification, segments of a path: the parts of the path between the `.`
delimiters that are not empty. -/
def spec_segments (p : CStr) : List CStr :=
  (p.splitOn '.').filter (fun s => decide (s ≠ []))

/-- Specification, normal form of a path: the segments of the path that are
not empty, joined by single dots. The leading, trailing and repeated
delimiters of the path are gone. -/
def spec_normalise (p : CStr) : CStr := ['.'].intercalate (spec_segments p)

/-- The events with a `case` of their own in the `switch (event->type)` of a
state of `sconf_yaml_consume_event`; every other event of the state goes to
its `default`. -/
def yaml_event_has_case (state : Nat) (event : yaml_event_t) : Bool :=
  match event with
  | .stream_start => state == SCONF_YAML_STATE_START
  | .document_start => state == SCONF_YAML_STATE_STREAM
  | .stream_end => state == SCONF_YAML_STATE_STREAM
  | .document_end => state == SCONF_YAML_STATE_DOCUMENT || state == SCONF_YAML_STATE_BLOCK
  | .scalar _ _ => state == SCONF_YAML_STATE_BLOCK || state == SCONF_YAML_STATE_BLOCK_CONTENT ||
      state == SCONF_YAML_STATE_SEQUENCE
  | .sequence_start => state == SCONF_YAML_STATE_BLOCK_CONTENT ||
      state == SCONF_YAML_STATE_SEQUENCE
  | .sequence_end => state == SCONF_YAML_STATE_BLOCK || state == SCONF_YAML_STATE_SEQUENCE
  | .mapping_start => state == SCONF_YAML_STATE_DOCUMENT || state == SCONF_YAML_STATE_BLOCK ||
      state == SCONF_YAML_STATE_BLOCK_CONTENT || state == SCONF_YAML_STATE_SEQUENCE
  | .mapping_end => state == SCONF_YAML_STATE_BLOCK
  | .no_event => false
  | .alias => false

/-- The states with a `case` in the `switch (state->state)` of
`sconf_yaml_consume_event`: all the states but `SCONF_YAML_STATE_STOP`, at which
the loop of `sconf_yaml_read` ends. -/
def yaml_state_steps (s : Nat) : Prop :=
  s = SCONF_YAML_STATE_START ∨ s = SCONF_YAML_STATE_STREAM ∨ s = SCONF_YAML_STATE_DOCUMENT ∨
    s = SCONF_YAML_STATE_BLOCK ∨ s = SCONF_YAML_STATE_BLOCK_CONTENT ∨
    s = SCONF_YAML_STATE_SEQUENCE

/-- The parent stack is not empty and the container of its top frame is an
array. -/
def yaml_top_array (root : SConfNode) (state : SConfYAMLState) : Prop :=
  ∃ p next pn, state.curr_parent = p :: next ∧ root.fetch_path p.parent = some pn ∧
    sconf_type pn = SCONF_TYPE_ARRAY

/-- The state is one of the seven states, and in the state
`SCONF_YAML_STATE_SEQUENCE` the stack is not empty and the container of its top
frame is an array. -/
def yaml_state_sound (root : SConfNode) (state : SConfYAMLState) : Prop :=
  (yaml_state_steps state.state ∨ state.state = SCONF_YAML_STATE_STOP) ∧
    (state.state = SCONF_YAML_STATE_SEQUENCE → yaml_top_array root state)

/-- The invariant of the ingestion: the counter `depth` is the number of frames
of the parent stack, at most 19; the state is one of the seven states; and in
the state `SCONF_YAML_STATE_SEQUENCE` the stack is not empty and the container
of its top frame is an array. -/
def yaml_invariant (root : SConfNode) (state : SConfYAMLState) : Prop :=
  yaml_state_ok state ∧ yaml_state_sound root state

/-! ### Chains of nested containers -/

/-- A link of a chain of nested containers: the key of a mapping, or an item
of a sequence, with the scalars (text and style) that precede the item in the
sequence. -/
inductive YamlLink where
  | key (k : CStr)
  | item (before : List (CStr × Nat))

/-- The items of a sequence that are the scalars of a list of texts and
styles. -/
def yaml_scalars (before : List (CStr × Nat)) : List YamlValue :=
  before.map (fun s => .scalar s.1 s.2)

/-- A value under a chain of links, the outermost first: under a key it is the
value of the one entry of a mapping, under an item it is the last item of a
sequence, after the scalars of the link. -/
def yaml_nest : List YamlLink → YamlValue → YamlValue
  | [], v => v
  | .key k :: t, v => .mapping [(k, yaml_nest t v)]
  | .item before :: t, v => .sequence (yaml_scalars before ++ [yaml_nest t v])

/-- A link that a path can name and the ingestion can take: a key that a path
can name, or an item at an index within `SCONF_ARRAY_MAX_SIZE` after scalars of
which none is a numeral out of range. -/
def YamlLink.ok (strtod : CStr → StrtodResult) : YamlLink → Prop
  | .key k => spec_key_ok k
  | .item before =>
    before.length < SCONF_ARRAY_MAX_SIZE ∧
      ∀ s ∈ before, (yaml_scalar_infer strtod s.1 s.2).1 ≠ -1

/-- The segment of a path that names a link: the key itself, or an index
segment with the 0-based position of the item. -/
def YamlLink.named : YamlLink → CStr → Prop
  | .key k, seg => seg = k
  | .item before, seg => spec_index seg = some before.length

/-- A segment that `sconf_set` can take on a container that it has just
created: a name that does not begin with `[`, or an index segment with an
index within `SCONF_ARRAY_MAX_SIZE`. -/
def spec_segment_fresh (seg : CStr) : Prop :=
  seg.head? ≠ some '[' ∨ ∃ i, spec_index seg = some i ∧ i < SCONF_ARRAY_MAX_SIZE

/-! ## Theorems -/

theorem index_from_string_cases (str : CStr) :
    (∀ j, sconf_array_get_index_from_string str j = (-1, j)) ∨
    (∃ v, ∀ j, sconf_array_get_index_from_string str j = (0, v)) := by
  unfold sconf_array_get_index_from_string
  generalize strtol (str.drop 1) = r
  by_cases h1 : str.head? ≠ some '[' ∨ str.getLast? ≠ some ']'
  · left; intro j; rw [if_pos h1]
  · by_cases h2 : r.erange = true
    · left; intro j; rw [if_neg h1]; simp only [h2, if_true]
    · by_cases h3 : r.endptr = 0
      · left; intro j; rw [if_neg h1]; simp only [h2, h3, if_true]; simp
      · right; refine ⟨(r.num % (UINT32_MOD : Int)).toNat, fun j => ?_⟩
        rw [if_neg h1]; simp only [h2, h3, if_false]; simp

theorem art_search_store (d : List (CStr × SConfNode)) (k : CStr) (x n : SConfNode)
    (h : art_search d k = some n) : art_search (art_store d k x) k = some x := by
  induction d with
  | nil => simp [art_search] at h
  | cons e t ih =>
    obtain ⟨k', v⟩ := e
    by_cases hk : k' = k
    · simp [art_store, art_search, hk]
    · simp [art_search, hk] at h
      simp [art_store, art_search, hk, ih h]

theorem art_store_same (d : List (CStr × SConfNode)) (k : CStr) (n : SConfNode)
    (h : art_search d k = some n) : art_store d k n = d := by
  induction d with
  | nil => simp [art_search] at h
  | cons e t ih =>
    obtain ⟨k', v⟩ := e
    by_cases hk : k' = k
    · simp [art_search, hk] at h
      simp [art_store, hk, h]
    · simp [art_search, hk] at h
      simp [art_store, hk, ih h]

theorem art_search_append (d : List (CStr × SConfNode)) (k : CStr) (n : SConfNode)
    (h : art_search d k = none) : art_search (d ++ [(k, n)]) k = some n := by
  induction d with
  | nil => simp [art_search]
  | cons e t ih =>
    obtain ⟨k', v⟩ := e
    by_cases hk : k' = k
    · simp [art_search, hk] at h
    · simp [art_search, hk] at h
      simp [art_search, hk, ih h]

theorem fetch_store (p : SConfNode) (slot : SConfSlot) (x n : SConfNode)
    (h : p.fetch slot = some n) : (p.store slot x).fetch slot = some x := by
  cases p <;> cases slot <;> simp [SConfNode.fetch, SConfNode.store] at h ⊢
  · exact art_search_store _ _ _ _ h
  · rename_i a i
    have hi : i < a.length := by
      by_contra hc
      simp [List.getD_eq_getElem?_getD, List.getElem?_eq_none (not_lt.mp hc)] at h
    simp [List.getD_eq_getElem?_getD, List.getElem?_set, hi]

theorem store_same (p : SConfNode) (slot : SConfSlot) (n : SConfNode)
    (h : p.fetch slot = some n) : p.store slot n = p := by
  cases p <;> cases slot <;> simp [SConfNode.fetch, SConfNode.store] at h ⊢
  · exact art_store_same _ _ _ h
  · rename_i a i
    have hi : i < a.length := by
      by_contra hc
      simp [List.getD_eq_getElem?_getD, List.getElem?_eq_none (not_lt.mp hc)] at h
    apply List.ext_getElem?
    intro j
    simp only [List.getElem?_set]
    split_ifs with hj
    · subst hj
      rw [List.getElem?_eq_getElem hi] at h ⊢
      simp only [Option.getD_some] at h
      rw [h]
    · rfl

theorem sconf_type_store (p : SConfNode) (slot : SConfSlot) (x : SConfNode) :
    sconf_type (p.store slot x) = sconf_type p := by
  cases p <;> cases slot <;> simp [SConfNode.store, sconf_type]

@[simp] theorem sconf_type_dict (d : List (CStr × SConfNode)) : sconf_type (.dict d) = 1 := rfl

@[simp] theorem sconf_type_array (a : List (Option SConfNode)) : sconf_type (.array a) = 2 := rfl

@[simp] theorem sconf_type_str (s : CStr) : sconf_type (.str s) = 3 := rfl

@[simp] theorem sconf_type_int (i : Int) : sconf_type (.int i) = 4 := rfl

@[simp] theorem sconf_type_bool (b : Bool) : sconf_type (.bool b) = 5 := rfl

@[simp] theorem sconf_type_float (f : Nat) : sconf_type (.float f) = 6 := rfl

theorem replace_rc (ty : Nat) (n : SConfNode) (data : Option SConfData) (r : Int) (n' : SConfNode)
    (h : sconf_node_replace ty n data = some (r, n')) : r = 0 ∧ sconf_type n' = sconf_type n := by
  unfold sconf_node_replace at h
  split_ifs at h <;> cases n <;> cases data <;>
    simp [sconf_node_str_init, sconf_node_int_init, sconf_node_bool_init,
      sconf_node_float_init, sconf_type] at h ⊢ <;> (try simp [h.1, ← h.2])

theorem create_and_insert_array_aux (a : List (Option SConfNode))
    (ty : Nat) (data : Option SConfData) (i : Nat) :
    (match a.getD i none with
      | some n =>
        if sconf_type n ≠ ty then some (⟨.array a, none⟩ : SConfInserted)
        else
          match sconf_node_replace ty n data with
          | none => none
          | some (r, n') =>
            if r = -1 then some ⟨(SConfNode.array a).store (.index i) n', none⟩
            else some ⟨(SConfNode.array a).store (.index i) n', some (.index i, n')⟩
      | none =>
        match sconf_node_create ty data with
        | none => none
        | some none => some ⟨.array a, none⟩
        | some (some n) =>
          match sconf_node_array_insert i (some (.array a)) (some n) with
          | none => none
          | some (r, parent') =>
            if r = -1 then some ⟨parent'.getD (.array a), none⟩
            else some ⟨parent'.getD (.array a), some (.index i, n)⟩) =
      (match (SConfNode.array a).fetch (.index i) with
      | some n =>
        if sconf_type n ≠ ty then some ⟨.array a, none⟩
        else (sconf_node_replace ty n data).map
          (fun x => ⟨(SConfNode.array a).store (.index i) x.2, some (.index i, x.2)⟩)
      | none =>
        match sconf_node_create ty data with
        | none => none
        | some none => some ⟨.array a, none⟩
        | some (some n) => insert_at (.array a) (.index i) n) := by
  simp only [SConfNode.fetch]
  cases hs : a.getD i none with
  | none =>
    simp only []
    cases hc : sconf_node_create ty data with
    | none => simp
    | some o =>
      cases o with
      | none => simp
      | some n =>
        simp only [sconf_node_array_insert, insert_at]
        cases hi : sconf_array_insert a i (some n) with
        | none => simp
        | some x =>
          obtain ⟨r, a'⟩ := x
          by_cases hr : r = -1 <;> simp [hr]
  | some n =>
    by_cases ht : sconf_type n = ty
    · simp [ht]
      cases hr : sconf_node_replace ty n data with
      | none => simp
      | some x =>
        obtain ⟨r, n'⟩ := x
        have := (replace_rc _ _ _ _ _ hr).1
        subst this
        simp
    · simp [ht]

theorem create_and_insert_eq (name : Option CStr) (ty : Nat) (parent : SConfNode)
    (data : Option SConfData) :
    sconf_node_create_and_insert name ty parent 0 data =
      match set_slot parent name with
      | none => some ⟨parent, none⟩
      | some slot =>
        match parent.fetch slot with
        | some n =>
          if sconf_type n ≠ ty then some ⟨parent, none⟩
          else (sconf_node_replace ty n data).map
            (fun x => ⟨parent.store slot x.2, some (slot, x.2)⟩)
        | none =>
          match sconf_node_create ty data with
          | none => none
          | some none => some ⟨parent, none⟩
          | some (some n) => insert_at parent slot n := by
  cases parent with
  | dict d =>
    cases name with
    | none => simp [sconf_node_create_and_insert, set_slot, sconf_node_dict_search]
    | some c =>
      simp only [sconf_node_create_and_insert, set_slot, SConfNode.fetch,
        sconf_node_dict_search]
      simp
      cases hs : art_search d c with
      | none =>
        cases hc : sconf_node_create ty data with
        | none => simp
        | some o =>
          cases o with
          | none => simp
          | some n => simp [sconf_node_dict_insert, art_insert, hs, insert_at]
      | some n =>
        by_cases ht : sconf_type n = ty
        · simp [ht]
          cases hr : sconf_node_replace ty n data with
          | none => simp
          | some x =>
            obtain ⟨r, n'⟩ := x
            have := (replace_rc _ _ _ _ _ hr).1
            subst this
            simp
        · simp [ht]
  | array a =>
    have hget : ∀ i, (if a.length > i then ((0 : Int), a.getD i none) else (0, none)) =
        ((0 : Int), a.getD i none) := by
      intro i
      split_ifs with h
      · rfl
      · simp [List.getD_eq_getElem?_getD, List.getElem?_eq_none (not_lt.mp h)]
    cases name with
    | none =>
      simp only [sconf_node_create_and_insert, set_slot, sconf_node_array_search, hget]
      simp only [show ((0 : Int) = -1) = False from by simp, if_false]
      exact create_and_insert_array_aux a ty data 0
    | some c =>
      simp only [sconf_node_create_and_insert, set_slot, sconf_node_array_search, hget]
      by_cases hb : c.head? = some '['
      · simp only [hb, sconf_type_array, and_self, if_true]
        by_cases hp : (sconf_array_get_index_from_string c 0).1 = -1
        · simp [hp]
        · simp only [hp, if_false]
          simp only [show ((0 : Int) = -1) = False from by simp, if_false]
          exact create_and_insert_array_aux a ty data _
      · simp only [hb, false_and, if_false]
        simp only [show ((0 : Int) = -1) = False from by simp, if_false]
        exact create_and_insert_array_aux a ty data 0
  | str s => simp [sconf_node_create_and_insert, set_slot]
  | int s => simp [sconf_node_create_and_insert, set_slot]
  | bool s => simp [sconf_node_create_and_insert, set_slot]
  | float s => simp [sconf_node_create_and_insert, set_slot]

theorem getD_eq_none_of_le (a : List (Option SConfNode)) (i : Nat) (h : a.length ≤ i) :
    a.getD i none = none := by
  simp [List.getD_eq_getElem?_getD, List.getElem?_eq_none h]

theorem array_insert_absent (a : SConfArray) (i : Nat) (n : SConfNode) (r : Int) (a' : SConfArray)
    (h : sconf_array_insert a i (some n) = some (r, a')) (hr : r ≠ -1) :
    a'.getD i none = some n := by
  unfold sconf_array_insert at h
  simp only [] at h
  split_ifs at h with h1 h2
  · simp at h; exact absurd h.1.symm hr
  · split at h
    · simp at h; exact absurd h.1.symm hr
    · simp at h
      rw [← h.2]
      simp [List.getD_eq_getElem?_getD, List.getElem?_set, h2]

theorem insert_at_spec (parent : SConfNode) (slot slot' : SConfSlot) (n n' : SConfNode)
    (parent' : SConfNode)
    (h : insert_at parent slot n = some ⟨parent', some (slot', n')⟩)
    (hf : parent.fetch slot = none) :
    slot' = slot ∧ n' = n ∧ parent'.fetch slot = some n ∧
      sconf_type parent' = sconf_type parent := by
  cases parent <;> cases slot <;> simp [insert_at, SConfNode.fetch] at h hf
  · rename_i d k
    obtain ⟨h1, h2, h3⟩ := h
    subst h1 h2 h3
    simp [SConfNode.fetch, art_search_append _ _ _ hf]
  · rename_i a i
    obtain ⟨r, a', hi, hx⟩ := h
    by_cases hr : r = -1
    · simp [hr] at hx
    · simp [hr] at hx
      obtain ⟨h1, h2, h3⟩ := hx
      subst h1 h2 h3
      have := array_insert_absent _ _ _ _ _ hi hr
      simpa [SConfNode.fetch] using this

theorem sconf_type_create (ty : Nat) (data : Option SConfData) (n : SConfNode)
    (h : sconf_node_create ty data = some (some n)) : sconf_type n = ty := by
  unfold sconf_node_create at h
  split_ifs at h with h1 h2 h3 h4 h5 h6 <;> cases data <;>
    simp [sconf_array_create, sconf_node_str_init, sconf_node_int_init, sconf_node_bool_init,
      sconf_node_float_init] at h <;> subst h <;> simp [*]

/-- What `sconf_node_create_and_insert` guarantees when it returns a node. -/
theorem create_and_insert_spec (c : Option CStr) (ty : Nat) (parent : SConfNode)
    (data : Option SConfData) (parent' : SConfNode) (slot : SConfSlot) (n : SConfNode)
    (h : sconf_node_create_and_insert c ty parent 0 data =
      some ⟨parent', some (slot, n)⟩) :
    set_slot parent c = some slot ∧ parent'.fetch slot = some n ∧ sconf_type n = ty ∧
      sconf_type parent' = sconf_type parent := by
  rw [create_and_insert_eq] at h
  cases hs : set_slot parent c with
  | none => simp [hs] at h
  | some s =>
    simp only [hs] at h
    cases hf : parent.fetch s with
    | none =>
      simp only [hf] at h
      cases hc : sconf_node_create ty data with
      | none => simp [hc] at h
      | some o =>
        cases o with
        | none => simp [hc] at h
        | some m =>
          simp only [hc] at h
          obtain ⟨h1, h2, h3, h4⟩ := insert_at_spec _ _ _ _ _ _ h hf
          subst h1 h2
          exact ⟨rfl, h3, sconf_type_create _ _ _ hc, h4⟩
    | some m =>
      simp only [hf] at h
      by_cases ht : sconf_type m = ty
      · simp only [ht, ne_eq, not_true_eq_false, if_false] at h
        cases hr : sconf_node_replace ty m data with
        | none => simp [hr] at h
        | some x =>
          simp [hr] at h
          obtain ⟨h1, h2, h3⟩ := h
          subst h1 h2 h3
          refine ⟨rfl, fetch_store _ _ _ _ hf, ?_, sconf_type_store _ _ _⟩
          rw [(replace_rc _ _ _ _ _ (by rw [hr])).2, ht]
      · simp [ht] at h

theorem get_descend_eq (parent : SConfNode) (pidx : Nat) (c : CStr) :
    sconf_get_descend parent pidx (some c) =
      if c.head? = some '[' ∧ sconf_type parent ≠ SCONF_TYPE_ARRAY then .error 0
      else
        match get_slot parent (some c) pidx with
        | none => .error (-1)
        | some slot =>
          match parent.fetch slot with
          | none => .error 0
          | some n => .ok n := by
  cases parent with
  | dict d =>
    by_cases hb : c.head? = some '['
    · simp [sconf_get_descend, hb]
    · simp only [sconf_get_descend, hb, false_and, if_false, get_slot, SConfNode.fetch,
        sconf_node_dict_search]
      cases art_search d c <;> simp
  | array a =>
    simp only [sconf_get_descend, sconf_type_array, ne_eq, not_true_eq_false, and_false,
      if_false, get_slot, SConfNode.fetch, sconf_node_array_search]
    by_cases hl : a.length > pidx
    · simp only [hl, if_true]
      cases a.getD pidx none <;> simp
    · rw [getD_eq_none_of_le a pidx (not_lt.mp hl)]
      simp [hl]
  | str s => by_cases hb : c.head? = some '[' <;> simp [sconf_get_descend, get_slot, hb]
  | int s => by_cases hb : c.head? = some '[' <;> simp [sconf_get_descend, get_slot, hb]
  | bool s => by_cases hb : c.head? = some '[' <;> simp [sconf_get_descend, get_slot, hb]
  | float s => by_cases hb : c.head? = some '[' <;> simp [sconf_get_descend, get_slot, hb]

theorem get_loop_nil_eq (parent : SConfNode) (pidx : Nat) (c : Option CStr) :
    sconf_get_loop parent pidx c [] =
      match get_slot parent c pidx with
      | none => (-1, none)
      | some slot =>
        match parent.fetch slot with
        | none => (0, none)
        | some n => (1, some n) := by
  cases parent with
  | dict d =>
    cases c with
    | none => simp [sconf_get_loop, get_slot, sconf_node_dict_search]
    | some c =>
      simp only [sconf_get_loop, get_slot, SConfNode.fetch, sconf_node_dict_search]
      cases art_search d c <;> simp
  | array a =>
    simp only [sconf_get_loop, get_slot, SConfNode.fetch, sconf_node_array_search]
    by_cases hl : a.length > pidx
    · simp only [hl, if_true]
      cases a.getD pidx none <;> simp
    · rw [getD_eq_none_of_le a pidx (not_lt.mp hl)]
      simp [hl]
  | str s => simp [sconf_get_loop, get_slot]
  | int s => simp [sconf_get_loop, get_slot]
  | bool s => simp [sconf_get_loop, get_slot]
  | float s => simp [sconf_get_loop, get_slot]

theorem get_slot_type (p q : SConfNode) (c : Option CStr) (i : Nat)
    (h : sconf_type p = sconf_type q) : get_slot p c i = get_slot q c i := by
  cases p <;> cases q <;> cases c <;> simp [get_slot] at h ⊢

theorem set_slot_type (p q : SConfNode) (c : Option CStr) (h : sconf_type p = sconf_type q) :
    set_slot p c = set_slot q c := by
  cases p <;> cases q <;> cases c <;> simp [set_slot] at h ⊢

theorem set_slot_dict (p : SConfNode) (c : CStr) (h : sconf_type p = 1) :
    set_slot p (some c) = some (.name c) := by
  cases p <;> simp [set_slot] at h ⊢

theorem get_slot_dict (p : SConfNode) (c : CStr) (i : Nat) (h : sconf_type p = 1) :
    get_slot p (some c) i = some (.name c) := by
  cases p <;> simp [get_slot] at h ⊢

theorem sconf_type_cases (p : SConfNode) :
    sconf_type p = 1 ∨ sconf_type p = 2 ∨ (3 ≤ sconf_type p ∧ sconf_type p ≤ 6) := by
  cases p <;> simp

theorem set_slot_none_of_scalar (p : SConfNode) (c : Option CStr) (h : 3 ≤ sconf_type p) :
    set_slot p c = none := by
  cases p <;> cases c <;> simp [set_slot] at h ⊢

theorem insert_at_type (parent : SConfNode) (slot : SConfSlot) (n : SConfNode)
    (r : SConfInserted) (h : insert_at parent slot n = some r) :
    sconf_type r.parent = sconf_type parent := by
  cases parent <;> cases slot <;> simp [insert_at] at h <;> try (subst h; rfl)
  obtain ⟨r0, a', _, hx⟩ := h
  split_ifs at hx <;> subst hx <;> rfl

theorem create_and_insert_type (name : Option CStr) (ty : Nat) (parent : SConfNode)
    (data : Option SConfData) (r : SConfInserted)
    (h : sconf_node_create_and_insert name ty parent 0 data = some r) :
    sconf_type r.parent = sconf_type parent := by
  rw [create_and_insert_eq] at h
  split at h
  · cases h; rfl
  · split at h
    · split_ifs at h
      · cases h; rfl
      · simp at h
        obtain ⟨_, _, _, hx⟩ := h
        subst hx
        simp [sconf_type_store]
    · split at h
      · cases h
      · cases h; rfl
      · exact insert_at_type _ _ _ _ h

/-- The type of the node `sconf_set_loop` starts from is kept. -/
theorem set_loop_type (ty : Nat) (v : Option SConfData) (toks : List CStr) :
    ∀ (parent : SConfNode) (curr : Option CStr) (depth : Nat) (rc : Int) (parent' : SConfNode),
      sconf_set_loop ty v parent curr depth toks = some (rc, parent') →
      sconf_type parent' = sconf_type parent := by
  induction toks with
  | nil =>
    intro parent curr depth rc parent' h
    simp only [sconf_set_loop] at h
    split at h
    · cases h
    · rename_i r hr
      have := create_and_insert_type _ _ _ _ _ hr
      split at h <;> cases h <;> exact this
  | cons next rest ih =>
    intro parent curr depth rc parent' h
    cases curr with
    | none =>
      simp only [sconf_set_loop] at h
      split_ifs at h
      · cases h; rfl
      · exact ih _ _ _ _ _ h
    | some c =>
      simp only [sconf_set_loop] at h
      split at h
      · cases h
      · rename_i r hr
        have := create_and_insert_type _ _ _ _ _ hr
        split at h
        · cases h; exact this
        · split_ifs at h
          · cases h; exact this
          · split at h
            · cases h
            · cases h
              rw [sconf_type_store]; exact this

theorem create_scalar_of_replace (ty : Nat) (m : SConfNode) (d : SConfData) (x : Int × SConfNode)
    (h : sconf_node_replace ty m (some d) = some x) (h3 : 3 ≤ ty) (h6 : ty ≤ 6)
    (hfree : ty = SCONF_TYPE_STR → d.freed = none) :
    sconf_node_create ty (some d) = some (some x.2) := by
  unfold sconf_node_replace at h
  unfold sconf_node_create
  have : ty = 3 ∨ ty = 4 ∨ ty = 5 ∨ ty = 6 := by omega
  rcases this with h | h | h | h
  · subst h
    have hf := hfree rfl
    cases m <;>
      simp [sconf_node_str_init, sconf_node_int_init, sconf_node_bool_init,
        sconf_node_float_init, hf] at h ⊢
    subst h
    rfl
  all_goals
    subst h
    cases m <;>
      simp [sconf_node_str_init, sconf_node_int_init, sconf_node_bool_init,
        sconf_node_float_init] at h ⊢
    subst h
    rfl

/-- The node that a successful leaf insertion returns is the node built from
the data. -/
theorem create_and_insert_leaf (c : Option CStr) (ty : Nat) (parent : SConfNode)
    (d : SConfData) (parent' : SConfNode) (slot : SConfSlot) (n : SConfNode)
    (h : sconf_node_create_and_insert c ty parent 0 (some d) = some ⟨parent', some (slot, n)⟩)
    (h3 : 3 ≤ ty) (h6 : ty ≤ 6) (hfree : ty = SCONF_TYPE_STR → d.freed = none) :
    sconf_node_create ty (some d) = some (some n) := by
  rw [create_and_insert_eq] at h
  split at h
  · simp at h
  · rename_i s hs
    split at h
    · rename_i m hf
      split_ifs at h with ht
      · simp at h
      · simp at h
        obtain ⟨r, n', hr, _, _, hn⟩ := h
        subst hn
        exact create_scalar_of_replace ty m d (r, n') hr h3 h6 hfree
    · rename_i hf
      split at h
      · cases h
      · simp at h
      · rename_i m hc
        obtain ⟨_, h2, _, _⟩ := insert_at_spec _ _ _ _ _ _ h hf
        subst h2
        exact hc

/-- When `sconf_set_loop` succeeds, its first lookup addressed a slot. -/
theorem set_loop_slot (ty : Nat) (v : Option SConfData) (parent : SConfNode) (c : Option CStr)
    (depth : Nat) (toks : List CStr) (parent' : SConfNode)
    (h : sconf_set_loop ty v parent c depth toks = some (0, parent'))
    (hc : toks = [] ∨ c ≠ none) :
    ∃ slot, set_slot parent c = some slot := by
  cases hs : set_slot parent c with
  | some s => exact ⟨s, rfl⟩
  | none =>
    exfalso
    cases toks with
    | nil =>
      simp only [sconf_set_loop, create_and_insert_eq, hs] at h
      simp at h
    | cons next rest =>
      cases c with
      | none => simp at hc
      | some c =>
        simp only [sconf_set_loop, create_and_insert_eq, hs] at h
        simp at h

theorem parse_agree (child : SConfNode) (next : CStr) (pidx : Nat) (slot : SConfSlot)
    (harr : sconf_type child = 2) (hb : next.head? = some '[')
    (hs : set_slot child (some next) = some slot) :
    (sconf_array_get_index_from_string next pidx).1 ≠ -1 ∧
      get_slot child (some next) (sconf_array_get_index_from_string next pidx).2 =
        some slot := by
  cases child <;> simp at harr
  simp only [set_slot, hb, if_true] at hs
  rcases index_from_string_cases next with hf | ⟨v, hv⟩
  · simp [hf] at hs
  · simp [hv] at hs
    simp [hv, get_slot, hs]

/-- Round trip along the loop: after a successful `sconf_set_loop` for a scalar
type, `sconf_get_loop` on the same tokens finds the node built from the data. -/
theorem roundtrip_loop (ty : Nat) (d : SConfData) (h3 : 3 ≤ ty) (h6 : ty ≤ 6)
    (hfree : ty = SCONF_TYPE_STR → d.freed = none) (toks : List CStr) :
    ∀ (parent : SConfNode) (c : CStr) (depth pidx : Nat) (parent' : SConfNode),
      sconf_set_loop ty (some d) parent (some c) depth toks = some (0, parent') →
      get_slot parent (some c) pidx = set_slot parent (some c) →
      (c.head? = some '[' → sconf_type parent = 1 → toks = []) →
      ∃ n, sconf_get_loop parent' pidx (some c) toks = (1, some n) ∧
        sconf_node_create ty (some d) = some (some n) := by
  induction toks with
  | nil =>
    intro parent c depth pidx parent' h hslot _
    simp only [sconf_set_loop] at h
    split at h
    · cases h
    · rename_i r hr
      split at h
      · simp at h
      · rename_i sn hnode
        obtain ⟨parent1, node1⟩ := r
        simp only at hnode h
        subst hnode
        simp only [Option.some.injEq, Prod.mk.injEq, true_and] at h
        subst h
        obtain ⟨slot, n⟩ := sn
        obtain ⟨hs, hf, _, hty⟩ := create_and_insert_spec _ _ _ _ _ _ _ hr
        refine ⟨n, ?_, create_and_insert_leaf _ _ _ _ _ _ _ hr h3 h6 hfree⟩
        rw [get_loop_nil_eq, get_slot_type _ _ _ _ hty, hslot, hs]
        simp [hf]
  | cons next rest ih =>
    intro parent c depth pidx parent' h hslot hguard
    simp only [sconf_set_loop] at h
    split at h
    · cases h
    · rename_i r hr
      split at h
      · simp at h
      · rename_i slot child hnode
        obtain ⟨parent1, node1⟩ := r
        simp only at hnode h
        subst hnode
        split_ifs at h with hdepth
        · simp at h
        · split at h
          · cases h
          · rename_i rc child' hrec
            simp only [Option.some.injEq, Prod.mk.injEq] at h
            obtain ⟨hrc, hp⟩ := h
            subst hrc hp
            obtain ⟨hs, hf, hct, hty⟩ := create_and_insert_spec _ _ _ _ _ _ _ hr
            have hty' : sconf_type child' = sconf_type child := set_loop_type _ _ _ _ _ _ _ _ hrec
            -- the descent of `sconf_get` reaches `child'`
            have hdesc : sconf_get_descend (parent1.store slot child') pidx (some c) =
                .ok child' := by
              rw [get_descend_eq]
              have hnog : ¬(c.head? = some '[' ∧
                  sconf_type (parent1.store slot child') ≠ SCONF_TYPE_ARRAY) := by
                rintro ⟨hb, hna⟩
                rw [sconf_type_store, hty] at hna
                rcases sconf_type_cases parent with h1 | h2 | h36
                · have := hguard hb h1
                  simp at this
                · exact hna h2
                · rw [set_slot_none_of_scalar _ _ h36.1] at hs
                  cases hs
              rw [if_neg hnog, get_slot_type _ parent _ _ (by rw [sconf_type_store, hty]),
                hslot, hs]
              simp [fetch_store _ _ _ _ hf]
            obtain ⟨slot', hs'⟩ := set_loop_slot _ _ _ _ _ _ _ hrec (Or.inr (by simp))
            simp only [sconf_get_loop, hdesc]
            by_cases hb : next.head? = some '['
            · have harr : sconf_type child = 2 := by rw [hct]; simp [hb]
              obtain ⟨hp1, hp2⟩ := parse_agree child next pidx slot' harr hb hs'
              rw [if_pos ⟨by rw [hty', harr], hb⟩]
              simp only [hp1, if_false]
              apply ih child next (depth + 1) _ child' hrec
              · rw [hp2, hs']
              · intro _ h1
                rw [harr] at h1
                cases h1
            · rw [if_neg (fun hh => hb hh.2)]
              have hdict : sconf_type child = 1 := by rw [hct]; simp [hb]
              apply ih child next (depth + 1) _ child' hrec
              · rw [get_slot_dict _ _ _ hdict, set_slot_dict _ _ hdict]
              · intro hb'
                exact absurd hb' hb

/-- Round trip on the tokens of a path, for any root. -/
theorem roundtrip_tokens (ty : Nat) (d : SConfData) (h3 : 3 ≤ ty) (h6 : ty ≤ 6)
    (hfree : ty = SCONF_TYPE_STR → d.freed = none)
    (root root' : SConfNode) (toks : List CStr)
    (h : sconf_set_loop ty (some d) root none 1 toks = some (0, root'))
    (hguard : sconf_type root = 1 → (toks.head?.bind List.head?) = some '[' →
      toks.length ≤ 1) :
    ∃ n, sconf_get_loop root' 0 none toks = (1, some n) ∧
      sconf_node_create ty (some d) = some (some n) := by
  cases toks with
  | nil =>
    simp only [sconf_set_loop] at h
    split at h
    · cases h
    · rename_i r hr
      split at h
      · simp at h
      · rename_i sn hnode
        obtain ⟨parent1, node1⟩ := r
        simp only at hnode h
        subst hnode
        simp only [Option.some.injEq, Prod.mk.injEq, true_and] at h
        subst h
        obtain ⟨slot, n⟩ := sn
        obtain ⟨hs, hf, _, hty⟩ := create_and_insert_spec _ _ _ _ _ _ _ hr
        refine ⟨n, ?_, create_and_insert_leaf _ _ _ _ _ _ _ hr h3 h6 hfree⟩
        rw [get_loop_nil_eq]
        cases root <;> simp [set_slot] at hs
        subst hs
        cases parent1 <;> simp at hty
        simp only [get_slot]
        simp [hf]
  | cons t rest =>
    simp only [sconf_set_loop] at h
    simp at h
    have hty : sconf_type root' = sconf_type root := set_loop_type _ _ _ _ _ _ _ _ h
    obtain ⟨slot, hs⟩ := set_loop_slot _ _ _ _ _ _ _ h (Or.inr (by simp))
    have hg2 : t.head? = some '[' → sconf_type root = 1 → rest = [] := by
      intro hb h1
      have := hguard h1 (by simpa using hb)
      simpa using this
    simp only [sconf_get_loop, sconf_get_descend]
    by_cases hb : sconf_type root' = SCONF_TYPE_ARRAY ∧ t.head? = some '['
    · rw [if_pos hb]
      obtain ⟨hp1, hp2⟩ := parse_agree root t 0 slot (by rw [← hty]; exact hb.1) hb.2 hs
      simp only [hp1, if_false]
      exact roundtrip_loop ty d h3 h6 hfree rest root t 2 _ root' h (by rw [hp2, hs]) hg2
    · rw [if_neg hb]
      refine roundtrip_loop ty d h3 h6 hfree rest root t 2 0 root' h ?_ hg2
      rw [hty] at hb
      cases root <;> simp [get_slot, set_slot] at hb ⊢
      simp [hb]

/-- The scalar node that `sconf_node_create` builds. -/
theorem create_scalar_payload (ty : Nat) (d : SConfData) (n : SConfNode)
    (h : sconf_node_create ty (some d) = some (some n)) :
    sconf_type n = ty ∧
      (ty = SCONF_TYPE_STR → n = .str d.string) ∧ (ty = SCONF_TYPE_INT → n = .int d.integer) ∧
      (ty = SCONF_TYPE_BOOL → n = .bool d.boolean) ∧
      (ty = SCONF_TYPE_FLOAT → n = .float d.fp) := by
  refine ⟨sconf_type_create _ _ _ h, ?_, ?_, ?_, ?_⟩ <;> intro ht <;> subst ht <;>
    simp [sconf_node_create, sconf_node_str_init, sconf_node_int_init, sconf_node_bool_init,
      sconf_node_float_init] at h <;> exact h.symm

theorem sconf_set_some (root : SConfNode) (p : CStr) (ty : Nat) (d : SConfData) (rc : Int)
    (root' : SConfNode) :
    sconf_set (some root) (some p) ty (some d) = some (rc, some root') ↔
      sconf_set_loop ty (some d) root none 1 (strtok_r p []) = some (rc, root') := by
  simp only [sconf_set]
  cases sconf_set_loop ty (some d) root none 1 (strtok_r p []) with
  | none => simp
  | some x => obtain ⟨a, b⟩ := x; simp

/-- C1 (amended): round trip. For every dictionary root, every path whose first
segment does not begin with `[` unless it is the only segment, and every
scalar type (string, integer, boolean, float) with its value, a string not
being passed by a pointer into the buffer that the call frees (`freed` is
`none`): if `sconf_set` returns `0`, then `sconf_get` on the resulting tree and
the same path returns `1` with a node of that type whose payload is the value
that was set. -/
theorem sconf_set_get_roundtrip (root : SConfNode) (p : CStr) (ty : Nat) (d : SConfData)
    (root' : SConfNode)
    (hT : ty = SCONF_TYPE_STR ∨ ty = SCONF_TYPE_INT ∨ ty = SCONF_TYPE_BOOL ∨
      ty = SCONF_TYPE_FLOAT)
    (hroot : sconf_type root = SCONF_TYPE_DICT)
    (hpath : ((strtok_r p []).head?.bind List.head?) = some '[' → (strtok_r p []).length ≤ 1)
    (hfree : ty = SCONF_TYPE_STR → d.freed = none)
    (hset : sconf_set (some root) (some p) ty (some d) = some (0, some root')) :
    ∃ n, sconf_get (some root') (some p) = (1, some n) ∧ sconf_type n = ty ∧
      (ty = SCONF_TYPE_STR → n = .str d.string) ∧ (ty = SCONF_TYPE_INT → n = .int d.integer) ∧
      (ty = SCONF_TYPE_BOOL → n = .bool d.boolean) ∧
      (ty = SCONF_TYPE_FLOAT → n = .float d.fp) := by
  have h3 : 3 ≤ ty := by rcases hT with h | h | h | h <;> subst h <;> decide
  have h6 : ty ≤ 6 := by rcases hT with h | h | h | h <;> subst h <;> decide
  rw [sconf_set_some] at hset
  have hguard : sconf_type root = 1 → ((strtok_r p []).head?.bind List.head?) = some '[' →
      (strtok_r p []).length ≤ 1 := fun _ => hpath
  obtain ⟨n, hg, hc⟩ := roundtrip_tokens ty d h3 h6 hfree root root' _ hset (hroot ▸ hguard)
  exact ⟨n, by simpa [sconf_get] using hg, create_scalar_payload ty d n hc⟩

/-- C1, an instance: `a.b` set to the integer 7 on the empty dictionary. -/
theorem sconf_set_get_roundtrip_witness :
    ∃ n, sconf_get (some (.dict [("a".toList, .dict [("b".toList, .int 7)])]))
        (some "a.b".toList) = (1, some n) ∧ sconf_type n = SCONF_TYPE_INT ∧
      (SCONF_TYPE_INT = SCONF_TYPE_STR → n = .str []) ∧
      (SCONF_TYPE_INT = SCONF_TYPE_INT → n = .int 7) ∧
      (SCONF_TYPE_INT = SCONF_TYPE_BOOL → n = .bool false) ∧
      (SCONF_TYPE_INT = SCONF_TYPE_FLOAT → n = .float 0) :=
  sconf_set_get_roundtrip (.dict []) "a.b".toList SCONF_TYPE_INT ⟨[], 7, false, 0, none⟩ _
    (by decide) rfl (by decide) (fun _ => rfl) rfl

/-- C1 as stated fails: on the empty dictionary and the path `[0].a`,
`sconf_set` returns `0` (it stores a dictionary under the name `[0]`), and
`sconf_get` on the resulting tree and the same path returns `0`. -/
theorem sconf_set_get_roundtrip_bracket_first :
    sconf_set (some (.dict [])) (some "[0].a".toList) SCONF_TYPE_INT (some ⟨[], 1, false, 0, none⟩) =
        some (0, some (.dict [("[0]".toList, .dict [("a".toList, .int 1)])])) ∧
      sconf_get (some (.dict [("[0]".toList, .dict [("a".toList, .int 1)])]))
        (some "[0].a".toList) = (0, none) :=
  ⟨rfl, rfl⟩

theorem replace_container (ct : Nat) (n : SConfNode) (data : Option SConfData)
    (h : ct = 1 ∨ ct = 2) : sconf_node_replace ct n data = some (0, n) := by
  rcases h with h | h <;> subst h <;> simp [sconf_node_replace]

/-- The call of `sconf_node_create_and_insert` on a slot that holds a node of another
type. -/
theorem create_and_insert_mismatch (c : Option CStr) (ty : Nat) (parent : SConfNode)
    (data : Option SConfData) (slot : SConfSlot) (n : SConfNode)
    (hs : set_slot parent c = some slot) (hf : parent.fetch slot = some n)
    (ht : sconf_type n ≠ ty) :
    sconf_node_create_and_insert c ty parent 0 data = some ⟨parent, none⟩ := by
  rw [create_and_insert_eq, hs]
  simp [hf, ht]

/-- The call of `sconf_node_create_and_insert` on a slot that holds a container of the
type asked for. -/
theorem create_and_insert_container (c : Option CStr) (ct : Nat) (parent : SConfNode)
    (data : Option SConfData) (slot : SConfSlot) (n : SConfNode)
    (hs : set_slot parent c = some slot) (hf : parent.fetch slot = some n)
    (ht : sconf_type n = ct) (hct : ct = 1 ∨ ct = 2) :
    sconf_node_create_and_insert c ct parent 0 data = some ⟨parent, some (slot, n)⟩ := by
  rw [create_and_insert_eq, hs]
  simp [hf, ht, replace_container ct n data hct, store_same _ _ _ hf]

theorem get_loop_found_slot (parent : SConfNode) (pidx : Nat) (c : Option CStr) (n : SConfNode)
    (h : sconf_get_loop parent pidx c [] = (1, some n)) :
    ∃ slot, get_slot parent c pidx = some slot ∧ parent.fetch slot = some n := by
  rw [get_loop_nil_eq] at h
  split at h
  · simp at h
  · rename_i slot hs
    split at h
    · simp at h
    · rename_i m hf
      simp at h
      subst h
      exact ⟨slot, hs, hf⟩

theorem get_descend_ok_slot (parent child : SConfNode) (pidx : Nat) (c : CStr)
    (h : sconf_get_descend parent pidx (some c) = .ok child) :
    ¬(c.head? = some '[' ∧ sconf_type parent ≠ SCONF_TYPE_ARRAY) ∧
      ∃ slot, get_slot parent (some c) pidx = some slot ∧ parent.fetch slot = some child := by
  rw [get_descend_eq] at h
  split_ifs at h with hg
  refine ⟨hg, ?_⟩
  split at h
  · simp at h
  · rename_i slot hs
    split at h
    · simp at h
    · rename_i m hf
      simp at h
      subst h
      exact ⟨slot, hs, hf⟩

theorem asked_type_container (ty : Nat) (s : CStr) (rest : List CStr) :
    asked_type ty (s :: rest) = 1 ∨ asked_type ty (s :: rest) = 2 := by
  simp only [asked_type]
  split_ifs <;> simp

/-- Where `sconf_get_loop` finds a node whose type is not the one `sconf_set`
asks for at that place, `sconf_set_loop` returns `-1` and leaves the tree as it
was: up to there it meets only nodes that exist. -/
theorem set_loop_follows_get (ty : Nat) (v : Option SConfData) (suf : List CStr)
    (toks : List CStr) :
    ∀ (parent : SConfNode) (c : CStr) (pidx depth : Nat) (n : SConfNode),
      sconf_get_loop parent pidx (some c) toks = (1, some n) →
      get_slot parent (some c) pidx = set_slot parent (some c) →
      sconf_type n ≠ asked_type ty suf →
      sconf_set_loop ty v parent (some c) depth (toks ++ suf) = some (-1, parent) := by
  induction toks with
  | nil =>
    intro parent c pidx depth n hget hslot hty
    obtain ⟨slot, hs, hf⟩ := get_loop_found_slot _ _ _ _ hget
    rw [hslot] at hs
    cases suf with
    | nil =>
      simp only [asked_type] at hty
      simp only [List.append_nil, sconf_set_loop,
        create_and_insert_mismatch _ _ _ _ _ _ hs hf hty]
    | cons s rest =>
      simp only [asked_type] at hty
      simp only [List.nil_append, sconf_set_loop]
      rw [create_and_insert_mismatch _ _ _ _ _ _ hs hf hty]
  | cons next rest ih =>
    intro parent c pidx depth n hget hslot hty
    simp only [sconf_get_loop] at hget
    split at hget
    · simp at hget
    · rename_i child hdesc
      obtain ⟨_, slot, hs, hf⟩ := get_descend_ok_slot _ _ _ _ hdesc
      rw [hslot] at hs
      simp only [List.cons_append, sconf_set_loop]
      by_cases hct : sconf_type child =
          (if next.head? = some '[' then SCONF_TYPE_ARRAY else SCONF_TYPE_DICT)
      · rw [create_and_insert_container _ _ _ _ _ _ hs hf hct (by split_ifs <;> simp)]
        simp only []
        split_ifs with hdepth
        · rfl
        · by_cases hb : next.head? = some '['
          · have harr : sconf_type child = 2 := by rw [hct]; simp [hb]
            rw [if_pos ⟨harr, hb⟩] at hget
            rcases index_from_string_cases next with hfail | ⟨i, hi⟩
            · simp [hfail] at hget
            · simp only [hi] at hget
              simp at hget
              have hs' : get_slot child (some next) i = set_slot child (some next) := by
                cases child <;> simp at harr
                simp [get_slot, set_slot, hb, hi]
              have hrec := ih child next i (depth + 1) n hget hs' hty
              simp only [List.append_eq, hrec, store_same _ _ _ hf]
          · have hdict : sconf_type child = 1 := by rw [hct]; simp [hb]
            rw [if_neg (fun hh => hb hh.2)] at hget
            have hs' : get_slot child (some next) pidx = set_slot child (some next) := by
              rw [get_slot_dict _ _ _ hdict, set_slot_dict _ _ hdict]
            have hrec := ih child next pidx (depth + 1) n hget hs' hty
            simp only [List.append_eq, hrec, store_same _ _ _ hf]
      · rw [create_and_insert_mismatch _ _ _ _ _ _ hs hf hct]

/-- The same from the start of the path. -/
theorem set_tokens_follows_get (ty : Nat) (v : Option SConfData) (suf : List CStr)
    (toks : List CStr) (root n : SConfNode)
    (hget : sconf_get_loop root 0 none toks = (1, some n))
    (hty : sconf_type n ≠ asked_type ty suf)
    (hne : toks = [] → suf = []) :
    sconf_set_loop ty v root none 1 (toks ++ suf) = some (-1, root) := by
  cases toks with
  | nil =>
    rw [hne rfl]
    obtain ⟨slot, hs, hf⟩ := get_loop_found_slot _ _ _ _ hget
    have hs' : set_slot root none = some slot := by
      cases root <;> simp [get_slot, set_slot] at hs ⊢
      exact hs
    rw [hne rfl] at hty
    simp only [asked_type] at hty
    simp only [List.append_nil, sconf_set_loop,
      create_and_insert_mismatch _ _ _ _ _ _ hs' hf hty]
  | cons t rest =>
    simp only [List.cons_append, sconf_set_loop]
    simp only [sconf_get_loop, sconf_get_descend] at hget
    rw [if_neg (by decide)]
    by_cases hb : sconf_type root = SCONF_TYPE_ARRAY ∧ t.head? = some '['
    · rw [if_pos hb] at hget
      rcases index_from_string_cases t with hfail | ⟨i, hi⟩
      · simp [hfail] at hget
      · simp only [hi] at hget
        simp at hget
        refine set_loop_follows_get ty v suf rest root t i 2 n hget ?_ hty
        obtain ⟨harr, hbr⟩ := hb
        cases root <;> simp at harr
        simp [get_slot, set_slot, hbr, hi]
    · rw [if_neg hb] at hget
      refine set_loop_follows_get ty v suf rest root t 0 2 n hget ?_ hty
      cases root <;> simp [get_slot, set_slot] at hb ⊢
      simp [hb]

/-- C2: type-stable overwrite. For every root and path at which `sconf_get`
finds a node, `sconf_set` on that path with any type other than the type of
the node (and any value) returns `-1`, and afterwards `sconf_get` on the path
still returns `1` with the same node, type and value unchanged. -/
theorem sconf_set_type_mismatch (root : SConfNode) (p : CStr) (n : SConfNode) (ty : Nat)
    (v : Option SConfData)
    (hget : sconf_get (some root) (some p) = (1, some n))
    (hty : ty ≠ sconf_type n) :
    ∃ root', sconf_set (some root) (some p) ty v = some (-1, some root') ∧
      sconf_get (some root') (some p) = (1, some n) := by
  refine ⟨root, ?_, hget⟩
  cases v with
  | none => simp [sconf_set]
  | some d =>
    simp only [sconf_get] at hget
    have := set_tokens_follows_get ty (some d) [] _ root n hget (by simpa [asked_type] using hty.symm)
      (fun _ => rfl)
    simp only [List.append_nil] at this
    simp [sconf_set, this]

/-- C2, an instance: a float set over the integer `blabla`. -/
theorem sconf_set_type_mismatch_witness :
    ∃ root', sconf_set (some (.dict [("blabla".toList, .int 12345)])) (some "blabla".toList)
        SCONF_TYPE_FLOAT (some ⟨[], 0, false, 4617760433180725622, none⟩) = some (-1, some root') ∧
      sconf_get (some root') (some "blabla".toList) = (1, some (.int 12345)) :=
  sconf_set_type_mismatch (.dict [("blabla".toList, .int 12345)]) "blabla".toList (.int 12345)
    SCONF_TYPE_FLOAT (some ⟨[], 0, false, 4617760433180725622, none⟩) rfl (by decide)
theorem shape_dict_store (d : List (CStr × SConfNode)) (k : CStr) (x m : SConfNode)
    (h : art_search d k = some m) (hx : x.shape = m.shape) :
    shape_dict (art_store d k x) = shape_dict d := by
  induction d with
  | nil => simp [art_search] at h
  | cons e t ih =>
    obtain ⟨k', v⟩ := e
    by_cases hk : k' = k
    · simp [art_search, hk] at h
      subst h
      simp [art_store, hk, shape_dict, hx]
    · simp [art_search, hk] at h
      simp [art_store, hk, shape_dict, ih h]

theorem shape_array_set (a : List (Option SConfNode)) (x m : SConfNode) :
    ∀ (i : Nat), a.getD i none = some m → x.shape = m.shape →
      shape_array (a.set i (some x)) = shape_array a := by
  induction a with
  | nil => intro i h; simp at h
  | cons e t ih =>
    intro i h hx
    cases i with
    | zero =>
      simp at h
      subst h
      simp [shape_array, hx]
    | succ j =>
      have h' : t.getD j none = some m := by simpa using h
      cases e <;> simp [shape_array, ih j h' hx]

theorem shape_store (parent : SConfNode) (slot : SConfSlot) (x m : SConfNode)
    (h : parent.fetch slot = some m) (hx : x.shape = m.shape) :
    (parent.store slot x).shape = parent.shape := by
  cases parent <;> cases slot <;> simp [SConfNode.fetch] at h <;>
    simp only [SConfNode.store, SConfNode.shape]
  · rw [shape_dict_store _ _ _ _ h hx]
  · rename_i a i
    rw [shape_array_set a x m i (by simpa using h) hx]

theorem shape_of_replace (ty : Nat) (m : SConfNode) (data : Option SConfData) (x : Int × SConfNode)
    (h : sconf_node_replace ty m data = some x) : x.2.shape = m.shape := by
  unfold sconf_node_replace at h
  split_ifs at h
  · cases m <;> cases data <;> simp [sconf_node_str_init] at h
    subst h; simp only [SConfNode.shape]
  · cases m <;> cases data <;> simp [sconf_node_int_init] at h
    subst h; simp only [SConfNode.shape]
  · cases m <;> cases data <;> simp [sconf_node_bool_init] at h
    subst h; simp only [SConfNode.shape]
  · cases m <;> cases data <;> simp [sconf_node_float_init] at h
    subst h; simp only [SConfNode.shape]
  · simp at h
    subst h; rfl

/-- A second `sconf_set_loop` with the same tokens and type changes no entry
of the tree the first one left. -/
theorem overwrite_loop (ty : Nat) (d1 d2 : Option SConfData) (toks : List CStr) :
    ∀ (parent : SConfNode) (curr : Option CStr) (depth : Nat) (parent1 parent2 : SConfNode),
      sconf_set_loop ty d1 parent curr depth toks = some (0, parent1) →
      sconf_set_loop ty d2 parent1 curr depth toks = some (0, parent2) →
      parent2.shape = parent1.shape := by
  induction toks with
  | nil =>
    intro parent curr depth parent1 parent2 h1 h2
    simp only [sconf_set_loop] at h1 h2
    split at h1
    · cases h1
    · rename_i r hr
      split at h1
      · simp at h1
      · rename_i sn hnode
        obtain ⟨pa, node1⟩ := r
        simp only at hnode h1
        subst hnode
        simp only [Option.some.injEq, Prod.mk.injEq, true_and] at h1
        subst h1
        obtain ⟨slot, n1⟩ := sn
        obtain ⟨hs, hf, hn1, hty⟩ := create_and_insert_spec _ _ _ _ _ _ _ hr
        rw [create_and_insert_eq, ← set_slot_type parent pa curr hty.symm, hs] at h2
        simp only [hf, hn1, ne_eq, not_true_eq_false, if_false] at h2
        cases hrep : sconf_node_replace ty n1 d2 with
        | none => simp [hrep] at h2
        | some x =>
          simp [hrep] at h2
          subst h2
          exact shape_store _ _ _ _ hf (shape_of_replace _ _ _ _ hrep)
  | cons next rest ih =>
    intro parent curr depth parent1 parent2 h1 h2
    cases curr with
    | none =>
      simp only [sconf_set_loop] at h1 h2
      split_ifs at h1 h2
      · simp at h1
      · exact ih _ _ _ _ _ h1 h2
    | some c =>
      simp only [sconf_set_loop] at h1 h2
      split at h1
      · cases h1
      · rename_i r hr
        split at h1
        · simp at h1
        · rename_i slot child hnode
          obtain ⟨pa, node1⟩ := r
          simp only at hnode h1
          subst hnode
          split_ifs at h1 with hdepth
          · simp at h1
          · split at h1
            · cases h1
            · rename_i rc child1 hrec
              simp only [Option.some.injEq, Prod.mk.injEq] at h1
              obtain ⟨hrc, hp⟩ := h1
              subst hrc hp
              obtain ⟨hs, hf, hct, hty⟩ := create_and_insert_spec _ _ _ _ _ _ _ hr
              have hty1 : sconf_type child1 = sconf_type child :=
                set_loop_type _ _ _ _ _ _ _ _ hrec
              have hf1 : (pa.store slot child1).fetch slot = some child1 :=
                fetch_store _ _ _ _ hf
              have hs1 : set_slot (pa.store slot child1) (some c) = some slot := by
                rw [set_slot_type _ parent _ (by rw [sconf_type_store, hty]), hs]
              rw [create_and_insert_container _ _ _ _ _ _ hs1 hf1 (by rw [hty1, hct])
                (by split_ifs <;> simp)] at h2
              simp only [hdepth, if_false] at h2
              split at h2
              · cases h2
              · rename_i rc2 child2 hrec2
                simp only [Option.some.injEq, Prod.mk.injEq] at h2
                obtain ⟨hrc2, hp2⟩ := h2
                subst hrc2 hp2
                exact shape_store _ _ _ _ hf1 (ih _ _ _ _ _ hrec hrec2)
theorem strtol_value_eq (ds : List Char) : ∀ acc : Nat,
    strtol_value ds acc = ds.foldl (fun a c => a * 10 + (c.toNat - 48)) acc := by
  induction ds with
  | nil => intro acc; rfl
  | cons c cs ih => intro acc; simp [strtol_value, ih]

theorem isdigit_not_space (c : Char) (h : isdigit c = true) : isspace c = false := by
  simp only [isdigit, Bool.and_eq_true, decide_eq_true_eq] at h
  simp only [isspace, Bool.or_eq_false_iff, decide_eq_false_iff_not]
  refine ⟨⟨⟨⟨⟨?_, ?_⟩, ?_⟩, ?_⟩, ?_⟩, ?_⟩ <;> intro hc <;> subst hc <;> revert h <;> decide

theorem isdigit_not_sign (c : Char) (h : isdigit c = true) : c ≠ '-' ∧ c ≠ '+' := by
  simp only [isdigit, Bool.and_eq_true, decide_eq_true_eq] at h
  constructor <;> intro hc <;> subst hc <;> revert h <;> decide

theorem takeWhile_digits (ds : List Char) (h : ds.all isdigit = true) :
    (ds ++ [']']).takeWhile isdigit = ds := by
  induction ds with
  | nil => simp [List.takeWhile]; decide
  | cons c cs ih =>
    simp only [List.all_cons, Bool.and_eq_true] at h
    simp [List.takeWhile, h.1, ih h.2]

/-- The result of `strtol` on a run of digits closed by `]`. -/
theorem strtol_digits (ds : List Char) (hne : ds ≠ []) (hd : ds.all isdigit = true)
    (hfit : spec_decimal ds < UINT32_MOD) :
    strtol (ds ++ [']']) = ⟨(spec_decimal ds : Int), ds.length, false⟩ := by
  obtain ⟨c, cs, rfl⟩ := List.exists_cons_of_ne_nil hne
  have hc : isdigit c = true := by
    simp only [List.all_cons, Bool.and_eq_true] at hd
    exact hd.1
  have hsp := isdigit_not_space c hc
  obtain ⟨hm, hp⟩ := isdigit_not_sign c hc
  have htw := takeWhile_digits (c :: cs) hd
  simp only [List.cons_append] at htw
  have hv : strtol_value (c :: cs) 0 = spec_decimal (c :: cs) := by
    rw [strtol_value_eq]; rfl
  have hws : (c :: (cs ++ [']'])).takeWhile isspace = [] := by simp [List.takeWhile, hsp]
  have hdw : (c :: (cs ++ [']'])).dropWhile isspace = c :: (cs ++ [']']) := by
    simp [List.dropWhile, hsp]
  unfold strtol
  simp only [List.cons_append, hws, hdw, List.head?_cons, Option.some.injEq, hm, hp, or_self,
    if_false, List.drop_zero, htw, hv]
  simp only [UINT32_MOD] at hfit
  simp only [LONG_MAX, LONG_MIN]
  have h1 : ¬ ((spec_decimal (c :: cs) : Int) > 9223372036854775807) := by omega
  have h2 : ¬ ((spec_decimal (c :: cs) : Int) < -9223372036854775808) := by omega
  simp [h1, h2]

/-- The parser of `sconf.c` on an index segment of the path syntax whose value
is below `2 ^ 32`. -/
theorem index_from_string_of_spec (seg : CStr) (i : Nat) (h : spec_index seg = some i)
    (hfit : i < UINT32_MOD) : ∀ j, sconf_array_get_index_from_string seg j = (0, i) := by
  intro j
  unfold spec_index at h
  split at h
  · rename_i body
    split_ifs at h with hb
    obtain ⟨hlast, hne, hd⟩ := hb
    simp only [Option.some.injEq] at h
    subst h
    have hbody : body = body.dropLast ++ [']'] := by
      have := List.dropLast_append_getLast? ']' (by simpa using hlast)
      exact this.symm
    have hst := strtol_digits body.dropLast hne hd hfit
    rw [← hbody] at hst
    have hl : ('[' :: body).getLast? = some ']' := by
      cases body with
      | nil => simp at hlast
      | cons b bs => rw [List.getLast?_cons_cons]; exact hlast
    unfold sconf_array_get_index_from_string
    simp only [List.head?_cons, ne_eq, not_true_eq_false, hl, or_self, if_false, List.drop_one,
      List.tail_cons, hst]
    have hlen : body.dropLast.length ≠ 0 := by
      intro h0; exact hne (List.length_eq_zero.mp h0)
    simp only [UINT32_MOD] at hfit ⊢
    have hlen' : ¬ (body.length - 1 = 0) := by simpa using hlen
    simp only [List.length_dropLast, hlen', Bool.false_eq_true, if_false, Prod.mk.injEq,
      true_and]
    omega
  · cases h
theorem spec_index_head (seg : CStr) (i : Nat) (h : spec_index seg = some i) :
    seg.head? = some '[' := by
  unfold spec_index at h
  split at h
  · simp
  · cases h

theorem spec_lookup_kind (c : SConfNode) (seg : CStr) (ch : SConfNode)
    (h : spec_lookup c seg = some ch) : spec_kind_ok c seg = true := by
  cases c <;> simp [spec_lookup, spec_kind_ok] at h ⊢
  · exact h.1
  · split at h
    · rename_i i hi
      exact spec_index_head _ _ hi
    · cases h

/-- The descent of `sconf_get` agrees with the resolution of the specification
when the segment is applied to a container of the kind it expects and
`parent_index` is the value of the index segment. -/
theorem get_descend_of_spec (parent : SConfNode) (c : CStr) (pidx : Nat)
    (hk : spec_kind_ok parent c = true)
    (hidx : sconf_type parent = 2 → spec_index c = some pidx ∧ pidx < UINT32_MOD) :
    sconf_get_descend parent pidx (some c) =
      (match spec_lookup parent c with
       | some ch => .ok ch
       | none => .error 0) ∧
    sconf_get_loop parent pidx (some c) [] =
      (match spec_lookup parent c with
       | some ch => (1, some ch)
       | none => (0, none)) := by
  rw [get_descend_eq, get_loop_nil_eq]
  cases parent with
  | dict d =>
    simp only [spec_kind_ok, ne_eq, decide_not, Bool.not_eq_true', decide_eq_false_iff_not] at hk
    simp only [hk, false_and, if_false, get_slot, SConfNode.fetch, spec_lookup]
    cases art_search d c <;> simp
  | array a =>
    obtain ⟨hi, hfit⟩ := hidx rfl
    simp only [sconf_type_array, ne_eq, not_true_eq_false, and_false, if_false, get_slot,
      SConfNode.fetch, spec_lookup, hi, hfit, if_true]
    cases a.getD pidx none <;> simp
  | str s => simp [spec_kind_ok] at hk
  | int s => simp [spec_kind_ok] at hk
  | bool s => simp [spec_kind_ok] at hk
  | float s => simp [spec_kind_ok] at hk

/-- The part of the loop body of `sconf_get` that follows the descent. -/
theorem get_loop_cons_eq (parent : SConfNode) (pidx : Nat) (curr : Option CStr) (next : CStr)
    (rest : List CStr) :
    sconf_get_loop parent pidx curr (next :: rest) =
      match sconf_get_descend parent pidx curr with
      | .error rc => (rc, none)
      | .ok ch => get_continue ch pidx next rest := by
  simp only [sconf_get_loop, get_continue]

/-- Arriving at a node with a segment to apply next: `parent_index` becomes the
value of the segment when the node is an array. -/
theorem get_arrive (ch : SConfNode) (pidx : Nat) (next : CStr) (rest : List CStr)
    (h : sconf_type ch = 2 → ∃ i, spec_index next = some i ∧ i < UINT32_MOD) :
    ∃ pidx',
      get_continue ch pidx next rest = sconf_get_loop ch pidx' (some next) rest ∧
      (sconf_type ch = 2 → spec_index next = some pidx' ∧ pidx' < UINT32_MOD) := by
  unfold get_continue
  by_cases ha : sconf_type ch = 2
  · obtain ⟨i, hi, hfit⟩ := h ha
    refine ⟨i, ?_, fun _ => ⟨hi, hfit⟩⟩
    rw [if_pos ⟨ha, spec_index_head _ _ hi⟩]
    simp [index_from_string_of_spec next i hi hfit pidx]
  · refine ⟨pidx, ?_, fun h2 => absurd h2 ha⟩
    rw [if_neg (fun hh => ha hh.1)]

theorem spec_lookup_array_index (ch : SConfNode) (seg : CStr) (m : SConfNode)
    (h : spec_lookup ch seg = some m) :
    sconf_type ch = 2 → ∃ i, spec_index seg = some i ∧ i < UINT32_MOD := by
  intro ha
  cases ch <;> simp at ha
  simp only [spec_lookup] at h
  split at h
  · rename_i i hi
    split_ifs at h with hfit
    exact ⟨i, hi, hfit⟩
  · cases h

theorem spec_valid_array_index (ch : SConfNode) (seg : CStr)
    (hk : spec_kind_ok ch seg = true) (hv : spec_valid_segment seg = true)
    (hf : spec_index_fits seg = true) :
    sconf_type ch = 2 → ∃ i, spec_index seg = some i ∧ i < UINT32_MOD := by
  intro ha
  cases ch <;> simp at ha
  simp only [spec_kind_ok, decide_eq_true_eq] at hk
  simp only [spec_valid_segment, hk, ne_eq, not_true_eq_false, decide_False, Bool.false_or,
    Bool.and_eq_true, decide_eq_true_eq] at hv
  obtain ⟨i, hi⟩ := Option.isSome_iff_exists.mp hv.2
  refine ⟨i, hi, ?_⟩
  simpa [spec_index_fits, hi] using hf

/-- Not found along the loop: an absent segment on a walk through containers of
the expected kinds makes `sconf_get_loop` return `0`. -/
theorem get_loop_not_found (rest : List CStr) :
    ∀ (parent : SConfNode) (c : CStr) (pidx : Nat),
      (sconf_type parent = 2 → spec_index c = some pidx ∧ pidx < UINT32_MOD) →
      rest.all spec_valid_segment = true →
      rest.all spec_index_fits = true →
      spec_not_found parent (c :: rest) = true →
      sconf_get_loop parent pidx (some c) rest = (0, none) := by
  induction rest with
  | nil =>
    intro parent c pidx hidx _ _ habs
    simp only [spec_not_found, Bool.and_eq_true] at habs
    rw [(get_descend_of_spec parent c pidx habs.1 hidx).2]
    cases hl : spec_lookup parent c with
    | none => rfl
    | some ch => simp [hl] at habs
  | cons next rest ih =>
    intro parent c pidx hidx hvalid hfits habs
    simp only [spec_not_found, Bool.and_eq_true] at habs
    simp only [List.all_cons, Bool.and_eq_true] at hvalid hfits
    rw [get_loop_cons_eq, (get_descend_of_spec parent c pidx habs.1 hidx).1]
    cases hl : spec_lookup parent c with
    | none => rfl
    | some ch =>
      simp only [hl, spec_not_found, Bool.and_eq_true] at habs
      obtain ⟨pidx', he, hidx'⟩ := get_arrive ch pidx next rest
        (spec_valid_array_index ch next habs.2.1 hvalid.1 hfits.1)
      simp only [he]
      apply ih ch next pidx' hidx' hvalid.2 hfits.2
      simp only [spec_not_found, Bool.and_eq_true]
      exact habs.2

/-- C4 (amended): not found is not an error. For every root and every path
whose segments are names or index segments `[`, digits, `]` with a value below
`2 ^ 32`: if every node that exists along the path is a container of the kind
the segment applied to it expects (an array for a bracketed segment, a
dictionary for a plain name) and some segment, interior or final, is absent,
then `sconf_get` returns `0`. -/
theorem sconf_get_not_found (root : SConfNode) (p : CStr)
    (hvalid : (strtok_r p []).all spec_valid_segment = true)
    (hfits : (strtok_r p []).all spec_index_fits = true)
    (habs : spec_not_found root (strtok_r p []) = true) :
    sconf_get (some root) (some p) = (0, none) := by
  simp only [sconf_get]
  cases htok : strtok_r p [] with
  | nil => simp [htok, spec_not_found] at habs
  | cons t rest =>
    rw [htok] at hvalid hfits habs
    have habs' := habs
    simp only [spec_not_found, Bool.and_eq_true] at habs'
    simp only [List.all_cons, Bool.and_eq_true] at hvalid hfits
    rw [get_loop_cons_eq]
    simp only [sconf_get_descend]
    obtain ⟨pidx', he, hidx'⟩ := get_arrive root 0 t rest
      (spec_valid_array_index root t habs'.1 hvalid.1 hfits.1)
    rw [he]
    exact get_loop_not_found rest root t pidx' hidx' hvalid.2 hfits.2 habs

/-- C4, an instance: `d.o.[1].e` where the array `d.o` has a hole at index 1. -/
theorem sconf_get_not_found_witness :
    sconf_get (some (.dict [("d".toList, .dict [("o".toList, .array [none, none])])]))
      (some "d.o.[1].e".toList) = (0, none) :=
  sconf_get_not_found _ _ (by decide) (by decide) (by decide)

/-- C4 as stated fails: the path `arr.[99999999999999999999]` is syntactically
valid, `arr` is an array and the index is absent, yet `sconf_get` returns
`-1`: the value of the index segment does not fit a `long`. -/
theorem sconf_get_not_found_overflow :
    (strtok_r "arr.[99999999999999999999]".toList []).all spec_valid_segment = true ∧
      spec_not_found (.dict [("arr".toList, .array [none])])
        (strtok_r "arr.[99999999999999999999]".toList []) = true ∧
      sconf_get (some (.dict [("arr".toList, .array [none])]))
        (some "arr.[99999999999999999999]".toList) = (-1, none) :=
  ⟨by decide, by decide, rfl⟩
/-- Along the segments that resolve in the words of the specification,
`sconf_get_loop` finds the node they resolve to; when further segments follow,
it goes on from that node. -/
theorem get_loop_of_resolve (n : SConfNode) (pre : List CStr) :
    ∀ (parent : SConfNode) (c : CStr) (pidx : Nat),
      (sconf_type parent = 2 → spec_index c = some pidx ∧ pidx < UINT32_MOD) →
      spec_resolve parent (c :: pre) = some n →
      sconf_get_loop parent pidx (some c) pre = (1, some n) ∧
        ∀ s rest, ∃ pidx', sconf_get_loop parent pidx (some c) (pre ++ s :: rest) =
          get_continue n pidx' s rest := by
  induction pre with
  | nil =>
    intro parent c pidx hidx hres
    simp only [spec_resolve] at hres
    cases hl : spec_lookup parent c with
    | none => simp [hl] at hres
    | some ch =>
      simp only [hl, Option.some.injEq] at hres
      subst hres
      have hd := get_descend_of_spec parent c pidx (spec_lookup_kind _ _ _ hl) hidx
      refine ⟨by rw [hd.2, hl], fun s rest => ⟨pidx, ?_⟩⟩
      rw [List.nil_append, get_loop_cons_eq, hd.1, hl]
  | cons next more ih =>
    intro parent c pidx hidx hres
    simp only [spec_resolve] at hres
    cases hl : spec_lookup parent c with
    | none => simp [hl] at hres
    | some ch =>
      simp only [hl] at hres
      have hd := get_descend_of_spec parent c pidx (spec_lookup_kind _ _ _ hl) hidx
      have hnext : ∃ m, spec_lookup ch next = some m := by
        cases hl2 : spec_lookup ch next with
        | none => simp [hl2] at hres
        | some m => exact ⟨m, rfl⟩
      obtain ⟨m, hm⟩ := hnext
      have hres' : spec_resolve ch (next :: more) = some n := by
        simpa only [spec_resolve] using hres
      constructor
      · rw [get_loop_cons_eq, hd.1, hl]
        obtain ⟨pidx', he, hidx'⟩ := get_arrive ch pidx next more
          (spec_lookup_array_index ch next m hm)
        simp only [he]
        exact (ih ch next pidx' hidx' hres').1
      · intro s rest
        rw [List.cons_append, get_loop_cons_eq, hd.1, hl]
        obtain ⟨pidx', he, hidx'⟩ := get_arrive ch pidx next (more ++ s :: rest)
          (spec_lookup_array_index ch next m hm)
        simp only [he]
        exact (ih ch next pidx' hidx' hres').2 s rest

/-- The same from the start of the path. -/
theorem get_tokens_of_resolve (root n : SConfNode) (pre : List CStr)
    (hres : spec_resolve root pre = some n) :
    (pre ≠ [] → sconf_get_loop root 0 none pre = (1, some n)) ∧
      ∀ s rest, ∃ pidx', sconf_get_loop root 0 none (pre ++ s :: rest) =
        get_continue n pidx' s rest := by
  cases pre with
  | nil =>
    simp only [spec_resolve, Option.some.injEq] at hres
    subst hres
    refine ⟨fun h => absurd rfl h, fun s rest => ⟨0, ?_⟩⟩
    rw [List.nil_append, get_loop_cons_eq]
    simp only [sconf_get_descend]
  | cons t more =>
    have hnext : ∃ m, spec_lookup root t = some m := by
      simp only [spec_resolve] at hres
      cases hl2 : spec_lookup root t with
      | none => simp [hl2] at hres
      | some m => exact ⟨m, rfl⟩
    obtain ⟨m, hm⟩ := hnext
    constructor
    · intro _
      rw [get_loop_cons_eq]
      simp only [sconf_get_descend]
      obtain ⟨pidx', he, hidx'⟩ := get_arrive root 0 t more
        (spec_lookup_array_index root t m hm)
      rw [he]
      exact (get_loop_of_resolve n more root t pidx' hidx' hres).1
    · intro s rest
      rw [List.cons_append, get_loop_cons_eq]
      simp only [sconf_get_descend]
      obtain ⟨pidx', he, hidx'⟩ := get_arrive root 0 t (more ++ s :: rest)
        (spec_lookup_array_index root t m hm)
      rw [he]
      exact (get_loop_of_resolve n more root t pidx' hidx' hres).2 s rest

/-- The walk of `sconf_get` going on from a scalar node. -/
theorem get_continue_scalar (n : SConfNode) (pidx : Nat) (s : CStr) (rest : List CStr)
    (hn : 3 ≤ sconf_type n) :
    get_continue n pidx s rest =
      if s.head? = some '[' ∧ rest ≠ [] then (0, none) else (-1, none) := by
  have hna : sconf_type n ≠ SCONF_TYPE_ARRAY := by
    intro h; rw [h] at hn; exact absurd hn (by decide)
  have hslot : get_slot n (some s) pidx = none := by
    cases n <;> simp [get_slot] at hn ⊢
  unfold get_continue
  rw [if_neg (fun hh => hna hh.1)]
  cases rest with
  | nil => simp [get_loop_nil_eq, hslot]
  | cons r rs =>
    rw [get_loop_cons_eq, get_descend_eq]
    by_cases hb : s.head? = some '['
    · simp [hb, hna]
    · simp [hb, hslot]

/-- The walk of `sconf_get` going on from a dictionary with a bracketed segment that is
not the last one. -/
theorem get_continue_dict_bracket (n : SConfNode) (pidx : Nat) (s r : CStr) (rest : List CStr)
    (hn : sconf_type n = SCONF_TYPE_DICT) (hs : s.head? = some '[') :
    get_continue n pidx s (r :: rest) = (0, none) := by
  have hna : sconf_type n ≠ SCONF_TYPE_ARRAY := by
    rw [hn]; decide
  unfold get_continue
  rw [if_neg (fun hh => hna hh.1), get_loop_cons_eq, get_descend_eq]
  simp [hs, hna]

/-- C5 (amended): interior non-container. For every root and path, if the
segments before some interior position resolve to a scalar node (plain names
in dictionaries, index segments in arrays), then `sconf_set` returns `-1` and
leaves the tree as it was, and `sconf_get` returns `-1` when the segment after
the scalar is a plain name or is the last one, and `0` when that segment is
bracketed and is followed by another segment. -/
theorem sconf_interior_scalar (root : SConfNode) (p : CStr) (pre : List CStr) (s : CStr)
    (rest : List CStr) (n : SConfNode) (ty : Nat) (v : Option SConfData)
    (htok : strtok_r p [] = pre ++ s :: rest) (hpre : pre ≠ [])
    (hres : spec_resolve root pre = some n)
    (hn : sconf_type n ≠ SCONF_TYPE_DICT ∧ sconf_type n ≠ SCONF_TYPE_ARRAY) :
    sconf_set (some root) (some p) ty v = some (-1, some root) ∧
      sconf_get (some root) (some p) =
        (if s.head? = some '[' ∧ rest ≠ [] then (0, none) else (-1, none)) := by
  have hn3 : 3 ≤ sconf_type n := by
    rcases sconf_type_cases n with h | h | h
    · exact absurd h hn.1
    · exact absurd h hn.2
    · exact h.1
  have hg := get_tokens_of_resolve root n pre hres
  constructor
  · cases v with
    | none => simp [sconf_set]
    | some d =>
      have hty : sconf_type n ≠ asked_type ty (s :: rest) := by
        rcases asked_type_container ty s rest with h | h <;> rw [h] <;> omega
      have := set_tokens_follows_get ty (some d) (s :: rest) pre root n (hg.1 hpre) hty
        (fun h => absurd h hpre)
      simp [sconf_set, htok, this]
  · obtain ⟨pidx', he⟩ := hg.2 s rest
    simp only [sconf_get, htok, he]
    exact get_continue_scalar n pidx' s rest hn3

/-- C5, an instance: `a.b` is a string and the path is `a.b.c.d`. -/
theorem sconf_interior_scalar_witness :
    sconf_set (some (.dict [("a".toList, .dict [("b".toList, .str "lol".toList)])]))
        (some "a.b.c.d".toList) SCONF_TYPE_INT (some ⟨[], 1, false, 0, none⟩) =
        some (-1, some (.dict [("a".toList, .dict [("b".toList, .str "lol".toList)])])) ∧
      sconf_get (some (.dict [("a".toList, .dict [("b".toList, .str "lol".toList)])]))
        (some "a.b.c.d".toList) =
        (if "c".toList.head? = some '[' ∧ ["d".toList] ≠ [] then (0, none) else (-1, none)) :=
  sconf_interior_scalar _ "a.b.c.d".toList ["a".toList, "b".toList] "c".toList ["d".toList]
    (.str "lol".toList) SCONF_TYPE_INT (some ⟨[], 1, false, 0, none⟩) (by decide) (by decide) rfl
    (by decide)

/-- C5 as stated fails: `a` resolves to an integer and the path is `a.[0].b`,
yet `sconf_get` returns `0`, not `-1`. -/
theorem sconf_interior_scalar_bracket_not_found :
    spec_resolve (.dict [("a".toList, .int 1)]) ["a".toList] = some (.int 1) ∧
      sconf_get (some (.dict [("a".toList, .int 1)])) (some "a.[0].b".toList) = (0, none) :=
  ⟨rfl, rfl⟩

/-- C6 (amended): container-kind mismatch. For every root and path, when the
segments before a bracketed segment resolve to an existing dictionary and the
bracketed segment is followed by another segment, `sconf_get` returns `0` (not
found), never `-1` and never `1`. -/
theorem sconf_get_bracket_on_dict (root : SConfNode) (p : CStr) (pre : List CStr) (s r : CStr)
    (rest : List CStr) (n : SConfNode)
    (htok : strtok_r p [] = pre ++ s :: r :: rest)
    (hres : spec_resolve root pre = some n)
    (hn : sconf_type n = SCONF_TYPE_DICT) (hs : s.head? = some '[') :
    sconf_get (some root) (some p) = (0, none) := by
  obtain ⟨pidx', he⟩ := (get_tokens_of_resolve root n pre hres).2 s (r :: rest)
  simp only [sconf_get, htok, he]
  exact get_continue_dict_bracket n pidx' s r rest hn hs

/-- C6, an instance: `a.[0].b` where `a` is a dictionary, even one that holds
an entry named `[0]`. -/
theorem sconf_get_bracket_on_dict_witness :
    sconf_get (some (.dict [("a".toList, .dict [("[0]".toList, .dict [])])]))
      (some "a.[0].b".toList) = (0, none) :=
  sconf_get_bracket_on_dict _ "a.[0].b".toList ["a".toList] "[0]".toList "b".toList []
    (.dict [("[0]".toList, .dict [])]) (by decide) rfl rfl (by decide)

/-- C6 as stated fails: a bracketed segment applied to the dictionary `a`
gives `0`, interior or final, and a plain name applied to the array `a` gives
`1` with the entry at index 0; none of them gives `-1`. -/
theorem sconf_get_kind_mismatch_no_error :
    sconf_get (some (.dict [("a".toList, .dict [])])) (some "a.[0].b".toList) = (0, none) ∧
      sconf_get (some (.dict [("a".toList, .dict [])])) (some "a.[0]".toList) = (0, none) ∧
      sconf_get (some (.dict [("a".toList, .array [some (.int 7)])])) (some "a.x".toList) =
        (1, some (.int 7)) :=
  ⟨rfl, rfl, rfl⟩
/-- C3 (amended): overwrite, not duplication. For every root, every path
whose first segment, when the root is a dictionary, does not begin with `[`
unless it is the only segment, and every scalar type: after a `sconf_set` of
a first value that returns `0` and a `sconf_set` of a second value that returns
`0`, the second value, when it is a string, not being passed by a pointer into
the buffer that the second call frees (`freed` is `none`),
`sconf_get` returns `1` with a node of that type holding the second value,
and the tree has the same entries as after the first set: the same names in
every dictionary, the same size and occupied indices in every array, the
same node types, the parent container of the path among them. -/
theorem sconf_set_overwrite (root : SConfNode) (p : CStr) (ty : Nat) (d1 d2 : SConfData)
    (root1 root2 : SConfNode)
    (hT : ty = SCONF_TYPE_STR ∨ ty = SCONF_TYPE_INT ∨ ty = SCONF_TYPE_BOOL ∨
      ty = SCONF_TYPE_FLOAT)
    (hpath : sconf_type root = SCONF_TYPE_DICT →
      ((strtok_r p []).head?.bind List.head?) = some '[' → (strtok_r p []).length ≤ 1)
    (hfree : ty = SCONF_TYPE_STR → d2.freed = none)
    (h1 : sconf_set (some root) (some p) ty (some d1) = some (0, some root1))
    (h2 : sconf_set (some root1) (some p) ty (some d2) = some (0, some root2)) :
    (∃ n, sconf_get (some root2) (some p) = (1, some n) ∧ sconf_type n = ty ∧
      (ty = SCONF_TYPE_STR → n = .str d2.string) ∧
      (ty = SCONF_TYPE_INT → n = .int d2.integer) ∧
      (ty = SCONF_TYPE_BOOL → n = .bool d2.boolean) ∧
      (ty = SCONF_TYPE_FLOAT → n = .float d2.fp)) ∧
      root2.shape = root1.shape := by
  have h3 : 3 ≤ ty := by rcases hT with h | h | h | h <;> subst h <;> decide
  have h6 : ty ≤ 6 := by rcases hT with h | h | h | h <;> subst h <;> decide
  rw [sconf_set_some] at h1 h2
  have hty1 : sconf_type root1 = sconf_type root := set_loop_type _ _ _ _ _ _ _ _ h1
  obtain ⟨n, hg, hc⟩ := roundtrip_tokens ty d2 h3 h6 hfree root1 root2 _ h2
    (fun hd => hpath (by rw [← hty1]; exact hd))
  exact ⟨⟨n, by simpa [sconf_get] using hg, create_scalar_payload ty d2 n hc⟩,
    overwrite_loop ty _ _ _ _ _ _ _ _ h1 h2⟩

/-- C3, an instance: the string `pw` set twice on the empty dictionary. -/
theorem sconf_set_overwrite_witness :
    (∃ n, sconf_get (some (.dict [("pw".toList, .str "new".toList)])) (some "pw".toList) =
        (1, some n) ∧ sconf_type n = SCONF_TYPE_STR ∧
      (SCONF_TYPE_STR = SCONF_TYPE_STR → n = .str "new".toList) ∧
      (SCONF_TYPE_STR = SCONF_TYPE_INT → n = .int 0) ∧
      (SCONF_TYPE_STR = SCONF_TYPE_BOOL → n = .bool false) ∧
      (SCONF_TYPE_STR = SCONF_TYPE_FLOAT → n = .float 0)) ∧
      (SConfNode.dict [("pw".toList, .str "new".toList)]).shape =
        (SConfNode.dict [("pw".toList, .str "old".toList)]).shape :=
  sconf_set_overwrite (.dict []) "pw".toList SCONF_TYPE_STR ⟨"old".toList, 0, false, 0, none⟩
    ⟨"new".toList, 0, false, 0, none⟩ _ _ (by decide) (by decide) (fun _ => rfl) rfl rfl

/-- The pointer that `sconf_get_str` returns for a path, passed to
`sconf_set_str` for the same path: `sconf_node_str_init` frees the buffer of the
node and `strdup` reads it afterwards. The call returns 0 and the node holds
what was read from the freed memory (here nothing), not the text that was at
the pointer when the call was made. A pointer to another buffer with the same
text stores the text. -/
theorem sconf_set_str_freed_buffer_example :
    sconf_get_str (some (.dict [("a".toList, .str "old".toList)])) (some "a".toList) =
      (1, some "old".toList) ∧
    sconf_set_str (.dict [("a".toList, .str "old".toList)]) (some "a".toList)
        (some "old".toList) (some []) = some (0, .dict [("a".toList, .str [])]) ∧
    sconf_set_str (.dict [("a".toList, .str "old".toList)]) (some "a".toList)
        (some "old".toList) none = some (0, .dict [("a".toList, .str "old".toList)]) :=
  ⟨rfl, rfl, rfl⟩

/-- C3 as stated fails: on the empty dictionary and the path `[1].pw`, both
calls of `sconf_set` return `0`, and `sconf_get` then returns `0`, not the
second value. -/
theorem sconf_set_overwrite_bracket_first :
    sconf_set (some (.dict [])) (some "[1].pw".toList) SCONF_TYPE_STR
        (some ⟨"old".toList, 0, false, 0, none⟩) =
        some (0, some (.dict [("[1]".toList, .dict [("pw".toList, .str "old".toList)])])) ∧
      sconf_set (some (.dict [("[1]".toList, .dict [("pw".toList, .str "old".toList)])]))
        (some "[1].pw".toList) SCONF_TYPE_STR (some ⟨"new".toList, 0, false, 0, none⟩) =
        some (0, some (.dict [("[1]".toList, .dict [("pw".toList, .str "new".toList)])])) ∧
      sconf_get (some (.dict [("[1]".toList, .dict [("pw".toList, .str "new".toList)])]))
        (some "[1].pw".toList) = (0, none) :=
  ⟨rfl, rfl, rfl⟩

/-- The three results of `sconf_get`: found with the node, not found, error. -/
theorem get_loop_cases (toks : List CStr) :
    ∀ (parent : SConfNode) (pidx : Nat) (curr : Option CStr),
      (∃ n, sconf_get_loop parent pidx curr toks = (1, some n)) ∨
        sconf_get_loop parent pidx curr toks = (0, none) ∨
        sconf_get_loop parent pidx curr toks = (-1, none) := by
  induction toks with
  | nil =>
    intro parent pidx curr
    rw [get_loop_nil_eq]
    split
    · simp
    · split <;> simp
  | cons next rest ih =>
    intro parent pidx curr
    simp only [sconf_get_loop]
    split
    · rename_i rc hd
      cases curr with
      | none => simp [sconf_get_descend] at hd
      | some c =>
        rw [get_descend_eq] at hd
        split_ifs at hd
        · cases hd; simp
        · split at hd
          · cases hd; simp
          · split at hd
            · cases hd; simp
            · cases hd
    · split_ifs
      · simp
      · exact ih _ _ _
      · exact ih _ _ _

theorem sconf_get_cases (root : Option SConfNode) (path : Option CStr) :
    (∃ n, sconf_get root path = (1, some n)) ∨ sconf_get root path = (0, none) ∨
      sconf_get root path = (-1, none) := by
  cases root with
  | none => simp [sconf_get]
  | some r =>
    cases path with
    | none => simp [sconf_get]
    | some p => exact get_loop_cases _ _ _ _

/-- C7: the typed getters never coerce. For each of `sconf_get_str`,
`sconf_get_int`, `sconf_get_bool` and `sconf_get_float`: it returns `1` with the
stored value when `sconf_get` finds a node of its type, `-1` when `sconf_get`
finds a node of any other type, and the result of `sconf_get` (`0` or `-1`)
otherwise; `sconf_get` has no other result than these three. -/
theorem sconf_get_typed (root : Option SConfNode) (path : Option CStr) :
    ((∀ s, sconf_get root path = (1, some (.str s)) → sconf_get_str root path = (1, some s)) ∧
      (∀ n, sconf_get root path = (1, some n) → sconf_type n ≠ SCONF_TYPE_STR →
        sconf_get_str root path = (-1, none)) ∧
      (sconf_get root path = (0, none) → sconf_get_str root path = (0, none)) ∧
      (sconf_get root path = (-1, none) → sconf_get_str root path = (-1, none))) ∧
    ((∀ i, sconf_get root path = (1, some (.int i)) → sconf_get_int root path = (1, some i)) ∧
      (∀ n, sconf_get root path = (1, some n) → sconf_type n ≠ SCONF_TYPE_INT →
        sconf_get_int root path = (-1, none)) ∧
      (sconf_get root path = (0, none) → sconf_get_int root path = (0, none)) ∧
      (sconf_get root path = (-1, none) → sconf_get_int root path = (-1, none))) ∧
    ((∀ b, sconf_get root path = (1, some (.bool b)) →
        sconf_get_bool root path = (1, some b)) ∧
      (∀ n, sconf_get root path = (1, some n) → sconf_type n ≠ SCONF_TYPE_BOOL →
        sconf_get_bool root path = (-1, none)) ∧
      (sconf_get root path = (0, none) → sconf_get_bool root path = (0, none)) ∧
      (sconf_get root path = (-1, none) → sconf_get_bool root path = (-1, none))) ∧
    ((∀ f, sconf_get root path = (1, some (.float f)) →
        sconf_get_float root path = (1, some f)) ∧
      (∀ n, sconf_get root path = (1, some n) → sconf_type n ≠ SCONF_TYPE_FLOAT →
        sconf_get_float root path = (-1, none)) ∧
      (sconf_get root path = (0, none) → sconf_get_float root path = (0, none)) ∧
      (sconf_get root path = (-1, none) → sconf_get_float root path = (-1, none))) ∧
    ((∃ n, sconf_get root path = (1, some n)) ∨ sconf_get root path = (0, none) ∨
      sconf_get root path = (-1, none)) := by
  refine ⟨⟨?_, ?_, ?_, ?_⟩, ⟨?_, ?_, ?_, ?_⟩, ⟨?_, ?_, ?_, ?_⟩, ⟨?_, ?_, ?_, ?_⟩,
    sconf_get_cases root path⟩
  all_goals first
    | (intro n h hn
       cases n <;>
         simp [sconf_get_str, sconf_get_int, sconf_get_bool, sconf_get_float, h] at hn ⊢)
    | (intro x h; simp [sconf_get_str, sconf_get_int, sconf_get_bool, sconf_get_float, h])
    | (intro h; simp [sconf_get_str, sconf_get_int, sconf_get_bool, sconf_get_float, h])

/-- C7, an instance: the integer `a` read as a string, as an integer, and a
missing `b` read as a boolean. -/
theorem sconf_get_typed_witness :
    sconf_get_str (some (.dict [("a".toList, .int 1814)])) (some "a".toList) = (-1, none) ∧
      sconf_get_int (some (.dict [("a".toList, .int 1814)])) (some "a".toList) =
        (1, some 1814) ∧
      sconf_get_bool (some (.dict [("a".toList, .int 1814)])) (some "b".toList) = (0, none) :=
  ⟨(sconf_get_typed _ _).1.2.1 _ rfl (by decide), (sconf_get_typed _ _).2.1.1 _ rfl,
    (sconf_get_typed _ _).2.2.1.2.2.1 rfl⟩

/-- C8: at a path of 20 segments whose second segment is the index
`4294967295`, `sconf_set` does not return `-1`: before the depth check is
reached, `sconf_array_insert` reads `entries[4294967295]` of a store of size 1
(`index + 1` wraps to `0`, so the grow step does nothing), and the call has no
defined result. -/
theorem sconf_set_depth_cap_out_of_bounds :
    (strtok_r "a.[4294967295].c.d.e.f.g.h.i.j.k.l.m.n.o.p.q.r.s.t".toList []).length = 20 ∧
      sconf_set (some (.dict []))
        (some "a.[4294967295].c.d.e.f.g.h.i.j.k.l.m.n.o.p.q.r.s.t".toList) SCONF_TYPE_STR
        (some ⟨"meh".toList, 0, false, 0, none⟩) = none :=
  ⟨rfl, rfl⟩

/-- C9: on the index segment `[4294967296]`, whose value is above the capacity
ceiling, `sconf_set` returns `0` and stores the node at index `0`: the parsed
`long` is narrowed to `uint32_t` without a range check. -/
theorem sconf_set_index_above_ceiling_stored :
    sconf_set (some (.array [none])) (some "[4294967296]".toList) SCONF_TYPE_STR
        (some ⟨"meh".toList, 0, false, 0, none⟩) =
      some (0, some (.array [some (.str "meh".toList)])) :=
  rfl

/-- C10: the segments `[1x]` and `[ +1y]`, which are not `[`, digits, `]`, are
accepted on an array as the index `1`: `strtol` skips white space and a sign
and stops at the first character that is not a digit, and only the last
character of the segment is compared with `]`. -/
theorem sconf_index_literal_not_strict :
    sconf_set (some (.dict [])) (some "arr.[1x]".toList) SCONF_TYPE_BOOL
        (some ⟨[], 0, true, 0, none⟩) =
        some (0, some (.dict [("arr".toList, .array [none, some (.bool true)])])) ∧
      sconf_get (some (.dict [("arr".toList, .array [none, some (.bool true)])]))
        (some "arr.[ +1y]".toList) = (1, some (.bool true)) :=
  ⟨rfl, rfl⟩
/-- The depth check of `sconf_set`: when the loop is entered at depth `depth`
with tokens that take it to depth 20 or beyond, a call that returns returns
`-1`. -/
theorem set_loop_depth_cap (ty : Nat) (v : Option SConfData) (toks : List CStr) :
    ∀ (parent : SConfNode) (curr : Option CStr) (depth : Nat) (rc : Int) (parent' : SConfNode),
      toks ≠ [] → 21 ≤ depth + toks.length →
      sconf_set_loop ty v parent curr depth toks = some (rc, parent') → rc = -1 := by
  induction toks with
  | nil => intro _ _ _ _ _ h; exact absurd rfl h
  | cons next rest ih =>
    intro parent curr depth rc parent' _ hlen h
    simp only [List.length_cons] at hlen
    have hrest : ¬ depth ≥ SCONF_MAX_DEPTH → rest ≠ [] ∧ 21 ≤ depth + 1 + rest.length := by
      intro hd
      simp only [SCONF_MAX_DEPTH, ge_iff_le, not_le] at hd
      refine ⟨?_, by omega⟩
      intro he
      rw [he] at hlen
      simp at hlen
      omega
    cases curr with
    | none =>
      simp only [sconf_set_loop] at h
      split_ifs at h with hd
      · simp at h; exact h.1.symm
      · exact ih _ _ _ _ _ (hrest hd).1 (hrest hd).2 h
    | some c =>
      simp only [sconf_set_loop] at h
      split at h
      · cases h
      · split at h
        · simp at h; exact h.1.symm
        · split_ifs at h with hd
          · simp at h; exact h.1.symm
          · split at h
            · cases h
            · rename_i rc' child' hrec
              simp at h
              rw [← h.1]
              exact ih _ _ _ _ _ (hrest hd).1 (hrest hd).2 hrec

/-- The depth cap of `sconf_set`: on a path of 20 or more segments a call
either has no defined result (an access outside an array store on the way) or
returns `-1`, for every root, type and value. -/
theorem sconf_set_depth_cap (root : Option SConfNode) (p : CStr) (ty : Nat)
    (v : Option SConfData) (hn : 20 ≤ (strtok_r p []).length) :
    sconf_set root (some p) ty v = none ∨
      ∃ root', sconf_set root (some p) ty v = some (-1, root') := by
  cases h : sconf_set root (some p) ty v with
  | none => exact Or.inl rfl
  | some x =>
    obtain ⟨rc, root'⟩ := x
    refine Or.inr ⟨root', ?_⟩
    have hrc : rc = -1 := by
      cases root with
      | none => simp [sconf_set] at h; exact h.1.symm
      | some r =>
        cases v with
        | none => simp [sconf_set] at h; exact h.1.symm
        | some d =>
          simp only [sconf_set, Option.map_eq_some'] at h
          obtain ⟨x, hx, hpair⟩ := h
          simp only [Prod.mk.injEq] at hpair
          rw [← hpair.1]
          refine set_loop_depth_cap ty (some d) _ r none 1 x.1 x.2 ?_ (by omega) hx
          intro he
          rw [he] at hn
          simp at hn
    rw [hrc]

/-- Plain names on an empty dictionary: below the depth cap the loop of
`sconf_set` creates every dictionary and the leaf, and returns `0`. -/
theorem set_loop_plain_names (ty : Nat) (d : SConfData) (h3 : 3 ≤ ty) (h6 : ty ≤ 6)
    (toks : List CStr) :
    ∀ (c : CStr) (depth : Nat),
      (∀ t ∈ toks, t.head? ≠ some '[') → depth + toks.length ≤ 20 →
      ∃ parent', sconf_set_loop ty (some d) (.dict []) (some c) depth toks =
        some (0, parent') := by
  have hcreate : ∃ leaf, sconf_node_create ty (some d) = some (some leaf) := by
    have : ty = 3 ∨ ty = 4 ∨ ty = 5 ∨ ty = 6 := by omega
    rcases this with h | h | h | h <;> subst h <;>
      simp [sconf_node_create, sconf_node_str_init, sconf_node_int_init,
        sconf_node_bool_init, sconf_node_float_init]
  induction toks with
  | nil =>
    intro c depth _ _
    obtain ⟨leaf, hleaf⟩ := hcreate
    simp [sconf_set_loop, create_and_insert_eq, set_slot, SConfNode.fetch, art_search, hleaf,
      insert_at]
  | cons next rest ih =>
    intro c depth hplain hlen
    have hnext : next.head? ≠ some '[' := hplain next (List.mem_cons_self _ _)
    simp only [List.length_cons] at hlen
    obtain ⟨child', hrec⟩ := ih next (depth + 1)
      (fun t ht => hplain t (List.mem_cons_of_mem _ ht)) (by omega)
    have hd : ¬ depth ≥ SCONF_MAX_DEPTH := by
      simp only [SCONF_MAX_DEPTH, ge_iff_le, not_le]; omega
    simp [sconf_set_loop, create_and_insert_eq, set_slot, SConfNode.fetch, art_search,
      sconf_node_create, insert_at, hnext, hd, hrec]

/-- Below the depth cap: on the empty dictionary, a path of 1 to 19 plain
names is set with return value `0`, for every scalar type and value. -/
theorem sconf_set_plain_names (p : CStr) (ty : Nat) (d : SConfData)
    (hT : ty = SCONF_TYPE_STR ∨ ty = SCONF_TYPE_INT ∨ ty = SCONF_TYPE_BOOL ∨
      ty = SCONF_TYPE_FLOAT)
    (hplain : ∀ t ∈ strtok_r p [], t.head? ≠ some '[')
    (h1 : 1 ≤ (strtok_r p []).length) (h19 : (strtok_r p []).length ≤ 19) :
    ∃ root', sconf_set (some (.dict [])) (some p) ty (some d) = some (0, some root') := by
  have h3 : 3 ≤ ty := by rcases hT with h | h | h | h <;> subst h <;> decide
  have h6 : ty ≤ 6 := by rcases hT with h | h | h | h <;> subst h <;> decide
  cases htok : strtok_r p [] with
  | nil => rw [htok] at h1; simp at h1
  | cons t rest =>
    rw [htok] at hplain h19
    simp only [List.length_cons] at h19
    obtain ⟨root', hrec⟩ := set_loop_plain_names ty d h3 h6 rest t 2
      (fun t ht => hplain t (List.mem_cons_of_mem _ ht)) (by omega)
    refine ⟨root', ?_⟩
    simp [sconf_set, htok, sconf_set_loop, hrec]
theorem strtok_r_no_delim (s : CStr) : ∀ acc : CStr, '.' ∉ s → (acc ≠ [] ∨ s ≠ []) →
    strtok_r s acc = [acc.reverse ++ s] := by
  induction s with
  | nil =>
    intro acc _ hne
    have : acc ≠ [] := by rcases hne with h | h; exact h; exact absurd rfl h
    simp [strtok_r, this]
  | cons c cs ih =>
    intro acc hdot _
    have hc : c ≠ '.' := fun h => hdot (by simp [h])
    have hcs : '.' ∉ cs := fun h => hdot (List.mem_cons_of_mem _ h)
    simp only [strtok_r, hc, if_false]
    rw [ih (c :: acc) hcs (Or.inl (by simp))]
    simp

theorem not_mem_digits (ds : List Char) (h : ds.all isdigit = true) : '.' ∉ ds := by
  intro hmem
  have := (List.all_eq_true.mp h) '.' hmem
  revert this
  decide

/-- An index segment of the path syntax is a path of one segment. -/
theorem strtok_r_index_segment (seg : CStr) (n : Nat) (h : spec_index seg = some n) :
    strtok_r seg [] = [seg] := by
  have hdot : '.' ∉ seg := by
    unfold spec_index at h
    split at h
    · rename_i body
      split_ifs at h with hb
      obtain ⟨hlast, _, hd⟩ := hb
      have hbody : body = body.dropLast ++ [']'] :=
        (List.dropLast_append_getLast? ']' (by simpa using hlast)).symm
      intro hmem
      rw [hbody] at hmem
      simp only [List.mem_cons, List.mem_append, List.mem_singleton] at hmem
      rcases hmem with h1 | h2 | h3
      · revert h1; decide
      · exact not_mem_digits _ hd h2
      · revert h3; decide
    · cases h
  have hne : seg ≠ [] := by
    intro he; rw [he] at h; simp [spec_index] at h
  simpa using strtok_r_no_delim seg [] hdot (Or.inr hne)

/-- The store after `sconf_array_insert` into an empty slot at an index of at
most 65535. -/
theorem array_insert_empty (a : SConfArray) (n : Nat) (leaf : SConfNode)
    (hempty : a.getD n none = none) (hn : n ≤ 65535) :
    ∃ a', sconf_array_insert a n (some leaf) = some (0, a') ∧ a'.getD n none = some leaf := by
  have hmod : (n + 1) % UINT32_MOD = n + 1 :=
    Nat.mod_eq_of_lt (by simp only [UINT32_MOD]; omega)
  have hgrow : ∃ g, sconf_array_grow a (n + 1) = (0, g) ∧ n < g.length ∧
      g.getD n none = none := by
    unfold sconf_array_grow
    by_cases hlen : a.length ≥ n + 1
    · exact ⟨a, by rw [if_pos hlen], by omega, hempty⟩
    · have hcap : ¬ n + 1 > SCONF_ARRAY_MAX_SIZE := by simp only [SCONF_ARRAY_MAX_SIZE]; omega
      refine ⟨a ++ List.replicate (n + 1 - a.length) none, by rw [if_neg hlen, if_neg hcap],
        by simp; omega, ?_⟩
      rw [List.getD_eq_getElem?_getD, List.getElem?_append_right (by omega)]
      simp only [List.getElem?_replicate]
      split_ifs <;> rfl
  obtain ⟨g, hg, hlt, hgn⟩ := hgrow
  refine ⟨g.set n (some leaf), ?_, ?_⟩
  · unfold sconf_array_insert
    simp only [hmod, hg, ne_eq, not_true_eq_false, if_false, hlt, if_true, hgn]
  · rw [List.getD_eq_getElem?_getD, List.getElem?_set]
    simp [hlt]

/-- The store is left alone by `sconf_array_insert` at an index from its size
and from 65536 on, up to `2 ^ 32 - 2`. -/
theorem array_insert_full (a : SConfArray) (n : Nat) (leaf : SConfNode)
    (hlo : 65536 ≤ n) (hhi : n + 1 < UINT32_MOD) (hlen : a.length ≤ n) :
    sconf_array_insert a n (some leaf) = some (-1, a) := by
  have hmod : (n + 1) % UINT32_MOD = n + 1 := Nat.mod_eq_of_lt hhi
  have h1 : ¬ a.length ≥ n + 1 := by omega
  have h2 : n + 1 > SCONF_ARRAY_MAX_SIZE := by simp only [SCONF_ARRAY_MAX_SIZE]; omega
  unfold sconf_array_insert sconf_array_grow
  simp only [hmod, if_neg h1, if_pos h2]
  simp

theorem sconf_set_index_segment_eq (a : SConfArray) (seg : CStr) (n : Nat) (ty : Nat)
    (d : SConfData) (leaf : SConfNode) (hseg : spec_index seg = some n)
    (hfit : n < UINT32_MOD) (hleaf : sconf_node_create ty (some d) = some (some leaf))
    (hempty : a.getD n none = none) :
    sconf_set (some (.array a)) (some seg) ty (some d) =
      (sconf_array_insert a n (some leaf)).map
        (fun x => (if x.1 = -1 then -1 else 0, some (.array x.2))) := by
  have hparse := index_from_string_of_spec seg n hseg hfit
  have hslot : set_slot (.array a) (some seg) = some (.index n) := by
    simp [set_slot, spec_index_head _ _ hseg, hparse]
  have hd : ¬ (1 ≥ SCONF_MAX_DEPTH) := by decide
  simp only [sconf_set, strtok_r_index_segment seg n hseg, sconf_set_loop, hd, if_false,
    create_and_insert_eq, hslot, SConfNode.fetch, hempty, hleaf, insert_at]
  cases sconf_array_insert a n (some leaf) with
  | none => rfl
  | some x =>
    by_cases hx : x.1 = -1 <;> simp [hx]

/-- Below the capacity ceiling: on an array, an index segment with a value of
at most 65535 whose slot is empty is set with return value `0`, and the slot
then holds the node built from the value. -/
theorem sconf_set_index_below_ceiling (a : SConfArray) (seg : CStr) (n : Nat) (ty : Nat)
    (d : SConfData)
    (hT : ty = SCONF_TYPE_STR ∨ ty = SCONF_TYPE_INT ∨ ty = SCONF_TYPE_BOOL ∨
      ty = SCONF_TYPE_FLOAT)
    (hseg : spec_index seg = some n) (hn : n ≤ 65535) (hempty : a.getD n none = none) :
    ∃ a' leaf, sconf_set (some (.array a)) (some seg) ty (some d) =
        some (0, some (.array a')) ∧
      sconf_node_create ty (some d) = some (some leaf) ∧ a'.getD n none = some leaf := by
  have hcreate : ∃ leaf, sconf_node_create ty (some d) = some (some leaf) := by
    rcases hT with h | h | h | h <;> subst h <;>
      simp [sconf_node_create, sconf_node_str_init, sconf_node_int_init,
        sconf_node_bool_init, sconf_node_float_init]
  obtain ⟨leaf, hleaf⟩ := hcreate
  obtain ⟨a', hins, hget⟩ := array_insert_empty a n leaf hempty hn
  refine ⟨a', leaf, ?_, hleaf, hget⟩
  rw [sconf_set_index_segment_eq a seg n ty d leaf hseg (by simp only [UINT32_MOD]; omega)
    hleaf hempty, hins]
  simp

/-- At the capacity ceiling: on an array of at most 65536 entries, an index
segment with a value from 65536 to `2 ^ 32 - 2` makes `sconf_set` return `-1`
and leaves the array as it was. -/
theorem sconf_set_index_at_ceiling (a : SConfArray) (seg : CStr) (n : Nat) (ty : Nat)
    (d : SConfData)
    (hT : ty = SCONF_TYPE_STR ∨ ty = SCONF_TYPE_INT ∨ ty = SCONF_TYPE_BOOL ∨
      ty = SCONF_TYPE_FLOAT)
    (hseg : spec_index seg = some n) (hlo : 65536 ≤ n) (hhi : n + 1 < UINT32_MOD)
    (hlen : a.length ≤ SCONF_ARRAY_MAX_SIZE) :
    sconf_set (some (.array a)) (some seg) ty (some d) = some (-1, some (.array a)) := by
  have hcreate : ∃ leaf, sconf_node_create ty (some d) = some (some leaf) := by
    rcases hT with h | h | h | h <;> subst h <;>
      simp [sconf_node_create, sconf_node_str_init, sconf_node_int_init,
        sconf_node_bool_init, sconf_node_float_init]
  obtain ⟨leaf, hleaf⟩ := hcreate
  simp only [SCONF_ARRAY_MAX_SIZE] at hlen
  have hempty : a.getD n none = none := getD_eq_none_of_le a n (by omega)
  rw [sconf_set_index_segment_eq a seg n ty d leaf hseg (by omega) hleaf hempty,
    array_insert_full a n leaf hlo hhi (by omega)]
  simp

/-- An instance of the depth cap: 20 plain names on the empty dictionary. -/
theorem sconf_set_depth_cap_example :
    sconf_set (some (.dict [])) (some "b.b.c.d.e.f.g.h.i.j.k.l.m.n.o.p.q.r.s.t".toList)
        SCONF_TYPE_STR (some ⟨"lol".toList, 0, false, 0, none⟩) = none ∨
      ∃ root', sconf_set (some (.dict []))
        (some "b.b.c.d.e.f.g.h.i.j.k.l.m.n.o.p.q.r.s.t".toList) SCONF_TYPE_STR
        (some ⟨"lol".toList, 0, false, 0, none⟩) = some (-1, root') :=
  sconf_set_depth_cap _ _ _ _ (by decide)

/-- An instance below the depth cap: 19 plain names on the empty dictionary. -/
theorem sconf_set_plain_names_example :
    ∃ root', sconf_set (some (.dict [])) (some "a.b.c.d.e.f.g.h.i.j.k.l.m.n.o.p.q.r.s".toList)
      SCONF_TYPE_STR (some ⟨"meh".toList, 0, false, 0, none⟩) = some (0, some root') :=
  sconf_set_plain_names _ _ _ (by decide) (by decide) (by decide) (by decide)

/-- An instance below the capacity ceiling: index 50 of a fresh array. -/
theorem sconf_set_index_below_ceiling_example :
    ∃ a' leaf, sconf_set (some (.array [none])) (some "[50]".toList) SCONF_TYPE_STR
        (some ⟨"foop".toList, 0, false, 0, none⟩) = some (0, some (.array a')) ∧
      sconf_node_create SCONF_TYPE_STR (some ⟨"foop".toList, 0, false, 0, none⟩) =
        some (some leaf) ∧ a'.getD 50 none = some leaf :=
  sconf_set_index_below_ceiling [none] "[50]".toList 50 SCONF_TYPE_STR _ (by decide) rfl
    (by decide) rfl

/-- An instance at the capacity ceiling: index 65536 of a fresh array. -/
theorem sconf_set_index_at_ceiling_example :
    sconf_set (some (.array [none])) (some "[65536]".toList) SCONF_TYPE_STR
      (some ⟨"meh".toList, 0, false, 0, none⟩) = some (-1, some (.array [none])) :=
  sconf_set_index_at_ceiling [none] "[65536]".toList 65536 SCONF_TYPE_STR _ (by decide) rfl
    (by decide) (by decide) (by decide)
/-- What the index parser does reject: a segment whose last character is not
`]`, and a segment whose first character after `[` is neither white space,
nor a sign, nor a digit (the closing bracket of `[]` among them). -/
theorem index_from_string_rejects (j : Nat) :
    (∀ seg : CStr, seg.getLast? ≠ some ']' →
      sconf_array_get_index_from_string seg j = (-1, j)) ∧
    (∀ (c : Char) (rest : CStr), isdigit c = false → isspace c = false → c ≠ '+' → c ≠ '-' →
      sconf_array_get_index_from_string ('[' :: c :: rest) j = (-1, j)) := by
  constructor
  · intro seg h
    unfold sconf_array_get_index_from_string
    rw [if_pos (Or.inr h)]
  · intro c rest hd hs hp hm
    have hst : strtol (c :: rest) = ⟨0, 0, false⟩ := by
      have hws : (c :: rest).takeWhile isspace = [] := by simp [List.takeWhile, hs]
      have hdw : (c :: rest).dropWhile isspace = c :: rest := by simp [List.dropWhile, hs]
      have htw : (c :: rest).takeWhile isdigit = [] := by simp [List.takeWhile, hd]
      unfold strtol
      simp only [hws, hdw, List.head?_cons, Option.some.injEq, hm, hp, or_self, if_false,
        List.drop_zero, htw, if_true]
    unfold sconf_array_get_index_from_string
    simp only [List.drop_one, List.tail_cons, hst]
    split_ifs <;> simp

/-- The malformed index segments of the tests: `[]`, `[14` and `[a]`. -/
theorem index_from_string_rejects_example :
    sconf_array_get_index_from_string "[]".toList 0 = (-1, 0) ∧
      sconf_array_get_index_from_string "[14".toList 0 = (-1, 0) ∧
      sconf_array_get_index_from_string "[a]".toList 0 = (-1, 0) :=
  ⟨(index_from_string_rejects 0).2 ']' [] (by decide) (by decide) (by decide) (by decide),
    (index_from_string_rejects 0).1 _ (by decide),
    (index_from_string_rejects 0).2 'a' "]".toList (by decide) (by decide) (by decide)
      (by decide)⟩

/-! ### Iteration over arrays -/

theorem mem_array_occupied (l : List (Option SConfNode)) (i j : Nat) (n : SConfNode) :
    (j, n) ∈ array_occupied l i ↔ i ≤ j ∧ l.getD (j - i) none = some n := by
  induction l generalizing i with
  | nil => simp [array_occupied]
  | cons h t ih =>
    cases h with
    | none =>
      simp only [array_occupied, ih]
      constructor
      · rintro ⟨h1, h2⟩
        refine ⟨by omega, ?_⟩
        have : j - i = (j - (i + 1)) + 1 := by omega
        rw [this]
        simpa using h2
      · rintro ⟨h1, h2⟩
        by_cases hji : j = i
        · subst hji
          simp at h2
        · refine ⟨by omega, ?_⟩
          have : j - i = (j - (i + 1)) + 1 := by omega
          rw [this] at h2
          simpa using h2
    | some m =>
      simp only [array_occupied, List.mem_cons, Prod.mk.injEq, ih]
      constructor
      · rintro (⟨h1, h2⟩ | ⟨h1, h2⟩)
        · subst h1 h2
          simp
        · refine ⟨by omega, ?_⟩
          have : j - i = (j - (i + 1)) + 1 := by omega
          rw [this]
          simpa using h2
      · rintro ⟨h1, h2⟩
        by_cases hji : j = i
        · subst hji
          left
          simp at h2
          exact ⟨rfl, h2.symm⟩
        · right
          refine ⟨by omega, ?_⟩
          have : j - i = (j - (i + 1)) + 1 := by omega
          rw [this] at h2
          simpa using h2

theorem array_occupied_lower (l : List (Option SConfNode)) (i : Nat) :
    ∀ p ∈ array_occupied l i, i ≤ p.1 := by
  intro p hp
  obtain ⟨j, n⟩ := p
  exact ((mem_array_occupied l i j n).mp hp).1

theorem array_occupied_sorted (l : List (Option SConfNode)) (i : Nat) :
    (array_occupied l i).Pairwise (fun p q => p.1 < q.1) := by
  induction l generalizing i with
  | nil => simp [array_occupied]
  | cons h t ih =>
    cases h with
    | none => exact ih (i + 1)
    | some m =>
      simp only [array_occupied, List.pairwise_cons]
      refine ⟨?_, ih (i + 1)⟩
      intro q hq
      have := array_occupied_lower t (i + 1) q hq
      omega

/-- What the scan of `sconf_node_array_next` finds. -/
theorem array_next_scan_some (l : List (Option SConfNode)) (i j : Nat) (n : SConfNode)
    (h : array_next_scan l i = some (j, n)) :
    i ≤ j ∧ j < i + l.length ∧ l.getD (j - i) none = some n ∧
      (∀ k, k < j - i → l.getD k none = none) ∧
      array_occupied l i = (j, n) :: array_occupied (l.drop (j + 1 - i)) (j + 1) := by
  induction l generalizing i with
  | nil => simp [array_next_scan] at h
  | cons x t ih =>
    cases x with
    | none =>
      simp only [array_next_scan] at h
      obtain ⟨h1, h2, h3, h4, h5⟩ := ih (i + 1) h
      have e1 : j - i = (j - (i + 1)) + 1 := by omega
      have e2 : j + 1 - i = (j + 1 - (i + 1)) + 1 := by omega
      refine ⟨by omega, by simp only [List.length_cons]; omega, ?_, ?_, ?_⟩
      · rw [e1]
        simpa using h3
      · intro k hk
        cases k with
        | zero => rfl
        | succ k =>
          have := h4 k (by omega)
          simpa using this
      · rw [e2]
        simpa [array_occupied] using h5
    | some m =>
      simp only [array_next_scan, Option.some.injEq, Prod.mk.injEq] at h
      obtain ⟨h1, h2⟩ := h
      subst h1 h2
      refine ⟨le_refl _, by simp, by simp, ?_, ?_⟩
      · intro k hk
        omega
      · simp [array_occupied]

theorem array_next_scan_none (l : List (Option SConfNode)) (i : Nat)
    (h : array_next_scan l i = none) :
    (∀ k, l.getD k none = none) ∧ array_occupied l i = [] := by
  induction l generalizing i with
  | nil => simp [array_occupied]
  | cons x t ih =>
    cases x with
    | none =>
      simp only [array_next_scan] at h
      obtain ⟨h1, h2⟩ := ih (i + 1) h
      refine ⟨?_, by simpa [array_occupied] using h2⟩
      intro k
      cases k with
      | zero => rfl
      | succ k => simpa using h1 k
    | some m => simp [array_next_scan] at h

theorem getD_drop (l : List (Option SConfNode)) (c k : Nat) :
    (l.drop c).getD k none = l.getD (c + k) none := by
  simp [List.getD_eq_getElem?_getD, List.getElem?_drop]

/-- One call of `sconf_node_array_next` on an array. -/
theorem array_next_cases (a : SConfArray) (node : Option SConfNode) (c : Nat) :
    (∃ i n, c ≤ i ∧ i < a.length ∧ a.getD i none = some n ∧
        (∀ j, c ≤ j → j < i → a.getD j none = none) ∧
        array_occupied (a.drop c) c = (i, n) :: array_occupied (a.drop (i + 1)) (i + 1) ∧
        sconf_node_array_next (some (.array a)) node c = (1, some n, i + 1)) ∨
      ((∀ j, c ≤ j → a.getD j none = none) ∧ array_occupied (a.drop c) c = [] ∧
        sconf_node_array_next (some (.array a)) node c = (0, node, c)) := by
  cases h : array_next_scan (a.drop c) c with
  | none =>
    right
    obtain ⟨h1, h2⟩ := array_next_scan_none _ _ h
    refine ⟨?_, h2, by simp only [sconf_node_array_next, h]⟩
    intro j hj
    have := h1 (j - c)
    rw [getD_drop] at this
    rwa [show c + (j - c) = j by omega] at this
  | some p =>
    left
    obtain ⟨i, n⟩ := p
    obtain ⟨h1, h2, h3, h4, h5⟩ := array_next_scan_some _ _ _ _ h
    refine ⟨i, n, h1, ?_, ?_, ?_, ?_, by simp only [sconf_node_array_next, h]⟩
    · by_contra hlt
      rw [getD_drop, show c + (i - c) = i by omega,
        getD_eq_none_of_le a i (by omega)] at h3
      exact absurd h3 (by simp)
    · rwa [getD_drop, show c + (i - c) = i by omega] at h3
    · intro j hj1 hj2
      have := h4 (j - c) (by omega)
      rwa [getD_drop, show c + (j - c) = j by omega] at this
    · rw [h5, List.drop_drop]
      rw [show c + (i + 1 - c) = i + 1 by omega]

/-- The loop over `sconf_node_array_next` from a cursor, given more rounds than
entries are left. -/
theorem array_next_iterate_eq (a : SConfArray) (fuel c : Nat) (h : a.length - c < fuel) :
    array_next_iterate (some (.array a)) fuel c = (array_occupied (a.drop c) c, some 0) := by
  induction fuel generalizing c with
  | zero => omega
  | succ fuel ih =>
    rcases array_next_cases a none c with ⟨i, n, h1, h2, _, _, h5, h6⟩ | ⟨_, h2, h3⟩
    · simp only [array_next_iterate, h6, h5]
      rw [ih (i + 1) (by omega)]
      simp
    · simp only [array_next_iterate, h3, h2]

/-- The test `test_sconf_node_array_next_successful`: after integers are set at
`a.[0]`, `a.[1]` and `a.[3]` of an empty dictionary, the loop over
`sconf_node_array_next` visits three entries, at the indices 0, 1 and 3, and
ends with the return value 0. -/
theorem array_next_test_instance :
    ∃ r1 r2 r3 a,
      sconf_set (some (.dict [])) (some "a.[0]".toList) SCONF_TYPE_INT
        (some ⟨[], 1, false, 0, none⟩) = some (0, some r1) ∧
      sconf_set (some r1) (some "a.[1]".toList) SCONF_TYPE_INT
        (some ⟨[], 2, false, 0, none⟩) = some (0, some r2) ∧
      sconf_set (some r2) (some "a.[3]".toList) SCONF_TYPE_INT
        (some ⟨[], 3, false, 0, none⟩) = some (0, some r3) ∧
      sconf_get (some r3) (some "a".toList) = (1, some a) ∧
      array_next_iterate (some a) 5 0 = ([(0, .int 1), (1, .int 2), (3, .int 3)], some 0) :=
  ⟨_, _, _, _, rfl, rfl, rfl, rfl, rfl⟩

/-- C12: on an array node with the cursor at `c`, `sconf_node_array_next`
returns 1 with the node at the least occupied index `i` from `c` on and moves
the cursor to `i + 1`, or returns 0 and leaves the node and the cursor alone
when no index from `c` on is occupied, and returns 0 only then. The loop over
it from the cursor 0, given more rounds than the array has entries, ends with
the return value 0 after it visited the occupied entries: the pairs of an index
and the node stored there, each once, in increasing order of the index. -/
theorem sconf_node_array_next_iteration (a : SConfArray) (node : Option SConfNode) (c : Nat) :
    ((∃ i n, c ≤ i ∧ a.getD i none = some n ∧ (∀ j, c ≤ j → j < i → a.getD j none = none) ∧
        sconf_node_array_next (some (.array a)) node c = (1, some n, i + 1)) ∨
      ((∀ j, c ≤ j → a.getD j none = none) ∧
        sconf_node_array_next (some (.array a)) node c = (0, node, c))) ∧
    ((sconf_node_array_next (some (.array a)) node c).1 = 0 ↔
      ∀ j, c ≤ j → a.getD j none = none) ∧
    (∀ fuel, a.length < fuel →
      array_next_iterate (some (.array a)) fuel 0 = (array_occupied a 0, some 0)) ∧
    (∀ i n, (i, n) ∈ array_occupied a 0 ↔ a.getD i none = some n) ∧
    (array_occupied a 0).Pairwise (fun p q => p.1 < q.1) := by
  refine ⟨?_, ?_, ?_, ?_, array_occupied_sorted a 0⟩
  · rcases array_next_cases a node c with ⟨i, n, h1, _, h3, h4, _, h6⟩ | ⟨h1, _, h3⟩
    · exact Or.inl ⟨i, n, h1, h3, h4, h6⟩
    · exact Or.inr ⟨h1, h3⟩
  · rcases array_next_cases a node c with ⟨i, n, h1, _, h3, _, _, h6⟩ | ⟨h1, _, h3⟩
    · rw [h6]
      constructor
      · intro h
        exact absurd h (by simp)
      · intro h
        have := h i h1
        rw [h3] at this
        exact absurd this (by simp)
    · rw [h3]
      exact ⟨fun _ => h1, fun _ => rfl⟩
  · intro fuel h
    have := array_next_iterate_eq a fuel 0 (by omega)
    simpa using this
  · intro i n
    rw [mem_array_occupied]
    simp

theorem sconf_node_array_next_iteration_witness :
    array_next_iterate (some (.array [some (.int 1), some (.int 2), none, some (.int 3)])) 5 0 =
      (array_occupied [some (.int 1), some (.int 2), none, some (.int 3)] 0, some 0) :=
  (sconf_node_array_next_iteration [some (.int 1), some (.int 2), none, some (.int 3)]
    none 0).2.2.1 5 (by decide)

theorem array_foreach_loop_eq {σ : Type} (cb : Nat → SConfNode → σ → Int × σ)
    (l : List (Option SConfNode)) (i : Nat) (user : σ) :
    array_foreach_loop cb l i user = array_visit cb (array_occupied l i) user := by
  induction l generalizing i user with
  | nil => rfl
  | cons x t ih =>
    cases x with
    | none => simpa only [array_foreach_loop, array_occupied] using ih (i + 1) user
    | some n =>
      simp only [array_foreach_loop, array_occupied, array_visit]
      split_ifs with h
      · rfl
      · exact ih (i + 1) _

theorem array_foreach_eq {σ : Type} (cb : Nat → SConfNode → σ → Int × σ) (a : SConfArray)
    (user : σ) :
    sconf_node_array_foreach (some (.array a)) (some cb) user =
      array_visit cb (array_occupied a 0) user := by
  simp only [sconf_node_array_foreach]
  exact array_foreach_loop_eq cb a 0 user

/-- The calls a walk makes: they go through the entries in order, every call
before the last returned 0, and the walk ends with 0 when all entries were
visited and with -1 when the last call did not return 0. -/
theorem array_visit_logged {σ : Type} (cb : Nat → SConfNode → σ → Int × σ)
    (l : List (Nat × SConfNode)) (user : σ) (log : List (Nat × SConfNode × Int)) :
    ∃ calls, array_visit (logged_cb cb) l (user, log) =
        ((array_visit cb l user).1, (array_visit cb l user).2, log ++ calls) ∧
      calls.map call_entry <+: l ∧
      (((array_visit cb l user).1 = 0 ∧ calls.map call_entry = l ∧ ∀ c ∈ calls, c.2.2 = 0) ∨
        ((array_visit cb l user).1 = -1 ∧ ∃ init last, calls = init ++ [last] ∧
          last.2.2 ≠ 0 ∧ ∀ c ∈ init, c.2.2 = 0)) := by
  induction l generalizing user log with
  | nil =>
    refine ⟨[], by simp [array_visit], by simp, Or.inl ⟨rfl, rfl, by simp⟩⟩
  | cons p t ih =>
    obtain ⟨i, n⟩ := p
    by_cases h : (cb i n user).1 ≠ 0
    · refine ⟨[(i, n, (cb i n user).1)], ?_, ?_, Or.inr ⟨?_, [], (i, n, (cb i n user).1), rfl, h,
        by simp⟩⟩
      · simp only [array_visit, logged_cb, ne_eq, h, not_false_eq_true, if_true]
      · simp [call_entry]
      · simp only [array_visit, ne_eq, h, not_false_eq_true, if_true]
    · have h0 : (cb i n user).1 = 0 := not_not.mp h
      obtain ⟨calls, h1, h2, h3⟩ := ih (cb i n user).2 (log ++ [(i, n, (cb i n user).1)])
      have hv : array_visit cb ((i, n) :: t) user = array_visit cb t (cb i n user).2 := by
        simp only [array_visit, ne_eq, h0, not_true_eq_false, if_false]
      refine ⟨(i, n, (cb i n user).1) :: calls, ?_, ?_, ?_⟩
      · rw [hv]
        simp only [array_visit, logged_cb, ne_eq, h0, not_true_eq_false, if_false]
        simp only [logged_cb, h0] at h1
        rw [h1]
        simp
      · simp only [List.map_cons, call_entry]
        exact (List.prefix_cons_inj _).mpr h2
      · rw [hv]
        rcases h3 with ⟨e1, e2, e3⟩ | ⟨e1, init, last, e2, e3, e4⟩
        · left
          refine ⟨e1, ?_, ?_⟩
          · rw [List.map_cons, e2]
            rfl
          · intro c hc
            rcases List.mem_cons.mp hc with rfl | hc
            · exact h0
            · exact e3 c hc
        · right
          refine ⟨e1, (i, n, (cb i n user).1) :: init, last, by rw [e2]; rfl, e3, ?_⟩
          intro c hc
          rcases List.mem_cons.mp hc with rfl | hc
          · exact h0
          · exact e4 c hc

/-- A walk with a callback that appends the entry to a list and returns 0. -/
theorem array_visit_collect (l : List (Nat × SConfNode)) (log : List (Nat × SConfNode)) :
    array_visit (fun i n (u : List (Nat × SConfNode)) => ((0 : Int), u ++ [(i, n)])) l log =
      (0, log ++ l) := by
  induction l generalizing log with
  | nil => simp [array_visit]
  | cons p t ih =>
    obtain ⟨i, n⟩ := p
    simp only [array_visit, ne_eq, not_true_eq_false, if_false]
    rw [ih]
    simp

/-- The test `test_sconf_node_array_foreach_return_error`: a callback that
returns -2 makes `sconf_node_array_foreach` return -1 after one call. -/
theorem array_foreach_test_instance :
    sconf_node_array_foreach (some (.array [some (.int 1), some (.int 2), none, some (.int 3)]))
      (some (fun _ _ (count : Nat) => ((-2 : Int), count + 1))) 0 = (-1, 1) ∧
    sconf_node_array_foreach (some (.array [some (.int 1), some (.int 2), none, some (.int 3)]))
      (some (fun _ _ (count : Nat) => ((0 : Int), count + 1))) 0 = (0, 3) := by
  constructor <;> rfl

/-- C13: on an array node, `sconf_node_array_foreach` calls the callback on the
occupied entries in increasing order of the index, each with its index and
node. The recorded calls are an initial part of the list of occupied entries;
the return value is 0 when all occupied entries were visited and every call
returned 0, and it is -1 when the last call made returned a value other than 0
(every call before it returned 0, and no entry after it is visited). Recording
the calls changes neither the return value nor the user data. With a callback
that collects the entries and always returns 0, the result is the list that
the loop over `sconf_node_array_next` from the cursor 0 yields. -/
theorem sconf_node_array_foreach_visits {σ : Type} (a : SConfArray)
    (cb : Nat → SConfNode → σ → Int × σ) (user : σ) :
    (∃ calls,
      sconf_node_array_foreach (some (.array a)) (some (logged_cb cb)) (user, []) =
        ((sconf_node_array_foreach (some (.array a)) (some cb) user).1,
          (sconf_node_array_foreach (some (.array a)) (some cb) user).2, calls) ∧
      calls.map call_entry <+: array_occupied a 0 ∧
      (((sconf_node_array_foreach (some (.array a)) (some cb) user).1 = 0 ∧
          calls.map call_entry = array_occupied a 0 ∧ ∀ c ∈ calls, c.2.2 = 0) ∨
        ((sconf_node_array_foreach (some (.array a)) (some cb) user).1 = -1 ∧
          ∃ init last, calls = init ++ [last] ∧ last.2.2 ≠ 0 ∧ ∀ c ∈ init, c.2.2 = 0))) ∧
    (∀ i n, (i, n) ∈ array_occupied a 0 ↔ a.getD i none = some n) ∧
    (array_occupied a 0).Pairwise (fun p q => p.1 < q.1) ∧
    sconf_node_array_foreach (some (.array a))
        (some (fun i n (u : List (Nat × SConfNode)) => ((0 : Int), u ++ [(i, n)]))) [] =
      (0, (array_next_iterate (some (.array a)) (a.length + 1) 0).1) := by
  refine ⟨?_, ?_, array_occupied_sorted a 0, ?_⟩
  · obtain ⟨calls, h1, h2, h3⟩ := array_visit_logged cb (array_occupied a 0) user []
    refine ⟨calls, ?_, h2, ?_⟩
    · rw [array_foreach_eq, array_foreach_eq, h1]
      simp
    · rw [array_foreach_eq]
      exact h3
  · intro i n
    rw [mem_array_occupied]
    simp
  · rw [array_foreach_eq, array_visit_collect, array_next_iterate_eq a _ 0 (by omega)]
    simp

/-! ### The array store -/

/-- The store after `sconf_array_insert` into an empty slot at an index of at
most 65535: the old store, filled up with empty slots to the size `index + 1`
when it was smaller, with the node in the slot. -/
theorem array_insert_empty_eq (a : SConfArray) (i : Nat) (n : SConfNode)
    (hempty : a.getD i none = none) (hi : i ≤ 65535) :
    sconf_array_insert a i (some n) =
      some (0, (a ++ List.replicate (i + 1 - a.length) none).set i (some n)) := by
  have hmod : (i + 1) % UINT32_MOD = i + 1 :=
    Nat.mod_eq_of_lt (by simp only [UINT32_MOD]; omega)
  have hgrow : sconf_array_grow a (i + 1) =
      (0, a ++ List.replicate (i + 1 - a.length) none) := by
    unfold sconf_array_grow
    by_cases hlen : a.length ≥ i + 1
    · rw [if_pos hlen, show i + 1 - a.length = 0 by omega]
      simp
    · have hcap : ¬ i + 1 > SCONF_ARRAY_MAX_SIZE := by simp only [SCONF_ARRAY_MAX_SIZE]; omega
      rw [if_neg hlen, if_neg hcap]
  have hlt : i < (a ++ List.replicate (i + 1 - a.length) none).length := by
    simp only [List.length_append, List.length_replicate]
    omega
  have hgn : (a ++ List.replicate (i + 1 - a.length) none).getD i none = none := by
    by_cases hlen : i < a.length
    · rw [List.getD_eq_getElem?_getD, List.getElem?_append_left hlen,
        ← List.getD_eq_getElem?_getD]
      exact hempty
    · rw [List.getD_eq_getElem?_getD, List.getElem?_append_right (by omega)]
      simp only [List.getElem?_replicate]
      split_ifs <;> rfl
  unfold sconf_array_insert
  simp only [hmod, hgrow, ne_eq, not_true_eq_false, if_false, hlt, if_true, hgn]

theorem getD_grown (a : SConfArray) (k j : Nat) :
    (a ++ List.replicate k none).getD j none = a.getD j none := by
  by_cases hlen : j < a.length
  · rw [List.getD_eq_getElem?_getD, List.getElem?_append_left hlen,
      ← List.getD_eq_getElem?_getD]
  · rw [List.getD_eq_getElem?_getD, List.getElem?_append_right (by omega),
      getD_eq_none_of_le a j (by omega)]
    simp only [List.getElem?_replicate]
    split_ifs <;> rfl

theorem getD_set_ne (a : SConfArray) (i j : Nat) (x : Option SConfNode) (h : j ≠ i) :
    (a.set i x).getD j none = a.getD j none := by
  rw [List.getD_eq_getElem?_getD, List.getD_eq_getElem?_getD, List.getElem?_set_ne (Ne.symm h)]

theorem getD_set_self (a : SConfArray) (i : Nat) (x : Option SConfNode) (h : i < a.length) :
    (a.set i x).getD i none = x := by
  rw [List.getD_eq_getElem?_getD, List.getElem?_set]
  simp [h]

/-- The search of `sconf_node_array_search` with `*node` set to `NULL` before
the call: the entry at the index, `NULL` from the size on. -/
theorem array_search_eq (a : SConfArray) (j : Nat) :
    sconf_node_array_search j (some (.array a)) none = (0, a.getD j none) := by
  simp only [sconf_node_array_search]
  split_ifs with h
  · rfl
  · rw [getD_eq_none_of_le a j (by omega)]

/-- C14: on an array node, for an index `i` of at most 65535 whose slot is empty
and a node `n`, `sconf_node_array_insert` returns 0; after it the size of the
array is the larger of the old size and `i + 1`, `sconf_node_array_search` at
`i` yields `n`, and at every other index it yields what it yielded before, no
node at each slot from the old size on. A search at an index from the size on
returns 0 and leaves `*node` as it was, without an error. -/
theorem sconf_node_array_insert_search (a : SConfArray) (i : Nat) (n : SConfNode)
    (node : Option SConfNode) (hi : i ≤ 65535) (hempty : a.getD i none = none) :
    ∃ a', sconf_node_array_insert i (some (.array a)) (some n) = some (0, some (.array a')) ∧
      a'.length = max a.length (i + 1) ∧
      sconf_node_array_search i (some (.array a')) node = (0, some n) ∧
      (∀ j, j ≠ i → sconf_node_array_search j (some (.array a')) none =
        sconf_node_array_search j (some (.array a)) none) ∧
      (∀ j, a.length ≤ j → j ≠ i →
        sconf_node_array_search j (some (.array a')) none = (0, none)) ∧
      (∀ j, a'.length ≤ j → sconf_node_array_search j (some (.array a')) node = (0, node)) ∧
      (∀ j, a.length ≤ j → sconf_node_array_search j (some (.array a)) node = (0, node)) := by
  have hlen : ((a ++ List.replicate (i + 1 - a.length) none).set i (some n)).length =
      max a.length (i + 1) := by
    simp only [List.length_set, List.length_append, List.length_replicate]
    omega
  refine ⟨(a ++ List.replicate (i + 1 - a.length) none).set i (some n), ?_, hlen, ?_, ?_, ?_,
    ?_, ?_⟩
  · simp only [sconf_node_array_insert, array_insert_empty_eq a i n hempty hi]
    simp
  · simp only [sconf_node_array_search]
    rw [if_pos (by rw [hlen]; omega), getD_set_self _ _ _ (by
      simp only [List.length_append, List.length_replicate]; omega)]
  · intro j hj
    rw [array_search_eq, array_search_eq, getD_set_ne _ _ _ _ hj, getD_grown]
  · intro j hj hji
    rw [array_search_eq, getD_set_ne _ _ _ _ hji, getD_grown, getD_eq_none_of_le a j hj]
  · intro j hj
    simp only [sconf_node_array_search]
    rw [if_neg (by omega)]
  · intro j hj
    simp only [sconf_node_array_search]
    rw [if_neg (by omega)]

theorem sconf_node_array_insert_search_witness :
    ∃ a', sconf_node_array_insert 3 (some (.array [some (.int 1), none])) (some (.int 7)) =
        some (0, some (.array a')) ∧
      a'.length = max [some (SConfNode.int 1), none].length (3 + 1) ∧
      sconf_node_array_search 3 (some (.array a')) none = (0, some (.int 7)) ∧
      (∀ j, j ≠ 3 → sconf_node_array_search j (some (.array a')) none =
        sconf_node_array_search j (some (.array [some (.int 1), none])) none) ∧
      (∀ j, [some (SConfNode.int 1), none].length ≤ j → j ≠ 3 →
        sconf_node_array_search j (some (.array a')) none = (0, none)) ∧
      (∀ j, a'.length ≤ j → sconf_node_array_search j (some (.array a')) none = (0, none)) ∧
      (∀ j, [some (SConfNode.int 1), none].length ≤ j →
        sconf_node_array_search j (some (.array [some (.int 1), none])) none = (0, none)) :=
  sconf_node_array_insert_search [some (.int 1), none] 3 (.int 7) none (by decide) rfl

theorem array_create_iff (size : Nat) :
    (sconf_array_create size).isSome ↔ 1 ≤ size ∧ size ≤ 65536 := by
  unfold sconf_array_create
  simp only [SCONF_ARRAY_MAX_SIZE]
  split_ifs with h1 h2
  · simp
    omega
  · simp
    omega
  · simp
    omega

theorem array_create_store (size : Nat) (a : SConfArray) (h : sconf_array_create size = some a) :
    a.length = size ∧ ∀ j, a.getD j none = none := by
  unfold sconf_array_create at h
  split_ifs at h
  simp only [Option.some.injEq] at h
  subst h
  refine ⟨by simp, ?_⟩
  intro j
  rw [List.getD_eq_getElem?_getD]
  simp only [List.getElem?_replicate]
  split_ifs <;> rfl

theorem array_grow_cases (a : SConfArray) (k : Nat) :
    sconf_array_grow a k = (-1, a) ∨
      (sconf_array_grow a k = (0, a ++ List.replicate (k - a.length) none) ∧
        (a.length < k → k ≤ 65536)) := by
  unfold sconf_array_grow
  split_ifs with h1 h2
  · right
    rw [show k - a.length = 0 by omega]
    exact ⟨by simp, by omega⟩
  · left
    rfl
  · right
    simp only [SCONF_ARRAY_MAX_SIZE] at h2
    exact ⟨rfl, by omega⟩

/-- One call of `sconf_array_insert` that returns: the result code is 0 or -1,
the size does not go down and stays within 65536, and with -1 the store is as
before. -/
theorem array_insert_step (a a' : SConfArray) (index : Nat) (node : Option SConfNode) (r : Int)
    (h : sconf_array_insert a index node = some (r, a')) :
    (r = 0 ∨ r = -1) ∧ a.length ≤ a'.length ∧ (a.length ≤ 65536 → a'.length ≤ 65536) ∧
      (r = -1 → a' = a) := by
  unfold sconf_array_insert at h
  cases node with
  | none =>
    simp only [Option.some.injEq, Prod.mk.injEq] at h
    obtain ⟨h1, h2⟩ := h
    subst h1 h2
    exact ⟨Or.inr rfl, le_refl _, id, fun _ => rfl⟩
  | some n =>
    simp only at h
    rcases array_grow_cases a ((index + 1) % UINT32_MOD) with hg | ⟨hg, hk⟩
    · rw [hg] at h
      simp only [ne_eq, show ¬ ((-1 : Int) = 0) by decide, not_false_eq_true, if_true,
        Option.some.injEq, Prod.mk.injEq] at h
      obtain ⟨h1, h2⟩ := h
      subst h1 h2
      exact ⟨Or.inr rfl, le_refl _, id, fun _ => rfl⟩
    · rw [hg] at h
      simp only [ne_eq, not_true_eq_false, if_false] at h
      have hlen : (a ++ List.replicate ((index + 1) % UINT32_MOD - a.length) none).length =
          max a.length ((index + 1) % UINT32_MOD) := by
        simp only [List.length_append, List.length_replicate]
        omega
      split_ifs at h with hlt
      cases he : (a ++ List.replicate ((index + 1) % UINT32_MOD - a.length) none).getD index none with
      | none =>
        rw [he] at h
        simp only [Option.some.injEq, Prod.mk.injEq] at h
        obtain ⟨h1, h2⟩ := h
        subst h1 h2
        refine ⟨Or.inl rfl, ?_, ?_, ?_⟩
        · rw [List.length_set, hlen]
          omega
        · intro hle
          rw [List.length_set, hlen]
          omega
        · intro hc
          exact absurd hc (by decide)
      | some m =>
        rw [he] at h
        simp only [Option.some.injEq, Prod.mk.injEq] at h
        obtain ⟨h1, h2⟩ := h
        subst h1
        rw [getD_grown] at he
        have hin : index < a.length := by
          by_contra hge
          rw [getD_eq_none_of_le a index (by omega)] at he
          exact absurd he (by simp)
        have hmod : (index + 1) % UINT32_MOD ≤ index + 1 := Nat.mod_le _ _
        have hz : (index + 1) % UINT32_MOD - a.length = 0 := by omega
        rw [hz] at h2
        simp only [List.replicate_zero, List.append_nil] at h2
        subst h2
        exact ⟨Or.inr rfl, le_refl _, id, fun _ => rfl⟩

/-- Every call of `sconf_array_insert` with an index below `2 ^ 32 - 1` returns. -/
theorem array_insert_total (a : SConfArray) (index : Nat) (node : Option SConfNode)
    (hi : index + 1 < UINT32_MOD) : (sconf_array_insert a index node).isSome := by
  unfold sconf_array_insert
  cases node with
  | none => rfl
  | some n =>
    simp only
    rcases array_grow_cases a ((index + 1) % UINT32_MOD) with hg | ⟨hg, _⟩
    · rw [hg]
      rfl
    · rw [hg, Nat.mod_eq_of_lt hi]
      simp only [ne_eq, not_true_eq_false, if_false]
      rw [if_pos (by simp only [List.length_append, List.length_replicate]; omega)]
      split <;> rfl

theorem array_insert_all_size (calls : List (Nat × Option SConfNode)) (a a' : SConfArray)
    (h : array_insert_all a calls = some a') :
    a.length ≤ a'.length ∧ (a.length ≤ 65536 → a'.length ≤ 65536) := by
  induction calls generalizing a with
  | nil =>
    simp only [array_insert_all, Option.some.injEq] at h
    subst h
    exact ⟨le_refl _, id⟩
  | cons c t ih =>
    obtain ⟨i, n⟩ := c
    simp only [array_insert_all] at h
    cases hs : sconf_array_insert a i n with
    | none => simp [hs] at h
    | some x =>
      obtain ⟨r, a1⟩ := x
      rw [hs] at h
      obtain ⟨_, h1, h2, _⟩ := array_insert_step a a1 i n r hs
      obtain ⟨h3, h4⟩ := ih a1 h
      exact ⟨by omega, fun hle => h4 (h2 hle)⟩

theorem array_insert_all_total (calls : List (Nat × Option SConfNode)) (a : SConfArray)
    (h : ∀ c ∈ calls, c.1 + 1 < UINT32_MOD) : (array_insert_all a calls).isSome := by
  induction calls generalizing a with
  | nil => rfl
  | cons c t ih =>
    obtain ⟨i, n⟩ := c
    simp only [array_insert_all]
    have htot := array_insert_total a i n (h (i, n) (List.mem_cons_self _ _))
    cases hs : sconf_array_insert a i n with
    | none => simp [hs] at htot
    | some x =>
      obtain ⟨r, a1⟩ := x
      exact ih a1 (fun c hc => h c (List.mem_cons_of_mem _ hc))

/-- An insert into an occupied slot and an insert beyond the capacity fail. -/
theorem array_insert_failures :
    sconf_array_insert [some (.int 1), none] 0 (some (.int 2)) =
        some (-1, [some (.int 1), none]) ∧
      sconf_array_insert [some (.int 1), none] 65536 (some (.int 2)) =
        some (-1, [some (.int 1), none]) := by
  constructor <;> rfl

theorem array_insert_wraps (a : SConfArray) (n : SConfNode) (ha : a.length ≤ 4294967295) :
    sconf_array_grow a ((4294967295 + 1) % UINT32_MOD) = (0, a) ∧
      sconf_array_insert a 4294967295 (some n) = none := by
  have hg : sconf_array_grow a ((4294967295 + 1) % UINT32_MOD) = (0, a) := by
    unfold sconf_array_grow
    rw [if_pos (by simp)]
  refine ⟨hg, ?_⟩
  unfold sconf_array_insert
  simp only [hg]
  rw [if_neg (by simp), if_neg (by omega)]

/-- C15: the size invariant of the array store, and the call that breaks it.
`sconf_array_create` gives a store exactly for a size from 1 to 65536, of that
size and with every slot empty. Every call of `sconf_array_insert` that returns
gives 0 or -1, leaves the size of the store at least what it was and within
65536 when it was so before, and leaves the store as it was when it gives -1;
so it is for every sequence of calls from a store, and a sequence of calls with
indices below `2 ^ 32 - 1` returns from each call. The index 65536, beyond the
capacity, fails with -1 and the store as it was. The index `2 ^ 32 - 1`, beyond
the capacity too, does not: on every store of at most 65536 entries the call
has no defined result (`index + 1` is 0 in `uint32_t`, the grow step with its
capacity check does nothing and `entries[4294967295]` is read outside the
store), and so has the sequence of that one call on the store that
`sconf_array_create(1)` gives. -/
theorem sconf_array_insert_sequence_wrap :
    (∀ size, (sconf_array_create size).isSome ↔ 1 ≤ size ∧ size ≤ 65536) ∧
    (∀ size a, sconf_array_create size = some a →
      a.length = size ∧ ∀ j, a.getD j none = none) ∧
    (∀ a index node r a', sconf_array_insert a index node = some (r, a') →
      (r = 0 ∨ r = -1) ∧ a.length ≤ a'.length ∧ (a.length ≤ 65536 → a'.length ≤ 65536) ∧
        (r = -1 → a' = a)) ∧
    (∀ calls a a', array_insert_all a calls = some a' →
      a.length ≤ a'.length ∧ (a.length ≤ 65536 → a'.length ≤ 65536)) ∧
    (∀ calls a, (∀ c ∈ calls, c.1 + 1 < UINT32_MOD) → (array_insert_all a calls).isSome) ∧
    sconf_array_insert [none] 65536 (some (.int 1)) = some (-1, [none]) ∧
    (∀ (a : SConfArray) (n : SConfNode), a.length ≤ SCONF_ARRAY_MAX_SIZE →
      sconf_array_insert a 4294967295 (some n) = none) ∧
    (sconf_array_create 1).bind
      (fun a => array_insert_all a [(4294967295, some (.int 1))]) = none :=
  ⟨array_create_iff, array_create_store,
    fun a index node r a' h => array_insert_step a a' index node r h,
    fun calls a a' h => array_insert_all_size calls a a' h,
    fun calls a h => array_insert_all_total calls a h,
    rfl,
    fun a n ha => (array_insert_wraps a n (by simp only [SCONF_ARRAY_MAX_SIZE] at ha; omega)).2,
    rfl⟩

/-! ### The dictionary -/

theorem art_search_append_ne (d : List (CStr × SConfNode)) (k other : CStr) (n : SConfNode)
    (h : other ≠ k) : art_search (d ++ [(k, n)]) other = art_search d other := by
  induction d with
  | nil => simp [art_search, Ne.symm h]
  | cons e t ih =>
    obtain ⟨k', v⟩ := e
    by_cases hk : k' = other
    · simp [art_search, hk]
    · simp [art_search, hk, ih]

/-- The effect of `sconf_node_dict_insert` on a dictionary: the node is added
under a name that is not present, and -1 is returned with the dictionary as it
was under a name that is. -/
theorem dict_insert_eq (d : List (CStr × SConfNode)) (name : CStr) (n : SConfNode) :
    sconf_node_dict_insert (some name) (some (.dict d)) (some n) =
      match art_search d name with
      | some _ => (-1, some (.dict d))
      | none => (0, some (.dict (d ++ [(name, n)]))) := by
  simp only [sconf_node_dict_insert, art_insert]
  cases art_search d name <;> rfl

theorem dict_insert_all_search (entries : List (CStr × SConfNode))
    (d : List (CStr × SConfNode)) (name : CStr) (h : ∀ e ∈ entries, e.1 ≠ name)
    (hd : art_search d name = none) :
    ∃ d', dict_insert_all (some (.dict d)) entries = some (.dict d') ∧
      art_search d' name = none := by
  induction entries generalizing d with
  | nil => exact ⟨d, rfl, hd⟩
  | cons e t ih =>
    obtain ⟨k, v⟩ := e
    have hk : name ≠ k := fun hc => h (k, v) (List.mem_cons_self _ _) hc.symm
    simp only [dict_insert_all, dict_insert_eq]
    cases hs : art_search d k with
    | some old => exact ih d (fun e he => h e (List.mem_cons_of_mem _ he)) hd
    | none =>
      exact ih (d ++ [(k, v)]) (fun e he => h e (List.mem_cons_of_mem _ he))
        (by rw [art_search_append_ne d k name v hk]; exact hd)

/-- The test `test_sconf_dict_insert_and_search_successful` and its
neighbours: a node inserted under `test` is found there, nothing is found
under another name, and a second insert under `test` fails. -/
theorem dict_test_instance :
    sconf_node_dict_insert (some "test".toList) (some (.dict [])) (some (.int 1)) =
        (0, some (.dict [("test".toList, .int 1)])) ∧
      sconf_node_dict_search (some "test".toList) (some (.dict [("test".toList, .int 1)])) none =
        (0, some (.int 1)) ∧
      sconf_node_dict_search (some "other".toList) (some (.dict [("test".toList, .int 1)]))
        none = (0, none) ∧
      sconf_node_dict_insert (some "test".toList) (some (.dict [("test".toList, .int 1)]))
        (some (.int 2)) = (-1, some (.dict [("test".toList, .int 1)])) := by
  refine ⟨rfl, ?_, ?_, ?_⟩ <;> simp [sconf_node_dict_search, sconf_node_dict_insert,
    art_insert, art_search]

/-- C16: on a dictionary node, after `sconf_node_dict_insert` returned 0 for a
name and a node, `sconf_node_dict_search` for the name returns 0 with that
node, and for every other name what it returned before; the insert returns 0
when the name is not present and -1, with the dictionary as it was, when it
is. In a dictionary built from the empty one by inserts, the search for a name
that was not among them returns 0 with no node. On a parent that is not a
dictionary, and with a missing name, parent or node, insert and search
return -1. -/
theorem sconf_node_dict_insert_search (d : List (CStr × SConfNode)) (name : CStr)
    (n : SConfNode) (node : Option SConfNode) :
    (∀ parent', sconf_node_dict_insert (some name) (some (.dict d)) (some n) =
        (0, some parent') →
      sconf_node_dict_search (some name) (some parent') node = (0, some n) ∧
        ∀ other, other ≠ name → sconf_node_dict_search (some other) (some parent') node =
          sconf_node_dict_search (some other) (some (.dict d)) node) ∧
    (sconf_node_dict_search (some name) (some (.dict d)) node = (0, none) →
      ∃ parent', sconf_node_dict_insert (some name) (some (.dict d)) (some n) =
        (0, some parent')) ∧
    (∀ old, sconf_node_dict_search (some name) (some (.dict d)) node = (0, some old) →
      sconf_node_dict_insert (some name) (some (.dict d)) (some n) = (-1, some (.dict d))) ∧
    (∀ entries : List (CStr × SConfNode), (∀ e ∈ entries, e.1 ≠ name) →
      sconf_node_dict_search (some name) (dict_insert_all (some (.dict [])) entries) node =
        (0, none)) ∧
    (∀ parent, sconf_type parent ≠ SCONF_TYPE_DICT →
      sconf_node_dict_insert (some name) (some parent) (some n) = (-1, some parent) ∧
        sconf_node_dict_search (some name) (some parent) node = (-1, node)) ∧
    (∀ parent x, sconf_node_dict_insert none parent x = (-1, parent) ∧
      sconf_node_dict_insert (some name) none x = (-1, none) ∧
      sconf_node_dict_insert (some name) parent none = (-1, parent) ∧
      sconf_node_dict_search none parent node = (-1, node) ∧
      sconf_node_dict_search (some name) none node = (-1, node)) := by
  refine ⟨?_, ?_, ?_, ?_, ?_, ?_⟩
  · intro parent' h
    rw [dict_insert_eq] at h
    cases hs : art_search d name with
    | some old =>
      rw [hs] at h
      simp at h
    | none =>
      rw [hs] at h
      simp only [Prod.mk.injEq, Option.some.injEq, true_and] at h
      subst h
      refine ⟨by simp only [sconf_node_dict_search, art_search_append d name n hs], ?_⟩
      intro other ho
      simp only [sconf_node_dict_search, art_search_append_ne d name other n ho]
  · intro h
    simp only [sconf_node_dict_search, Prod.mk.injEq, true_and] at h
    exact ⟨_, by rw [dict_insert_eq, h]⟩
  · intro old h
    simp only [sconf_node_dict_search, Prod.mk.injEq, true_and] at h
    rw [dict_insert_eq, h]
  · intro entries h
    obtain ⟨d', h1, h2⟩ := dict_insert_all_search entries [] name h rfl
    rw [h1]
    simp only [sconf_node_dict_search, h2]
  · intro parent h
    cases parent <;> simp [sconf_node_dict_insert, sconf_node_dict_search] at h ⊢
  · intro parent x
    refine ⟨?_, ?_, ?_, ?_, ?_⟩
    · simp [sconf_node_dict_insert]
    · cases x <;> simp [sconf_node_dict_insert]
    · cases parent <;> simp [sconf_node_dict_insert]
    · simp [sconf_node_dict_search]
    · simp [sconf_node_dict_search]

/-! ### Create-or-replace at a slot -/

theorem create_and_insert_index_eq (name : Option CStr) (ty : Nat) (parent : SConfNode)
    (index : Nat) (data : Option SConfData) :
    sconf_node_create_and_insert name ty parent index data =
      match create_slot parent name index with
      | none => some ⟨parent, none⟩
      | some slot =>
        match parent.fetch slot with
        | some n =>
          if sconf_type n ≠ ty then some ⟨parent, none⟩
          else (sconf_node_replace ty n data).map
            (fun x => ⟨parent.store slot x.2, some (slot, x.2)⟩)
        | none =>
          match sconf_node_create ty data with
          | none => none
          | some none => some ⟨parent, none⟩
          | some (some n) => insert_at parent slot n := by
  cases parent with
  | dict d =>
    cases name with
    | none => simp [sconf_node_create_and_insert, create_slot, sconf_node_dict_search]
    | some c =>
      simp only [sconf_node_create_and_insert, create_slot, SConfNode.fetch,
        sconf_node_dict_search]
      simp
      cases hs : art_search d c with
      | none =>
        cases hc : sconf_node_create ty data with
        | none => simp
        | some o =>
          cases o with
          | none => simp
          | some n => simp [sconf_node_dict_insert, art_insert, hs, insert_at]
      | some n =>
        by_cases ht : sconf_type n = ty
        · simp [ht]
          cases hr : sconf_node_replace ty n data with
          | none => simp
          | some x =>
            obtain ⟨r, n'⟩ := x
            have := (replace_rc _ _ _ _ _ hr).1
            subst this
            simp
        · simp [ht]
  | array a =>
    have hget : ∀ i, (if a.length > i then ((0 : Int), a.getD i none) else (0, none)) =
        ((0 : Int), a.getD i none) := by
      intro i
      split_ifs with h
      · rfl
      · simp [List.getD_eq_getElem?_getD, List.getElem?_eq_none (not_lt.mp h)]
    cases name with
    | none =>
      simp only [sconf_node_create_and_insert, create_slot, sconf_node_array_search, hget]
      simp only [show ((0 : Int) = -1) = False from by simp, if_false]
      exact create_and_insert_array_aux a ty data index
    | some c =>
      simp only [sconf_node_create_and_insert, create_slot, sconf_node_array_search, hget]
      by_cases hb : c.head? = some '['
      · simp only [hb, sconf_type_array, and_self, if_true]
        by_cases hp : (sconf_array_get_index_from_string c index).1 = -1
        · simp [hp]
        · simp only [hp, if_false]
          simp only [show ((0 : Int) = -1) = False from by simp, if_false]
          exact create_and_insert_array_aux a ty data _
      · simp only [hb, false_and, if_false]
        simp only [show ((0 : Int) = -1) = False from by simp, if_false]
        exact create_and_insert_array_aux a ty data index
  | str s => simp [sconf_node_create_and_insert, create_slot]
  | int s => simp [sconf_node_create_and_insert, create_slot]
  | bool s => simp [sconf_node_create_and_insert, create_slot]
  | float s => simp [sconf_node_create_and_insert, create_slot]

/-- The slot that the code addresses is the slot that the call names. -/
theorem create_slot_of_spec (parent : SConfNode) (name : Option CStr) (index : Nat)
    (slot : SConfSlot) (h : spec_slot parent name index = some slot) :
    create_slot parent name index = some slot := by
  cases parent with
  | dict d =>
    cases name with
    | none => simp [spec_slot] at h
    | some c => exact h
  | array a =>
    cases name with
    | none => exact h
    | some c =>
      simp only [spec_slot] at h
      simp only [create_slot]
      split_ifs at h with hb
      · cases hs : spec_index c with
        | none => simp [hs] at h
        | some i =>
          simp only [hs] at h
          split_ifs at h with hfit
          rw [if_pos hb, index_from_string_of_spec c i hs hfit index]
          simpa using h
      · rw [if_neg hb]
        exact h
  | str s => cases name <;> simp [spec_slot] at h
  | int s => cases name <;> simp [spec_slot] at h
  | bool s => cases name <;> simp [spec_slot] at h
  | float s => cases name <;> simp [spec_slot] at h

theorem replace_eq (ty : Nat) (d : SConfData) (n : SConfNode) (h : sconf_type n = ty)
    (hfree : ty = SCONF_TYPE_STR → d.freed = none) :
    sconf_node_replace ty n (some d) = some (0, spec_replaced ty d n) := by
  subst h
  cases n <;> simp [sconf_node_replace, spec_replaced, sconf_node_str_init, sconf_node_int_init,
    sconf_node_bool_init, sconf_node_float_init]
  exact hfree rfl ▸ rfl

theorem create_eq (ty : Nat) (d : SConfData) (h1 : 1 ≤ ty) (h6 : ty ≤ 6) :
    sconf_node_create ty (some d) = some (some (spec_created ty d)) := by
  have : ty = 1 ∨ ty = 2 ∨ ty = 3 ∨ ty = 4 ∨ ty = 5 ∨ ty = 6 := by omega
  rcases this with h | h | h | h | h | h <;> subst h <;>
    simp [sconf_node_create, spec_created, spec_replaced, sconf_array_create,
      sconf_node_str_init, sconf_node_int_init, sconf_node_bool_init, sconf_node_float_init]

theorem art_search_store_ne (d : List (CStr × SConfNode)) (k other : CStr) (x : SConfNode)
    (h : other ≠ k) : art_search (art_store d k x) other = art_search d other := by
  induction d with
  | nil => rfl
  | cons e t ih =>
    obtain ⟨k', v⟩ := e
    by_cases hk : k' = k
    · subst hk
      simp [art_store, art_search, Ne.symm h]
    · by_cases ho : k' = other
      · subst ho
        simp [art_store, art_search, hk]
      · simp [art_store, art_search, hk, ho, ih]

/-- A write to a slot leaves every other slot as it was. -/
theorem fetch_store_ne (p : SConfNode) (slot other : SConfSlot) (x : SConfNode)
    (h : other ≠ slot) : (p.store slot x).fetch other = p.fetch other := by
  cases p <;> cases slot <;> cases other <;>
    simp only [SConfNode.store, SConfNode.fetch]
  · rename_i d k k'
    exact art_search_store_ne d k k' x (fun hc => h (by rw [hc]))
  · rename_i a i j
    exact getD_set_ne a i j (some x) (fun hc => h (by rw [hc]))

/-- The insertion of a fresh node into an empty slot within the capacity. -/
theorem insert_at_empty (parent : SConfNode) (slot : SConfSlot) (n : SConfNode)
    (hkind : (∃ d k, parent = .dict d ∧ slot = .name k) ∨ (∃ a i, parent = .array a ∧ slot = .index i))
    (hf : parent.fetch slot = none) (hcap : spec_slot_in_capacity slot = true) :
    ∃ parent', insert_at parent slot n = some ⟨parent', some (slot, n)⟩ ∧
      parent'.fetch slot = some n ∧ ∀ other, other ≠ slot → parent'.fetch other = parent.fetch other := by
  rcases hkind with ⟨d, k, rfl, rfl⟩ | ⟨a, i, rfl, rfl⟩
  · simp only [SConfNode.fetch] at hf
    refine ⟨.dict (d ++ [(k, n)]), rfl, art_search_append d k n hf, ?_⟩
    intro other ho
    cases other with
    | name k' => exact art_search_append_ne d k k' n (fun hc => ho (by rw [hc]))
    | index j => rfl
  · simp only [SConfNode.fetch] at hf
    simp only [spec_slot_in_capacity, SCONF_ARRAY_MAX_SIZE, decide_eq_true_eq] at hcap
    refine ⟨.array ((a ++ List.replicate (i + 1 - a.length) none).set i (some n)), ?_, ?_, ?_⟩
    · simp only [insert_at, array_insert_empty_eq a i n hf (by omega)]
      simp
    · simp only [SConfNode.fetch]
      exact getD_set_self _ _ _ (by simp only [List.length_append, List.length_replicate]; omega)
    · intro other ho
      cases other with
      | name k' => rfl
      | index j =>
        simp only [SConfNode.fetch]
        rw [getD_set_ne _ _ _ _ (fun hc => ho (by rw [hc])), getD_grown]

theorem spec_slot_kind (parent : SConfNode) (name : Option CStr) (index : Nat) (slot : SConfSlot)
    (h : spec_slot parent name index = some slot) :
    (∃ d k, parent = .dict d ∧ slot = .name k) ∨ (∃ a i, parent = .array a ∧ slot = .index i) := by
  cases parent with
  | dict d =>
    cases name with
    | none => simp [spec_slot] at h
    | some c =>
      simp only [spec_slot, Option.some.injEq] at h
      exact Or.inl ⟨d, c, rfl, h.symm⟩
  | array a =>
    cases name with
    | none =>
      simp only [spec_slot, Option.some.injEq] at h
      exact Or.inr ⟨a, index, rfl, h.symm⟩
    | some c =>
      simp only [spec_slot] at h
      split_ifs at h with hb
      · cases hs : spec_index c with
        | none => simp [hs] at h
        | some i =>
          simp only [hs] at h
          split_ifs at h with hfit
          simp only [Option.some.injEq] at h
          exact Or.inr ⟨a, i, rfl, h.symm⟩
      · simp only [Option.some.injEq] at h
        exact Or.inr ⟨a, index, rfl, h.symm⟩
  | str s => cases name <;> simp [spec_slot] at h
  | int s => cases name <;> simp [spec_slot] at h
  | bool s => cases name <;> simp [spec_slot] at h
  | float s => cases name <;> simp [spec_slot] at h

/-- C11, counterexample: the slot is empty and no node is created. At the index
65536 of an array the capacity of the store does not allow the insertion, and
for a type that is not a node type `sconf_node_create` builds nothing; in both
calls the result is `NULL` and the parent is as before. -/
theorem sconf_node_create_and_insert_empty_slot_no_node :
    (SConfNode.array [none]).fetch (.index 65536) = none ∧
      sconf_node_create_and_insert none SCONF_TYPE_INT (.array [none]) 65536
        (some ⟨[], 1, false, 0, none⟩) = some ⟨.array [none], none⟩ ∧
      (SConfNode.dict []).fetch (.name "k".toList) = none ∧
      sconf_node_create_and_insert (some "k".toList) SCONF_TYPE_YAML_FILE (.dict []) 0
        (some ⟨[], 1, false, 0, none⟩) = some ⟨.dict [], none⟩ :=
  ⟨rfl, rfl, rfl, rfl⟩

/-- C11: for a dictionary or array parent and the slot that the call names (the
name in a dictionary, the index in an array) `sconf_node_create_and_insert` with
a type and data (i) returns the node in the slot, with its payload replaced by
the data when the type is scalar, when the slot holds a node of the type and,
for a string, the data is not passed by a pointer into the buffer of that
node, which the call frees (`freed` is `none`);
(ii) creates a node of the type from the data, inserts it at the slot and
returns it when the slot is empty, the type is one of the six node types and
the slot is a name or an index of at most 65535; (iii) returns `NULL` and
leaves the parent with the node as they were when the slot holds a node of
another type. In (i) and (ii) every other slot of the parent holds what it
held before. -/
theorem sconf_node_create_and_insert_slot (parent : SConfNode) (name : Option CStr)
    (index ty : Nat) (d : SConfData) (slot : SConfSlot)
    (hslot : spec_slot parent name index = some slot) :
    (∀ n, parent.fetch slot = some n → sconf_type n = ty →
      (ty = SCONF_TYPE_STR → d.freed = none) →
      sconf_node_create_and_insert name ty parent index (some d) =
        some ⟨parent.store slot (spec_replaced ty d n), some (slot, spec_replaced ty d n)⟩ ∧
      (parent.store slot (spec_replaced ty d n)).fetch slot = some (spec_replaced ty d n) ∧
      ∀ other, other ≠ slot →
        (parent.store slot (spec_replaced ty d n)).fetch other = parent.fetch other) ∧
    (parent.fetch slot = none → 1 ≤ ty → ty ≤ 6 → spec_slot_in_capacity slot = true →
      ∃ parent', sconf_node_create_and_insert name ty parent index (some d) =
          some ⟨parent', some (slot, spec_created ty d)⟩ ∧
        parent'.fetch slot = some (spec_created ty d) ∧
        ∀ other, other ≠ slot → parent'.fetch other = parent.fetch other) ∧
    (∀ n, parent.fetch slot = some n → sconf_type n ≠ ty →
      sconf_node_create_and_insert name ty parent index (some d) = some ⟨parent, none⟩) := by
  have hcs := create_slot_of_spec parent name index slot hslot
  refine ⟨?_, ?_, ?_⟩
  · intro n hf ht hfree
    refine ⟨?_, fetch_store parent slot _ n hf, fun other ho => fetch_store_ne parent slot other _ ho⟩
    rw [create_and_insert_index_eq, hcs]
    simp only [hf, ht, ne_eq, not_true_eq_false, if_false, replace_eq ty d n ht hfree,
      Option.map_some']
  · intro hf h1 h6 hcap
    obtain ⟨parent', h2, h3, h4⟩ := insert_at_empty parent slot (spec_created ty d)
      (spec_slot_kind parent name index slot hslot) hf hcap
    refine ⟨parent', ?_, h3, h4⟩
    rw [create_and_insert_index_eq, hcs]
    simp only [hf, create_eq ty d h1 h6, h2]
  · intro n hf ht
    rw [create_and_insert_index_eq, hcs]
    simp only [hf, ne_eq, ht, not_false_eq_true, if_true]

/-- C11, instances: the string `v` is created at the empty index 1 of an array,
and the string `new` replaces the string `old` under `k` in a dictionary. -/
theorem sconf_node_create_and_insert_slot_witness :
    spec_slot (.array [some (.int 1), none]) none 1 = some (.index 1) ∧
    (∃ parent', sconf_node_create_and_insert none SCONF_TYPE_STR (.array [some (.int 1), none]) 1
        (some ⟨"v".toList, 0, false, 0, none⟩) =
          some ⟨parent',
            some (.index 1, spec_created SCONF_TYPE_STR ⟨"v".toList, 0, false, 0, none⟩)⟩ ∧
      parent'.fetch (.index 1) =
        some (spec_created SCONF_TYPE_STR ⟨"v".toList, 0, false, 0, none⟩) ∧
      ∀ other, other ≠ .index 1 →
        parent'.fetch other = (SConfNode.array [some (.int 1), none]).fetch other) ∧
    sconf_node_create_and_insert (some "k".toList) SCONF_TYPE_STR
        (.dict [("k".toList, .str "old".toList)]) 0 (some ⟨"new".toList, 0, false, 0, none⟩) =
      some ⟨.dict [("k".toList, .str "new".toList)],
        some (.name "k".toList, .str "new".toList)⟩ :=
  ⟨rfl, (sconf_node_create_and_insert_slot (.array [some (.int 1), none]) none 1 SCONF_TYPE_STR
    ⟨"v".toList, 0, false, 0, none⟩ (.index 1) rfl).2.1 rfl (by decide) (by decide) rfl,
    ((sconf_node_create_and_insert_slot (.dict [("k".toList, .str "old".toList)])
      (some "k".toList) 0 SCONF_TYPE_STR ⟨"new".toList, 0, false, 0, none⟩ (.name "k".toList)
      rfl).1 (.str "old".toList) rfl rfl (fun _ => rfl)).1⟩

/-- The three cases of create-or-replace on a dictionary with an integer under
`k`: the integer is replaced, the string under `k` is refused, and an integer
is added under `m`. -/
theorem create_and_insert_example :
    sconf_node_create_and_insert (some "k".toList) SCONF_TYPE_INT (.dict [("k".toList, .int 1)]) 0
        (some ⟨[], 2, false, 0, none⟩) =
      some ⟨.dict [("k".toList, .int 2)], some (.name "k".toList, .int 2)⟩ ∧
    sconf_node_create_and_insert (some "k".toList) SCONF_TYPE_STR (.dict [("k".toList, .int 1)]) 0
        (some ⟨"v".toList, 2, false, 0, none⟩) = some ⟨.dict [("k".toList, .int 1)], none⟩ ∧
    sconf_node_create_and_insert (some "m".toList) SCONF_TYPE_INT (.dict [("k".toList, .int 1)]) 0
        (some ⟨[], 2, false, 0, none⟩) =
      some ⟨.dict [("k".toList, .int 1), ("m".toList, .int 2)], some (.name "m".toList, .int 2)⟩ := by
  refine ⟨?_, ?_, ?_⟩ <;>
    simp [sconf_node_create_and_insert, sconf_node_dict_search, sconf_node_dict_insert,
      art_search, art_insert, sconf_node_replace, sconf_node_create, sconf_node_int_init,
      SConfNode.store, art_store]

/-! ### Coercion of strings (`src/convert.c`) -/

theorem is_base_digit_decimal (c : Char) (h : isdigit c = true) :
    is_base_digit 10 c = true ∧ (digit_value c).getD 0 = c.toNat - 48 := by
  simp only [isdigit, Bool.and_eq_true, decide_eq_true_eq] at h
  simp only [is_base_digit, digit_value, if_pos h, Option.getD_some, decide_eq_true_eq]
  exact ⟨by omega, trivial⟩

theorem takeWhile_decimal (ds : List Char) (h : ds.all isdigit = true) :
    ds.takeWhile (is_base_digit 10) = ds := by
  induction ds with
  | nil => rfl
  | cons c cs ih =>
    simp only [List.all_cons, Bool.and_eq_true] at h
    simp [List.takeWhile, (is_base_digit_decimal c h.1).1, ih h.2]

theorem strtoll_value_decimal (ds : List Char) (h : ds.all isdigit = true) : ∀ acc : Nat,
    strtoll_value 10 ds acc = ds.foldl (fun a c => a * 10 + (c.toNat - 48)) acc := by
  induction ds with
  | nil => intro acc; rfl
  | cons c cs ih =>
    intro acc
    simp only [List.all_cons, Bool.and_eq_true] at h
    simp only [strtoll_value, (is_base_digit_decimal c h.1).2, List.foldl_cons]
    exact ih h.2 _

/-- The subject sequence of `strtoll` in base 10 on an optionally signed run of
decimal digits: the whole string, with the value of the digits. -/
theorem strtoll_scan_decimal (sign ds : List Char)
    (hsign : sign = [] ∨ sign = ['+'] ∨ sign = ['-']) (hne : ds ≠ [])
    (hd : ds.all isdigit = true) :
    strtoll_scan (sign ++ ds) 10 =
      (if sign = ['-'] then -(spec_decimal ds : Int) else (spec_decimal ds : Int),
        (sign ++ ds).length) := by
  obtain ⟨c, cs, rfl⟩ := List.exists_cons_of_ne_nil hne
  have hc : isdigit c = true := by
    simp only [List.all_cons, Bool.and_eq_true] at hd
    exact hd.1
  have hsp := isdigit_not_space c hc
  obtain ⟨hm, hp⟩ := isdigit_not_sign c hc
  have htw := takeWhile_decimal (c :: cs) hd
  have hv : strtoll_value 10 (c :: cs) 0 = spec_decimal (c :: cs) := by
    rw [strtoll_value_decimal _ hd]; rfl
  have h16 : ¬ ((10 : Nat) = 16) := by decide
  have hminus : isspace '-' = false := by decide
  have hplus : isspace '+' = false := by decide
  rcases hsign with rfl | rfl | rfl
  · have hws : (c :: cs).takeWhile isspace = [] := by simp [List.takeWhile, hsp]
    have hdw : (c :: cs).dropWhile isspace = c :: cs := by simp [List.dropWhile, hsp]
    unfold strtoll_scan
    simp only [List.nil_append, hws, hdw, List.head?_cons, Option.some.injEq, hm, hp, or_self,
      if_false, List.drop_zero, h16, false_and, htw, hv]
    simp
  · have hws : ('+' :: c :: cs).takeWhile isspace = [] := by simp [List.takeWhile, hplus]
    have hdw : ('+' :: c :: cs).dropWhile isspace = '+' :: c :: cs := by
      simp [List.dropWhile, hplus]
    unfold strtoll_scan
    simp only [List.cons_append, List.nil_append, hws, hdw, List.head?_cons, or_true, if_true,
      List.drop_succ_cons, List.drop_zero, h16, false_and, if_false, htw, hv]
    simp
    omega
  · have hws : ('-' :: c :: cs).takeWhile isspace = [] := by simp [List.takeWhile, hminus]
    have hdw : ('-' :: c :: cs).dropWhile isspace = '-' :: c :: cs := by
      simp [List.dropWhile, hminus]
    unfold strtoll_scan
    simp only [List.cons_append, List.nil_append, hws, hdw, List.head?_cons, true_or, if_true,
      List.drop_succ_cons, List.drop_zero, h16, false_and, if_false, htw, hv]
    simp
    omega

/-- The base for an optionally signed run of digits that does not begin with
`0`. -/
theorem integer_base_decimal (sign ds : List Char)
    (hsign : sign = [] ∨ sign = ['+'] ∨ sign = ['-']) (h0 : ds.head? ≠ some '0') :
    sconf_integer_base (sign ++ ds) = 10 := by
  have hh : (sign ++ ds).head? ≠ some '0' := by
    rcases hsign with rfl | rfl | rfl
    · simpa using h0
    · simp
    · simp
  simp only [sconf_integer_base, hh, false_and, if_false]

/-- The result of `sconf_string_to_integer` from the subject sequence that
`strtoll` finds. -/
theorem string_to_integer_of_scan (s : CStr) :
    (strtoll_scan s (sconf_integer_base s)).2 ≤ s.length →
    ((strtoll_scan s (sconf_integer_base s)).2 < s.length → (sconf_string_to_integer s).1 = 0) ∧
    ((strtoll_scan s (sconf_integer_base s)).2 = s.length →
      LLONG_MAX < (strtoll_scan s (sconf_integer_base s)).1 →
      sconf_string_to_integer s = (-1, LLONG_MAX)) ∧
    ((strtoll_scan s (sconf_integer_base s)).2 = s.length →
      (strtoll_scan s (sconf_integer_base s)).1 < LLONG_MIN →
      sconf_string_to_integer s = (-1, LLONG_MIN)) ∧
    ((strtoll_scan s (sconf_integer_base s)).2 = s.length →
      LLONG_MIN ≤ (strtoll_scan s (sconf_integer_base s)).1 →
      (strtoll_scan s (sconf_integer_base s)).1 ≤ LLONG_MAX →
      sconf_string_to_integer s = (1, (strtoll_scan s (sconf_integer_base s)).1)) := by
  intro _
  generalize hp : strtoll_scan s (sconf_integer_base s) = p
  refine ⟨?_, ?_, ?_, ?_⟩
  · intro h
    simp only [sconf_string_to_integer, strtoll, hp]
    split_ifs <;> simp_all
  · intro h hmax
    have hlt : ¬ p.2 < s.length := by omega
    simp only [sconf_string_to_integer, strtoll, hp, gt_iff_lt, hmax, if_true, hlt, if_false]
  · intro h hmin
    have hlt : ¬ p.2 < s.length := by omega
    have hmax : ¬ LLONG_MAX < p.1 := by
      simp only [LLONG_MAX, LLONG_MIN] at hmin ⊢
      omega
    simp only [sconf_string_to_integer, strtoll, hp, gt_iff_lt, hmax, if_false, hmin, if_true,
      hlt]
  · intro h hmin hmax
    have hlt : ¬ p.2 < s.length := by omega
    have h1 : ¬ LLONG_MAX < p.1 := by omega
    have h2 : ¬ p.1 < LLONG_MIN := by omega
    simp only [sconf_string_to_integer, strtoll, hp, gt_iff_lt, h1, h2, if_false, hlt]
    simp

/-- The subject sequence of `strtoll` lies within the string. -/
theorem strtoll_scan_le (s : CStr) (base : Nat) : (strtoll_scan s base).2 ≤ s.length := by
  have hs : s.length = (s.takeWhile isspace).length + (s.dropWhile isspace).length := by
    conv_lhs => rw [← List.takeWhile_append_dropWhile isspace s]
    rw [List.length_append]
  have hhead : ∀ l : List Char, l.head? ≠ none → 1 ≤ l.length := by
    intro l hl
    cases l with
    | nil => exact absurd rfl hl
    | cons c cs => simp
  have h1 : (if (s.dropWhile isspace).head? = some '-' ∨ (s.dropWhile isspace).head? = some '+'
      then 1 else 0) ≤ (s.dropWhile isspace).length := by
    split_ifs with h
    · apply hhead
      rcases h with h | h <;> rw [h] <;> simp
    · exact Nat.zero_le _
  unfold strtoll_scan
  simp only
  generalize (if (s.dropWhile isspace).head? = some '-' ∨ (s.dropWhile isspace).head? = some '+'
      then 1 else 0) = sign at h1 ⊢
  generalize hs2 : (s.dropWhile isspace).drop sign = s2
  have hl2 : s2.length = (s.dropWhile isspace).length - sign := by
    rw [← hs2, List.length_drop]
  have h2 : (if base = 16 ∧ s2.head? = some '0' ∧ ((s2.drop 1).head? = some 'x' ∨
        (s2.drop 1).head? = some 'X') ∧ ((s2.drop 2).head?.map (is_base_digit 16)) = some true
      then 2 else 0) ≤ s2.length := by
    split_ifs with h
    · have h3 : 1 ≤ (s2.drop 2).length := by
        apply hhead
        intro hc
        rw [hc] at h
        simp at h
      rw [List.length_drop] at h3
      omega
    · exact Nat.zero_le _
  generalize (if base = 16 ∧ s2.head? = some '0' ∧ ((s2.drop 1).head? = some 'x' ∨
        (s2.drop 1).head? = some 'X') ∧ ((s2.drop 2).head?.map (is_base_digit 16)) = some true
      then 2 else 0) = pre at h2 ⊢
  have h3 := (List.takeWhile_prefix (is_base_digit base) (l := s2.drop pre)).length_le
  rw [List.length_drop] at h3
  split_ifs <;> simp only <;> omega

theorem integer_base_cases (s : CStr) :
    (['0', 'x'] <+: s → sconf_integer_base s = NUMBER_BASE_HEXADECIMAL) ∧
    (¬ ['0', 'x'] <+: s → s.head? = some '0' → 1 < s.length →
      sconf_integer_base s = NUMBER_BASE_OCTAL) ∧
    (¬ ['0', 'x'] <+: s → ¬ (s.head? = some '0' ∧ 1 < s.length) →
      sconf_integer_base s = NUMBER_BASE_DECIMAL) := by
  rcases s with _ | ⟨a, _ | ⟨b, t⟩⟩
  · simp [sconf_integer_base]
  · simp [sconf_integer_base]
  · simp only [sconf_integer_base, List.cons_prefix_cons, List.nil_prefix, and_true,
      List.head?_cons, Option.some.injEq, List.drop_succ_cons, List.drop_zero, List.length_cons]
    refine ⟨?_, ?_, ?_⟩
    · intro h
      rw [if_pos ⟨h.1.symm, h.2.symm⟩]
    · intro h h0 _
      rw [if_neg (fun hc => h ⟨hc.1.symm, hc.2.symm⟩), if_pos ⟨h0, by omega⟩]
    · intro h h0
      rw [if_neg (fun hc => h ⟨hc.1.symm, hc.2.symm⟩), if_neg h0]

/-- C17: `sconf_string_to_integer` hands the string to `strtoll` with the base 16
when it starts with `0x`, with the base 8 when it starts with `0` and is longer
than one character, and with the base 10 otherwise. So `0x1F` gives (1, 31),
`017` gives (1, 15), `42` gives (1, 42) and `0` gives (1, 0); and a run of
decimal digits that does not begin with `0`, with or without a sign before it,
gives 1 with its value when the value is within `long long`. -/
theorem sconf_string_to_integer_by_prefix :
    (∀ s : CStr,
      (['0', 'x'] <+: s → sconf_integer_base s = NUMBER_BASE_HEXADECIMAL) ∧
      (¬ ['0', 'x'] <+: s → s.head? = some '0' → 1 < s.length →
        sconf_integer_base s = NUMBER_BASE_OCTAL) ∧
      (¬ ['0', 'x'] <+: s → ¬ (s.head? = some '0' ∧ 1 < s.length) →
        sconf_integer_base s = NUMBER_BASE_DECIMAL) ∧
      sconf_string_to_integer s =
        (if (strtoll s (sconf_integer_base s)).endptr < s.length then
          (0, (strtoll s (sconf_integer_base s)).num)
        else if (strtoll s (sconf_integer_base s)).erange then
          (-1, (strtoll s (sconf_integer_base s)).num)
        else (1, (strtoll s (sconf_integer_base s)).num))) ∧
    sconf_string_to_integer "0x1F".toList = (1, 31) ∧
    sconf_string_to_integer "017".toList = (1, 15) ∧
    sconf_string_to_integer "42".toList = (1, 42) ∧
    sconf_string_to_integer "0".toList = (1, 0) ∧
    (∀ sign ds : List Char, (sign = [] ∨ sign = ['+'] ∨ sign = ['-']) → ds ≠ [] →
      ds.all isdigit = true → ds.head? ≠ some '0' →
      LLONG_MIN ≤ (if sign = ['-'] then -(spec_decimal ds : Int) else (spec_decimal ds : Int)) →
      (if sign = ['-'] then -(spec_decimal ds : Int) else (spec_decimal ds : Int)) ≤ LLONG_MAX →
      sconf_string_to_integer (sign ++ ds) =
        (1, if sign = ['-'] then -(spec_decimal ds : Int) else (spec_decimal ds : Int))) := by
  refine ⟨?_, rfl, rfl, rfl, rfl, ?_⟩
  · intro s
    obtain ⟨h1, h2, h3⟩ := integer_base_cases s
    exact ⟨h1, h2, h3, rfl⟩
  · intro sign ds hsign hne hd h0 hmin hmax
    have hb := integer_base_decimal sign ds hsign h0
    have hscan := strtoll_scan_decimal sign ds hsign hne hd
    have hle := strtoll_scan_le (sign ++ ds) (sconf_integer_base (sign ++ ds))
    obtain ⟨_, _, _, h4⟩ := string_to_integer_of_scan (sign ++ ds) hle
    rw [hb, hscan] at h4
    exact h4 rfl hmin hmax

theorem sconf_string_to_integer_by_prefix_witness :
    sconf_string_to_integer ("-".toList ++ "9223372036854775808".toList) =
      (1, -9223372036854775808) := by
  have h := sconf_string_to_integer_by_prefix.2.2.2.2.2 ['-'] "9223372036854775808".toList
    (Or.inr (Or.inr rfl)) (by decide) (by decide) (by decide) (by decide) (by decide)
  simpa using h

/-- C18: `sconf_string_to_integer` returns 0 when the subject sequence that
`strtoll` finds ends before the end of the string; when it ends at the end of
the string, the call returns -1 with the value above `LLONG_MAX` (overflow, as
for `99999999999999999999`) or below `LLONG_MIN` (underflow), and 1 with the
value itself in the other case. The subject sequence never goes beyond the end
of the string, so one of the cases applies. -/
theorem sconf_string_to_integer_result_code (s : CStr) :
    (strtoll_scan s (sconf_integer_base s)).2 ≤ s.length ∧
    ((strtoll_scan s (sconf_integer_base s)).2 < s.length → (sconf_string_to_integer s).1 = 0) ∧
    ((strtoll_scan s (sconf_integer_base s)).2 = s.length →
      LLONG_MAX < (strtoll_scan s (sconf_integer_base s)).1 →
      sconf_string_to_integer s = (-1, LLONG_MAX)) ∧
    ((strtoll_scan s (sconf_integer_base s)).2 = s.length →
      (strtoll_scan s (sconf_integer_base s)).1 < LLONG_MIN →
      sconf_string_to_integer s = (-1, LLONG_MIN)) ∧
    ((strtoll_scan s (sconf_integer_base s)).2 = s.length →
      LLONG_MIN ≤ (strtoll_scan s (sconf_integer_base s)).1 →
      (strtoll_scan s (sconf_integer_base s)).1 ≤ LLONG_MAX →
      sconf_string_to_integer s = (1, (strtoll_scan s (sconf_integer_base s)).1)) ∧
    sconf_string_to_integer "99999999999999999999".toList = (-1, LLONG_MAX) ∧
    sconf_string_to_integer "-99999999999999999999".toList = (-1, LLONG_MIN) ∧
    sconf_string_to_integer "12abc".toList = (0, 12) ∧
    sconf_string_to_integer "abc".toList = (0, 0) :=
  ⟨strtoll_scan_le s _, (string_to_integer_of_scan s (strtoll_scan_le s _)).1,
    (string_to_integer_of_scan s (strtoll_scan_le s _)).2.1,
    (string_to_integer_of_scan s (strtoll_scan_le s _)).2.2.1,
    (string_to_integer_of_scan s (strtoll_scan_le s _)).2.2.2, rfl, rfl, rfl, rfl⟩

theorem sconf_string_to_integer_result_code_witness :
    sconf_string_to_integer "9223372036854775808".toList = (-1, LLONG_MAX) :=
  (sconf_string_to_integer_result_code "9223372036854775808".toList).2.2.1 rfl (by decide)

/-- The test of `strncmp` against a token over its whole length holds exactly
for the strings that begin with the token. -/
theorem strncmp_eq_prefix (s t : CStr) :
    strncmp_eq s t t.length = true ↔ t <+: s := by
  simp only [strncmp_eq, List.take_length, decide_eq_true_eq]
  rw [List.prefix_iff_eq_take]
  exact eq_comm

/-- Two tokens, neither of which begins with the other, do not both begin a
string. -/
theorem prefix_disjoint (t1 t2 s : CStr) (h1 : ¬ t1 <+: t2) (h2 : ¬ t2 <+: t1) :
    ¬ (t1 <+: s ∧ t2 <+: s) := by
  rintro ⟨a, b⟩
  rcases Nat.le_total t1.length t2.length with h | h
  · exact h1 (List.prefix_of_prefix_length_le a b h)
  · exact h2 (List.prefix_of_prefix_length_le b a h)

/-- The chain of tests of `sconf_string_to_bool`, for tests of which no two
with different outcomes hold together. -/
theorem bool_token_chain (b1 b2 b3 b4 b5 b6 : Bool) (r : Int × Option Bool)
    (hr : r = if b1 then (1, some true) else if b2 then (1, some false)
      else if b3 then (1, some true) else if b4 then (1, some false)
      else if b5 then (1, some true) else if b6 then (1, some false) else (0, none))
    (d12 : ¬ (b1 = true ∧ b2 = true)) (d14 : ¬ (b1 = true ∧ b4 = true))
    (d16 : ¬ (b1 = true ∧ b6 = true)) (d32 : ¬ (b3 = true ∧ b2 = true))
    (d34 : ¬ (b3 = true ∧ b4 = true)) (d36 : ¬ (b3 = true ∧ b6 = true))
    (d52 : ¬ (b5 = true ∧ b2 = true)) (d54 : ¬ (b5 = true ∧ b4 = true))
    (d56 : ¬ (b5 = true ∧ b6 = true)) :
    (r.1 = 1 ↔ (b1 = true ∨ b2 = true ∨ b3 = true ∨ b4 = true ∨ b5 = true ∨ b6 = true)) ∧
    ((b1 = true ∨ b3 = true ∨ b5 = true) → r = (1, some true)) ∧
    ((b2 = true ∨ b4 = true ∨ b6 = true) → r = (1, some false)) ∧
    (r = (0, none) ∨ r.1 = 1) ∧ r.1 ≠ -1 := by
  subst hr
  cases b1 <;> cases b2 <;> cases b3 <;> cases b4 <;> cases b5 <;> cases b6 <;> simp_all

/-- C19: the call of `sconf_string_to_bool` returns 1 for strings that are none of the six
tokens: `nothing` and `offline` are taken as false, `true1`, `once` and
`yesterday` as true. The strings `1`, `0` and `0123456789` give 0. -/
theorem sconf_string_to_bool_accepts_longer_strings :
    sconf_string_to_bool "nothing".toList = (1, some false) ∧
    sconf_string_to_bool "offline".toList = (1, some false) ∧
    sconf_string_to_bool "true1".toList = (1, some true) ∧
    sconf_string_to_bool "once".toList = (1, some true) ∧
    sconf_string_to_bool "yesterday".toList = (1, some true) ∧
    sconf_string_to_bool "1".toList = (0, none) ∧
    sconf_string_to_bool "0".toList = (0, none) ∧
    sconf_string_to_bool "0123456789".toList = (0, none) := by
  refine ⟨?_, ?_, ?_, ?_, ?_, ?_, ?_, ?_⟩ <;> decide

/-- C20: `sconf_string_to_bool` returns 1 exactly for the strings that begin
with one of the tokens `true`, `false`, `yes`, `no`, `on`, `off`, in these
letters; it then yields true when the string begins with `true`, `yes` or `on`
and false when it begins with `false`, `no` or `off`. For every other string it
returns 0 and assigns nothing; it never returns -1. -/
theorem sconf_string_to_bool_by_prefix (s : CStr) :
    ((sconf_string_to_bool s).1 = 1 ↔
      ("true".toList <+: s ∨ "false".toList <+: s ∨ "yes".toList <+: s ∨ "no".toList <+: s ∨
        "on".toList <+: s ∨ "off".toList <+: s)) ∧
    (("true".toList <+: s ∨ "yes".toList <+: s ∨ "on".toList <+: s) →
      sconf_string_to_bool s = (1, some true)) ∧
    (("false".toList <+: s ∨ "no".toList <+: s ∨ "off".toList <+: s) →
      sconf_string_to_bool s = (1, some false)) ∧
    (sconf_string_to_bool s = (0, none) ∨ (sconf_string_to_bool s).1 = 1) ∧
    (sconf_string_to_bool s).1 ≠ -1 := by
  have e1 : strncmp_eq s "true".toList 4 = true ↔ "true".toList <+: s :=
    strncmp_eq_prefix s "true".toList
  have e2 : strncmp_eq s "false".toList 5 = true ↔ "false".toList <+: s :=
    strncmp_eq_prefix s "false".toList
  have e3 : strncmp_eq s "yes".toList 3 = true ↔ "yes".toList <+: s :=
    strncmp_eq_prefix s "yes".toList
  have e4 : strncmp_eq s "no".toList 2 = true ↔ "no".toList <+: s :=
    strncmp_eq_prefix s "no".toList
  have e5 : strncmp_eq s "on".toList 2 = true ↔ "on".toList <+: s :=
    strncmp_eq_prefix s "on".toList
  have e6 : strncmp_eq s "off".toList 3 = true ↔ "off".toList <+: s :=
    strncmp_eq_prefix s "off".toList
  have d12 := prefix_disjoint "true".toList "false".toList s (by decide) (by decide)
  have d14 := prefix_disjoint "true".toList "no".toList s (by decide) (by decide)
  have d16 := prefix_disjoint "true".toList "off".toList s (by decide) (by decide)
  have d32 := prefix_disjoint "yes".toList "false".toList s (by decide) (by decide)
  have d34 := prefix_disjoint "yes".toList "no".toList s (by decide) (by decide)
  have d36 := prefix_disjoint "yes".toList "off".toList s (by decide) (by decide)
  have d52 := prefix_disjoint "on".toList "false".toList s (by decide) (by decide)
  have d54 := prefix_disjoint "on".toList "no".toList s (by decide) (by decide)
  have d56 := prefix_disjoint "on".toList "off".toList s (by decide) (by decide)
  have h := bool_token_chain (strncmp_eq s "true".toList 4) (strncmp_eq s "false".toList 5)
    (strncmp_eq s "yes".toList 3) (strncmp_eq s "no".toList 2) (strncmp_eq s "on".toList 2)
    (strncmp_eq s "off".toList 3) (sconf_string_to_bool s) rfl
    (fun h => d12 ⟨e1.mp h.1, e2.mp h.2⟩) (fun h => d14 ⟨e1.mp h.1, e4.mp h.2⟩)
    (fun h => d16 ⟨e1.mp h.1, e6.mp h.2⟩) (fun h => d32 ⟨e3.mp h.1, e2.mp h.2⟩)
    (fun h => d34 ⟨e3.mp h.1, e4.mp h.2⟩) (fun h => d36 ⟨e3.mp h.1, e6.mp h.2⟩)
    (fun h => d52 ⟨e5.mp h.1, e2.mp h.2⟩) (fun h => d54 ⟨e5.mp h.1, e4.mp h.2⟩)
    (fun h => d56 ⟨e5.mp h.1, e6.mp h.2⟩)
  rw [e1, e2, e3, e4, e5, e6] at h
  exact h

/-- The tokens are matched in their lower-case letters only, and each of them
is accepted on its own. -/
theorem string_to_bool_examples :
    sconf_string_to_bool "True".toList = (0, none) ∧
    sconf_string_to_bool "YES".toList = (0, none) ∧
    sconf_string_to_bool "true".toList = (1, some true) ∧
    sconf_string_to_bool "false".toList = (1, some false) ∧
    sconf_string_to_bool "yes".toList = (1, some true) ∧
    sconf_string_to_bool "no".toList = (1, some false) ∧
    sconf_string_to_bool "on".toList = (1, some true) ∧
    sconf_string_to_bool "off".toList = (1, some false) := by
  refine ⟨?_, ?_, ?_, ?_, ?_, ?_, ?_, ?_⟩ <;> decide

/-! ### Error messages -/

/-- The message that `sconf_err_set` stores, by the length of the text. -/
theorem err_set_cases (old m : CStr) :
    (m.length ≤ 254 → sconf_err_set (some old) m = some m) ∧
    (m.length = 255 → sconf_err_set (some old) m = some (m.take 254)) ∧
    (256 ≤ m.length →
      sconf_err_set (some old) m = some "setting error message failed".toList) := by
  simp only [sconf_err_set, vsnprintf, ERR_MSG_MAX_LEN]
  refine ⟨?_, ?_, ?_⟩
  · intro h
    have h1 : ¬ ((m.length : Int) > ((256 - 1 : Nat) : Int)) := by omega
    rw [if_neg h1]
    simp only [Option.some.injEq]
    exact List.take_of_length_le (by omega)
  · intro h
    have h1 : ¬ ((m.length : Int) > ((256 - 1 : Nat) : Int)) := by omega
    rw [if_neg h1]
  · intro h
    have h1 : (m.length : Int) > ((256 - 1 : Nat) : Int) := by omega
    rw [if_pos h1]

/-- C26: for a text of 255 characters `sconf_err_set` stores its first 254
characters, a proper prefix of the text and not the replacement marker:
`vsnprintf` is given the size 255, so it keeps 254 characters, and its return
value 255 is not above `ERR_MSG_MAX_LEN - 1`. The text of 256 characters of the
test is replaced by the marker, and a text of 254 characters is stored in
full. -/
theorem sconf_err_set_truncates_silently :
    sconf_err_set (some []) (List.replicate 255 'a') = some (List.replicate 254 'a') ∧
    List.replicate 254 'a' <+: List.replicate 255 'a' ∧
    List.replicate 254 'a' ≠ List.replicate 255 'a' ∧
    List.replicate 254 'a' ≠ "setting error message failed".toList ∧
    sconf_err_set (some []) (List.replicate 256 'a') =
      some "setting error message failed".toList ∧
    sconf_err_set (some []) (List.replicate 254 'a') = some (List.replicate 254 'a') := by
  refine ⟨?_, ?_, ?_, ?_, ?_, ?_⟩
  · have h := (err_set_cases [] (List.replicate 255 'a')).2.1 (by rw [List.length_replicate])
    rw [h, List.take_replicate]
    rfl
  · exact ⟨['a'], by rw [← List.replicate_succ']⟩
  · intro h
    have := congrArg List.length h
    rw [List.length_replicate, List.length_replicate] at this
    omega
  · intro h
    have := congrArg List.length h
    rw [List.length_replicate] at this
    exact absurd this (by decide)
  · exact (err_set_cases [] (List.replicate 256 'a')).2.2 (by rw [List.length_replicate])
  · exact (err_set_cases [] (List.replicate 254 'a')).1 (by rw [List.length_replicate])

/-! ### Validation -/

theorem validate_required_eq {σ : Type} (root : SConfNode) (e : SConfMap σ) :
    (sconf_validate_check_required root e = 0 ↔ spec_required_ok root e) ∧
    (sconf_validate_check_required root e = 0 ∨ sconf_validate_check_required root e = -1) := by
  unfold sconf_validate_check_required spec_required_ok
  cases hr : e.required with
  | false => simp
  | true =>
    cases hp : e.path with
    | none => simp
    | some path =>
      simp only [Bool.true_eq_false, if_false, forall_const, Option.some.injEq,
        exists_and_left, exists_eq_left']
      rcases sconf_get_cases (some root) (some path) with ⟨n, hg⟩ | hg | hg
      · rw [hg]
        simp only [show ¬ ((1 : Int) = -1) by decide, show ¬ ((1 : Int) = 0) by decide, if_false,
          Prod.mk.injEq, true_and, Option.some.injEq, exists_eq_left']
        by_cases ht : e.type = sconf_type n
        · simp [ht]
        · simp [ht, Ne.symm ht]
      · rw [hg]
        simp
      · rw [hg]
        simp

theorem validate_func_ok {σ : Type} (root : SConfNode) (e : SConfMap σ) (user : σ)
    (h : spec_validator_ok root e) : (sconf_validate_run_validate_func root e user).1 = 0 := by
  unfold sconf_validate_run_validate_func
  cases hf : e.validate_func with
  | none => rfl
  | some f =>
    obtain ⟨path, hp, hg, h0⟩ := h f hf
    simp only [hp, hg, if_false, h0 user, ne_eq, not_true_eq_false]

theorem validate_func_rc {σ : Type} (root : SConfNode) (e : SConfMap σ) (user : σ) :
    (sconf_validate_run_validate_func root e user).1 = 0 ∨
      (sconf_validate_run_validate_func root e user).1 = -1 := by
  unfold sconf_validate_run_validate_func
  cases e.validate_func with
  | none => exact Or.inl rfl
  | some f =>
    cases e.path with
    | none => exact Or.inr rfl
    | some path =>
      simp only
      split_ifs
      · exact Or.inr rfl
      · exact Or.inr rfl
      · exact Or.inl rfl

theorem validate_func_rejects {σ : Type} (root : SConfNode) (e : SConfMap σ) (user : σ)
    (h : spec_validator_rejects root e ∨ (e.validate_func ≠ none ∧ e.path = none)) :
    (sconf_validate_run_validate_func root e user).1 = -1 := by
  unfold sconf_validate_run_validate_func
  rcases h with ⟨f, path, hf, hp, hz⟩ | ⟨hf, hp⟩
  · simp only [hf, hp]
    split_ifs with h1 h2
    · rfl
    · rfl
    · exact absurd (not_not.mp h2) (hz user)
  · cases hv : e.validate_func with
    | none => exact absurd hv hf
    | some f => simp only [hp]

theorem validate_loop_rc {σ : Type} (root : SConfNode) (m : List (SConfMap σ)) :
    ∀ user : σ, (sconf_validate_loop root m user).1 = 0 ∨
      (sconf_validate_loop root m user).1 = -1 := by
  induction m with
  | nil => intro user; exact Or.inl rfl
  | cons e rest ih =>
    intro user
    simp only [sconf_validate_loop]
    split_ifs
    · exact Or.inl rfl
    · exact Or.inr rfl
    · exact Or.inr rfl
    · exact ih _

theorem validate_loop_ok {σ : Type} (root : SConfNode) (m : List (SConfMap σ)) :
    ∀ user : σ, (∀ e ∈ map_entries m, spec_required_ok root e ∧ spec_validator_ok root e) →
      (sconf_validate_loop root m user).1 = 0 := by
  induction m with
  | nil => intro user _; rfl
  | cons e rest ih =>
    intro user h
    simp only [sconf_validate_loop]
    by_cases ht : e.type = 0
    · rw [if_pos ht]
    · have hme : map_entries (e :: rest) = e :: map_entries rest := by
        simp [map_entries, List.takeWhile, ht]
      rw [hme] at h
      obtain ⟨h1, h2⟩ := h e (List.mem_cons_self _ _)
      have c1 := (validate_required_eq root e).1.mpr h1
      have c2 := validate_func_ok root e user h2
      rw [if_neg ht, c1, c2]
      simp only [show ¬ ((0 : Int) = -1) by decide, if_false]
      exact ih _ (fun x hx => h x (List.mem_cons_of_mem _ hx))

theorem validate_loop_fail {σ : Type} (root : SConfNode) (m : List (SConfMap σ)) :
    ∀ user : σ, (∃ e ∈ map_entries m, ¬ spec_required_ok root e ∨ spec_validator_rejects root e ∨
        (e.validate_func ≠ none ∧ e.path = none)) →
      (sconf_validate_loop root m user).1 = -1 := by
  induction m with
  | nil =>
    intro user h
    obtain ⟨e, he, _⟩ := h
    simp [map_entries] at he
  | cons e rest ih =>
    intro user h
    simp only [sconf_validate_loop]
    by_cases ht : e.type = 0
    · obtain ⟨x, hx, _⟩ := h
      simp [map_entries, List.takeWhile, ht] at hx
    · have hme : map_entries (e :: rest) = e :: map_entries rest := by
        simp [map_entries, List.takeWhile, ht]
      rw [hme] at h
      rw [if_neg ht]
      by_cases c1 : sconf_validate_check_required root e = -1
      · rw [if_pos c1]
      · rw [if_neg c1]
        by_cases c2 : (sconf_validate_run_validate_func root e user).1 = -1
        · rw [if_pos c2]
        · rw [if_neg c2]
          apply ih
          obtain ⟨x, hx, hbad⟩ := h
          rcases List.mem_cons.mp hx with rfl | hx
          · exfalso
            rcases hbad with hb | hb
            · have hreq := (validate_required_eq root x).2
              rcases hreq with h0 | h1
              · exact hb ((validate_required_eq root x).1.mp h0)
              · exact c1 h1
            · exact c2 (validate_func_rejects root x user hb)
          · exact ⟨x, hx, hbad⟩

/-- C29, counterexample: a map of one entry that is not required and has a
validator that always returns 0, but no path. No required entry is at fault
and every validator returns 0, yet `sconf_validate` returns -1. -/
theorem sconf_validate_validator_without_path :
    (sconf_validate (some (.dict []))
      (some [(⟨none, SCONF_TYPE_STR, none, none, false,
        some (fun _ _ (u : Unit) => ((0 : Int), u))⟩ : SConfMap Unit)]) ()).1 = -1 := by
  rfl

/-- C29: for every map, `sconf_validate` returns -1 if some entry marked
required has no path, has a path at which `sconf_get` finds nothing or fails,
or has a path that holds a node of another type than the declared one, or if
the validator of some entry returns a value other than 0, or if some entry has
a validator and no path. It returns 0 when every required entry has a path
that holds a node of the declared type and every entry with a validator has a
path on which `sconf_get` does not fail and a validator that returns 0. It
returns nothing else. The entries are those before the terminating entry. -/
theorem sconf_validate_required (σ : Type) (root : SConfNode) (m : List (SConfMap σ))
    (user : σ) :
    ((∃ e ∈ map_entries m, ¬ spec_required_ok root e ∨ spec_validator_rejects root e ∨
        (e.validate_func ≠ none ∧ e.path = none)) →
      (sconf_validate (some root) (some m) user).1 = -1) ∧
    ((∀ e ∈ map_entries m, spec_required_ok root e ∧ spec_validator_ok root e) →
      (sconf_validate (some root) (some m) user).1 = 0) ∧
    ((sconf_validate (some root) (some m) user).1 = 0 ∨
      (sconf_validate (some root) (some m) user).1 = -1) :=
  ⟨validate_loop_fail root m user, validate_loop_ok root m user, validate_loop_rc root m user⟩

/-! ### The kind of the containers that `sconf_set` creates -/

theorem set_descend_type (p q : SConfNode) (c : CStr) (slot : SConfSlot)
    (h : sconf_type p = sconf_type q) (hs : set_slot p (some c) = some slot) :
    set_descend q c = q.fetch slot := by
  simp only [set_descend, ← set_slot_type p q (some c) h, hs]

/-- After a call of `sconf_set` that returns 0, every node before a further
segment has the kind that the segment asks for. -/
theorem set_loop_kinds (ty : Nat) (v : Option SConfData) (toks : List CStr) :
    ∀ (parent : SConfNode) (c : CStr) (depth : Nat) (parent' : SConfNode),
      sconf_set_loop ty v parent (some c) depth toks = some (0, parent') →
      ∀ pre x s rest, c :: toks = pre ++ x :: s :: rest →
        ∃ n, set_resolve parent' (pre ++ [x]) = some n ∧ sconf_type n = container_kind s := by
  induction toks with
  | nil =>
    intro parent c depth parent' _ pre x s rest hsplit
    have := congrArg List.length hsplit
    simp at this
    omega
  | cons next rest0 ih =>
    intro parent c depth parent' h pre x s rest hsplit
    simp only [sconf_set_loop] at h
    split at h
    · cases h
    · rename_i r hr
      split at h
      · simp at h
      · rename_i slot child hnode
        split_ifs at h with hdepth
        · simp at h
        · split at h
          · cases h
          · rename_i rc child' hrec
            simp only [Option.some.injEq, Prod.mk.injEq] at h
            obtain ⟨hrc, hp⟩ := h
            subst hrc
            have hr' : sconf_node_create_and_insert (some c)
                (if next.head? = some '[' then SCONF_TYPE_ARRAY else SCONF_TYPE_DICT)
                parent 0 none = some ⟨r.parent, some (slot, child)⟩ := by
              rw [hr]
              cases r
              simp only at hnode
              simp only [hnode]
            obtain ⟨hs, hf, hct, htp⟩ := create_and_insert_spec _ _ _ _ _ _ _ hr'
            have hctype : sconf_type child' = sconf_type child :=
              set_loop_type _ _ _ _ _ _ _ _ hrec
            have hdesc : set_descend parent' c = some child' := by
              rw [← hp]
              rw [set_descend_type parent (r.parent.store slot child') c slot
                (by rw [sconf_type_store, htp]) hs]
              exact fetch_store _ _ _ _ hf
            cases pre with
            | nil =>
              simp only [List.nil_append, List.cons.injEq] at hsplit
              obtain ⟨hx, hs2, _⟩ := hsplit
              subst hx hs2
              refine ⟨child', ?_, ?_⟩
              · simp only [List.nil_append, set_resolve, hdesc]
              · rw [hctype, hct]
                rfl
            | cons p0 pre' =>
              simp only [List.cons_append, List.cons.injEq] at hsplit
              obtain ⟨hp0, hrest⟩ := hsplit
              subst hp0
              obtain ⟨n, hn1, hn2⟩ := ih child next (depth + 1) child' hrec pre' x s rest hrest
              exact ⟨n, by simp only [List.cons_append, set_resolve, hdesc, List.append_eq, hn1],
                hn2⟩

/-- A call of `sconf_set` on a path along which a node is there with another
type than the one asked of it returns -1 and leaves the tree as it is. -/
theorem set_loop_follows_resolve (ty : Nat) (v : Option SConfData) (suf : List CStr)
    (toks : List CStr) :
    ∀ (parent : SConfNode) (c : CStr) (depth : Nat) (n : SConfNode),
      set_resolve parent (c :: toks) = some n →
      sconf_type n ≠ asked_type ty suf →
      sconf_set_loop ty v parent (some c) depth (toks ++ suf) = some (-1, parent) := by
  induction toks with
  | nil =>
    intro parent c depth n hres hty
    simp only [set_resolve, set_descend] at hres
    cases hs : set_slot parent (some c) with
    | none => simp [hs] at hres
    | some slot =>
      simp only [hs] at hres
      cases hf : parent.fetch slot with
      | none => simp [hf] at hres
      | some m =>
        simp only [hf, Option.some.injEq] at hres
        subst hres
        cases suf with
        | nil =>
          simp only [asked_type] at hty
          simp only [List.append_nil, sconf_set_loop,
            create_and_insert_mismatch _ _ _ _ _ _ hs hf hty]
        | cons s rest =>
          simp only [asked_type] at hty
          simp only [List.nil_append, sconf_set_loop]
          rw [create_and_insert_mismatch _ _ _ _ _ _ hs hf hty]
  | cons next rest ih =>
    intro parent c depth n hres hty
    simp only [set_resolve, set_descend] at hres
    cases hs : set_slot parent (some c) with
    | none => simp [hs] at hres
    | some slot =>
      simp only [hs] at hres
      cases hf : parent.fetch slot with
      | none => simp [hf] at hres
      | some child =>
        simp only [hf] at hres
        have hres' : set_resolve child (next :: rest) = some n := by
          simpa only [set_resolve, set_descend] using hres
        simp only [List.cons_append, sconf_set_loop]
        by_cases hct : sconf_type child =
            (if next.head? = some '[' then SCONF_TYPE_ARRAY else SCONF_TYPE_DICT)
        · rw [create_and_insert_container _ _ _ _ _ _ hs hf hct (by split_ifs <;> simp)]
          simp only []
          split_ifs with hdepth
          · rfl
          · have hrec := ih child next (depth + 1) n hres' hty
            simp only [List.append_eq, hrec, store_same _ _ _ hf]
        · rw [create_and_insert_mismatch _ _ _ _ _ _ hs hf hct]

theorem set_loop_start (ty : Nat) (v : Option SConfData) (root : SConfNode) (t : CStr)
    (toks : List CStr) :
    sconf_set_loop ty v root none 1 (t :: toks) = sconf_set_loop ty v root (some t) 2 toks := by
  rw [sconf_set_loop, if_neg (by decide)]

/-- Two calls of `sconf_set`: on the empty dictionary the path
`foo.[0].bar.[1]` creates an array under `foo`, a dictionary at its index 0
and an array under `bar`; on a tree that holds an array under `foo` the path
`foo.x.y` fails and leaves the tree as it was, since the segment `x` asks for
a dictionary. -/
theorem set_container_kind_example :
    sconf_set (some (.dict [])) (some "foo.[0].bar.[1]".toList) SCONF_TYPE_STR
        (some ⟨"rofl".toList, 0, false, 0, none⟩) =
      some (0, some (.dict [("foo".toList, .array [some (.dict [("bar".toList,
        .array [none, some (.str "rofl".toList)])])])])) ∧
    sconf_set (some (.dict [("foo".toList, .array [none])])) (some "foo.x.y".toList)
        SCONF_TYPE_STR (some ⟨"rofl".toList, 0, false, 0, none⟩) =
      some (-1, some (.dict [("foo".toList, .array [none])])) := by
  constructor <;> rfl

/-- C30: after a call of `sconf_set` that returns 0, every interior node of the
path, the nodes that the call created among them, is an array if the segment
that follows it begins with `[` and a dictionary otherwise. If an interior
node was there before the call with another type, `sconf_set` returns -1 and
leaves the tree as it was. The interior nodes are those that `sconf_set` goes
through: the entry under the name in a dictionary, the entry at the parsed
index in an array. -/
theorem sconf_set_container_kind (root : SConfNode) (p : CStr) (ty : Nat) (d : SConfData)
    (pre : List CStr) (c s : CStr) (rest : List CStr)
    (hsplit : strtok_r p [] = pre ++ c :: s :: rest) :
    (∀ root', sconf_set (some root) (some p) ty (some d) = some (0, some root') →
      ∃ n, set_resolve root' (pre ++ [c]) = some n ∧ sconf_type n = container_kind s) ∧
    (∀ n, set_resolve root (pre ++ [c]) = some n → sconf_type n ≠ container_kind s →
      sconf_set (some root) (some p) ty (some d) = some (-1, some root)) := by
  constructor
  · intro root' hset
    rw [sconf_set_some, hsplit] at hset
    cases pre with
    | nil =>
      rw [List.nil_append, set_loop_start] at hset
      exact set_loop_kinds ty (some d) _ root c 2 root' hset [] c s rest rfl
    | cons t pre' =>
      rw [List.cons_append, set_loop_start] at hset
      exact set_loop_kinds ty (some d) _ root t 2 root' hset (t :: pre') c s rest rfl
  · intro n hres hty
    have hkind : sconf_type n ≠ asked_type ty (s :: rest) := hty
    simp only [sconf_set]
    rw [hsplit]
    cases pre with
    | nil =>
      rw [List.nil_append, set_loop_start]
      have := set_loop_follows_resolve ty (some d) (s :: rest) [] root c 2 n hres hkind
      simp only [List.nil_append] at this
      rw [this]
      rfl
    | cons t pre' =>
      rw [List.cons_append, set_loop_start]
      have := set_loop_follows_resolve ty (some d) (s :: rest) (pre' ++ [c]) root t 2 n
        (by simpa using hres) hkind
      simp only [List.append_assoc, List.singleton_append] at this
      rw [this]
      rfl

/-- C30, instances. `sconf_set` of `a.[0].b` on the empty dictionary returns 0:
`a`, which `[0]` follows, is an array and `a.[0]`, which `b` follows, is a
dictionary in the tree after the call. On the tree in which `a` is a
dictionary the call returns -1 and leaves the tree as it was. -/
theorem sconf_set_container_kind_witness :
    (∃ n, set_resolve (.dict [("a".toList, .array [some (.dict [("b".toList, .int 1)])])])
        ([] ++ ["a".toList]) = some n ∧ sconf_type n = container_kind "[0]".toList) ∧
    (∃ n, set_resolve (.dict [("a".toList, .array [some (.dict [("b".toList, .int 1)])])])
        (["a".toList] ++ ["[0]".toList]) = some n ∧ sconf_type n = container_kind "b".toList) ∧
    sconf_set (some (.dict [("a".toList, .dict [])])) (some "a.[0].b".toList) SCONF_TYPE_INT
      (some ⟨[], 1, false, 0, none⟩) = some (-1, some (.dict [("a".toList, .dict [])])) :=
  ⟨(sconf_set_container_kind (.dict []) "a.[0].b".toList SCONF_TYPE_INT
      ⟨[], 1, false, 0, none⟩ [] "a".toList "[0]".toList ["b".toList] (by decide)).1 _ rfl,
    (sconf_set_container_kind (.dict []) "a.[0].b".toList SCONF_TYPE_INT
      ⟨[], 1, false, 0, none⟩ ["a".toList] "[0]".toList "b".toList [] (by decide)).1 _ rfl,
    (sconf_set_container_kind (.dict [("a".toList, .dict [])]) "a.[0].b".toList SCONF_TYPE_INT
      ⟨[], 1, false, 0, none⟩ [] "a".toList "[0]".toList ["b".toList] (by decide)).2
        (.dict []) rfl (by decide)⟩

/-! ### The outcomes of `sconf_node_create_and_insert` -/

theorem insert_at_outcome (parent : SConfNode) (slot : SConfSlot) (n : SConfNode)
    (r : SConfInserted) (h : insert_at parent slot n = some r)
    (hf : parent.fetch slot = none) :
    (r.node = none ∧ r.parent = parent) ∨
    (r.node = some (slot, n) ∧ r.parent.fetch slot = some n ∧
      sconf_type r.parent = sconf_type parent ∧
      ∀ other, other ≠ slot → r.parent.fetch other = parent.fetch other) := by
  cases parent with
  | dict d =>
    cases slot with
    | name k =>
      simp only [insert_at, Option.some.injEq] at h
      subst h
      simp only [SConfNode.fetch] at hf
      right
      refine ⟨rfl, art_search_append d k n hf, rfl, ?_⟩
      intro other ho
      cases other with
      | name k' => exact art_search_append_ne d k k' n (fun hc => ho (by rw [hc]))
      | index j => rfl
    | index i =>
      simp only [insert_at, Option.some.injEq] at h
      subst h
      exact Or.inl ⟨rfl, rfl⟩
  | array a =>
    cases slot with
    | name k =>
      simp only [insert_at, Option.some.injEq] at h
      subst h
      exact Or.inl ⟨rfl, rfl⟩
    | index i =>
      simp only [insert_at] at h
      cases hi : sconf_array_insert a i (some n) with
      | none => simp [hi] at h
      | some x =>
        obtain ⟨rc, a'⟩ := x
        simp only [hi, Option.map_some', Option.some.injEq] at h
        obtain ⟨h1, _, _, h4⟩ := array_insert_step a a' i (some n) rc hi
        rcases h1 with h0 | hm
        · subst h0
          rw [if_neg (by decide)] at h
          subst h
          right
          have hget := array_insert_absent a i n 0 a' hi (by decide)
          refine ⟨rfl, hget, rfl, ?_⟩
          intro other ho
          cases other with
          | name k' => rfl
          | index j =>
            simp only [SConfNode.fetch]
            have hne : j ≠ i := fun hc => ho (by rw [hc])
            simp only [SConfNode.fetch] at hf
            unfold sconf_array_insert at hi
            simp only at hi
            rcases array_grow_cases a ((i + 1) % UINT32_MOD) with hg | ⟨hg, _⟩
            · rw [hg] at hi
              simp at hi
            · rw [hg] at hi
              simp only [ne_eq, not_true_eq_false, if_false] at hi
              split_ifs at hi with hlt
              rw [getD_grown, hf] at hi
              simp only [Option.some.injEq, Prod.mk.injEq, true_and] at hi
              rw [← hi, getD_set_ne _ _ _ _ hne, getD_grown]
        · subst hm
          rw [if_pos rfl] at h
          subst h
          exact Or.inl ⟨rfl, congrArg SConfNode.array (h4 rfl)⟩
  | str s => simp only [insert_at, Option.some.injEq] at h; subst h; exact Or.inl ⟨rfl, rfl⟩
  | int s => simp only [insert_at, Option.some.injEq] at h; subst h; exact Or.inl ⟨rfl, rfl⟩
  | bool s => simp only [insert_at, Option.some.injEq] at h; subst h; exact Or.inl ⟨rfl, rfl⟩
  | float s => simp only [insert_at, Option.some.injEq] at h; subst h; exact Or.inl ⟨rfl, rfl⟩

/-- Every outcome of a call of `sconf_node_create_and_insert` that returns: `NULL`
with the parent as it was; a fresh node in a slot that was empty, every other
slot as it was; or the node that the slot held, of the type asked, with its
value replaced. -/
theorem create_and_insert_outcome (name : Option CStr) (ty : Nat) (parent : SConfNode)
    (index : Nat) (data : Option SConfData) (r : SConfInserted)
    (h : sconf_node_create_and_insert name ty parent index data = some r) :
    (r.node = none ∧ r.parent = parent) ∨
    (∃ slot n, r.node = some (slot, n) ∧ create_slot parent name index = some slot ∧
      ((parent.fetch slot = none ∧ sconf_node_create ty data = some (some n) ∧
          r.parent.fetch slot = some n ∧ sconf_type r.parent = sconf_type parent ∧
          ∀ other, other ≠ slot → r.parent.fetch other = parent.fetch other) ∨
        (∃ m, parent.fetch slot = some m ∧ sconf_type m = ty ∧
          sconf_node_replace ty m data = some (0, n) ∧ r.parent = parent.store slot n))) := by
  rw [create_and_insert_index_eq] at h
  cases hs : create_slot parent name index with
  | none =>
    simp only [hs, Option.some.injEq] at h
    subst h
    exact Or.inl ⟨rfl, rfl⟩
  | some s =>
    simp only [hs] at h
    cases hf : parent.fetch s with
    | none =>
      simp only [hf] at h
      cases hc : sconf_node_create ty data with
      | none => simp [hc] at h
      | some o =>
        cases o with
        | none =>
          simp only [hc, Option.some.injEq] at h
          subst h
          exact Or.inl ⟨rfl, rfl⟩
        | some m =>
          simp only [hc] at h
          rcases insert_at_outcome parent s m r h hf with h1 | ⟨h1, h2, h3, h4⟩
          · exact Or.inl h1
          · exact Or.inr ⟨s, m, h1, rfl, Or.inl ⟨hf, rfl, h2, h3, h4⟩⟩
    | some m =>
      simp only [hf] at h
      by_cases ht : sconf_type m = ty
      · simp only [ht, ne_eq, not_true_eq_false, if_false] at h
        cases hr : sconf_node_replace ty m data with
        | none => simp [hr] at h
        | some x =>
          obtain ⟨rc, n'⟩ := x
          have hrc := (replace_rc _ _ _ _ _ hr).1
          subst hrc
          simp only [hr, Option.map_some', Option.some.injEq] at h
          subst h
          exact Or.inr ⟨s, n', rfl, rfl, Or.inr ⟨m, hf, ht, hr, rfl⟩⟩
      · simp only [ne_eq, ht, not_false_eq_true, if_true, Option.some.injEq] at h
        subst h
        exact Or.inl ⟨rfl, rfl⟩

/-! ### Type inference for scalars (`sconf_yaml_node_add`) -/

theorem string_to_integer_rc (s : CStr) :
    (sconf_string_to_integer s).1 = 1 ∨ (sconf_string_to_integer s).1 = 0 ∨
      (sconf_string_to_integer s).1 = -1 := by
  unfold sconf_string_to_integer
  simp only
  split_ifs
  · exact Or.inr (Or.inl rfl)
  · exact Or.inr (Or.inr rfl)
  · exact Or.inl rfl

theorem string_to_float_rc (strtod : CStr → StrtodResult) (s : CStr) :
    (sconf_string_to_float strtod s).1 = 1 ∨ (sconf_string_to_float strtod s).1 = 0 ∨
      (sconf_string_to_float strtod s).1 = -1 := by
  unfold sconf_string_to_float
  simp only
  split_ifs
  · exact Or.inr (Or.inl rfl)
  · exact Or.inr (Or.inr rfl)
  · exact Or.inl rfl

theorem string_to_bool_rc (s : CStr) :
    (sconf_string_to_bool s).1 = 1 ∨ sconf_string_to_bool s = (0, none) := by
  unfold sconf_string_to_bool
  split_ifs
  all_goals first
    | exact Or.inl rfl
    | exact Or.inr rfl

/-- The order of the conversions in `sconf_yaml_node_add`. -/
theorem yaml_scalar_infer_freed (strtod : CStr → StrtodResult) (value : CStr) (style : Nat) :
    (yaml_scalar_infer strtod value style).2.2.freed = none := by
  unfold yaml_scalar_infer
  split_ifs <;> rfl

theorem yaml_scalar_infer_cases (strtod : CStr → StrtodResult) (value : CStr) (style : Nat) :
    ((style = YAML_DOUBLE_QUOTED_SCALAR_STYLE ∨ style = YAML_SINGLE_QUOTED_SCALAR_STYLE ∨
        value = []) →
      yaml_scalar_infer strtod value style = (0, SCONF_TYPE_STR, ⟨value, 0, false, 0, none⟩)) ∧
    (¬ (style = YAML_DOUBLE_QUOTED_SCALAR_STYLE ∨ style = YAML_SINGLE_QUOTED_SCALAR_STYLE ∨
        value = []) →
      ((sconf_string_to_integer value).1 = 1 →
        yaml_scalar_infer strtod value style =
          (1, SCONF_TYPE_INT, ⟨[], (sconf_string_to_integer value).2, false, 0, none⟩)) ∧
      ((sconf_string_to_integer value).1 = -1 →
        (yaml_scalar_infer strtod value style).1 = -1) ∧
      ((sconf_string_to_integer value).1 = 0 →
        ((sconf_string_to_float strtod value).1 = 1 →
          yaml_scalar_infer strtod value style =
            (1, SCONF_TYPE_FLOAT, ⟨[], 0, false, (sconf_string_to_float strtod value).2, none⟩)) ∧
        ((sconf_string_to_float strtod value).1 = -1 →
          (yaml_scalar_infer strtod value style).1 = -1) ∧
        ((sconf_string_to_float strtod value).1 = 0 →
          ((sconf_string_to_bool value).1 = 1 →
            yaml_scalar_infer strtod value style =
              (1, SCONF_TYPE_BOOL, ⟨[], 0, ((sconf_string_to_bool value).2).getD false, 0, none⟩)) ∧
          ((sconf_string_to_bool value).1 = 0 →
            yaml_scalar_infer strtod value style =
              (0, SCONF_TYPE_STR, ⟨value, 0, false, 0, none⟩))))) := by
  constructor
  · intro hq
    have hq' : style = YAML_DOUBLE_QUOTED_SCALAR_STYLE ∨
        style = YAML_SINGLE_QUOTED_SCALAR_STYLE ∨ value.length = 0 := by
      rcases hq with h | h | h
      · exact Or.inl h
      · exact Or.inr (Or.inl h)
      · exact Or.inr (Or.inr (by rw [h]; rfl))
    simp only [yaml_scalar_infer, if_pos hq']
  · intro hq
    have hq' : ¬ (style = YAML_DOUBLE_QUOTED_SCALAR_STYLE ∨
        style = YAML_SINGLE_QUOTED_SCALAR_STYLE ∨ value.length = 0) := by
      intro h
      apply hq
      rcases h with h | h | h
      · exact Or.inl h
      · exact Or.inr (Or.inl h)
      · exact Or.inr (Or.inr (List.length_eq_zero.mp h))
    refine ⟨?_, ?_, ?_⟩
    · intro h1
      simp only [yaml_scalar_infer, if_neg hq', h1, ne_eq, show ¬ ((1 : Int) = 0) by decide,
        not_false_eq_true, if_true]
    · intro h1
      simp only [yaml_scalar_infer, if_neg hq', h1, ne_eq, show ¬ ((-1 : Int) = 0) by decide,
        not_false_eq_true, if_true]
    · intro h0
      refine ⟨?_, ?_, ?_⟩
      · intro h1
        simp only [yaml_scalar_infer, if_neg hq', h0, h1, ne_eq, not_true_eq_false, if_false,
          show ¬ ((1 : Int) = 0) by decide, not_false_eq_true, if_true]
      · intro h1
        simp only [yaml_scalar_infer, if_neg hq', h0, h1, ne_eq, not_true_eq_false, if_false,
          show ¬ ((-1 : Int) = 0) by decide, not_false_eq_true, if_true]
      · intro hf0
        refine ⟨?_, ?_⟩
        · intro h1
          simp only [yaml_scalar_infer, if_neg hq', h0, hf0, h1, ne_eq, not_true_eq_false,
            if_false, show ¬ ((1 : Int) = 0) by decide, not_false_eq_true, if_true]
        · intro h1
          simp only [yaml_scalar_infer, if_neg hq', h0, hf0, h1, ne_eq, not_true_eq_false,
            if_false]

/-- The inferred type is a scalar type, and the return value kept is 0, 1
or -1. -/
theorem yaml_scalar_infer_type (strtod : CStr → StrtodResult) (value : CStr) (style : Nat) :
    (3 ≤ (yaml_scalar_infer strtod value style).2.1 ∧
      (yaml_scalar_infer strtod value style).2.1 ≤ 6) ∧
    ((yaml_scalar_infer strtod value style).1 = 0 ∨
      (yaml_scalar_infer strtod value style).1 = 1 ∨
      (yaml_scalar_infer strtod value style).1 = -1) := by
  unfold yaml_scalar_infer
  split_ifs with h1 h2 h3 h4
  · exact ⟨⟨by simp only []; decide, by simp only []; decide⟩, Or.inl rfl⟩
  · refine ⟨⟨by simp only []; decide, by simp only []; decide⟩, ?_⟩
    rcases string_to_integer_rc value with h | h | h
    · exact Or.inr (Or.inl h)
    · exact Or.inl h
    · exact Or.inr (Or.inr h)
  · refine ⟨⟨by simp only []; decide, by simp only []; decide⟩, ?_⟩
    rcases string_to_float_rc strtod value with h | h | h
    · exact Or.inr (Or.inl h)
    · exact Or.inl h
    · exact Or.inr (Or.inr h)
  · refine ⟨⟨by simp only []; decide, by simp only []; decide⟩, ?_⟩
    rcases string_to_bool_rc value with h | h
    · exact Or.inr (Or.inl h)
    · exact Or.inl (by rw [h])
  · exact ⟨⟨by simp only []; decide, by simp only []; decide⟩, Or.inl rfl⟩

/-- What `sconf_yaml_node_add` does with the inferred type: it fails without a
change when the conversion kept gave -1, and when it returns 0 the parent on
top of the stack holds, in the slot that the call addressed, the node that
`sconf_node_create` builds for the inferred type and data. -/
theorem yaml_node_add_outcome (strtod : CStr → StrtodResult) (root : SConfNode)
    (state : SConfYAMLState) (parent_type : Nat) (value : CStr) (style : Nat) :
    ((yaml_scalar_infer strtod value style).1 = -1 →
      ∀ res, sconf_yaml_node_add strtod root state parent_type value style = some res →
        res = (-1, root, state)) ∧
    (∀ root' state',
      sconf_yaml_node_add strtod root state parent_type value style = some (0, root', state') →
      ∃ p next pn pn' slot n, state.curr_parent = p :: next ∧
        root.fetch_path p.parent = some pn ∧ sconf_type pn = parent_type ∧
        root' = root.store_path p.parent pn' ∧
        create_slot pn state.curr_key p.curr_index = some slot ∧
        pn'.fetch slot = some n ∧
        sconf_node_create (yaml_scalar_infer strtod value style).2.1
          (some (yaml_scalar_infer strtod value style).2.2) = some (some n)) := by
  constructor
  · intro hr res h
    unfold sconf_yaml_node_add at h
    cases hcp : state.curr_parent with
    | nil => simp only [hcp, Option.some.injEq] at h; exact h.symm
    | cons p next =>
      simp only [hcp] at h
      cases hfp : root.fetch_path p.parent with
      | none => simp [hfp] at h
      | some pn =>
        simp only [hfp] at h
        split_ifs at h with h1
        · simp only [Option.some.injEq] at h; exact h.symm
        · simp only [Option.some.injEq] at h; exact h.symm
  · intro root' state' h
    unfold sconf_yaml_node_add at h
    cases hcp : state.curr_parent with
    | nil => simp [hcp] at h
    | cons p next =>
      simp only [hcp] at h
      cases hfp : root.fetch_path p.parent with
      | none => simp [hfp] at h
      | some pn =>
        simp only [hfp] at h
        by_cases h1 : parent_type ≠ sconf_type pn
        · rw [if_pos h1] at h
          simp at h
        · rw [if_neg h1] at h
          by_cases h2 : (yaml_scalar_infer strtod value style).1 = -1
          · rw [if_pos h2] at h
            simp at h
          · rw [if_neg h2] at h
            cases hci : sconf_node_create_and_insert state.curr_key
                (yaml_scalar_infer strtod value style).2.1 pn p.curr_index
                (some (yaml_scalar_infer strtod value style).2.2) with
            | none => simp [hci] at h
            | some r =>
              simp only [hci] at h
              obtain ⟨⟨h3, h6⟩, _⟩ := yaml_scalar_infer_type strtod value style
              rcases create_and_insert_outcome _ _ _ _ _ _ hci with ⟨hn, _⟩ |
                ⟨slot, n, hn, hslot, hcase⟩
              · simp [hn] at h
              · have hroot : root' = root.store_path p.parent r.parent := by
                  simp only [hn] at h
                  split_ifs at h <;> simp at h <;> exact h.1.symm
                refine ⟨p, next, pn, r.parent, slot, n, rfl, hfp, (not_not.mp h1).symm, hroot,
                  hslot, ?_, ?_⟩
                · rcases hcase with ⟨_, _, hf, _, _⟩ | ⟨m, hf, _, _, hp⟩
                  · exact hf
                  · rw [hp]
                    exact fetch_store _ _ _ _ hf
                · rcases hcase with ⟨_, hc, _, _, _⟩ | ⟨m, _, _, hrep, _⟩
                  · exact hc
                  · exact create_scalar_of_replace _ m _ (0, n) hrep h3 h6
                      (fun _ => yaml_scalar_infer_freed strtod value style)

theorem yaml_consume_scalar_out_of_range (strtod : CStr → StrtodResult) (root : SConfNode)
    (state : SConfYAMLState) (value : CStr) (style : Nat)
    (hst : state.state = SCONF_YAML_STATE_BLOCK_CONTENT ∨
      state.state = SCONF_YAML_STATE_SEQUENCE)
    (hr : (yaml_scalar_infer strtod value style).1 = -1) :
    ∀ res, sconf_yaml_consume_event strtod root (.scalar value style) state = some res →
      res = (0, root, state) := by
  intro res h
  rcases hst with hs | hs
  · simp only [sconf_yaml_consume_event, hs, show ¬ ((5 : Nat) = 0) by decide,
      show ¬ ((5 : Nat) = 2) by decide, show ¬ ((5 : Nat) = 3) by decide,
      show ¬ ((5 : Nat) = 4) by decide, if_false, if_true, yaml_consume_block_content] at h
    cases hn : sconf_yaml_node_add strtod root state SCONF_TYPE_DICT value style with
    | none =>
      rw [hn] at h
      simp at h
    | some x =>
      have := (yaml_node_add_outcome strtod root state SCONF_TYPE_DICT value style).1 hr x hn
      subst this
      rw [hn] at h
      simpa using h.symm
  · simp only [sconf_yaml_consume_event, hs, show ¬ ((6 : Nat) = 0) by decide,
      show ¬ ((6 : Nat) = 2) by decide, show ¬ ((6 : Nat) = 3) by decide,
      show ¬ ((6 : Nat) = 4) by decide, show ¬ ((6 : Nat) = 5) by decide, if_false,
      if_true, yaml_consume_sequence] at h
    cases hn : sconf_yaml_node_add strtod root state SCONF_TYPE_ARRAY value style with
    | none =>
      rw [hn] at h
      simp at h
    | some x =>
      have := (yaml_node_add_outcome strtod root state SCONF_TYPE_ARRAY value style).1 hr x hn
      subst this
      rw [hn] at h
      simpa using h.symm

/-- C21: the type of the node that `sconf_yaml_node_add` stores for a scalar
follows the order of the conversions. A scalar that is single- or
double-quoted or empty is a string; otherwise it is an integer if
`sconf_string_to_integer` returns 1; otherwise, when that returns 0, a float
if `sconf_string_to_float` returns 1; otherwise, when that returns 0, a
boolean if `sconf_string_to_bool` returns 1, and a string that holds the text
when that returns 0. When the first conversion in this order that does not
return 0 returns -1, `sconf_yaml_node_add` returns -1 and the event fails with
the tree and the state as they were. When `sconf_yaml_node_add` returns 0, the
parent on top of the stack holds the node built for the inferred type and
data in the slot that the call addressed. -/
theorem sconf_yaml_scalar_inference (strtod : CStr → StrtodResult) (root : SConfNode)
    (state : SConfYAMLState) (parent_type : Nat) (value : CStr) (style : Nat) :
    ((style = YAML_DOUBLE_QUOTED_SCALAR_STYLE ∨ style = YAML_SINGLE_QUOTED_SCALAR_STYLE ∨
        value = []) →
      yaml_scalar_infer strtod value style = (0, SCONF_TYPE_STR, ⟨value, 0, false, 0, none⟩)) ∧
    (¬ (style = YAML_DOUBLE_QUOTED_SCALAR_STYLE ∨ style = YAML_SINGLE_QUOTED_SCALAR_STYLE ∨
        value = []) →
      ((sconf_string_to_integer value).1 = 1 →
        yaml_scalar_infer strtod value style =
          (1, SCONF_TYPE_INT, ⟨[], (sconf_string_to_integer value).2, false, 0, none⟩)) ∧
      ((sconf_string_to_integer value).1 = -1 →
        (yaml_scalar_infer strtod value style).1 = -1) ∧
      ((sconf_string_to_integer value).1 = 0 →
        ((sconf_string_to_float strtod value).1 = 1 →
          yaml_scalar_infer strtod value style =
            (1, SCONF_TYPE_FLOAT, ⟨[], 0, false, (sconf_string_to_float strtod value).2, none⟩)) ∧
        ((sconf_string_to_float strtod value).1 = -1 →
          (yaml_scalar_infer strtod value style).1 = -1) ∧
        ((sconf_string_to_float strtod value).1 = 0 →
          ((sconf_string_to_bool value).1 = 1 →
            yaml_scalar_infer strtod value style =
              (1, SCONF_TYPE_BOOL, ⟨[], 0, ((sconf_string_to_bool value).2).getD false, 0, none⟩)) ∧
          ((sconf_string_to_bool value).1 = 0 →
            yaml_scalar_infer strtod value style =
              (0, SCONF_TYPE_STR, ⟨value, 0, false, 0, none⟩))))) ∧
    ((yaml_scalar_infer strtod value style).1 = -1 →
      (∀ res, sconf_yaml_node_add strtod root state parent_type value style = some res →
        res = (-1, root, state)) ∧
      ((state.state = SCONF_YAML_STATE_BLOCK_CONTENT ∨
          state.state = SCONF_YAML_STATE_SEQUENCE) →
        ∀ res, sconf_yaml_consume_event strtod root (.scalar value style) state = some res →
          res = (0, root, state))) ∧
    (∀ root' state',
      sconf_yaml_node_add strtod root state parent_type value style = some (0, root', state') →
      ∃ p next pn pn' slot n, state.curr_parent = p :: next ∧
        root.fetch_path p.parent = some pn ∧ sconf_type pn = parent_type ∧
        root' = root.store_path p.parent pn' ∧
        create_slot pn state.curr_key p.curr_index = some slot ∧
        pn'.fetch slot = some n ∧
        sconf_node_create (yaml_scalar_infer strtod value style).2.1
          (some (yaml_scalar_infer strtod value style).2.2) = some (some n)) :=
  ⟨(yaml_scalar_infer_cases strtod value style).1,
    (yaml_scalar_infer_cases strtod value style).2,
    fun hr => ⟨(yaml_node_add_outcome strtod root state parent_type value style).1 hr,
      fun hst => yaml_consume_scalar_out_of_range strtod root state value style hst hr⟩,
    (yaml_node_add_outcome strtod root state parent_type value style).2⟩

/-! ### Writes through a chain of slots -/

theorem store_store (p : SConfNode) (slot : SConfSlot) (x y : SConfNode) :
    (p.store slot x).store slot y = p.store slot y := by
  cases p <;> cases slot <;> simp only [SConfNode.store]
  · rename_i d k
    congr 1
    induction d with
    | nil => rfl
    | cons e t ih =>
      obtain ⟨k', v⟩ := e
      simp only [art_store]
      split_ifs with h
      · simp [art_store, h]
      · simp [art_store, h, ih]
  · rename_i a i
    congr 1
    exact List.set_set _ _ _ _

theorem fetch_path_append (n : SConfNode) (p q : List SConfSlot) :
    n.fetch_path (p ++ q) = (n.fetch_path p).bind (fun c => c.fetch_path q) := by
  induction p generalizing n with
  | nil => rfl
  | cons s rest ih =>
    simp only [List.cons_append, SConfNode.fetch_path]
    cases n.fetch s with
    | none => rfl
    | some c => exact ih c

theorem fetch_path_store_path (n x pn : SConfNode) (p : List SConfSlot)
    (h : n.fetch_path p = some pn) : (n.store_path p x).fetch_path p = some x := by
  induction p generalizing n with
  | nil => rfl
  | cons s rest ih =>
    simp only [SConfNode.fetch_path] at h
    cases hf : n.fetch s with
    | none => simp [hf] at h
    | some c =>
      simp only [hf] at h
      simp only [SConfNode.store_path, hf, SConfNode.fetch_path, fetch_store n s _ c hf]
      exact ih c h

theorem store_path_store_path (n x y pn : SConfNode) (p : List SConfSlot)
    (h : n.fetch_path p = some pn) : (n.store_path p x).store_path p y = n.store_path p y := by
  induction p generalizing n with
  | nil => rfl
  | cons s rest ih =>
    simp only [SConfNode.fetch_path] at h
    cases hf : n.fetch s with
    | none => simp [hf] at h
    | some c =>
      simp only [hf] at h
      simp only [SConfNode.store_path, hf, fetch_store n s _ c hf, store_store, ih c h]

theorem store_path_same (n pn : SConfNode) (p : List SConfSlot)
    (h : n.fetch_path p = some pn) : n.store_path p pn = n := by
  induction p generalizing n with
  | nil =>
    simp only [SConfNode.fetch_path, Option.some.injEq] at h
    simp only [SConfNode.store_path, h]
  | cons s rest ih =>
    simp only [SConfNode.fetch_path] at h
    cases hf : n.fetch s with
    | none => simp [hf] at h
    | some c =>
      simp only [hf] at h
      simp only [SConfNode.store_path, hf, ih c h]
      exact store_same n s c hf

theorem store_path_append (n pn x : SConfNode) (p q : List SConfSlot)
    (h : n.fetch_path p = some pn) :
    n.store_path (p ++ q) x = n.store_path p (pn.store_path q x) := by
  induction p generalizing n with
  | nil =>
    simp only [SConfNode.fetch_path, Option.some.injEq] at h
    subst h
    rfl
  | cons s rest ih =>
    simp only [SConfNode.fetch_path] at h
    cases hf : n.fetch s with
    | none => simp [hf] at h
    | some c =>
      simp only [hf] at h
      simp only [List.cons_append, SConfNode.store_path, hf, List.append_eq, ih c h]

/-- A write to a child of the node at the end of a chain, as a write to the
node itself. -/
theorem store_path_child (n pn c x : SConfNode) (p : List SConfSlot) (s : SConfSlot)
    (h : n.fetch_path p = some pn) (hc : pn.fetch s = some c) :
    n.store_path (p ++ [s]) x = n.store_path p (pn.store s x) := by
  rw [store_path_append n pn x p [s] h]
  simp only [SConfNode.store_path, hc]

theorem fetch_path_child (n pn c : SConfNode) (p : List SConfSlot) (s : SConfSlot)
    (h : n.fetch_path p = some pn) (hc : pn.fetch s = some c) :
    n.fetch_path (p ++ [s]) = some c := by
  rw [fetch_path_append, h]
  simp only [Option.bind, SConfNode.fetch_path, hc]

/-! ### The run of the events -/

theorem yaml_run_append (strtod : CStr → StrtodResult) (es1 es2 : List yaml_event_t) :
    ∀ (root : SConfNode) (state : SConfYAMLState) (root' : SConfNode) (state' : SConfYAMLState),
      yaml_run strtod root state es1 = some (1, root', state') →
      state'.state ≠ SCONF_YAML_STATE_STOP →
      yaml_run strtod root state (es1 ++ es2) = yaml_run strtod root' state' es2 := by
  induction es1 with
  | nil =>
    intro root state root' state' h _
    simp only [yaml_run, Option.some.injEq, Prod.mk.injEq, true_and] at h
    obtain ⟨h1, h2⟩ := h
    subst h1 h2
    rfl
  | cons e t ih =>
    intro root state root' state' h hs
    simp only [yaml_run, List.cons_append] at h ⊢
    cases hc : sconf_yaml_consume_event strtod root e state with
    | none => rw [hc] at h; cases h
    | some res =>
      obtain ⟨s, r1, s1⟩ := res
      rw [hc] at h
      simp only at h ⊢
      by_cases h0 : s = 0
      · rw [if_pos h0] at h
        simp at h
      · rw [if_neg h0] at h ⊢
        by_cases hstop : s1.state ≠ SCONF_YAML_STATE_STOP
        · rw [if_pos hstop] at h ⊢
          exact ih r1 s1 root' state' h hs
        · rw [if_neg hstop] at h
          simp only [Option.some.injEq, Prod.mk.injEq, true_and] at h
          obtain ⟨h1, h2⟩ := h
          subst h1 h2
          exact absurd hs hstop

/-- One event that succeeds, followed by the run of the other events. -/
theorem yaml_run_cons (strtod : CStr → StrtodResult) (e : yaml_event_t) (es : List yaml_event_t)
    (root root' : SConfNode) (state state' : SConfYAMLState)
    (h : sconf_yaml_consume_event strtod root e state = some (1, root', state'))
    (hs : state'.state ≠ SCONF_YAML_STATE_STOP) :
    yaml_run strtod root state (e :: es) = yaml_run strtod root' state' es := by
  simp only [yaml_run, h]
  rw [if_neg (by decide), if_pos hs]

/-- The loop of `sconf_yaml_read` after a run of events that succeed. -/
theorem yaml_read_loop_append (strtod : CStr → StrtodResult) (es1 es2 : List yaml_event_t) :
    ∀ (root : SConfNode) (state : SConfYAMLState) (root' : SConfNode) (state' : SConfYAMLState),
      yaml_run strtod root state es1 = some (1, root', state') →
      state'.state ≠ SCONF_YAML_STATE_STOP →
      sconf_yaml_read_loop strtod root state (es1 ++ es2) =
        sconf_yaml_read_loop strtod root' state' es2 := by
  induction es1 with
  | nil =>
    intro root state root' state' h _
    simp only [yaml_run, Option.some.injEq, Prod.mk.injEq, true_and] at h
    obtain ⟨h1, h2⟩ := h
    subst h1 h2
    rfl
  | cons e t ih =>
    intro root state root' state' h hs
    simp only [yaml_run] at h
    simp only [sconf_yaml_read_loop, List.cons_append]
    cases hc : sconf_yaml_consume_event strtod root e state with
    | none => rw [hc] at h; cases h
    | some res =>
      obtain ⟨s, r1, s1⟩ := res
      rw [hc] at h
      simp only at h ⊢
      by_cases h0 : s = 0
      · rw [if_pos h0] at h
        simp at h
      · rw [if_neg h0] at h ⊢
        by_cases hstop : s1.state ≠ SCONF_YAML_STATE_STOP
        · rw [if_pos hstop] at h ⊢
          exact ih r1 s1 root' state' h hs
        · rw [if_neg hstop] at h
          simp only [Option.some.injEq, Prod.mk.injEq, true_and] at h
          obtain ⟨h1, h2⟩ := h
          subst h1 h2
          exact absurd hs hstop

/-! ### Insertions that succeed -/

theorem create_slot_kind (parent : SConfNode) (name : Option CStr) (index : Nat)
    (slot : SConfSlot) (h : create_slot parent name index = some slot) :
    (∃ d k, parent = .dict d ∧ slot = .name k) ∨ (∃ a i, parent = .array a ∧ slot = .index i) := by
  cases parent with
  | dict d =>
    cases name with
    | none => simp [create_slot] at h
    | some c =>
      simp only [create_slot, Option.some.injEq] at h
      exact Or.inl ⟨d, c, rfl, h.symm⟩
  | array a =>
    cases name with
    | none =>
      simp only [create_slot, Option.some.injEq] at h
      exact Or.inr ⟨a, index, rfl, h.symm⟩
    | some c =>
      simp only [create_slot] at h
      split_ifs at h
      · simp only [Option.some.injEq] at h
        exact Or.inr ⟨a, _, rfl, h.symm⟩
      · simp only [Option.some.injEq] at h
        exact Or.inr ⟨a, _, rfl, h.symm⟩
  | str s => simp [create_slot] at h
  | int i => simp [create_slot] at h
  | bool b => simp [create_slot] at h
  | float f => simp [create_slot] at h

theorem store_len (p : SConfNode) (slot : SConfSlot) (x : SConfNode) :
    node_len (p.store slot x) = node_len p := by
  cases p <;> cases slot <;> simp [SConfNode.store, node_len]

theorem insert_at_len (parent : SConfNode) (slot : SConfSlot) (n : SConfNode)
    (r : SConfInserted) (h : insert_at parent slot n = some r) :
    node_len r.parent ≤ max (node_len parent) (slot_bound slot) := by
  cases parent <;> cases slot <;>
    simp only [insert_at, Option.some.injEq, Option.map_eq_some'] at h
  case array.index a i =>
    obtain ⟨x, hx, hr⟩ := h
    have hlen : x.2.length ≤ max a.length (i + 1) := by
      simp only [sconf_array_insert] at hx
      have hg : (sconf_array_grow a ((i + 1) % UINT32_MOD)).2.length ≤ max a.length (i + 1) := by
        have hmod : (i + 1) % UINT32_MOD ≤ i + 1 := Nat.mod_le _ _
        unfold sconf_array_grow
        split_ifs
        · exact le_max_left _ _
        · exact le_max_left _ _
        · simp only [List.length_append, List.length_replicate]
          omega
      split_ifs at hx with h1 h2
      · simp only [Option.some.injEq] at hx
        rw [← hx]
        exact hg
      · split at hx
        · simp only [Option.some.injEq] at hx
          rw [← hx]
          exact hg
        · simp only [Option.some.injEq] at hx
          rw [← hx]
          simp only [List.length_set]
          exact hg
    rw [← hr]
    split_ifs <;> simpa only [node_len, slot_bound] using hlen
  all_goals (subst h; simp [node_len])

/-- The call of `sconf_node_create_and_insert` on a slot within the capacity
that is empty or holds a node of the type asked for: it returns the node of
the slot, built anew in the first case and with the data put in its place in
the second; the other slots of the parent keep what they hold. -/
theorem create_and_insert_fills (name : Option CStr) (ty : Nat) (parent : SConfNode)
    (index : Nat) (data : Option SConfData) (slot : SConfSlot)
    (hs : create_slot parent name index = some slot)
    (hcap : spec_slot_in_capacity slot = true)
    (hcr : ∃ n0, sconf_node_create ty data = some (some n0))
    (hrp : ∀ m, sconf_type m = ty → ∃ n, sconf_node_replace ty m data = some (0, n))
    (hc : ∀ m, parent.fetch slot = some m → sconf_type m = ty) :
    ∃ parent' n,
      sconf_node_create_and_insert name ty parent index data =
        some ⟨parent', some (slot, n)⟩ ∧
      sconf_type parent' = sconf_type parent ∧ parent'.fetch slot = some n ∧
      (∀ other, other ≠ slot → parent'.fetch other = parent.fetch other) ∧
      ((parent.fetch slot = none ∧ sconf_node_create ty data = some (some n)) ∨
        (∃ m, parent.fetch slot = some m ∧ sconf_node_replace ty m data = some (0, n) ∧
          parent' = parent.store slot n)) ∧
      node_len parent' ≤ max (node_len parent) (slot_bound slot) := by
  rw [create_and_insert_index_eq, hs]
  cases hf : parent.fetch slot with
  | none =>
    obtain ⟨n0, hn0⟩ := hcr
    obtain ⟨parent', hi, hfs, hfr⟩ := insert_at_empty parent slot n0 (create_slot_kind _ _ _ _ hs)
      hf hcap
    refine ⟨parent', n0, ?_, ?_, hfs, ?_, Or.inl ⟨rfl, hn0⟩, insert_at_len _ _ _ _ hi⟩
    · simp only [hf, hn0]
      exact hi
    · rcases insert_at_outcome parent slot n0 _ hi hf with ⟨h1, _⟩ | ⟨_, _, h3, _⟩
      · cases h1
      · exact h3
    · intro other ho
      rw [hfr other ho]
  | some m =>
    have hm := hc m hf
    obtain ⟨n, hn⟩ := hrp m hm
    refine ⟨parent.store slot n, n, ?_, sconf_type_store _ _ _, fetch_store _ _ _ _ hf, ?_,
      Or.inr ⟨m, rfl, hn, rfl⟩, ?_⟩
    rotate_left 2
    · rw [store_len]
      exact le_max_left _ _
    · simp only [hf, hm, ne_eq, not_true_eq_false, if_false, hn, Option.map_some']
    · intro other ho
      rw [fetch_store_ne _ _ _ _ ho]

theorem create_container_some (ty : Nat) (h : ty = 1 ∨ ty = 2) :
    ∃ n0, sconf_node_create ty none = some (some n0) ∧ sconf_type n0 = ty ∧
      (ty = 1 → n0 = .dict []) ∧ (ty = 2 → n0 = .array [none]) := by
  rcases h with h | h <;> subst h
  · exact ⟨.dict [], rfl, rfl, fun _ => rfl, fun h => absurd h (by decide)⟩
  · exact ⟨.array [none], rfl, rfl, fun h => absurd h (by decide), fun _ => rfl⟩

/-! ### The events one by one -/

theorem consume_event_document (strtod : CStr → StrtodResult) (root : SConfNode)
    (e : yaml_event_t) (state : SConfYAMLState) (h : state.state = 3) :
    sconf_yaml_consume_event strtod root e state = yaml_consume_document root e state := by
  simp [sconf_yaml_consume_event, h, SCONF_YAML_STATE_START, SCONF_YAML_STATE_STREAM,
    SCONF_YAML_STATE_DOCUMENT]

theorem consume_event_stream (strtod : CStr → StrtodResult) (root : SConfNode)
    (e : yaml_event_t) (state : SConfYAMLState) (h : state.state = 2) :
    sconf_yaml_consume_event strtod root e state = yaml_consume_stream root e state := by
  simp [sconf_yaml_consume_event, h, SCONF_YAML_STATE_START, SCONF_YAML_STATE_STREAM]

theorem consume_event_start (strtod : CStr → StrtodResult) (root : SConfNode)
    (e : yaml_event_t) (state : SConfYAMLState) (h : state.state = 0) :
    sconf_yaml_consume_event strtod root e state = yaml_consume_start root e state := by
  simp [sconf_yaml_consume_event, h, SCONF_YAML_STATE_START]

theorem consume_event_block (strtod : CStr → StrtodResult) (root : SConfNode)
    (e : yaml_event_t) (state : SConfYAMLState) (h : state.state = 4) :
    sconf_yaml_consume_event strtod root e state = yaml_consume_block root e state := by
  simp [sconf_yaml_consume_event, h, SCONF_YAML_STATE_START, SCONF_YAML_STATE_STREAM,
    SCONF_YAML_STATE_DOCUMENT, SCONF_YAML_STATE_BLOCK]

theorem consume_event_block_content (strtod : CStr → StrtodResult) (root : SConfNode)
    (e : yaml_event_t) (state : SConfYAMLState) (h : state.state = 5) :
    sconf_yaml_consume_event strtod root e state =
      yaml_consume_block_content strtod root e state := by
  simp [sconf_yaml_consume_event, h, SCONF_YAML_STATE_START, SCONF_YAML_STATE_STREAM,
    SCONF_YAML_STATE_DOCUMENT, SCONF_YAML_STATE_BLOCK, SCONF_YAML_STATE_BLOCK_CONTENT]

theorem consume_event_sequence (strtod : CStr → StrtodResult) (root : SConfNode)
    (e : yaml_event_t) (state : SConfYAMLState) (h : state.state = 6) :
    sconf_yaml_consume_event strtod root e state =
      yaml_consume_sequence strtod root e state := by
  simp [sconf_yaml_consume_event, h, SCONF_YAML_STATE_START, SCONF_YAML_STATE_STREAM,
    SCONF_YAML_STATE_DOCUMENT, SCONF_YAML_STATE_BLOCK, SCONF_YAML_STATE_BLOCK_CONTENT,
    SCONF_YAML_STATE_SEQUENCE]

/-- The call of `sconf_yaml_node_add` for a scalar in range, on a slot within the
capacity that is empty or holds a node of the inferred type. -/
theorem yaml_node_add_fills (strtod : CStr → StrtodResult) (root : SConfNode) (st : Nat)
    (d : Int) (key : Option CStr) (P : List SConfSlot) (ci : Nat) (rest : List SConfYAMLParent)
    (pn : SConfNode) (slot : SConfSlot) (value : CStr) (style : Nat)
    (hfp : root.fetch_path P = some pn) (hs : create_slot pn key ci = some slot)
    (hcap : spec_slot_in_capacity slot = true)
    (hw : (yaml_scalar_infer strtod value style).1 ≠ -1)
    (hc : ∀ m, pn.fetch slot = some m →
      sconf_type m = (yaml_scalar_infer strtod value style).2.1) :
    ∃ pn' n,
      sconf_yaml_node_add strtod root ⟨st, d, key, ⟨P, ci⟩ :: rest⟩ (sconf_type pn) value style =
        some (0, root.store_path P pn',
          ⟨st, d, if sconf_type pn = 2 then key else none,
            ⟨P, if sconf_type pn = 2 then (ci + 1) % UINT32_MOD else ci⟩ :: rest⟩) ∧
      sconf_type pn' = sconf_type pn ∧ pn'.fetch slot = some n ∧
      (∀ other, other ≠ slot → pn'.fetch other = pn.fetch other) ∧
      sconf_node_create (yaml_scalar_infer strtod value style).2.1
        (some (yaml_scalar_infer strtod value style).2.2) = some (some n) ∧
      node_len pn' ≤ max (node_len pn) (slot_bound slot) := by
  obtain ⟨⟨h3, h6⟩, _⟩ := yaml_scalar_infer_type strtod value style
  obtain ⟨pn', n, hci, hty, hfs, hfr, hn, hlen⟩ :=
    create_and_insert_fills key (yaml_scalar_infer strtod value style).2.1 pn ci
      (some (yaml_scalar_infer strtod value style).2.2) slot hs hcap
      ⟨_, create_eq _ _ (by omega) h6⟩
      (fun m hm => ⟨_, replace_eq _ _ m hm
        (fun _ => yaml_scalar_infer_freed strtod value style)⟩) hc
  refine ⟨pn', n, ?_, hty, hfs, hfr, ?_, hlen⟩
  · simp only [sconf_yaml_node_add, hfp, ne_eq, not_true_eq_false, if_false, hw, hci]
    rcases create_slot_kind _ _ _ _ hs with ⟨dd, k, rfl, _⟩ | ⟨a, i, rfl, _⟩
    · simp [SCONF_TYPE_ARRAY, SCONF_TYPE_DICT]
    · simp [SCONF_TYPE_ARRAY]
  · rcases hn with ⟨_, hn⟩ | ⟨m, _, hn, _⟩
    · exact hn
    · exact create_scalar_of_replace _ m _ _ hn h3 h6
        (fun _ => yaml_scalar_infer_freed strtod value style)

/-- The call of `sconf_yaml_parent_add` below the depth cap, on a slot within the
capacity that is empty or holds a container of the type asked for: the
container of the slot, built anew when the slot was empty, is the new top of
the stack. -/
theorem yaml_parent_add_fills (root : SConfNode) (st : Nat) (d : Int) (key : Option CStr)
    (P : List SConfSlot) (ci : Nat) (rest : List SConfYAMLParent) (pn : SConfNode)
    (slot : SConfSlot) (ty : Nat)
    (hfp : root.fetch_path P = some pn) (hs : create_slot pn key ci = some slot)
    (hcap : spec_slot_in_capacity slot = true) (hty : ty = 1 ∨ ty = 2) (hd : d < 19)
    (hc : ∀ m, pn.fetch slot = some m → sconf_type m = ty) :
    ∃ pn' c,
      sconf_yaml_parent_add root ⟨st, d, key, ⟨P, ci⟩ :: rest⟩ ty =
        some (0, root.store_path P pn',
          ⟨st, d + 1, if sconf_type pn = 2 then key else none,
            ⟨P ++ [slot], 0⟩ ::
              ⟨P, if sconf_type pn = 2 then (ci + 1) % UINT32_MOD else ci⟩ :: rest⟩) ∧
      sconf_type pn' = sconf_type pn ∧ pn'.fetch slot = some c ∧ sconf_type c = ty ∧
      (∀ other, other ≠ slot → pn'.fetch other = pn.fetch other) ∧
      ((pn.fetch slot = none ∧ sconf_node_create ty none = some (some c)) ∨
        (pn.fetch slot = some c ∧ pn' = pn)) ∧
      node_len pn' ≤ max (node_len pn) (slot_bound slot) := by
  obtain ⟨n0, hn0, hn0t, _⟩ := create_container_some ty hty
  obtain ⟨pn', n, hci, hty', hfs, hfr, hn, hlen⟩ :=
    create_and_insert_fills key ty pn ci none slot hs hcap ⟨n0, hn0⟩
      (fun m _ => ⟨m, replace_container ty m none hty⟩) hc
  have hnt : sconf_type n = ty := by
    rcases hn with ⟨_, hn⟩ | ⟨m, hm, hn, _⟩
    · rw [hn0] at hn
      simp only [Option.some.injEq] at hn
      rw [← hn]
      exact hn0t
    · rw [replace_container ty m none hty] at hn
      simp only [Option.some.injEq, Prod.mk.injEq, true_and] at hn
      rw [← hn]
      exact hc m hm
  refine ⟨pn', n, ?_, hty', hfs, hnt, hfr, ?_, hlen⟩
  · have hkey : ¬ (sconf_type pn = SCONF_TYPE_DICT ∧ key = none) := by
      rintro ⟨h1, h2⟩
      subst h2
      cases pn <;> simp [create_slot, SCONF_TYPE_DICT] at hs h1
    have hpush : ¬ (d ≥ (SCONF_MAX_DEPTH : Int) - 1) := by
      simp only [SCONF_MAX_DEPTH]
      omega
    simp only [sconf_yaml_parent_add, hfp, if_neg hkey, hci, sconf_yaml_parent_stack_push,
      if_neg hpush, ne_eq, not_true_eq_false, if_false]
    rcases create_slot_kind _ _ _ _ hs with ⟨dd, k, rfl, _⟩ | ⟨a, i, rfl, _⟩
    · simp [SCONF_TYPE_ARRAY, SCONF_TYPE_DICT]
    · simp [SCONF_TYPE_ARRAY]
  · rcases hn with ⟨h1, hn⟩ | ⟨m, hm, hn, hp⟩
    · exact Or.inl ⟨h1, hn⟩
    · rw [replace_container ty m none hty] at hn
      simp only [Option.some.injEq, Prod.mk.injEq, true_and] at hn
      subst hn
      exact Or.inr ⟨hm, by rw [hp, store_same _ _ _ hm]⟩

/-! ### The events of a value -/

theorem yaml_run_single (strtod : CStr → StrtodResult) (e : yaml_event_t)
    (root root' : SConfNode) (state state' : SConfYAMLState)
    (h : sconf_yaml_consume_event strtod root e state = some (1, root', state')) :
    yaml_run strtod root state [e] = some (1, root', state') := by
  simp only [yaml_run, h]
  rw [if_neg (by decide)]
  split_ifs <;> rfl

theorem entries_compat_congr (strtod : CStr → StrtodResult) (d d' : List (CStr × SConfNode))
    (es : List (CStr × YamlValue)) (h : ∀ e ∈ es, art_search d' e.1 = art_search d e.1)
    (hc : entries_compat strtod d es) : entries_compat strtod d' es := by
  induction es with
  | nil => simp only [entries_compat]
  | cons e t ih =>
    obtain ⟨k, v⟩ := e
    simp only [entries_compat] at hc ⊢
    refine ⟨?_, ih (fun e he => h e (List.mem_cons_of_mem _ he)) hc.2⟩
    rw [h (k, v) (List.mem_cons_self _ _)]
    exact hc.1

theorem items_compat_congr (strtod : CStr → StrtodResult) (a a' : List (Option SConfNode))
    (xs : List YamlValue) :
    ∀ i, (∀ j, i ≤ j → a'.getD j none = a.getD j none) →
      items_compat strtod a i xs → items_compat strtod a' i xs := by
  induction xs with
  | nil => intro i _ _; simp only [items_compat]
  | cons v t ih =>
    intro i h hc
    simp only [items_compat] at hc ⊢
    refine ⟨?_, ih (i + 1) (fun j hj => h j (by omega)) hc.2⟩
    rw [h i (le_refl _)]
    exact hc.1

theorem yaml_compat_none (strtod : CStr → StrtodResult) (v : YamlValue) :
    yaml_compat strtod none v := by
  cases v <;> simp only [yaml_compat] <;> intro n hn <;> cases hn

theorem entries_compat_nil (strtod : CStr → StrtodResult) (es : List (CStr × YamlValue)) :
    entries_compat strtod [] es := by
  induction es with
  | nil => simp only [entries_compat]
  | cons e t ih =>
    obtain ⟨k, v⟩ := e
    simp only [entries_compat]
    exact ⟨yaml_compat_none strtod v, ih⟩

theorem items_compat_empty (strtod : CStr → StrtodResult) (xs : List YamlValue) :
    ∀ i, items_compat strtod [none] i xs := by
  induction xs with
  | nil => intro i; simp only [items_compat]
  | cons v t ih =>
    intro i
    simp only [items_compat]
    refine ⟨?_, ih (i + 1)⟩
    have : ([none] : List (Option SConfNode)).getD i none = none := by
      cases i <;> rfl
    rw [this]
    exact yaml_compat_none strtod v

theorem scalar_value_ok (strtod : CStr → StrtodResult) (value : CStr) (style : Nat) :
    yaml_value_ok strtod (.scalar value style) := by
  intro root d key P ci rest pn slot hfp hs hcap harr hwf hcompat _
  simp only [YamlValue.wf] at hwf
  have hc : ∀ m, pn.fetch slot = some m →
      sconf_type m = (yaml_scalar_infer strtod value style).2.1 := by
    intro m hm
    simp only [yaml_compat] at hcompat
    exact hcompat m hm
  obtain ⟨pn', n, hadd, hty, hfs, hfr, hn, hlen⟩ :=
    yaml_node_add_fills strtod root (value_state pn) d key P ci rest pn slot value style hfp hs
      hcap hwf hc
  refine ⟨pn', n, ?_, hty, hfs, ?_, hfr, hlen⟩
  · simp only [YamlValue.events]
    apply yaml_run_single
    rcases create_slot_kind _ _ _ _ hs with ⟨dd, k, rfl, rfl⟩ | ⟨a, i, rfl, rfl⟩
    · rw [consume_event_block_content _ _ _ _ (by simp [value_state])]
      simp only [sconf_type_dict] at hadd
      simp only [yaml_consume_block_content, SCONF_TYPE_DICT, hadd]
      simp [value_state, after_state, next_index, SCONF_YAML_STATE_BLOCK]
    · rw [consume_event_sequence _ _ _ _ (by simp [value_state])]
      obtain ⟨hk, _⟩ := harr rfl
      subst hk
      simp only [create_slot, Option.some.injEq, SConfSlot.index.injEq] at hs
      subst hs
      simp only [spec_slot_in_capacity, SCONF_ARRAY_MAX_SIZE, decide_eq_true_eq] at hcap
      simp only [sconf_type_array] at hadd
      simp only [yaml_consume_sequence, SCONF_TYPE_ARRAY, hadd]
      have hmod : (ci + 1) % UINT32_MOD = ci + 1 := Nat.mod_eq_of_lt (by
        simp only [UINT32_MOD]; omega)
      simp [value_state, after_state, next_index, hmod]
  · simp only [yaml_realises]
    exact hn

theorem container_start_step (strtod : CStr → StrtodResult) (root : SConfNode) (d : Int)
    (key : Option CStr) (P : List SConfSlot) (ci : Nat) (rest : List SConfYAMLParent)
    (pn : SConfNode) (slot : SConfSlot) (ty : Nat) (e : yaml_event_t)
    (he : (e = .mapping_start ∧ ty = 1) ∨ (e = .sequence_start ∧ ty = 2))
    (hfp : root.fetch_path P = some pn) (hs : create_slot pn key ci = some slot)
    (hcap : spec_slot_in_capacity slot = true) (hd : d < 19)
    (harr : sconf_type pn = 2 → key = none)
    (hc : ∀ m, pn.fetch slot = some m → sconf_type m = ty) :
    ∃ pn' c,
      sconf_yaml_consume_event strtod root e ⟨value_state pn, d, key, ⟨P, ci⟩ :: rest⟩ =
        some (1, root.store_path P pn',
          ⟨if ty = 1 then 4 else 6, d + 1, none,
            ⟨P ++ [slot], 0⟩ :: ⟨P, next_index pn ci⟩ :: rest⟩) ∧
      sconf_type pn' = sconf_type pn ∧ pn'.fetch slot = some c ∧ sconf_type c = ty ∧
      (∀ other, other ≠ slot → pn'.fetch other = pn.fetch other) ∧
      ((pn.fetch slot = none ∧ sconf_node_create ty none = some (some c)) ∨
        (pn.fetch slot = some c ∧ pn' = pn)) ∧
      node_len pn' ≤ max (node_len pn) (slot_bound slot) := by
  have hty : ty = 1 ∨ ty = 2 := by
    rcases he with ⟨_, h⟩ | ⟨_, h⟩
    · exact Or.inl h
    · exact Or.inr h
  obtain ⟨pn', c, hadd, hty', hfs, hct, hfr, hnew, hlen⟩ :=
    yaml_parent_add_fills root (value_state pn) d key P ci rest pn slot ty hfp hs hcap hty hd hc
  refine ⟨pn', c, ?_, hty', hfs, hct, hfr, hnew, hlen⟩
  rcases create_slot_kind _ _ _ _ hs with ⟨dd, k, rfl, rfl⟩ | ⟨a, i, rfl, rfl⟩
  · rw [consume_event_block_content _ _ _ _ (by simp [value_state])]
    simp only [sconf_type_dict] at hadd
    rcases he with ⟨rfl, rfl⟩ | ⟨rfl, rfl⟩
    · simp only [yaml_consume_block_content, SCONF_TYPE_DICT, hadd]
      simp [value_state, next_index, SCONF_YAML_STATE_BLOCK]
    · simp only [yaml_consume_block_content, SCONF_TYPE_ARRAY, hadd]
      simp [value_state, next_index, SCONF_YAML_STATE_SEQUENCE]
  · rw [consume_event_sequence _ _ _ _ (by simp [value_state])]
    have hk := harr rfl
    subst hk
    simp only [create_slot, Option.some.injEq, SConfSlot.index.injEq] at hs
    subst hs
    simp only [spec_slot_in_capacity, SCONF_ARRAY_MAX_SIZE, decide_eq_true_eq] at hcap
    simp only [sconf_type_array] at hadd
    have hmod : (ci + 1) % UINT32_MOD = ci + 1 := Nat.mod_eq_of_lt (by
      simp only [UINT32_MOD]; omega)
    rcases he with ⟨rfl, rfl⟩ | ⟨rfl, rfl⟩
    · simp only [yaml_consume_sequence, SCONF_TYPE_DICT, hadd]
      simp [value_state, next_index, SCONF_YAML_STATE_BLOCK, hmod]
    · simp only [yaml_consume_sequence, SCONF_TYPE_ARRAY, hadd]
      simp [value_state, next_index, SCONF_YAML_STATE_SEQUENCE, hmod]

theorem mapping_end_step (strtod : CStr → StrtodResult) (root : SConfNode) (d : Int)
    (f : SConfYAMLParent) (P : List SConfSlot) (ci : Nat) (rest : List SConfYAMLParent)
    (pn : SConfNode) (hfp : root.fetch_path P = some pn) :
    sconf_yaml_consume_event strtod root .mapping_end ⟨4, d + 1, none, f :: ⟨P, ci⟩ :: rest⟩ =
      some (1, root, ⟨after_state pn, d, none, ⟨P, ci⟩ :: rest⟩) := by
  rw [consume_event_block _ _ _ _ rfl]
  simp only [yaml_consume_block, sconf_yaml_parent_remove, sconf_yaml_parent_stack_pop, ne_eq,
    not_true_eq_false, if_false, hfp, add_sub_cancel_right]
  by_cases h : sconf_type pn = SCONF_TYPE_ARRAY
  · rw [if_pos h]
    simp only [SCONF_TYPE_ARRAY] at h
    simp [after_state, h, SCONF_YAML_STATE_SEQUENCE]
  · rw [if_neg h]
    simp only [SCONF_TYPE_ARRAY] at h
    simp [after_state, h]

theorem sequence_end_step (strtod : CStr → StrtodResult) (root : SConfNode) (d : Int)
    (f : SConfYAMLParent) (stack : List SConfYAMLParent) :
    sconf_yaml_consume_event strtod root .sequence_end ⟨6, d + 1, none, f :: stack⟩ =
      some (1, root, ⟨4, d, none, stack⟩) := by
  rw [consume_event_sequence _ _ _ _ rfl]
  simp [yaml_consume_sequence, sconf_yaml_parent_remove, sconf_yaml_parent_stack_pop,
    SCONF_YAML_STATE_BLOCK]

theorem key_step (strtod : CStr → StrtodResult) (root : SConfNode) (d : Int) (k : CStr)
    (style : Nat) (stack : List SConfYAMLParent) :
    sconf_yaml_consume_event strtod root (.scalar k style) ⟨4, d, none, stack⟩ =
      some (1, root, ⟨5, d, some k, stack⟩) := by
  rw [consume_event_block _ _ _ _ rfl]
  simp [yaml_consume_block, SCONF_YAML_STATE_BLOCK_CONTENT]

theorem after_state_ne_stop (pn : SConfNode) : after_state pn ≠ SCONF_YAML_STATE_STOP := by
  unfold after_state
  split_ifs <;> decide

theorem mapping_value_ok (strtod : CStr → StrtodResult) (es : List (CStr × YamlValue))
    (hes : yaml_entries_ok strtod es) : yaml_value_ok strtod (.mapping es) := by
  intro root d key P ci rest pn slot hfp hs hcap harr hwf hcompat hdepth
  simp only [YamlValue.wf] at hwf
  simp only [YamlValue.depth] at hdepth
  simp only [yaml_compat] at hcompat
  have hc : ∀ m, pn.fetch slot = some m → sconf_type m = 1 := by
    intro m hm
    obtain ⟨dd, rfl, _⟩ := hcompat m hm
    rfl
  obtain ⟨pn1, c, hstep, hty1, hfs1, hct, hfr1, hnew, hlen1⟩ :=
    container_start_step strtod root d key P ci rest pn slot 1 .mapping_start
      (Or.inl ⟨rfl, rfl⟩) hfp hs hcap (by omega) (fun h => (harr h).1) hc
  rw [if_pos rfl] at hstep
  obtain ⟨c0, rfl⟩ : ∃ c0, c = .dict c0 := by
    cases c <;> simp at hct
    exact ⟨_, rfl⟩
  have hcompat0 : entries_compat strtod c0 es := by
    rcases hnew with ⟨_, h2⟩ | ⟨h1, _⟩
    · simp only [sconf_node_create, SCONF_TYPE_DICT, if_true, Option.some.injEq,
        SConfNode.dict.injEq] at h2
      subst h2
      exact entries_compat_nil strtod es
    · obtain ⟨dd, hdd, hcd⟩ := hcompat _ h1
      cases hdd
      exact hcd
  have hfp1 : (root.store_path P pn1).fetch_path P = some pn1 :=
    fetch_path_store_path root pn1 pn P hfp
  have hfpc : (root.store_path P pn1).fetch_path (P ++ [slot]) = some (.dict c0) :=
    fetch_path_child _ pn1 _ P slot hfp1 hfs1
  obtain ⟨c1, hrun, hreal, _⟩ :=
    hes (root.store_path P pn1) (d + 1) (P ++ [slot]) 0 (⟨P, next_index pn ci⟩ :: rest) c0 hfpc
      hwf hcompat0 (by omega)
  have hroot2 : (root.store_path P pn1).store_path (P ++ [slot]) (.dict c1) =
      root.store_path P (pn1.store slot (.dict c1)) := by
    rw [store_path_child _ pn1 _ _ P slot hfp1 hfs1, store_path_store_path root _ _ pn P hfp]
  rw [hroot2] at hrun
  have hfp2 : (root.store_path P (pn1.store slot (.dict c1))).fetch_path P =
      some (pn1.store slot (.dict c1)) := fetch_path_store_path root _ pn P hfp
  have hend := mapping_end_step strtod _ d ⟨P ++ [slot], 0⟩ P (next_index pn ci) rest _ hfp2
  refine ⟨pn1.store slot (.dict c1), .dict c1, ?_, ?_, fetch_store _ _ _ _ hfs1, ?_, ?_,
    by rw [store_len]; exact hlen1⟩
  · simp only [YamlValue.events]
    rw [yaml_run_cons strtod _ _ _ _ _ _ hstep (by simp [SCONF_YAML_STATE_STOP]),
      yaml_run_append strtod _ _ _ _ _ _ hrun (by simp [SCONF_YAML_STATE_STOP]),
      yaml_run_single strtod _ _ _ _ _ hend]
    simp [after_state, sconf_type_store, hty1]
  · rw [sconf_type_store, hty1]
  · simp only [yaml_realises]
    exact ⟨c1, rfl, hreal⟩
  · intro other ho
    rw [fetch_store_ne _ _ _ _ ho, hfr1 other ho]

theorem sequence_value_ok (strtod : CStr → StrtodResult) (xs : List YamlValue)
    (hxs : yaml_items_ok strtod xs) : yaml_value_ok strtod (.sequence xs) := by
  intro root d key P ci rest pn slot hfp hs hcap harr hwf hcompat hdepth
  simp only [YamlValue.wf] at hwf
  simp only [YamlValue.depth] at hdepth
  simp only [yaml_compat] at hcompat
  have hdict : sconf_type pn ≠ 2 := by
    intro h
    have := (harr h).2
    simp [YamlValue.is_sequence] at this
  have hc : ∀ m, pn.fetch slot = some m → sconf_type m = 2 := by
    intro m hm
    obtain ⟨dd, rfl, _⟩ := hcompat m hm
    rfl
  obtain ⟨pn1, c, hstep, hty1, hfs1, hct, hfr1, hnew, hlen1⟩ :=
    container_start_step strtod root d key P ci rest pn slot 2 .sequence_start
      (Or.inr ⟨rfl, rfl⟩) hfp hs hcap (by omega) (fun h => (harr h).1) hc
  rw [if_neg (by decide)] at hstep
  obtain ⟨a0, rfl⟩ : ∃ a0, c = .array a0 := by
    cases c <;> simp at hct
    exact ⟨_, rfl⟩
  have hcompat0 : items_compat strtod a0 0 xs := by
    rcases hnew with ⟨_, h2⟩ | ⟨h1, _⟩
    · simp [sconf_node_create, SCONF_TYPE_DICT, SCONF_TYPE_ARRAY, sconf_array_create,
        SCONF_ARRAY_MAX_SIZE] at h2
      subst h2
      exact items_compat_empty strtod xs 0
    · obtain ⟨dd, hdd, hcd⟩ := hcompat _ h1
      cases hdd
      exact hcd
  have hfp1 : (root.store_path P pn1).fetch_path P = some pn1 :=
    fetch_path_store_path root pn1 pn P hfp
  have hfpc : (root.store_path P pn1).fetch_path (P ++ [slot]) = some (.array a0) :=
    fetch_path_child _ pn1 _ P slot hfp1 hfs1
  obtain ⟨a1, hrun, hreal, _, _⟩ :=
    hxs (root.store_path P pn1) (d + 1) (P ++ [slot]) 0 (⟨P, next_index pn ci⟩ :: rest) a0 hfpc
      hwf.2 (by omega) hcompat0 (by omega)
  have hroot2 : (root.store_path P pn1).store_path (P ++ [slot]) (.array a1) =
      root.store_path P (pn1.store slot (.array a1)) := by
    rw [store_path_child _ pn1 _ _ P slot hfp1 hfs1, store_path_store_path root _ _ pn P hfp]
  rw [hroot2] at hrun
  have hend := sequence_end_step strtod (root.store_path P (pn1.store slot (.array a1))) d
    ⟨P ++ [slot], 0 + xs.length⟩ (⟨P, next_index pn ci⟩ :: rest)
  refine ⟨pn1.store slot (.array a1), .array a1, ?_, ?_, fetch_store _ _ _ _ hfs1, ?_, ?_,
    by rw [store_len]; exact hlen1⟩
  · simp only [YamlValue.events]
    rw [yaml_run_cons strtod _ _ _ _ _ _ hstep (by simp [SCONF_YAML_STATE_STOP]),
      yaml_run_append strtod _ _ _ _ _ _ hrun (by simp [SCONF_YAML_STATE_STOP]),
      yaml_run_single strtod _ _ _ _ _ hend]
    simp [after_state, hdict]
  · rw [sconf_type_store, hty1]
  · simp only [yaml_realises]
    exact ⟨a1, rfl, hreal⟩
  · intro other ho
    rw [fetch_store_ne _ _ _ _ ho, hfr1 other ho]

theorem entries_nil_ok (strtod : CStr → StrtodResult) : yaml_entries_ok strtod [] := by
  intro root d P ci rest dd hfp _ _ _
  refine ⟨dd, ?_, by simp only [entries_realised], fun _ _ => rfl⟩
  simp only [entries_events, yaml_run, store_path_same root _ P hfp]

theorem entries_cons_ok (strtod : CStr → StrtodResult) (k : CStr) (v : YamlValue)
    (t : List (CStr × YamlValue)) (hv : yaml_value_ok strtod v)
    (ht : yaml_entries_ok strtod t) : yaml_entries_ok strtod ((k, v) :: t) := by
  intro root d P ci rest dd hfp hwf hcompat hdepth
  simp only [entries_wf] at hwf
  simp only [entries_compat] at hcompat
  simp only [entries_depth] at hdepth
  obtain ⟨_, hdist, hvwf, htwf⟩ := hwf
  have hkey := key_step strtod root d k YAML_PLAIN_SCALAR_STYLE (⟨P, ci⟩ :: rest)
  obtain ⟨pn1, n, hrun1, hty1, hfs1, hreal1, hfr1, _⟩ :=
    hv root d (some k) P ci rest (.dict dd) (.name k) hfp rfl rfl
      (fun h => absurd h (by simp)) hvwf hcompat.1 (by omega)
  obtain ⟨dd1, rfl⟩ : ∃ dd1, pn1 = .dict dd1 := by
    cases pn1 <;> simp at hty1
    exact ⟨_, rfl⟩
  have hfp1 : (root.store_path P (.dict dd1)).fetch_path P = some (.dict dd1) :=
    fetch_path_store_path root _ _ P hfp
  have hcompat1 : entries_compat strtod dd1 t := by
    apply entries_compat_congr strtod dd dd1 t _ hcompat.2
    intro e he
    have := hfr1 (.name e.1) (by
      intro hc
      simp only [SConfSlot.name.injEq] at hc
      exact hdist e he hc)
    simpa only [SConfNode.fetch] using this
  obtain ⟨dd2, hrun2, hreal2, hfr2⟩ :=
    ht (root.store_path P (.dict dd1)) d P ci rest dd1 hfp1 htwf hcompat1 (by omega)
  rw [store_path_store_path root _ _ _ P hfp] at hrun2
  refine ⟨dd2, ?_, ?_, ?_⟩
  · simp only [entries_events]
    rw [yaml_run_cons strtod _ _ _ _ _ _ hkey (by simp [SCONF_YAML_STATE_STOP])]
    have h5 : value_state (.dict dd) = 5 := by simp [value_state]
    have h4 : after_state (.dict dd) = 4 := by simp [after_state]
    have hni : next_index (.dict dd) ci = ci := by simp [next_index]
    rw [h5, h4, hni] at hrun1
    rw [yaml_run_append strtod _ _ _ _ _ _ hrun1 (by simp [SCONF_YAML_STATE_STOP])]
    exact hrun2
  · simp only [entries_realised]
    refine ⟨⟨n, ?_, hreal1⟩, hreal2⟩
    rw [hfr2 k (fun e he => hdist e he)]
    simpa only [SConfNode.fetch] using hfs1
  · intro k' hk'
    rw [hfr2 k' (fun e he => hk' e (List.mem_cons_of_mem _ he))]
    have := hfr1 (.name k') (by
      intro hc
      simp only [SConfSlot.name.injEq] at hc
      exact hk' (k, v) (List.mem_cons_self _ _) hc.symm)
    simpa only [SConfNode.fetch] using this

theorem items_nil_ok (strtod : CStr → StrtodResult) : yaml_items_ok strtod [] := by
  intro root d P ci rest a hfp _ _ _ _
  refine ⟨a, ?_, by simp only [items_realised], fun _ _ => rfl, le_max_left _ _⟩
  simp only [items_events, yaml_run, store_path_same root _ P hfp, List.length_nil, add_zero]

theorem items_cons_ok (strtod : CStr → StrtodResult) (v : YamlValue) (t : List YamlValue)
    (hv : yaml_value_ok strtod v) (ht : yaml_items_ok strtod t) :
    yaml_items_ok strtod (v :: t) := by
  intro root d P ci rest a hfp hwf hlen hcompat hdepth
  simp only [items_wf] at hwf
  simp only [items_compat] at hcompat
  simp only [items_depth] at hdepth
  simp only [List.length_cons] at hlen
  obtain ⟨hseq, hvwf, htwf⟩ := hwf
  obtain ⟨pn1, n, hrun1, hty1, hfs1, hreal1, hfr1, hlen1⟩ :=
    hv root d none P ci rest (.array a) (.index ci) hfp rfl
      (by simp only [spec_slot_in_capacity, decide_eq_true_eq]; omega)
      (fun _ => ⟨rfl, hseq⟩) hvwf hcompat.1 (by omega)
  obtain ⟨a1, rfl⟩ : ∃ a1, pn1 = .array a1 := by
    cases pn1 <;> simp at hty1
    exact ⟨_, rfl⟩
  have hfp1 : (root.store_path P (.array a1)).fetch_path P = some (.array a1) :=
    fetch_path_store_path root _ _ P hfp
  have hfr1' : ∀ j, j ≠ ci → a1.getD j none = a.getD j none := by
    intro j hj
    have := hfr1 (.index j) (by
      intro hc
      simp only [SConfSlot.index.injEq] at hc
      exact hj hc)
    simpa only [SConfNode.fetch] using this
  have hcompat1 : items_compat strtod a1 (ci + 1) t :=
    items_compat_congr strtod a a1 t (ci + 1) (fun j hj => hfr1' j (by omega)) hcompat.2
  obtain ⟨a2, hrun2, hreal2, hfr2, hlen2⟩ :=
    ht (root.store_path P (.array a1)) d P (ci + 1) rest a1 hfp1 htwf (by omega) hcompat1
      (by omega)
  rw [store_path_store_path root _ _ _ P hfp] at hrun2
  refine ⟨a2, ?_, ?_, ?_, ?_⟩
  rotate_left 3
  · simp only [node_len, slot_bound] at hlen1
    simp only [List.length_cons]
    omega
  · simp only [items_events]
    have h6 : value_state (.array a) = 6 := by simp [value_state]
    have h6' : after_state (.array a) = 6 := by simp [after_state]
    have hni : next_index (.array a) ci = ci + 1 := by simp [next_index]
    rw [h6, h6', hni] at hrun1
    rw [yaml_run_append strtod _ _ _ _ _ _ hrun1 (by simp [SCONF_YAML_STATE_STOP]), hrun2]
    simp only [List.length_cons]
    have : ci + 1 + t.length = ci + (t.length + 1) := by omega
    rw [this]
  · simp only [items_realised]
    refine ⟨⟨n, ?_, hreal1⟩, hreal2⟩
    rw [hfr2 ci (Or.inl (by omega))]
    simpa only [SConfNode.fetch] using hfs1
  · intro j hj
    simp only [List.length_cons] at hj
    rw [hfr2 j (by omega), hfr1' j (by omega)]

/-- The events of every value of the shape that the ingestion takes build the
value in the slot of the parent on top of the stack. -/
theorem yaml_value_ok_all (strtod : CStr → StrtodResult) (v : YamlValue) :
    yaml_value_ok strtod v :=
  @YamlValue.rec (fun v => yaml_value_ok strtod v) (fun es => yaml_entries_ok strtod es)
    (fun xs => yaml_items_ok strtod xs) (fun e => yaml_value_ok strtod e.2)
    (fun value style => scalar_value_ok strtod value style)
    (fun es h => mapping_value_ok strtod es h)
    (fun xs h => sequence_value_ok strtod xs h)
    (entries_nil_ok strtod)
    (fun e t he ht => entries_cons_ok strtod e.1 e.2 t he ht)
    (items_nil_ok strtod)
    (fun v t hv ht => items_cons_ok strtod v t hv ht)
    (fun _ _ h => h) v

theorem yaml_entries_ok_all (strtod : CStr → StrtodResult) (es : List (CStr × YamlValue)) :
    yaml_entries_ok strtod es := by
  induction es with
  | nil => exact entries_nil_ok strtod
  | cons e t ih => exact entries_cons_ok strtod e.1 e.2 t (yaml_value_ok_all strtod e.2) ih

theorem yaml_items_ok_all (strtod : CStr → StrtodResult) (xs : List YamlValue) :
    yaml_items_ok strtod xs := by
  induction xs with
  | nil => exact items_nil_ok strtod
  | cons v t ih => exact items_cons_ok strtod v t (yaml_value_ok_all strtod v) ih

/-! ### Documents and streams -/

/-- The events of a document whose root is a mapping, consumed between two
documents with a dictionary as the root. -/
theorem yaml_document_ok (strtod : CStr → StrtodResult) (es : List (CStr × YamlValue))
    (dd : List (CStr × SConfNode)) (hwf : entries_wf strtod es)
    (hcompat : entries_compat strtod dd es) (hdepth : (YamlValue.mapping es).depth ≤ 19) :
    ∃ dd',
      yaml_run strtod (.dict dd) ⟨2, 0, none, []⟩
          (.document_start :: ((YamlValue.mapping es).events ++ [.document_end])) =
        some (1, .dict dd', ⟨2, 0, none, []⟩) ∧
      entries_realised strtod dd' es ∧
      ∀ k', (∀ e ∈ es, e.1 ≠ k') → art_search dd' k' = art_search dd k' := by
  simp only [YamlValue.depth] at hdepth
  obtain ⟨dd', hrun, hreal, hfr⟩ :=
    yaml_entries_ok_all strtod es (.dict dd) (0 + 1) [] 0 [] dd rfl hwf hcompat (by omega)
  refine ⟨dd', ?_, hreal, hfr⟩
  have h1 : sconf_yaml_consume_event strtod (.dict dd) .document_start ⟨2, 0, none, []⟩ =
      some (1, .dict dd, ⟨3, 0, none, []⟩) := by
    rw [consume_event_stream _ _ _ _ rfl]
    rfl
  have h2 : sconf_yaml_consume_event strtod (.dict dd) .mapping_start ⟨3, 0, none, []⟩ =
      some (1, .dict dd, ⟨4, 0 + 1, none, [⟨[], 0⟩]⟩) := by
    rw [consume_event_document _ _ _ _ rfl]
    rfl
  have h3 : sconf_yaml_consume_event strtod (.dict dd') .mapping_end
      ⟨4, 0 + 1, none, [⟨[], 0⟩]⟩ = some (1, .dict dd', ⟨4, 0, none, []⟩) := by
    rw [consume_event_block _ _ _ _ rfl]
    rfl
  have h4 : sconf_yaml_consume_event strtod (.dict dd') .document_end ⟨4, 0, none, []⟩ =
      some (1, .dict dd', ⟨2, 0, none, []⟩) := by
    rw [consume_event_block _ _ _ _ rfl]
    rfl
  have hsp : (SConfNode.dict dd).store_path [] (.dict dd') = .dict dd' := rfl
  rw [hsp] at hrun
  simp only [YamlValue.events, List.cons_append, List.append_assoc, List.nil_append]
  rw [yaml_run_cons strtod _ _ _ _ _ _ h1 (by decide),
    yaml_run_cons strtod _ _ _ _ _ _ h2 (by decide),
    yaml_run_append strtod _ _ _ _ _ _ hrun (by decide)]
  rw [yaml_run_cons strtod _ _ _ _ _ _ h3 (by decide), yaml_run_single strtod _ _ _ _ _ h4]

/-- The loop of `sconf_yaml_read` over a stream whose documents are consumed with
success. -/
theorem yaml_read_stream (strtod : CStr → StrtodResult) (root root' : SConfNode)
    (es : List yaml_event_t)
    (h : yaml_run strtod root ⟨2, 0, none, []⟩ es = some (1, root', ⟨2, 0, none, []⟩)) :
    sconf_yaml_read_loop strtod root ⟨0, 0, none, []⟩ (.stream_start :: (es ++ [.stream_end])) =
      some (0, root') := by
  have h1 : sconf_yaml_consume_event strtod root .stream_start ⟨0, 0, none, []⟩ =
      some (1, root, ⟨2, 0, none, []⟩) := by
    rw [consume_event_start _ _ _ _ rfl]
    rfl
  have h2 : sconf_yaml_consume_event strtod root' .stream_end ⟨2, 0, none, []⟩ =
      some (1, root', ⟨1, 0, none, []⟩) := by
    rw [consume_event_stream _ _ _ _ rfl]
    rfl
  rw [sconf_yaml_read_loop]
  simp only [h1]
  rw [if_neg (by decide), if_pos (by decide),
    yaml_read_loop_append strtod _ _ _ _ _ _ h (by decide), sconf_yaml_read_loop]
  simp only [h2]
  rw [if_neg (by decide), if_neg (by decide)]

/-! ### From the document to the paths -/

theorem entries_select_realised (strtod : CStr → StrtodResult) (d : List (CStr × SConfNode))
    (seg : CStr) (rest : List CStr) (target : YamlValue) (es : List (CStr × YamlValue))
    (hwf : entries_wf strtod es) (hreal : entries_realised strtod d es)
    (hsel : entries_select es seg rest = some target) :
    ∃ v c, v.wf strtod ∧ v.select rest = some target ∧ seg.head? ≠ some '[' ∧
      art_search d seg = some c ∧ yaml_realises strtod c v := by
  induction es with
  | nil => simp [entries_select] at hsel
  | cons e t ih =>
    obtain ⟨k, v⟩ := e
    simp only [entries_wf] at hwf
    simp only [entries_realised] at hreal
    simp only [entries_select] at hsel
    by_cases hk : k = seg
    · rw [if_pos hk] at hsel
      subst hk
      obtain ⟨c, hc, hr⟩ := hreal.1
      exact ⟨v, c, hwf.2.2.1, hsel, hwf.1.2.2, hc, hr⟩
    · rw [if_neg hk] at hsel
      exact ih hwf.2.2.2 hreal.2 hsel

theorem items_select_realised (strtod : CStr → StrtodResult) (a : List (Option SConfNode))
    (rest : List CStr) (target : YamlValue) (xs : List YamlValue) :
    ∀ (i off : Nat), items_wf strtod xs → items_realised strtod a off xs →
      items_select xs i rest = some target →
      ∃ v c, v.wf strtod ∧ v.select rest = some target ∧ i < xs.length ∧
        a.getD (off + i) none = some c ∧ yaml_realises strtod c v := by
  induction xs with
  | nil => intro i off _ _ hsel; simp [items_select] at hsel
  | cons x t ih =>
    intro i off hwf hreal hsel
    simp only [items_wf] at hwf
    simp only [items_realised] at hreal
    cases i with
    | zero =>
      simp only [items_select] at hsel
      obtain ⟨c, hc, hr⟩ := hreal.1
      exact ⟨x, c, hwf.2.1, hsel, by simp, by simpa using hc, hr⟩
    | succ j =>
      simp only [items_select] at hsel
      obtain ⟨v, c, h1, h2, h3, h4, h5⟩ := ih j (off + 1) hwf.2.2 hreal.2 hsel
      refine ⟨v, c, h1, h2, by simp only [List.length_cons]; omega, ?_, h5⟩
      rw [← h4]
      congr 1
      omega

/-- A node that holds a value resolves the segments that lead to a scalar of
the value to the node built for the scalar. -/
theorem realised_select (strtod : CStr → StrtodResult) (value : CStr) (style : Nat)
    (segs : List CStr) :
    ∀ (n : SConfNode) (v : YamlValue), v.wf strtod → yaml_realises strtod n v →
      v.select segs = some (.scalar value style) →
      ∃ m, spec_resolve n segs = some m ∧
        sconf_node_create (yaml_scalar_infer strtod value style).2.1
          (some (yaml_scalar_infer strtod value style).2.2) = some (some m) := by
  induction segs with
  | nil =>
    intro n v _ hreal hsel
    simp only [YamlValue.select, Option.some.injEq] at hsel
    subst hsel
    simp only [yaml_realises] at hreal
    exact ⟨n, rfl, hreal⟩
  | cons seg rest ih =>
    intro n v hwf hreal hsel
    cases v with
    | scalar a s => simp [YamlValue.select] at hsel
    | mapping es =>
      simp only [YamlValue.select] at hsel
      simp only [YamlValue.wf] at hwf
      simp only [yaml_realises] at hreal
      obtain ⟨d, rfl, hreal⟩ := hreal
      obtain ⟨v', c, hwf', hsel', hhead, hc, hr⟩ :=
        entries_select_realised strtod d seg rest _ es hwf hreal hsel
      obtain ⟨m, hm, hcr⟩ := ih c v' hwf' hr hsel'
      refine ⟨m, ?_, hcr⟩
      simp only [spec_resolve, spec_lookup, if_neg hhead, hc]
      exact hm
    | sequence xs =>
      simp only [YamlValue.select] at hsel
      simp only [YamlValue.wf] at hwf
      simp only [yaml_realises] at hreal
      obtain ⟨a, rfl, hreal⟩ := hreal
      cases hi : spec_index seg with
      | none => simp [hi] at hsel
      | some i =>
        simp only [hi] at hsel
        obtain ⟨v', c, hwf', hsel', hlt, hc, hr⟩ :=
          items_select_realised strtod a rest _ xs i 0 hwf.2 hreal hsel
        obtain ⟨m, hm, hcr⟩ := ih c v' hwf' hr hsel'
        refine ⟨m, ?_, hcr⟩
        have hfit : i < UINT32_MOD := by
          have := hwf.1
          simp only [SCONF_ARRAY_MAX_SIZE] at this
          simp only [UINT32_MOD]
          omega
        simp only [zero_add] at hc
        simp only [spec_resolve, spec_lookup, hi, if_pos hfit, hc]
        exact hm

/-- The scalars of a document that a dictionary holds are what `sconf_get`
returns at their paths. -/
theorem realised_get (strtod : CStr → StrtodResult) (dd : List (CStr × SConfNode))
    (es : List (CStr × YamlValue)) (hwf : entries_wf strtod es)
    (hreal : entries_realised strtod dd es) (p value : CStr) (style : Nat)
    (hsel : (YamlValue.mapping es).select (strtok_r p []) = some (.scalar value style)) :
    ∃ n, sconf_get (some (.dict dd)) (some p) = (1, some n) ∧
      sconf_node_create (yaml_scalar_infer strtod value style).2.1
        (some (yaml_scalar_infer strtod value style).2.2) = some (some n) := by
  obtain ⟨m, hm, hcr⟩ := realised_select strtod value style (strtok_r p []) (.dict dd)
    (.mapping es) (by simp only [YamlValue.wf]; exact hwf)
    (by simp only [yaml_realises]; exact ⟨dd, rfl, hreal⟩) hsel
  refine ⟨m, ?_, hcr⟩
  have hne : strtok_r p [] ≠ [] := by
    intro h
    rw [h] at hsel
    simp [YamlValue.select] at hsel
  simp only [sconf_get]
  exact (get_tokens_of_resolve (.dict dd) m (strtok_r p []) hm).1 hne

theorem stream_events_one (doc : YamlValue) :
    stream_events [doc] =
      .stream_start :: ((.document_start :: (doc.events ++ [.document_end])) ++ [.stream_end]) := by
  simp [stream_events]

theorem stream_events_two (doc1 doc2 : YamlValue) :
    stream_events [doc1, doc2] =
      .stream_start :: (((.document_start :: (doc1.events ++ [.document_end])) ++
        (.document_start :: (doc2.events ++ [.document_end]))) ++ [.stream_end]) := by
  simp [stream_events]

/-- C22: ingestion builds the addressed tree. For every file whose events are
those of one document whose root is a mapping, with values that are scalars,
mappings, or sequences of at most 65536 scalars and mappings, keys that are
distinct within a mapping, not empty, without `.` and not beginning with `[`,
at most 19 containers around a value and no numeral out of range,
`sconf_yaml_read` into an empty dictionary returns 0, and after it `sconf_get`
returns, at every path whose segments lead to a scalar of the document (the
keys, and for the item at the 0-based position `i` of a sequence an index
segment of `i`), the node that `sconf_node_create` builds for the type and the
data inferred from the scalar. -/
theorem sconf_yaml_read_builds_tree (strtod : CStr → StrtodResult)
    (fopen_events : CStr → Option (List yaml_event_t)) (filename : CStr)
    (es : List (CStr × YamlValue))
    (hfile : fopen_events filename = some (stream_events [.mapping es]))
    (hwf : (YamlValue.mapping es).wf strtod) (hdepth : (YamlValue.mapping es).depth ≤ 19) :
    ∃ root', sconf_yaml_read strtod fopen_events (.dict []) filename = some (0, root') ∧
      ∀ p value style,
        (YamlValue.mapping es).select (strtok_r p []) = some (.scalar value style) →
        ∃ n, sconf_get (some root') (some p) = (1, some n) ∧
          sconf_node_create (yaml_scalar_infer strtod value style).2.1
            (some (yaml_scalar_infer strtod value style).2.2) = some (some n) := by
  have hwf' : entries_wf strtod es := by
    simpa only [YamlValue.wf] using hwf
  obtain ⟨dd', hrun, hreal, _⟩ :=
    yaml_document_ok strtod es [] hwf' (entries_compat_nil strtod es) hdepth
  refine ⟨.dict dd', ?_, ?_⟩
  · simp only [sconf_yaml_read, hfile, stream_events_one, SCONF_YAML_STATE_START]
    exact yaml_read_stream strtod _ _ _ hrun
  · intro p value style hsel
    exact realised_get strtod dd' es hwf' hreal p value style hsel

/-- C22, instance: the file `a: [ {b: 1}, {c: 2} ]` is read with success, and
after it `a.[0].b` is the integer 1 and `a.[1].c` is the integer 2. -/
theorem sconf_yaml_read_builds_tree_witness :
    yaml_doc_nested.depth ≤ 19 ∧
    ∃ root', sconf_yaml_read strtod_no_number (fun _ => some (stream_events [yaml_doc_nested]))
        (.dict []) "f.yml".toList = some (0, root') ∧
      sconf_get (some root') (some "a.[0].b".toList) = (1, some (.int 1)) ∧
      sconf_get (some root') (some "a.[1].c".toList) = (1, some (.int 2)) := by
  refine ⟨by decide, ?_⟩
  obtain ⟨root', h1, h2⟩ := sconf_yaml_read_builds_tree strtod_no_number
    (fun _ => some (stream_events [yaml_doc_nested])) "f.yml".toList _ rfl
    (by
      simp only [YamlValue.wf, entries_wf, items_wf, spec_key_ok, YamlValue.is_sequence]
      decide)
    (by decide)
  refine ⟨root', h1, ?_, ?_⟩
  · obtain ⟨n, hn, hc⟩ := h2 "a.[0].b".toList "1".toList YAML_PLAIN_SCALAR_STYLE rfl
    have : some (some n) = some (some (SConfNode.int 1)) := hc.symm.trans rfl
    simp only [Option.some.injEq] at this
    rw [hn, this]
  · obtain ⟨n, hn, hc⟩ := h2 "a.[1].c".toList "2".toList YAML_PLAIN_SCALAR_STYLE rfl
    have : some (some n) = some (some (SConfNode.int 2)) := hc.symm.trans rfl
    simp only [Option.some.injEq] at this
    rw [hn, this]

/-! ### A sequence longer than the capacity of an array -/

theorem items_events_append (xs ys : List YamlValue) :
    items_events (xs ++ ys) = items_events xs ++ items_events ys := by
  induction xs with
  | nil => rfl
  | cons v t ih => simp only [List.cons_append, items_events, List.append_eq, ih, List.append_assoc]

theorem items_wf_replicate (strtod : CStr → StrtodResult) (value : CStr) (style : Nat)
    (hv : (yaml_scalar_infer strtod value style).1 ≠ -1) (n : Nat) :
    items_wf strtod (List.replicate n (.scalar value style)) := by
  induction n with
  | zero => simp only [List.replicate, items_wf]
  | succ k ih =>
    simp only [List.replicate, items_wf, YamlValue.is_sequence, YamlValue.wf]
    exact ⟨trivial, hv, ih⟩

theorem items_depth_replicate (value : CStr) (style : Nat) (n : Nat) :
    items_depth (List.replicate n (.scalar value style)) = 0 := by
  induction n with
  | zero => rfl
  | succ k ih => simp only [List.replicate, items_depth, YamlValue.depth, ih, max_self]

/-- A scalar for the index 65536 of an array: the array cannot grow, the
insertion fails and the event is refused. -/
theorem yaml_scalar_over_capacity (strtod : CStr → StrtodResult) (root : SConfNode) (d : Int)
    (P : List SConfSlot) (rest : List SConfYAMLParent) (a : List (Option SConfNode))
    (value : CStr) (style : Nat) (hfp : root.fetch_path P = some (.array a))
    (hlen : a.length ≤ 65536) (hempty : a.getD 65536 none = none)
    (hv : (yaml_scalar_infer strtod value style).1 ≠ -1) :
    sconf_yaml_consume_event strtod root (.scalar value style)
        ⟨6, d, none, ⟨P, 65536⟩ :: rest⟩ =
      some (0, root, ⟨6, d, none, ⟨P, 65536⟩ :: rest⟩) := by
  obtain ⟨⟨h3, h6⟩, _⟩ := yaml_scalar_infer_type strtod value style
  have hins : sconf_node_create_and_insert none (yaml_scalar_infer strtod value style).2.1
      (.array a) 65536 (some (yaml_scalar_infer strtod value style).2.2) =
      some ⟨.array a, none⟩ := by
    rw [create_and_insert_index_eq]
    simp only [create_slot, SConfNode.fetch, hempty, create_eq _ _ (by omega) h6, insert_at,
      sconf_array_insert]
    have hg : sconf_array_grow a ((65536 + 1) % UINT32_MOD) = (-1, a) := by
      unfold sconf_array_grow
      rw [if_neg (by simp only [UINT32_MOD]; omega),
        if_pos (by simp only [UINT32_MOD, SCONF_ARRAY_MAX_SIZE]; omega)]
    rw [hg]
    simp
  rw [consume_event_sequence _ _ _ _ rfl]
  simp only [yaml_consume_sequence, sconf_yaml_node_add, hfp, sconf_type_array, SCONF_TYPE_ARRAY,
    ne_eq, not_true_eq_false, if_false, hv, hins, store_path_same root _ P hfp]
  simp

/-- A sequence of 65536 items and one scalar more, under a key of the root
mapping: the loop of `sconf_yaml_read` returns -1. -/
theorem yaml_read_long_sequence (strtod : CStr → StrtodResult) (k value : CStr) (style : Nat)
    (xs : List YamlValue) (hlen : xs.length = 65536) (hwf : items_wf strtod xs)
    (hdepth : items_depth xs = 0) (hv : (yaml_scalar_infer strtod value style).1 ≠ -1) :
    ∃ root', sconf_yaml_read_loop strtod (.dict []) ⟨0, 0, none, []⟩
      (stream_events [.mapping [(k, .sequence (xs ++ [.scalar value style]))]]) =
        some (-1, root') := by
  have h1 : sconf_yaml_consume_event strtod (.dict []) .stream_start ⟨0, 0, none, []⟩ =
      some (1, .dict [], ⟨2, 0, none, []⟩) := by
    rw [consume_event_start _ _ _ _ rfl]
    rfl
  have h2 : sconf_yaml_consume_event strtod (.dict []) .document_start ⟨2, 0, none, []⟩ =
      some (1, .dict [], ⟨3, 0, none, []⟩) := by
    rw [consume_event_stream _ _ _ _ rfl]
    rfl
  have h3 : sconf_yaml_consume_event strtod (.dict []) .mapping_start ⟨3, 0, none, []⟩ =
      some (1, .dict [], ⟨4, 0 + 1, none, [⟨[], 0⟩]⟩) := by
    rw [consume_event_document _ _ _ _ rfl]
    rfl
  have h4 := key_step strtod (.dict []) (0 + 1) k YAML_PLAIN_SCALAR_STYLE [⟨[], 0⟩]
  obtain ⟨pn1, c, h5, hty1, hfs1, hct, _, hnew, _⟩ :=
    container_start_step strtod (.dict []) (0 + 1) (some k) [] 0 [] (.dict []) (.name k) 2
      .sequence_start (Or.inr ⟨rfl, rfl⟩) rfl rfl rfl (by omega) (fun h => absurd h (by simp))
      (fun m hm => by simp [SConfNode.fetch, art_search] at hm)
  rw [if_neg (by decide)] at h5
  have hc : c = .array [none] := by
    rcases hnew with ⟨_, h⟩ | ⟨h, _⟩
    · simp [sconf_node_create, SCONF_TYPE_DICT, SCONF_TYPE_ARRAY, sconf_array_create,
        SCONF_ARRAY_MAX_SIZE] at h
      exact h.symm
    · simp [SConfNode.fetch, art_search] at h
  subst hc
  have hsp : (SConfNode.dict []).store_path [] pn1 = pn1 := rfl
  rw [hsp] at h5
  have hval : value_state (.dict []) = 5 := by simp [value_state]
  have hni : next_index (.dict []) 0 = 0 := by simp [next_index]
  rw [hval, hni] at h5
  have hfpc : pn1.fetch_path ([] ++ [SConfSlot.name k]) = some (.array [none]) := by
    simp only [List.nil_append, SConfNode.fetch_path, hfs1]
  obtain ⟨a', hrun, _, hfr, hlen'⟩ :=
    yaml_items_ok_all strtod xs pn1 (0 + 1 + 1)
      ([] ++ [.name k]) 0 [⟨[], 0⟩] [none] hfpc hwf
      (by rw [hlen])
      (items_compat_empty strtod _ 0)
      (by simp [hdepth])
  rw [hlen] at hrun hfr hlen'
  simp only [zero_add] at hrun hfr hlen'
  have hfp2 : (pn1.store_path ([] ++ [SConfSlot.name k]) (.array a')).fetch_path
      ([] ++ [SConfSlot.name k]) = some (.array a') := fetch_path_store_path _ _ _ _ hfpc
  have hfail := yaml_scalar_over_capacity strtod _ (1 + 1) ([] ++ [.name k]) [⟨[], 0⟩] a'
    value style hfp2 (by simpa using hlen')
    (by rw [hfr 65536 (Or.inr (le_refl _))]; rfl) hv
  have hprefix : yaml_run strtod (.dict []) ⟨0, 0, none, []⟩
      (.stream_start :: .document_start :: .mapping_start ::
        .scalar k YAML_PLAIN_SCALAR_STYLE :: .sequence_start :: items_events xs) =
      some (1, pn1.store_path ([] ++ [SConfSlot.name k]) (.array a'),
        ⟨6, 1 + 1, none, [⟨[] ++ [.name k], 65536⟩, ⟨[], 0⟩]⟩) := by
    rw [yaml_run_cons strtod _ _ _ _ _ _ h1 (by decide),
      yaml_run_cons strtod _ _ _ _ _ _ h2 (by decide),
      yaml_run_cons strtod _ _ _ _ _ _ h3 (by decide),
      yaml_run_cons strtod _ _ _ _ _ _ h4 (by simp [SCONF_YAML_STATE_STOP]),
      yaml_run_cons strtod _ _ _ _ _ _ h5 (by simp [SCONF_YAML_STATE_STOP])]
    simpa only [zero_add] using hrun
  refine ⟨pn1.store_path ([] ++ [SConfSlot.name k]) (.array a'), ?_⟩
  have hev : stream_events [.mapping [(k, .sequence (xs ++ [.scalar value style]))]] =
      (.stream_start :: .document_start :: .mapping_start ::
        .scalar k YAML_PLAIN_SCALAR_STYLE :: .sequence_start :: items_events xs) ++
        (.scalar value style ::
          [.sequence_end, .mapping_end, .document_end, .stream_end]) := by
    rw [stream_events_one]
    simp only [YamlValue.events, entries_events, items_events_append, items_events,
      List.cons_append, List.append_assoc, List.nil_append, List.append_nil]
  rw [hev, yaml_read_loop_append strtod _ _ _ _ _ _ hprefix (by simp [SCONF_YAML_STATE_STOP]),
    sconf_yaml_read_loop]
  simp only [hfail]
  rfl

theorem depth_one_sequence (k : CStr) (xs : List YamlValue) (h : items_depth xs = 0) :
    (YamlValue.mapping [(k, .sequence xs)]).depth = 2 := by
  simp only [YamlValue.depth, entries_depth, h]
  rfl

/-- C22, counterexample: a document of the shape of the claim that is not
read. The root mapping has the key `a` with a sequence of 65537 scalars `"x"`;
the key can be named by a path, the items are scalars, no scalar is a numeral
and two containers stand around each of them, and `sconf_yaml_read` into an
empty dictionary returns -1: an array holds at most `SCONF_ARRAY_MAX_SIZE`
entries. -/
theorem sconf_yaml_read_sequence_over_capacity :
    spec_key_ok "a".toList ∧
    items_wf strtod_no_number
      (List.replicate (65536 + 1) (.scalar "x".toList YAML_DOUBLE_QUOTED_SCALAR_STYLE)) ∧
    (YamlValue.mapping [("a".toList, .sequence
      (List.replicate (65536 + 1)
        (.scalar "x".toList YAML_DOUBLE_QUOTED_SCALAR_STYLE)))]).depth = 2 ∧
    (sconf_yaml_read strtod_no_number (fun _ => some (stream_events
      [.mapping [("a".toList, .sequence
        (List.replicate (65536 + 1) (.scalar "x".toList YAML_DOUBLE_QUOTED_SCALAR_STYLE)))]]))
      (.dict []) "f.yml".toList).map Prod.fst = some (-1) := by
  have hv : (yaml_scalar_infer strtod_no_number "x".toList YAML_DOUBLE_QUOTED_SCALAR_STYLE).1 ≠
      -1 := by decide
  refine ⟨by unfold spec_key_ok; decide, items_wf_replicate _ _ _ hv _,
    depth_one_sequence _ _ (items_depth_replicate _ _ _), ?_⟩
  · obtain ⟨root', h⟩ := yaml_read_long_sequence strtod_no_number "a".toList "x".toList
      YAML_DOUBLE_QUOTED_SCALAR_STYLE
      (List.replicate 65536 (.scalar "x".toList YAML_DOUBLE_QUOTED_SCALAR_STYLE))
      (List.length_replicate _ _) (items_wf_replicate _ _ _ hv _)
      (items_depth_replicate _ _ _) hv
    rw [List.replicate_succ']
    simp only [sconf_yaml_read, SCONF_YAML_STATE_START, h, Option.map_some']

/-! ### Two documents in one stream -/

/-- C23, counterexample: the second document sets a path that the first also
set and the ingestion fails. The first document is `a: 1` and the second is
`a: x`; the node under `a` is an integer, the second value is a string, and
`sconf_yaml_read` returns -1 with the integer 1 still under `a`. -/
theorem sconf_yaml_read_later_document_of_other_type :
    (YamlValue.mapping [("a".toList, .scalar "1".toList YAML_PLAIN_SCALAR_STYLE)]).select
        (strtok_r "a".toList []) = some (.scalar "1".toList YAML_PLAIN_SCALAR_STYLE) ∧
    (YamlValue.mapping [("a".toList, .scalar "x".toList YAML_PLAIN_SCALAR_STYLE)]).select
        (strtok_r "a".toList []) = some (.scalar "x".toList YAML_PLAIN_SCALAR_STYLE) ∧
    sconf_yaml_read strtod_no_number (fun _ => some (stream_events
        [.mapping [("a".toList, .scalar "1".toList YAML_PLAIN_SCALAR_STYLE)],
         .mapping [("a".toList, .scalar "x".toList YAML_PLAIN_SCALAR_STYLE)]]))
      (.dict []) "f.yml".toList = some (-1, .dict [("a".toList, .int 1)]) :=
  ⟨rfl, rfl, rfl⟩

/-- C23: the later document wins when its values fit. For every file whose
events are those of two documents of the shape that the ingestion takes (the
root a mapping, keys distinct and named by a path, sequences of at most 65536
scalars and mappings, at most 19 containers around a value, no numeral out of
range), such that each value of the second document meets, in the tree that
the first document alone is read into, an empty slot or a node of its own type
(the inferred type of a scalar, a dictionary for a mapping, an array for a
sequence), `sconf_yaml_read` into an empty dictionary returns 0, and after it
`sconf_get` returns, at every path that leads to a scalar of the second
document, the node built for that scalar. -/
theorem sconf_yaml_read_later_document (strtod : CStr → StrtodResult)
    (fopen_events : CStr → Option (List yaml_event_t)) (filename : CStr)
    (es1 es2 : List (CStr × YamlValue))
    (hfile : fopen_events filename = some (stream_events [.mapping es1, .mapping es2]))
    (hwf1 : (YamlValue.mapping es1).wf strtod) (hdepth1 : (YamlValue.mapping es1).depth ≤ 19)
    (hwf2 : (YamlValue.mapping es2).wf strtod) (hdepth2 : (YamlValue.mapping es2).depth ≤ 19)
    (hfit : ∀ root1,
      sconf_yaml_read_loop strtod (.dict []) ⟨SCONF_YAML_STATE_START, 0, none, []⟩
        (stream_events [.mapping es1]) = some (0, root1) →
      yaml_compat strtod (some root1) (.mapping es2)) :
    ∃ root', sconf_yaml_read strtod fopen_events (.dict []) filename = some (0, root') ∧
      ∀ p value style,
        (YamlValue.mapping es2).select (strtok_r p []) = some (.scalar value style) →
        ∃ n, sconf_get (some root') (some p) = (1, some n) ∧
          sconf_node_create (yaml_scalar_infer strtod value style).2.1
            (some (yaml_scalar_infer strtod value style).2.2) = some (some n) := by
  have hwf1' : entries_wf strtod es1 := by
    simpa only [YamlValue.wf] using hwf1
  have hwf2' : entries_wf strtod es2 := by
    simpa only [YamlValue.wf] using hwf2
  obtain ⟨dd1, hrun1, _, _⟩ :=
    yaml_document_ok strtod es1 [] hwf1' (entries_compat_nil strtod es1) hdepth1
  have hone : sconf_yaml_read_loop strtod (.dict []) ⟨SCONF_YAML_STATE_START, 0, none, []⟩
      (stream_events [.mapping es1]) = some (0, .dict dd1) := by
    rw [stream_events_one]
    exact yaml_read_stream strtod _ _ _ hrun1
  have hcompat : entries_compat strtod dd1 es2 := by
    have := hfit _ hone
    simp only [yaml_compat] at this
    obtain ⟨d, hd, hc⟩ := this _ rfl
    cases hd
    exact hc
  obtain ⟨dd2, hrun2, hreal2, _⟩ := yaml_document_ok strtod es2 dd1 hwf2' hcompat hdepth2
  refine ⟨.dict dd2, ?_, ?_⟩
  · simp only [sconf_yaml_read, hfile, stream_events_two, SCONF_YAML_STATE_START]
    apply yaml_read_stream
    rw [yaml_run_append strtod _ _ _ _ _ _ hrun1 (by decide)]
    exact hrun2
  · intro p value style hsel
    exact realised_get strtod dd2 es2 hwf2' hreal2 p value style hsel

/-- C23, instance: the documents `a: 1` and `a: 2` in one file; after the
reading `a` is the integer 2. -/
theorem sconf_yaml_read_later_document_witness :
    ∃ root', sconf_yaml_read strtod_no_number (fun _ => some (stream_events
        [.mapping [("a".toList, .scalar "1".toList YAML_PLAIN_SCALAR_STYLE)],
         .mapping [("a".toList, .scalar "2".toList YAML_PLAIN_SCALAR_STYLE)]]))
        (.dict []) "f.yml".toList = some (0, root') ∧
      sconf_get (some root') (some "a".toList) = (1, some (.int 2)) := by
  obtain ⟨root', h1, h2⟩ := sconf_yaml_read_later_document strtod_no_number
    (fun _ => some (stream_events
        [.mapping [("a".toList, .scalar "1".toList YAML_PLAIN_SCALAR_STYLE)],
         .mapping [("a".toList, .scalar "2".toList YAML_PLAIN_SCALAR_STYLE)]]))
    "f.yml".toList _ _ rfl
    (by simp only [YamlValue.wf, entries_wf, spec_key_ok]; decide) (by decide)
    (by simp only [YamlValue.wf, entries_wf, spec_key_ok]; decide) (by decide)
    (by
      intro root1 h
      have hr : some (0, root1) = some ((0 : Int), SConfNode.dict [("a".toList, .int 1)]) :=
        h.symm.trans rfl
      simp only [Option.some.injEq, Prod.mk.injEq, true_and] at hr
      subst hr
      simp only [yaml_compat, entries_compat]
      intro n hn
      cases hn
      refine ⟨_, rfl, ?_, trivial⟩
      intro n hn
      have : n = .int 1 := by
        have h2 : some (SConfNode.int 1) = some n := Eq.trans rfl hn
        simp only [Option.some.injEq] at h2
        exact h2.symm
      subst this
      rfl)
  refine ⟨root', h1, ?_⟩
  obtain ⟨n, hn, hc⟩ := h2 "a".toList "2".toList YAML_PLAIN_SCALAR_STYLE rfl
  have : some (some n) = some (some (SConfNode.int 2)) := hc.symm.trans rfl
  simp only [Option.some.injEq] at this
  rw [hn, this]

/-! ### The depth of the parent stack -/

theorem stack_push_cases (parent : List SConfSlot) (state : SConfYAMLState) :
    (19 ≤ state.depth ∧ sconf_yaml_parent_stack_push parent state = (-1, state)) ∨
    (state.depth < 19 ∧ sconf_yaml_parent_stack_push parent state =
      (0, { state with depth := state.depth + 1,
                       curr_parent := ⟨parent, 0⟩ :: state.curr_parent })) := by
  unfold sconf_yaml_parent_stack_push
  by_cases h : state.depth ≥ (SCONF_MAX_DEPTH : Int) - 1
  · rw [if_pos h]
    simp only [SCONF_MAX_DEPTH] at h
    exact Or.inl ⟨by omega, rfl⟩
  · rw [if_neg h]
    simp only [SCONF_MAX_DEPTH] at h
    exact Or.inr ⟨by omega, rfl⟩

theorem stack_push_ok (parent : List SConfSlot) (state : SConfYAMLState)
    (h : yaml_state_ok state) : yaml_state_ok (sconf_yaml_parent_stack_push parent state).2 := by
  rcases stack_push_cases parent state with ⟨_, h2⟩ | ⟨h1, h2⟩
  · rw [h2]
    exact h
  · rw [h2]
    obtain ⟨hd, hl⟩ := h
    simp only [yaml_state_ok, List.length_cons, Nat.cast_add, Nat.cast_one]
    omega

theorem stack_pop_ok (state : SConfYAMLState) (h : yaml_state_ok state) :
    yaml_state_ok (sconf_yaml_parent_stack_pop state).2 := by
  unfold sconf_yaml_parent_stack_pop
  obtain ⟨hd, hl⟩ := h
  cases hc : state.curr_parent with
  | nil => exact ⟨hd, hl⟩
  | cons p next =>
    rw [hc] at hd hl
    simp only [List.length_cons, Nat.cast_add, Nat.cast_one] at hd hl
    simp only [yaml_state_ok]
    omega

theorem parent_remove_ok (state : SConfYAMLState) (h : yaml_state_ok state) :
    yaml_state_ok (sconf_yaml_parent_remove state).2 := by
  unfold sconf_yaml_parent_remove
  cases hc : state.curr_parent with
  | nil => exact h
  | cons p next => exact stack_pop_ok state h

theorem state_ok_of_eq (s t : SConfYAMLState) (h : yaml_state_ok s) (hd : t.depth = s.depth)
    (hl : t.curr_parent.length = s.curr_parent.length) : yaml_state_ok t := by
  unfold yaml_state_ok at h ⊢
  rw [hd, hl]
  exact h

theorem parent_add_ok (root : SConfNode) (state : SConfYAMLState) (ty : Nat)
    (res : Int × SConfNode × SConfYAMLState) (h : yaml_state_ok state)
    (hr : sconf_yaml_parent_add root state ty = some res) : yaml_state_ok res.2.2 := by
  unfold sconf_yaml_parent_add at hr
  cases hc : state.curr_parent with
  | nil =>
    rw [hc] at hr
    simp only [Option.some.injEq] at hr
    rw [← hr]
    exact h
  | cons p next =>
    rw [hc] at hr
    simp only at hr
    cases hfp : root.fetch_path p.parent with
    | none => rw [hfp] at hr; cases hr
    | some pn =>
      rw [hfp] at hr
      simp only at hr
      by_cases h1 : sconf_type pn = SCONF_TYPE_DICT ∧ state.curr_key = none
      · rw [if_pos h1] at hr
        simp only [Option.some.injEq] at hr
        rw [← hr]
        exact h
      · rw [if_neg h1] at hr
        cases hci : sconf_node_create_and_insert state.curr_key ty pn p.curr_index none with
        | none => rw [hci] at hr; cases hr
        | some r =>
          rw [hci] at hr
          simp only at hr
          cases hn : r.node with
          | none =>
            rw [hn] at hr
            simp only [Option.some.injEq] at hr
            rw [← hr]
            exact h
          | some sn =>
            obtain ⟨slot, n⟩ := sn
            rw [hn] at hr
            simp only at hr
            have hp := stack_push_ok (p.parent ++ [slot]) state h
            rcases stack_push_cases (p.parent ++ [slot]) state with ⟨_, h2⟩ | ⟨_, h2⟩
            · rw [h2] at hr
              simp only [ne_eq, Int.reduceNeg, neg_eq_zero, one_ne_zero, not_false_eq_true,
                if_true, Option.some.injEq] at hr
              rw [← hr]
              exact h
            · rw [h2] at hr hp
              simp only [ne_eq, not_true_eq_false, if_false] at hr
              split_ifs at hr
              · simp only [Option.some.injEq] at hr
                rw [← hr]
                refine state_ok_of_eq _ _ hp rfl ?_
                simp only [List.length_cons, hc]
              · simp only [Option.some.injEq] at hr
                rw [← hr]
                exact state_ok_of_eq _ _ hp rfl rfl
              · simp only [Option.some.injEq] at hr
                rw [← hr]
                exact hp

theorem node_add_ok (strtod : CStr → StrtodResult) (root : SConfNode) (state : SConfYAMLState)
    (pt : Nat) (value : CStr) (style : Nat) (res : Int × SConfNode × SConfYAMLState)
    (h : yaml_state_ok state)
    (hr : sconf_yaml_node_add strtod root state pt value style = some res) :
    yaml_state_ok res.2.2 := by
  unfold sconf_yaml_node_add at hr
  cases hc : state.curr_parent with
  | nil =>
    rw [hc] at hr
    simp only [Option.some.injEq] at hr
    rw [← hr]
    exact h
  | cons p next =>
    rw [hc] at hr
    simp only at hr
    cases hfp : root.fetch_path p.parent with
    | none => rw [hfp] at hr; cases hr
    | some pn =>
      rw [hfp] at hr
      simp only at hr
      by_cases h1 : pt ≠ sconf_type pn
      · rw [if_pos h1] at hr
        simp only [Option.some.injEq] at hr
        rw [← hr]
        exact h
      rw [if_neg h1] at hr
      by_cases h2 : (yaml_scalar_infer strtod value style).1 = -1
      · rw [if_pos h2] at hr
        simp only [Option.some.injEq] at hr
        rw [← hr]
        exact h
      · rw [if_neg h2] at hr
        cases hci : sconf_node_create_and_insert state.curr_key
            (yaml_scalar_infer strtod value style).2.1 pn p.curr_index
            (some (yaml_scalar_infer strtod value style).2.2) with
        | none => rw [hci] at hr; cases hr
        | some r =>
          rw [hci] at hr
          simp only at hr
          cases hn : r.node with
          | none =>
            rw [hn] at hr
            simp only [Option.some.injEq] at hr
            rw [← hr]
            exact h
          | some sn =>
            rw [hn] at hr
            simp only at hr
            split_ifs at hr
            · simp only [Option.some.injEq] at hr
              rw [← hr]
              refine state_ok_of_eq _ _ h rfl ?_
              simp only [List.length_cons, hc]
            · simp only [Option.some.injEq] at hr
              rw [← hr]
              exact state_ok_of_eq _ _ h rfl (by rw [hc])
            · simp only [Option.some.injEq] at hr
              rw [← hr]
              exact state_ok_of_eq _ _ h rfl (by rw [hc])

/-- Every event keeps the counter equal to the number of frames, and the
frames at most 19. -/
theorem consume_event_ok (strtod : CStr → StrtodResult) (root : SConfNode) (e : yaml_event_t)
    (state : SConfYAMLState) (res : Int × SConfNode × SConfYAMLState)
    (h : yaml_state_ok state)
    (hr : sconf_yaml_consume_event strtod root e state = some res) : yaml_state_ok res.2.2 := by
  have hset : ∀ (s : SConfYAMLState) (x : Nat), yaml_state_ok s →
      yaml_state_ok { s with state := x } := fun s x hs => state_ok_of_eq _ _ hs rfl rfl
  have hkey : ∀ (s : SConfYAMLState) (x : Option CStr), yaml_state_ok s →
      yaml_state_ok { s with curr_key := x } := fun s x hs => state_ok_of_eq _ _ hs rfl rfl
  have hkey2 : ∀ (s : SConfYAMLState) (x : Option CStr) (y : Nat), yaml_state_ok s →
      yaml_state_ok { s with curr_key := x, state := y } :=
    fun s x y hs => state_ok_of_eq _ _ hs rfl rfl
  have hrem := parent_remove_ok state h
  unfold sconf_yaml_consume_event at hr
  split_ifs at hr
  · unfold yaml_consume_start at hr
    cases e <;> simp only [Option.some.injEq] at hr <;> rw [← hr] <;>
      exact h
  · unfold yaml_consume_stream at hr
    cases e <;> simp only [Option.some.injEq] at hr <;> rw [← hr] <;>
      exact h
  · unfold yaml_consume_document at hr
    cases e with
    | mapping_start =>
      simp only at hr
      split_ifs at hr
      · simp only [Option.some.injEq] at hr
        rw [← hr]
        exact h
      · simp only [Option.some.injEq] at hr
        rw [← hr]
        exact hset _ _ (stack_push_ok [] state h)
    | document_end =>
      simp only [Option.some.injEq] at hr
      rw [← hr]
      exact hset _ _ h
    | _ =>
      simp only [Option.some.injEq] at hr
      rw [← hr]
      exact h
  · unfold yaml_consume_block at hr
    cases e with
    | scalar value style =>
      simp only at hr
      cases hk : state.curr_key with
      | none =>
        rw [hk] at hr
        simp only [Option.some.injEq] at hr
        rw [← hr]
        exact hkey2 _ _ _ h
      | some k =>
        rw [hk] at hr
        simp only [Option.some.injEq] at hr
        rw [← hr]
        exact hkey _ _ h
    | sequence_end =>
      simp only at hr
      split_ifs at hr
      · simp only [Option.some.injEq] at hr
        rw [← hr]
        exact h
      · simp only [Option.some.injEq] at hr
        rw [← hr]
        exact hrem
    | mapping_end =>
      simp only at hr
      by_cases hz : (sconf_yaml_parent_remove state).1 ≠ 0
      · rw [if_pos hz] at hr
        simp only [Option.some.injEq] at hr
        rw [← hr]
        exact h
      · rw [if_neg hz] at hr
        split at hr
        · simp only [Option.some.injEq] at hr
          rw [← hr]
          exact hrem
        · split at hr
          · cases hr
          · split_ifs at hr
            · simp only [Option.some.injEq] at hr
              rw [← hr]
              exact hset _ _ hrem
            · simp only [Option.some.injEq] at hr
              rw [← hr]
              exact hrem
    | mapping_start =>
      simp only at hr
      cases hp : sconf_yaml_parent_add root state SCONF_TYPE_DICT with
      | none => rw [hp] at hr; cases hr
      | some y =>
        obtain ⟨r, root', state'⟩ := y
        rw [hp] at hr
        have hy := parent_add_ok root state SCONF_TYPE_DICT _ h hp
        simp only at hr
        split_ifs at hr <;> simp only [Option.some.injEq] at hr <;> rw [← hr] <;>
          exact hy
    | document_end =>
      simp only [Option.some.injEq] at hr
      rw [← hr]
      exact hset _ _ h
    | _ =>
      simp only [Option.some.injEq] at hr
      rw [← hr]
      exact h
  · unfold yaml_consume_block_content at hr
    cases e with
    | scalar value style =>
      simp only at hr
      cases hp : sconf_yaml_node_add strtod root state SCONF_TYPE_DICT value style with
      | none => rw [hp] at hr; cases hr
      | some y =>
        obtain ⟨r, root', state'⟩ := y
        rw [hp] at hr
        have hy := node_add_ok strtod root state SCONF_TYPE_DICT value style _ h hp
        simp only at hr
        split_ifs at hr <;> simp only [Option.some.injEq] at hr <;> rw [← hr] <;>
          exact hy
    | mapping_start =>
      simp only at hr
      cases hp : sconf_yaml_parent_add root state SCONF_TYPE_DICT with
      | none => rw [hp] at hr; cases hr
      | some y =>
        obtain ⟨r, root', state'⟩ := y
        rw [hp] at hr
        have hy := parent_add_ok root state SCONF_TYPE_DICT _ h hp
        simp only at hr
        split_ifs at hr <;> simp only [Option.some.injEq] at hr <;> rw [← hr] <;>
          exact hy
    | sequence_start =>
      simp only at hr
      cases hp : sconf_yaml_parent_add root state SCONF_TYPE_ARRAY with
      | none => rw [hp] at hr; cases hr
      | some y =>
        obtain ⟨r, root', state'⟩ := y
        rw [hp] at hr
        have hy := parent_add_ok root state SCONF_TYPE_ARRAY _ h hp
        simp only at hr
        split_ifs at hr <;> simp only [Option.some.injEq] at hr <;> rw [← hr] <;>
          exact hy
    | _ =>
      simp only [Option.some.injEq] at hr
      rw [← hr]
      exact h
  · unfold yaml_consume_sequence at hr
    cases e with
    | scalar value style =>
      simp only at hr
      cases hp : sconf_yaml_node_add strtod root state SCONF_TYPE_ARRAY value style with
      | none => rw [hp] at hr; cases hr
      | some y =>
        obtain ⟨r, root', state'⟩ := y
        rw [hp] at hr
        have hy := node_add_ok strtod root state SCONF_TYPE_ARRAY value style _ h hp
        simp only at hr
        split_ifs at hr <;> simp only [Option.some.injEq] at hr <;> rw [← hr] <;>
          exact hy
    | mapping_start =>
      simp only at hr
      cases hp : sconf_yaml_parent_add root state SCONF_TYPE_DICT with
      | none => rw [hp] at hr; cases hr
      | some y =>
        obtain ⟨r, root', state'⟩ := y
        rw [hp] at hr
        have hy := parent_add_ok root state SCONF_TYPE_DICT _ h hp
        simp only at hr
        split_ifs at hr <;> simp only [Option.some.injEq] at hr <;> rw [← hr] <;>
          exact hy
    | sequence_start =>
      simp only at hr
      cases hp : sconf_yaml_parent_add root state SCONF_TYPE_ARRAY with
      | none => rw [hp] at hr; cases hr
      | some y =>
        obtain ⟨r, root', state'⟩ := y
        rw [hp] at hr
        have hy := parent_add_ok root state SCONF_TYPE_ARRAY _ h hp
        simp only at hr
        split_ifs at hr <;> simp only [Option.some.injEq] at hr <;> rw [← hr] <;>
          exact hy
    | sequence_end =>
      simp only at hr
      split_ifs at hr
      · simp only [Option.some.injEq] at hr
        rw [← hr]
        exact h
      · simp only [Option.some.injEq] at hr
        rw [← hr]
        exact hset _ _ hrem
    | _ =>
      simp only [Option.some.injEq] at hr
      rw [← hr]
      exact h
  · simp only [Option.some.injEq] at hr
    rw [← hr]
    exact h

/-- Along the events of an ingestion the counter is the number of frames and
the frames are at most 19. -/
theorem yaml_run_ok (strtod : CStr → StrtodResult) (events : List yaml_event_t) :
    ∀ (root : SConfNode) (state : SConfYAMLState) (res : Int × SConfNode × SConfYAMLState),
      yaml_state_ok state → yaml_run strtod root state events = some res →
      yaml_state_ok res.2.2 := by
  induction events with
  | nil =>
    intro root state res h hr
    simp only [yaml_run, Option.some.injEq] at hr
    rw [← hr]
    exact h
  | cons e t ih =>
    intro root state res h hr
    simp only [yaml_run] at hr
    cases hc : sconf_yaml_consume_event strtod root e state with
    | none => rw [hc] at hr; cases hr
    | some y =>
      rw [hc] at hr
      have hy := consume_event_ok strtod root e state y h hc
      simp only at hr
      split_ifs at hr
      · simp only [Option.some.injEq] at hr
        rw [← hr]
        exact hy
      · exact ih _ _ _ hy hr
      · simp only [Option.some.injEq] at hr
        rw [← hr]
        exact hy

/-! ### Chains of keys and the depth cap -/

theorem yaml_read_loop_cons (strtod : CStr → StrtodResult) (e : yaml_event_t)
    (es : List yaml_event_t) (root root' : SConfNode) (state state' : SConfYAMLState)
    (h : sconf_yaml_consume_event strtod root e state = some (1, root', state'))
    (hs : state'.state ≠ SCONF_YAML_STATE_STOP) :
    sconf_yaml_read_loop strtod root state (e :: es) =
      sconf_yaml_read_loop strtod root' state' es := by
  simp only [sconf_yaml_read_loop, h]
  rw [if_neg (by decide), if_pos hs]

/-- A run that ends with an event that is refused: the loop of `sconf_yaml_read`
returns -1. -/
theorem yaml_read_loop_fail (strtod : CStr → StrtodResult) (es : List yaml_event_t) :
    ∀ (root : SConfNode) (state : SConfYAMLState) (root' : SConfNode) (state' : SConfYAMLState),
      yaml_run strtod root state es = some (0, root', state') →
      sconf_yaml_read_loop strtod root state es = some (-1, root') := by
  induction es with
  | nil =>
    intro root state root' state' h
    simp [yaml_run] at h
  | cons e t ih =>
    intro root state root' state' h
    simp only [yaml_run] at h
    simp only [sconf_yaml_read_loop]
    cases hc : sconf_yaml_consume_event strtod root e state with
    | none => rw [hc] at h; cases h
    | some res =>
      obtain ⟨s, r1, s1⟩ := res
      rw [hc] at h
      simp only at h ⊢
      by_cases h0 : s = 0
      · rw [if_pos h0] at h ⊢
        simp only [Option.some.injEq, Prod.mk.injEq] at h
        rw [h.2.1]
      · rw [if_neg h0] at h ⊢
        by_cases hstop : s1.state ≠ SCONF_YAML_STATE_STOP
        · rw [if_pos hstop] at h ⊢
          exact ih r1 s1 root' state' h
        · rw [if_neg hstop] at h
          simp at h

theorem container_start_too_deep (strtod : CStr → StrtodResult) (root : SConfNode) (d : Int)
    (k : CStr) (P : List SConfSlot) (ci : Nat) (rest : List SConfYAMLParent)
    (dd : List (CStr × SConfNode)) (hfp : root.fetch_path P = some (.dict dd))
    (hempty : art_search dd k = none) (hd : 19 ≤ d) :
    ∃ root' st', sconf_yaml_consume_event strtod root .mapping_start
      ⟨5, d, some k, ⟨P, ci⟩ :: rest⟩ = some (0, root', st') := by
  obtain ⟨pn', n, hci, _⟩ :=
    create_and_insert_fills (some k) 1 (.dict dd) ci none (.name k) rfl rfl ⟨_, rfl⟩
      (fun m _ => ⟨m, replace_container 1 m none (Or.inl rfl)⟩)
      (fun m hm => by simp [SConfNode.fetch, hempty] at hm)
  have hpush : sconf_yaml_parent_stack_push (P ++ [.name k]) ⟨5, d, some k, ⟨P, ci⟩ :: rest⟩ =
      (-1, ⟨5, d, some k, ⟨P, ci⟩ :: rest⟩) := by
    rcases stack_push_cases (P ++ [.name k]) ⟨5, d, some k, ⟨P, ci⟩ :: rest⟩ with ⟨_, h⟩ | ⟨h, _⟩
    · exact h
    · simp only at h
      omega
  rw [consume_event_block_content _ _ _ _ rfl]
  simp only [yaml_consume_block_content, sconf_yaml_parent_add, hfp, SCONF_TYPE_DICT, hci, hpush]
  simp

theorem chain_too_deep (strtod : CStr → StrtodResult) (v : YamlValue) (ks : List CStr) :
    ∀ (root : SConfNode) (d : Int) (P : List SConfSlot) (ci : Nat)
      (rest : List SConfYAMLParent) (dd : List (CStr × SConfNode)) (k : CStr)
      (more : List yaml_event_t),
      root.fetch_path P = some (.dict dd) → art_search dd k = none → ks ≠ [] →
      20 ≤ d + (ks.length : Int) →
      ∃ root' st', yaml_run strtod root ⟨5, d, some k, ⟨P, ci⟩ :: rest⟩
        ((yaml_chain ks v).events ++ more) = some (0, root', st') := by
  induction ks with
  | nil => intro _ _ _ _ _ _ _ _ _ _ h; exact absurd rfl h
  | cons k' t ih =>
    intro root d P ci rest dd k more hfp hempty _ hlen
    simp only [List.length_cons, Nat.cast_add, Nat.cast_one] at hlen
    have hev : (yaml_chain (k' :: t) v).events ++ more =
        .mapping_start :: .scalar k' YAML_PLAIN_SCALAR_STYLE ::
          ((yaml_chain t v).events ++ (.mapping_end :: more)) := by
      simp only [yaml_chain, YamlValue.events, entries_events, List.cons_append,
        List.append_assoc, List.nil_append, List.append_nil]
    rw [hev]
    by_cases hd : 19 ≤ d
    · obtain ⟨root', st', hc⟩ := container_start_too_deep strtod root d k P ci rest dd hfp hempty hd
      refine ⟨root', st', ?_⟩
      simp only [yaml_run, hc, if_true]
    · obtain ⟨pn1, c, hstep, _, hfs1, _, _, hnew, _⟩ :=
        container_start_step strtod root d (some k) P ci rest (.dict dd) (.name k) 1
          .mapping_start (Or.inl ⟨rfl, rfl⟩) hfp rfl rfl (by omega)
          (fun h => absurd h (by simp))
          (fun m hm => by simp [SConfNode.fetch, hempty] at hm)
      rw [if_pos rfl] at hstep
      have hc : c = .dict [] := by
        rcases hnew with ⟨_, h⟩ | ⟨h, _⟩
        · simp only [sconf_node_create, SCONF_TYPE_DICT, if_true, Option.some.injEq] at h
          exact h.symm
        · simp [SConfNode.fetch, hempty] at h
      subst hc
      have hval : value_state (.dict dd) = 5 := by simp [value_state]
      rw [hval] at hstep
      have hfp1 : (root.store_path P pn1).fetch_path P = some pn1 :=
        fetch_path_store_path root pn1 _ P hfp
      have hfpc : (root.store_path P pn1).fetch_path (P ++ [.name k]) = some (.dict []) :=
        fetch_path_child _ pn1 _ P _ hfp1 hfs1
      have hkey := key_step strtod (root.store_path P pn1) (d + 1) k' YAML_PLAIN_SCALAR_STYLE
        (⟨P ++ [.name k], 0⟩ :: ⟨P, next_index (.dict dd) ci⟩ :: rest)
      have ht : t ≠ [] := by
        intro h
        rw [h] at hlen
        simp only [List.length_nil, Nat.cast_zero] at hlen
        omega
      obtain ⟨root', st', hrec⟩ := ih (root.store_path P pn1) (d + 1) (P ++ [.name k]) 0
        (⟨P, next_index (.dict dd) ci⟩ :: rest) [] k' (.mapping_end :: more) hfpc rfl ht
        (by omega)
      refine ⟨root', st', ?_⟩
      rw [yaml_run_cons strtod _ _ _ _ _ _ hstep (by simp [SCONF_YAML_STATE_STOP]),
        yaml_run_cons strtod _ _ _ _ _ _ hkey (by simp [SCONF_YAML_STATE_STOP])]
      exact hrec

theorem chain_wf (strtod : CStr → StrtodResult) (v : YamlValue) (hv : v.wf strtod)
    (ks : List CStr) (hk : ∀ k ∈ ks, spec_key_ok k) : (yaml_chain ks v).wf strtod := by
  induction ks with
  | nil => exact hv
  | cons k t ih =>
    simp only [yaml_chain, YamlValue.wf, entries_wf]
    exact ⟨hk k (List.mem_cons_self _ _), fun e he => by simp at he,
      ih (fun k' hk' => hk k' (List.mem_cons_of_mem _ hk')), trivial⟩

theorem chain_depth (v : YamlValue) (ks : List CStr) :
    (yaml_chain ks v).depth = ks.length + v.depth := by
  induction ks with
  | nil => simp [yaml_chain]
  | cons k t ih =>
    simp only [yaml_chain, YamlValue.depth, entries_depth, ih, List.length_cons]
    omega

/-- A scalar under a chain of keys is read exactly when the keys are at
most 19. -/
theorem chain_read (strtod : CStr → StrtodResult) (ks : List CStr) (value : CStr) (style : Nat)
    (hne : ks ≠ []) (hk : ∀ k ∈ ks, spec_key_ok k)
    (hv : (yaml_scalar_infer strtod value style).1 ≠ -1) :
    (ks.length ≤ 19 → ∃ root', sconf_yaml_read_loop strtod (.dict []) ⟨0, 0, none, []⟩
        (stream_events [yaml_chain ks (.scalar value style)]) = some (0, root')) ∧
    (20 ≤ ks.length → ∃ root', sconf_yaml_read_loop strtod (.dict []) ⟨0, 0, none, []⟩
        (stream_events [yaml_chain ks (.scalar value style)]) = some (-1, root')) := by
  cases ks with
  | nil => exact absurd rfl hne
  | cons k1 t =>
    constructor
    · intro hlen
      have hwf := chain_wf strtod (.scalar value style) (by simp only [YamlValue.wf]; exact hv)
        (k1 :: t) hk
      have hdep := chain_depth (.scalar value style) (k1 :: t)
      simp only [yaml_chain] at hwf hdep
      have hwf' : entries_wf strtod [(k1, yaml_chain t (.scalar value style))] := by
        simpa only [YamlValue.wf] using hwf
      obtain ⟨dd', hrun, _, _⟩ := yaml_document_ok strtod _ [] hwf'
        (entries_compat_nil strtod _) (by rw [hdep]; simp only [YamlValue.depth]; omega)
      refine ⟨.dict dd', ?_⟩
      simp only [yaml_chain, stream_events_one]
      exact yaml_read_stream strtod _ _ _ hrun
    · intro hlen
      simp only [List.length_cons] at hlen
      have h1 : sconf_yaml_consume_event strtod (.dict []) .stream_start ⟨0, 0, none, []⟩ =
          some (1, .dict [], ⟨2, 0, none, []⟩) := by
        rw [consume_event_start _ _ _ _ rfl]
        rfl
      have h2 : sconf_yaml_consume_event strtod (.dict []) .document_start ⟨2, 0, none, []⟩ =
          some (1, .dict [], ⟨3, 0, none, []⟩) := by
        rw [consume_event_stream _ _ _ _ rfl]
        rfl
      have h3 : sconf_yaml_consume_event strtod (.dict []) .mapping_start ⟨3, 0, none, []⟩ =
          some (1, .dict [], ⟨4, 0 + 1, none, [⟨[], 0⟩]⟩) := by
        rw [consume_event_document _ _ _ _ rfl]
        rfl
      have h4 := key_step strtod (.dict []) (0 + 1) k1 YAML_PLAIN_SCALAR_STYLE [⟨[], 0⟩]
      have ht : t ≠ [] := by
        intro h
        rw [h] at hlen
        simp at hlen
      obtain ⟨root', st', hrec⟩ := chain_too_deep strtod (.scalar value style) t (.dict [])
        (0 + 1) [] 0 [] [] k1 [.mapping_end, .document_end, .stream_end] rfl rfl ht
        (by omega)
      refine ⟨root', ?_⟩
      have hev : stream_events [yaml_chain (k1 :: t) (.scalar value style)] =
          .stream_start :: .document_start :: .mapping_start ::
            .scalar k1 YAML_PLAIN_SCALAR_STYLE ::
              ((yaml_chain t (.scalar value style)).events ++
                [.mapping_end, .document_end, .stream_end]) := by
        rw [stream_events_one]
        simp only [yaml_chain, YamlValue.events, entries_events, List.cons_append,
          List.append_assoc, List.nil_append, List.append_nil]
      rw [hev, yaml_read_loop_cons strtod _ _ _ _ _ _ h1 (by decide),
        yaml_read_loop_cons strtod _ _ _ _ _ _ h2 (by decide),
        yaml_read_loop_cons strtod _ _ _ _ _ _ h3 (by decide),
        yaml_read_loop_cons strtod _ _ _ _ _ _ h4 (by simp [SCONF_YAML_STATE_STOP])]
      exact yaml_read_loop_fail strtod _ _ _ _ _ hrec

set_option maxRecDepth 100000 in
/-- An instance at the depth cap: a scalar under 19 keys is read, and under 20
keys it is refused. -/
theorem yaml_read_depth_example :
    sconf_yaml_read_loop strtod_no_number (.dict []) ⟨SCONF_YAML_STATE_START, 0, none, []⟩
        (stream_events [yaml_chain (List.replicate 19 "k".toList)
          (.scalar "v".toList YAML_DOUBLE_QUOTED_SCALAR_STYLE)]) =
      some (0, yaml_chain_node 19) ∧
    (sconf_yaml_read_loop strtod_no_number (.dict []) ⟨SCONF_YAML_STATE_START, 0, none, []⟩
        (stream_events [yaml_chain (List.replicate 20 "k".toList)
          (.scalar "v".toList YAML_DOUBLE_QUOTED_SCALAR_STYLE)])).map Prod.fst = some (-1) :=
  ⟨rfl, rfl⟩

/-! ### The environment stage -/

theorem spec_coerce_freed (strtod : CStr → StrtodResult) (ty : Nat) (text : CStr)
    (d : SConfData) (h : spec_coerce strtod ty text = some d) : d.freed = none := by
  unfold spec_coerce at h
  split_ifs at h <;> simp at h <;> rw [← h]

theorem spec_coerce_type (strtod : CStr → StrtodResult) (ty : Nat) (text : CStr)
    (d : SConfData) (h : spec_coerce strtod ty text = some d) :
    ty = SCONF_TYPE_STR ∨ ty = SCONF_TYPE_INT ∨ ty = SCONF_TYPE_BOOL ∨ ty = SCONF_TYPE_FLOAT := by
  unfold spec_coerce at h
  split_ifs at h with h1 h2 h3 h4 h5 h6 h7
  · exact Or.inl h1
  · exact Or.inr (Or.inl h2)
  · exact Or.inr (Or.inr (Or.inr h4))
  · exact Or.inr (Or.inr (Or.inl h6))

theorem env_loop_skip {σ : Type} (strtod : CStr → StrtodResult)
    (fopen_events : CStr → Option (List yaml_event_t)) (getenv : CStr → Option CStr)
    (root : SConfNode) (e : SConfMap σ) (rest : List (SConfMap σ))
    (h : spec_env_skipped getenv e) :
    sconf_env_read_loop strtod fopen_events getenv root (e :: rest) =
      sconf_env_read_loop strtod fopen_events getenv root rest := by
  obtain ⟨h0, h1⟩ := h
  rw [sconf_env_read_loop, if_neg h0]
  rcases h1 with h1 | ⟨env, h1, h2, h3⟩
  · simp only [h1]
  · cases hp : e.path with
    | none => exact absurd hp h2
    | some p => simp only [h1, h3]

theorem env_loop_skip_all {σ : Type} (strtod : CStr → StrtodResult)
    (fopen_events : CStr → Option (List yaml_event_t)) (getenv : CStr → Option CStr)
    (root : SConfNode) (pre rest : List (SConfMap σ))
    (h : ∀ e ∈ pre, spec_env_skipped getenv e) :
    sconf_env_read_loop strtod fopen_events getenv root (pre ++ rest) =
      sconf_env_read_loop strtod fopen_events getenv root rest := by
  induction pre with
  | nil => rfl
  | cons e t ih =>
    rw [List.cons_append, env_loop_skip strtod fopen_events getenv root e _
      (h e (List.mem_cons_self _ _))]
    exact ih (fun x hx => h x (List.mem_cons_of_mem _ hx))

/-- The loop of `sconf_env_read` ends at the terminating entry. -/
theorem env_loop_entries {σ : Type} (strtod : CStr → StrtodResult)
    (fopen_events : CStr → Option (List yaml_event_t)) (getenv : CStr → Option CStr)
    (m : List (SConfMap σ)) :
    ∀ root, sconf_env_read_loop strtod fopen_events getenv root m =
      sconf_env_read_loop strtod fopen_events getenv root (map_entries m) := by
  induction m with
  | nil => intro root; rfl
  | cons e t ih =>
    intro root
    by_cases h0 : e.type = 0
    · have hm : map_entries (e :: t) = [] := by
        simp [map_entries, List.takeWhile, h0]
      rw [hm]
      simp only [sconf_env_read_loop, h0, if_true]
    · have hm : map_entries (e :: t) = e :: map_entries t := by
        simp [map_entries, List.takeWhile, h0]
      rw [hm]
      simp only [sconf_env_read_loop, if_neg h0, ih]

/-- The step of the loop of `sconf_env_read` on an entry of a scalar type whose
variable is set to a valid value: the value is set at the path with
`sconf_set`. -/
theorem env_loop_entry {σ : Type} (strtod : CStr → StrtodResult)
    (fopen_events : CStr → Option (List yaml_event_t)) (getenv : CStr → Option CStr)
    (root : SConfNode) (e : SConfMap σ) (rest : List (SConfMap σ)) (path env w : CStr)
    (d : SConfData) (hp : e.path = some path) (he : e.env = some env)
    (hw : getenv env = some w) (hd : spec_coerce strtod e.type w = some d) :
    sconf_env_read_loop strtod fopen_events getenv root (e :: rest) =
      match sconf_set (some root) (some path) e.type (some d) with
      | none => none
      | some s =>
        if s.1 = -1 then some (-1, s.2.getD root)
        else sconf_env_read_loop strtod fopen_events getenv (s.2.getD root) rest := by
  have hT := spec_coerce_type strtod e.type w d hd
  have h0 : e.type ≠ 0 := by
    rcases hT with h | h | h | h <;> rw [h] <;> decide
  rw [sconf_env_read_loop, if_neg h0]
  simp only [he, hp, hw]
  unfold spec_coerce at hd
  rcases hT with h | h | h | h
  · rw [h] at hd ⊢
    simp only [if_true, Option.some.injEq] at hd
    subst hd
    simp only [if_true, sconf_env_set_str, sconf_set_str, Option.map_some']
    cases sconf_set (some root) (some path) SCONF_TYPE_STR (some ⟨w, 0, false, 0, none⟩) with
    | none => rfl
    | some s =>
      simp only [Option.map_some']
      split_ifs <;> rfl
  · rw [h] at hd ⊢
    rw [if_neg (by decide), if_pos rfl] at hd
    split_ifs at hd with h1
    simp only [Option.some.injEq] at hd
    subst hd
    rw [if_neg (by decide), if_pos rfl]
    simp only [sconf_env_set_int, h1, sconf_set_int]
    rw [if_neg (by decide), if_neg (by decide)]
    cases sconf_set (some root) (some path) SCONF_TYPE_INT
        (some ⟨[], (sconf_string_to_integer w).2, false, 0, none⟩) with
    | none => rfl
    | some s =>
      simp only [Option.map_some']
      split_ifs <;> rfl
  · rw [h] at hd ⊢
    rw [if_neg (by decide), if_neg (by decide), if_neg (by decide), if_pos rfl] at hd
    split_ifs at hd with h1
    simp only [Option.some.injEq] at hd
    subst hd
    rw [if_neg (by decide), if_neg (by decide), if_neg (by decide), if_pos rfl]
    simp only [sconf_env_set_bool, h1, sconf_set_bool]
    rw [if_neg (by decide)]
    cases sconf_set (some root) (some path) SCONF_TYPE_BOOL
        (some ⟨[], 0, ((sconf_string_to_bool w).2).getD false, 0, none⟩) with
    | none => rfl
    | some s =>
      simp only [Option.map_some']
      split_ifs <;> rfl
  · rw [h] at hd ⊢
    rw [if_neg (by decide), if_neg (by decide), if_pos rfl] at hd
    split_ifs at hd with h1
    simp only [Option.some.injEq] at hd
    subst hd
    rw [if_neg (by decide), if_neg (by decide), if_pos rfl]
    simp only [sconf_env_set_float, h1, sconf_set_float]
    rw [if_neg (by decide), if_neg (by decide)]
    cases sconf_set (some root) (some path) SCONF_TYPE_FLOAT
        (some ⟨[], 0, false, (sconf_string_to_float strtod w).2, none⟩) with
    | none => rfl
    | some s =>
      simp only [Option.map_some']
      split_ifs <;> rfl

theorem set_loop_rc (ty : Nat) (v : Option SConfData) (toks : List CStr) :
    ∀ (parent : SConfNode) (curr : Option CStr) (depth : Nat) (rc : Int) (parent' : SConfNode),
      sconf_set_loop ty v parent curr depth toks = some (rc, parent') → rc = 0 ∨ rc = -1 := by
  induction toks with
  | nil =>
    intro parent curr depth rc parent' h
    simp only [sconf_set_loop] at h
    split at h
    · cases h
    · split at h <;> simp only [Option.some.injEq, Prod.mk.injEq] at h
      · exact Or.inr h.1.symm
      · exact Or.inl h.1.symm
  | cons next rest ih =>
    intro parent curr depth rc parent' h
    cases curr with
    | none =>
      simp only [sconf_set_loop] at h
      split_ifs at h
      · simp only [Option.some.injEq, Prod.mk.injEq] at h
        exact Or.inr h.1.symm
      · exact ih _ _ _ _ _ h
    | some c =>
      simp only [sconf_set_loop] at h
      split at h
      · cases h
      · split at h
        · simp only [Option.some.injEq, Prod.mk.injEq] at h
          exact Or.inr h.1.symm
        · split_ifs at h
          · simp only [Option.some.injEq, Prod.mk.injEq] at h
            exact Or.inr h.1.symm
          · split at h
            · cases h
            · rename_i rc' child' hrec
              simp only [Option.some.injEq, Prod.mk.injEq] at h
              rw [← h.1]
              exact ih _ _ _ _ _ hrec

/-- A path at which `sconf_get` finds a node on a dictionary does not begin
with a bracketed segment that other segments follow. -/
theorem get_found_guard (root n : SConfNode) (toks : List CStr)
    (h : sconf_get_loop root 0 none toks = (1, some n)) :
    sconf_type root = 1 → (toks.head?.bind List.head?) = some '[' → toks.length ≤ 1 := by
  intro hd hb
  cases toks with
  | nil => simp
  | cons t rest =>
    cases rest with
    | nil => simp
    | cons s more =>
      exfalso
      simp only [List.head?_cons, Option.some_bind] at hb
      rw [get_loop_cons_eq] at h
      simp only [sconf_get_descend] at h
      rw [get_continue_dict_bracket root 0 t s more hd hb] at h
      simp at h

/-- C28, counterexample: the environment stage overwrites a value that the
flag stage stored. The tree is the one after `sconf_set_str` of the value `flag`
at the path `a` (what the handler of a string option does); the entry of the
map has the path `a`, the type string and the variable `A`, which is set to
`env`; after `sconf_env_read`, which returns 0, the path `a` holds `env`. -/
theorem sconf_env_read_overwrites_flag :
    sconf_set_str (.dict []) (some "a".toList) (some "flag".toList) none =
      some (0, .dict [("a".toList, .str "flag".toList)]) ∧
    sconf_env_read strtod_no_number (fun _ => none)
      (fun v => if v = "A".toList then some "env".toList else none)
      (some (.dict [("a".toList, .str "flag".toList)]))
      (some [(⟨some "a".toList, SCONF_TYPE_STR, some "A".toList, none, false, none⟩ :
        SConfMap Unit), ⟨none, 0, none, none, false, none⟩]) =
      some (0, some (.dict [("a".toList, .str "env".toList)])) ∧
    sconf_get_str (some (.dict [("a".toList, .str "env".toList)])) (some "a".toList) =
      (1, some "env".toList) :=
  ⟨rfl, rfl, rfl⟩

/-- C28: the environment stage sets the value of the variable. For every map
and entry of a scalar type (string, integer, float, boolean) with a path and an
environment variable that is set to a valid value of the type, when no other
entry of the map has a variable that is set: if the path holds a node of the
type before `sconf_env_read` (the value that the flag stage stored) and
`sconf_env_read` returns 0, then after it `sconf_get` finds at the path the node
that holds the value of the variable, coerced to the type. -/
theorem sconf_env_read_sets_variable {σ : Type} (strtod : CStr → StrtodResult)
    (fopen_events : CStr → Option (List yaml_event_t)) (getenv : CStr → Option CStr)
    (root root' : SConfNode) (m pre post : List (SConfMap σ)) (e : SConfMap σ)
    (path env w : CStr) (d : SConfData) (n : SConfNode)
    (hm : map_entries m = pre ++ e :: post)
    (hpre : ∀ x ∈ pre, spec_env_skipped getenv x)
    (hpost : ∀ x ∈ post, spec_env_skipped getenv x)
    (hp : e.path = some path) (he : e.env = some env) (hw : getenv env = some w)
    (hd : spec_coerce strtod e.type w = some d)
    (hflag : sconf_get (some root) (some path) = (1, some n))
    (hret : sconf_env_read strtod fopen_events getenv (some root) (some m) =
      some (0, some root')) :
    ∃ n', sconf_get (some root') (some path) = (1, some n') ∧ sconf_type n' = e.type ∧
      (e.type = SCONF_TYPE_STR → n' = .str d.string) ∧
      (e.type = SCONF_TYPE_INT → n' = .int d.integer) ∧
      (e.type = SCONF_TYPE_BOOL → n' = .bool d.boolean) ∧
      (e.type = SCONF_TYPE_FLOAT → n' = .float d.fp) := by
  have hT := spec_coerce_type strtod e.type w d hd
  have h3 : 3 ≤ e.type := by rcases hT with h | h | h | h <;> rw [h] <;> decide
  have h6 : e.type ≤ 6 := by rcases hT with h | h | h | h <;> rw [h] <;> decide
  simp only [sconf_env_read, Option.map_eq_some', Prod.mk.injEq, Option.some.injEq] at hret
  obtain ⟨x, hloop, hx0, hxr⟩ := hret
  rw [env_loop_entries, hm, env_loop_skip_all _ _ _ _ _ _ hpre,
    env_loop_entry strtod fopen_events getenv root e post path env w d hp he hw hd] at hloop
  cases hs : sconf_set (some root) (some path) e.type (some d) with
  | none => rw [hs] at hloop; cases hloop
  | some s =>
    rw [hs] at hloop
    simp only at hloop
    by_cases hs1 : s.1 = -1
    · rw [if_pos hs1] at hloop
      simp only [Option.some.injEq] at hloop
      rw [← hloop] at hx0
      simp at hx0
    · rw [if_neg hs1] at hloop
      have hpost' := env_loop_skip_all strtod fopen_events getenv (s.2.getD root) post []
        hpost
      rw [List.append_nil] at hpost'
      rw [hpost'] at hloop
      simp only [sconf_env_read_loop, Option.some.injEq] at hloop
      have hroot' : s.2.getD root = root' := by
        rw [← hxr, ← hloop]
      simp only [sconf_set, Option.map_eq_some'] at hs
      obtain ⟨y, hy, hys⟩ := hs
      have hrc : y.1 = 0 := by
        rcases set_loop_rc _ _ _ _ _ _ _ _ (show sconf_set_loop e.type (some d) root none 1
          (strtok_r path []) = some (y.1, y.2) from hy) with h | h
        · exact h
        · rw [← hys] at hs1
          exact absurd h hs1
      have hy2 : y.2 = root' := by
        rw [← hroot', ← hys]
        rfl
      have hset : sconf_set_loop e.type (some d) root none 1 (strtok_r path []) =
          some (0, root') := by
        rw [hy, ← hrc, ← hy2]
      simp only [sconf_get] at hflag
      obtain ⟨n', hg, hc⟩ := roundtrip_tokens e.type d h3 h6
        (fun _ => spec_coerce_freed strtod e.type w d hd) root root' _ hset
        (get_found_guard root n _ hflag)
      exact ⟨n', by simpa [sconf_get] using hg, create_scalar_payload e.type d n' hc⟩

/-- C28, instance: the map of one entry with the path `a` and the variable `A`
set to `env`, on the tree that holds `flag` at `a`. -/
theorem sconf_env_read_sets_variable_witness :
    ∃ n', sconf_get (some (.dict [("a".toList, .str "env".toList)])) (some "a".toList) =
        (1, some n') ∧ sconf_type n' = SCONF_TYPE_STR ∧
      (SCONF_TYPE_STR = SCONF_TYPE_STR → n' = .str "env".toList) ∧
      (SCONF_TYPE_STR = SCONF_TYPE_INT → n' = .int 0) ∧
      (SCONF_TYPE_STR = SCONF_TYPE_BOOL → n' = .bool false) ∧
      (SCONF_TYPE_STR = SCONF_TYPE_FLOAT → n' = .float 0) :=
  @sconf_env_read_sets_variable Unit strtod_no_number (fun _ => none)
    (fun v => if v = "A".toList then some "env".toList else none)
    (.dict [("a".toList, .str "flag".toList)]) (.dict [("a".toList, .str "env".toList)])
    [⟨some "a".toList, SCONF_TYPE_STR, some "A".toList, none, false, none⟩,
      ⟨none, 0, none, none, false, none⟩] [] []
    ⟨some "a".toList, SCONF_TYPE_STR, some "A".toList, none, false, none⟩
    "a".toList "A".toList "env".toList ⟨"env".toList, 0, false, 0, none⟩ (.str "flag".toList)
    rfl (fun x hx => by simp at hx) (fun x hx => by simp at hx) rfl rfl rfl rfl rfl rfl

/-! ### Trees that extend a tree -/

theorem ext_type (S : SConfNode → SConfNode → Prop) (p p' : SConfNode)
    (h : NodeExt S p p') : sconf_type p' = sconf_type p := by
  cases h with
  | mk _ _ h1 _ _ _ => exact h1

theorem ext_scalar (S : SConfNode → SConfNode → Prop) (p p' : SConfNode)
    (h : NodeExt S p p') (hs : 3 ≤ sconf_type p) : S p p' := by
  cases h with
  | mk _ _ _ h2 _ _ => exact h2 hs

theorem ext_fetch (S : SConfNode → SConfNode → Prop) (p p' : SConfNode) (slot : SConfSlot)
    (c : SConfNode) (h : NodeExt S p p') (hf : p.fetch slot = some c) :
    ∃ c', p'.fetch slot = some c' ∧ NodeExt S c c' := by
  cases h with
  | mk _ _ _ _ h3 h4 =>
    obtain ⟨c', hc'⟩ := h3 slot c hf
    exact ⟨c', hc', h4 slot c c' hf hc'⟩

theorem ext_of_children (S : SConfNode → SConfNode → Prop) (p p' : SConfNode)
    (ht : sconf_type p' = sconf_type p) (hs : 3 ≤ sconf_type p → S p p')
    (hc : ∀ slot c, p.fetch slot = some c → ∃ c', p'.fetch slot = some c' ∧ NodeExt S c c') :
    NodeExt S p p' := by
  refine NodeExt.mk p p' ht hs (fun slot c hf => ?_) (fun slot c c' hf hf' => ?_)
  · obtain ⟨c', h1, _⟩ := hc slot c hf
    exact ⟨c', h1⟩
  · obtain ⟨c'', h1, h2⟩ := hc slot c hf
    rw [h1] at hf'
    simp only [Option.some.injEq] at hf'
    rw [← hf']
    exact h2

theorem fetch_scalar (p : SConfNode) (slot : SConfSlot) (h : 3 ≤ sconf_type p) :
    p.fetch slot = none := by
  cases p <;> cases slot <;> simp [SConfNode.fetch] at h ⊢

theorem ext_refl (S : SConfNode → SConfNode → Prop) (hS : ∀ n, 3 ≤ sconf_type n → S n n)
    (p : SConfNode) : NodeExt S p p :=
  @SConfNode.rec (fun n => NodeExt S n n)
    (fun d => ∀ k c, art_search d k = some c → NodeExt S c c)
    (fun a => ∀ i c, a.getD i none = some c → NodeExt S c c)
    (fun e => NodeExt S e.2 e.2)
    (fun o => ∀ c, o = some c → NodeExt S c c)
    (fun d hd => ext_of_children S _ _ rfl (fun h => absurd h (by simp))
      (fun slot c hf => by
        cases slot with
        | name k => exact ⟨c, hf, hd k c hf⟩
        | index i => simp [SConfNode.fetch] at hf))
    (fun a ha => ext_of_children S _ _ rfl (fun h => absurd h (by simp))
      (fun slot c hf => by
        cases slot with
        | name k => simp [SConfNode.fetch] at hf
        | index i => exact ⟨c, hf, ha i c hf⟩))
    (fun s => ext_of_children S _ _ rfl (fun h => hS _ h)
      (fun slot c hf => by rw [fetch_scalar _ _ (by simp)] at hf; cases hf))
    (fun s => ext_of_children S _ _ rfl (fun h => hS _ h)
      (fun slot c hf => by rw [fetch_scalar _ _ (by simp)] at hf; cases hf))
    (fun s => ext_of_children S _ _ rfl (fun h => hS _ h)
      (fun slot c hf => by rw [fetch_scalar _ _ (by simp)] at hf; cases hf))
    (fun s => ext_of_children S _ _ rfl (fun h => hS _ h)
      (fun slot c hf => by rw [fetch_scalar _ _ (by simp)] at hf; cases hf))
    (fun k c h => by simp [art_search] at h)
    (fun e t he ht k c h => by
      obtain ⟨k', v⟩ := e
      simp only [art_search] at h
      split_ifs at h with hk
      · simp only [Option.some.injEq] at h
        rw [← h]
        exact he
      · exact ht k c h)
    (fun i c h => by simp at h)
    (fun o t ho ht i c h => by
      cases i with
      | zero =>
        simp only [List.getD_cons_zero] at h
        exact ho c h
      | succ j =>
        simp only [List.getD_cons_succ] at h
        exact ht j c h)
    (fun _ _ h => h)
    (fun c h => by cases h)
    (fun v hv c h => by
      simp only [Option.some.injEq] at h
      rw [← h]
      exact hv)
    p

/-- A write to a slot that holds a node, of a node that extends it. -/
theorem ext_store (S : SConfNode → SConfNode → Prop) (hS : ∀ n, 3 ≤ sconf_type n → S n n)
    (p c c' : SConfNode) (slot : SConfSlot) (hf : p.fetch slot = some c)
    (hc : NodeExt S c c') : NodeExt S p (p.store slot c') := by
  refine ext_of_children S _ _ (sconf_type_store _ _ _) (fun h => ?_) (fun s x hx => ?_)
  · rw [fetch_scalar p slot h] at hf
    cases hf
  · by_cases hs : s = slot
    · subst hs
      rw [hf] at hx
      simp only [Option.some.injEq] at hx
      subst hx
      exact ⟨c', fetch_store _ _ _ _ hf, hc⟩
    · exact ⟨x, by rw [fetch_store_ne _ _ _ _ hs]; exact hx, ext_refl S hS x⟩

/-- A container after an insertion into a slot that was empty. -/
theorem ext_frame (S : SConfNode → SConfNode → Prop) (hS : ∀ n, 3 ≤ sconf_type n → S n n)
    (p p' : SConfNode) (slot : SConfSlot) (ht : sconf_type p' = sconf_type p)
    (hcont : sconf_type p ≤ 2) (hf : p.fetch slot = none)
    (hfr : ∀ other, other ≠ slot → p'.fetch other = p.fetch other) : NodeExt S p p' := by
  refine ext_of_children S _ _ ht (fun h => by omega) (fun s x hx => ?_)
  have hs : s ≠ slot := by
    intro h
    rw [h, hf] at hx
    cases hx
  exact ⟨x, by rw [hfr s hs]; exact hx, ext_refl S hS x⟩

/-- A write to the end of a chain of slots, of a node that extends the node
there. -/
theorem ext_store_path (S : SConfNode → SConfNode → Prop)
    (hS : ∀ n, 3 ≤ sconf_type n → S n n) (P : List SConfSlot) :
    ∀ (root pn pn' : SConfNode), root.fetch_path P = some pn → NodeExt S pn pn' →
      NodeExt S root (root.store_path P pn') := by
  induction P with
  | nil =>
    intro root pn pn' h hext
    simp only [SConfNode.fetch_path, Option.some.injEq] at h
    subst h
    exact hext
  | cons s rest ih =>
    intro root pn pn' h hext
    simp only [SConfNode.fetch_path] at h
    cases hf : root.fetch s with
    | none => simp [hf] at h
    | some c =>
      simp only [hf] at h
      simp only [SConfNode.store_path, hf]
      exact ext_store S hS root c _ s hf (ih c pn pn' h hext)

/-! ### `sconf_get` on a tree that extends a tree -/

theorem get_continue_ext (S : SConfNode → SConfNode → Prop) (rest : List CStr)
    (ih : ∀ (parent parent' : SConfNode) (pidx : Nat) (c : Option CStr) (n : SConfNode),
      NodeExt S parent parent' → sconf_get_loop parent pidx c rest = (1, some n) →
      ∃ n', sconf_get_loop parent' pidx c rest = (1, some n') ∧ NodeExt S n n')
    (ch ch' : SConfNode) (pidx : Nat) (next : CStr) (n : SConfNode)
    (hext : NodeExt S ch ch') (h : get_continue ch pidx next rest = (1, some n)) :
    ∃ n', get_continue ch' pidx next rest = (1, some n') ∧ NodeExt S n n' := by
  unfold get_continue at h ⊢
  rw [ext_type S ch ch' hext]
  split_ifs at h ⊢ with h1 h2
  · simp at h
  · exact ih _ _ _ _ _ hext h
  · exact ih _ _ _ _ _ hext h

/-- What `sconf_get` finds in a tree it finds in every tree that extends it:
the return value 1 with a node that extends the node found. -/
theorem get_loop_ext (S : SConfNode → SConfNode → Prop) (toks : List CStr) :
    ∀ (parent parent' : SConfNode) (pidx : Nat) (c : Option CStr) (n : SConfNode),
      NodeExt S parent parent' → sconf_get_loop parent pidx c toks = (1, some n) →
      ∃ n', sconf_get_loop parent' pidx c toks = (1, some n') ∧ NodeExt S n n' := by
  induction toks with
  | nil =>
    intro parent parent' pidx c n hext h
    rw [get_loop_nil_eq] at h ⊢
    rw [get_slot_type parent' parent c pidx (ext_type S _ _ hext)]
    cases hs : get_slot parent c pidx with
    | none => simp [hs] at h
    | some slot =>
      simp only [hs] at h ⊢
      cases hf : parent.fetch slot with
      | none => simp [hf] at h
      | some m =>
        simp only [hf, Prod.mk.injEq, Option.some.injEq, true_and] at h
        subst h
        obtain ⟨m', hm', hext'⟩ := ext_fetch S _ _ _ _ hext hf
        exact ⟨m', by simp only [hm'], hext'⟩
  | cons next rest ih =>
    intro parent parent' pidx c n hext h
    rw [get_loop_cons_eq] at h ⊢
    cases c with
    | none =>
      simp only [sconf_get_descend] at h ⊢
      exact get_continue_ext S rest ih _ _ _ _ _ hext h
    | some c =>
      rw [get_descend_eq] at h ⊢
      rw [get_slot_type parent' parent (some c) pidx (ext_type S _ _ hext),
        ext_type S _ _ hext]
      by_cases hg : c.head? = some '[' ∧ sconf_type parent ≠ SCONF_TYPE_ARRAY
      · rw [if_pos hg] at h
        simp at h
      · rw [if_neg hg] at h ⊢
        cases hs : get_slot parent (some c) pidx with
        | none => simp [hs] at h
        | some slot =>
          simp only [hs] at h ⊢
          cases hf : parent.fetch slot with
          | none => simp [hf] at h
          | some ch =>
            simp only [hf] at h
            obtain ⟨ch', hch', hext'⟩ := ext_fetch S _ _ _ _ hext hf
            simp only [hch']
            exact get_continue_ext S rest ih _ _ _ _ _ hext' h

/-- In a tree that extends a tree with equal scalars, `sconf_get` finds the
scalars of the tree where they were. -/
theorem sconf_get_ext_eq (root root' : SConfNode) (p : CStr) (n : SConfNode)
    (hext : NodeExt Eq root root') (h : sconf_get (some root) (some p) = (1, some n))
    (hn : 3 ≤ sconf_type n) : sconf_get (some root') (some p) = (1, some n) := by
  simp only [sconf_get] at h ⊢
  obtain ⟨n', hg, hext'⟩ := get_loop_ext Eq _ _ _ _ _ _ hext h
  rw [hg, ← ext_scalar Eq n n' hext' hn]

/-! ### The events extend the tree -/

theorem same_type_refl (n : SConfNode) (_ : 3 ≤ sconf_type n) : same_type n n := rfl

theorem replace_ext (ty : Nat) (m n : SConfNode) (data : Option SConfData)
    (hty : sconf_type m = ty) (h : sconf_node_replace ty m data = some (0, n)) :
    NodeExt same_type m n := by
  rcases sconf_type_cases m with h1 | h1 | ⟨h3, h6⟩
  · rw [replace_container ty m data (Or.inl (by rw [← hty, h1]))] at h
    simp only [Option.some.injEq, Prod.mk.injEq, true_and] at h
    rw [← h]
    exact ext_refl same_type same_type_refl m
  · rw [replace_container ty m data (Or.inr (by rw [← hty, h1]))] at h
    simp only [Option.some.injEq, Prod.mk.injEq, true_and] at h
    rw [← h]
    exact ext_refl same_type same_type_refl m
  · refine ext_of_children same_type _ _ (replace_rc ty m data 0 n h).2 (fun _ => ?_)
      (fun slot c hf => ?_)
    · exact (replace_rc ty m data 0 n h).2
    · rw [fetch_scalar m slot h3] at hf
      cases hf

/-- After `sconf_node_create_and_insert` the parent extends the parent before
the call. -/
theorem create_and_insert_ext (name : Option CStr) (ty : Nat) (parent : SConfNode)
    (index : Nat) (data : Option SConfData) (r : SConfInserted)
    (h : sconf_node_create_and_insert name ty parent index data = some r) :
    NodeExt same_type parent r.parent := by
  rcases create_and_insert_outcome name ty parent index data r h with
    ⟨_, h2⟩ | ⟨slot, n, _, hs, ⟨hf, _, _, hty, hfr⟩ | ⟨m, hf, hm, hrep, hp⟩⟩
  · rw [h2]
    exact ext_refl same_type same_type_refl parent
  · have hcont : sconf_type parent ≤ 2 := by
      rcases create_slot_kind _ _ _ _ hs with ⟨d, k, rfl, _⟩ | ⟨a, i, rfl, _⟩ <;> simp
    exact ext_frame same_type same_type_refl parent r.parent slot hty hcont hf hfr
  · rw [hp]
    exact ext_store same_type same_type_refl parent m n slot hf (replace_ext ty m n data hm hrep)

theorem parent_add_ext (root : SConfNode) (state : SConfYAMLState) (ty : Nat)
    (res : Int × SConfNode × SConfYAMLState)
    (hr : sconf_yaml_parent_add root state ty = some res) : NodeExt same_type root res.2.1 := by
  have hrefl := ext_refl same_type same_type_refl root
  unfold sconf_yaml_parent_add at hr
  cases hc : state.curr_parent with
  | nil =>
    rw [hc] at hr
    simp only [Option.some.injEq] at hr
    rw [← hr]
    exact hrefl
  | cons p next =>
    rw [hc] at hr
    simp only at hr
    cases hfp : root.fetch_path p.parent with
    | none => rw [hfp] at hr; cases hr
    | some pn =>
      rw [hfp] at hr
      simp only at hr
      by_cases h1 : sconf_type pn = SCONF_TYPE_DICT ∧ state.curr_key = none
      · rw [if_pos h1] at hr
        simp only [Option.some.injEq] at hr
        rw [← hr]
        exact hrefl
      · rw [if_neg h1] at hr
        cases hci : sconf_node_create_and_insert state.curr_key ty pn p.curr_index none with
        | none => rw [hci] at hr; cases hr
        | some r =>
          rw [hci] at hr
          simp only at hr
          have hext := ext_store_path same_type same_type_refl p.parent root pn r.parent hfp
            (create_and_insert_ext _ _ _ _ _ _ hci)
          cases hn : r.node with
          | none =>
            rw [hn] at hr
            simp only [Option.some.injEq] at hr
            rw [← hr]
            exact hext
          | some sn =>
            obtain ⟨slot, n⟩ := sn
            rw [hn] at hr
            simp only at hr
            split_ifs at hr <;> simp only [Option.some.injEq] at hr <;> rw [← hr] <;> exact hext

theorem node_add_ext (strtod : CStr → StrtodResult) (root : SConfNode) (state : SConfYAMLState)
    (pt : Nat) (value : CStr) (style : Nat) (res : Int × SConfNode × SConfYAMLState)
    (hr : sconf_yaml_node_add strtod root state pt value style = some res) :
    NodeExt same_type root res.2.1 := by
  have hrefl := ext_refl same_type same_type_refl root
  unfold sconf_yaml_node_add at hr
  cases hc : state.curr_parent with
  | nil =>
    rw [hc] at hr
    simp only [Option.some.injEq] at hr
    rw [← hr]
    exact hrefl
  | cons p next =>
    rw [hc] at hr
    simp only at hr
    cases hfp : root.fetch_path p.parent with
    | none => rw [hfp] at hr; cases hr
    | some pn =>
      rw [hfp] at hr
      simp only at hr
      by_cases h1 : pt ≠ sconf_type pn
      · rw [if_pos h1] at hr
        simp only [Option.some.injEq] at hr
        rw [← hr]
        exact hrefl
      rw [if_neg h1] at hr
      by_cases h2 : (yaml_scalar_infer strtod value style).1 = -1
      · rw [if_pos h2] at hr
        simp only [Option.some.injEq] at hr
        rw [← hr]
        exact hrefl
      · rw [if_neg h2] at hr
        cases hci : sconf_node_create_and_insert state.curr_key
            (yaml_scalar_infer strtod value style).2.1 pn p.curr_index
            (some (yaml_scalar_infer strtod value style).2.2) with
        | none => rw [hci] at hr; cases hr
        | some r =>
          rw [hci] at hr
          simp only at hr
          have hext := ext_store_path same_type same_type_refl p.parent root pn r.parent hfp
            (create_and_insert_ext _ _ _ _ _ _ hci)
          cases hn : r.node with
          | none =>
            rw [hn] at hr
            simp only [Option.some.injEq] at hr
            rw [← hr]
            exact hext
          | some sn =>
            rw [hn] at hr
            simp only at hr
            split_ifs at hr <;> simp only [Option.some.injEq] at hr <;> rw [← hr] <;> exact hext

/-- After every event that `sconf_yaml_consume_event` consumes, with success or
not, the tree extends the tree before the event. -/
theorem consume_event_ext (strtod : CStr → StrtodResult) (root : SConfNode) (e : yaml_event_t)
    (state : SConfYAMLState) (res : Int × SConfNode × SConfYAMLState)
    (hr : sconf_yaml_consume_event strtod root e state = some res) :
    NodeExt same_type root res.2.1 := by
  have h := ext_refl same_type same_type_refl root
  unfold sconf_yaml_consume_event at hr
  split_ifs at hr
  · unfold yaml_consume_start at hr
    cases e <;> simp only [Option.some.injEq] at hr <;> rw [← hr] <;> exact h
  · unfold yaml_consume_stream at hr
    cases e <;> simp only [Option.some.injEq] at hr <;> rw [← hr] <;> exact h
  · unfold yaml_consume_document at hr
    cases e with
    | mapping_start =>
      simp only at hr
      split_ifs at hr <;> simp only [Option.some.injEq] at hr <;> rw [← hr] <;> exact h
    | _ =>
      simp only [Option.some.injEq] at hr
      rw [← hr]
      exact h
  · unfold yaml_consume_block at hr
    cases e with
    | scalar value style =>
      simp only at hr
      cases hk : state.curr_key with
      | none =>
        rw [hk] at hr
        simp only [Option.some.injEq] at hr
        rw [← hr]
        exact h
      | some k =>
        rw [hk] at hr
        simp only [Option.some.injEq] at hr
        rw [← hr]
        exact h
    | sequence_end =>
      simp only at hr
      split_ifs at hr <;> simp only [Option.some.injEq] at hr <;> rw [← hr] <;> exact h
    | mapping_end =>
      simp only at hr
      by_cases hz : (sconf_yaml_parent_remove state).1 ≠ 0
      · rw [if_pos hz] at hr
        simp only [Option.some.injEq] at hr
        rw [← hr]
        exact h
      · rw [if_neg hz] at hr
        split at hr
        · simp only [Option.some.injEq] at hr
          rw [← hr]
          exact h
        · split at hr
          · cases hr
          · split_ifs at hr <;> simp only [Option.some.injEq] at hr <;> rw [← hr] <;> exact h
    | mapping_start =>
      simp only at hr
      cases hp : sconf_yaml_parent_add root state SCONF_TYPE_DICT with
      | none => rw [hp] at hr; cases hr
      | some y =>
        obtain ⟨r, root', state'⟩ := y
        rw [hp] at hr
        have hy := parent_add_ext root state SCONF_TYPE_DICT _ hp
        simp only at hr
        split_ifs at hr <;> simp only [Option.some.injEq] at hr <;> rw [← hr] <;> exact hy
    | _ =>
      simp only [Option.some.injEq] at hr
      rw [← hr]
      exact h
  · unfold yaml_consume_block_content at hr
    cases e with
    | scalar value style =>
      simp only at hr
      cases hp : sconf_yaml_node_add strtod root state SCONF_TYPE_DICT value style with
      | none => rw [hp] at hr; cases hr
      | some y =>
        obtain ⟨r, root', state'⟩ := y
        rw [hp] at hr
        have hy := node_add_ext strtod root state SCONF_TYPE_DICT value style _ hp
        simp only at hr
        split_ifs at hr <;> simp only [Option.some.injEq] at hr <;> rw [← hr] <;> exact hy
    | mapping_start =>
      simp only at hr
      cases hp : sconf_yaml_parent_add root state SCONF_TYPE_DICT with
      | none => rw [hp] at hr; cases hr
      | some y =>
        obtain ⟨r, root', state'⟩ := y
        rw [hp] at hr
        have hy := parent_add_ext root state SCONF_TYPE_DICT _ hp
        simp only at hr
        split_ifs at hr <;> simp only [Option.some.injEq] at hr <;> rw [← hr] <;> exact hy
    | sequence_start =>
      simp only at hr
      cases hp : sconf_yaml_parent_add root state SCONF_TYPE_ARRAY with
      | none => rw [hp] at hr; cases hr
      | some y =>
        obtain ⟨r, root', state'⟩ := y
        rw [hp] at hr
        have hy := parent_add_ext root state SCONF_TYPE_ARRAY _ hp
        simp only at hr
        split_ifs at hr <;> simp only [Option.some.injEq] at hr <;> rw [← hr] <;> exact hy
    | _ =>
      simp only [Option.some.injEq] at hr
      rw [← hr]
      exact h
  · unfold yaml_consume_sequence at hr
    cases e with
    | scalar value style =>
      simp only at hr
      cases hp : sconf_yaml_node_add strtod root state SCONF_TYPE_ARRAY value style with
      | none => rw [hp] at hr; cases hr
      | some y =>
        obtain ⟨r, root', state'⟩ := y
        rw [hp] at hr
        have hy := node_add_ext strtod root state SCONF_TYPE_ARRAY value style _ hp
        simp only at hr
        split_ifs at hr <;> simp only [Option.some.injEq] at hr <;> rw [← hr] <;> exact hy
    | mapping_start =>
      simp only at hr
      cases hp : sconf_yaml_parent_add root state SCONF_TYPE_DICT with
      | none => rw [hp] at hr; cases hr
      | some y =>
        obtain ⟨r, root', state'⟩ := y
        rw [hp] at hr
        have hy := parent_add_ext root state SCONF_TYPE_DICT _ hp
        simp only at hr
        split_ifs at hr <;> simp only [Option.some.injEq] at hr <;> rw [← hr] <;> exact hy
    | sequence_start =>
      simp only at hr
      cases hp : sconf_yaml_parent_add root state SCONF_TYPE_ARRAY with
      | none => rw [hp] at hr; cases hr
      | some y =>
        obtain ⟨r, root', state'⟩ := y
        rw [hp] at hr
        have hy := parent_add_ext root state SCONF_TYPE_ARRAY _ hp
        simp only at hr
        split_ifs at hr <;> simp only [Option.some.injEq] at hr <;> rw [← hr] <;> exact hy
    | sequence_end =>
      simp only at hr
      split_ifs at hr <;> simp only [Option.some.injEq] at hr <;> rw [← hr] <;> exact h
    | _ =>
      simp only [Option.some.injEq] at hr
      rw [← hr]
      exact h
  · simp only [Option.some.injEq] at hr
    rw [← hr]
    exact h

/-- Every event that is consumed keeps what `sconf_get` finds: a path at which
`sconf_get` returned 1 before the event returns 1 after it, with a node of the
same type. -/
theorem consume_event_keeps (strtod : CStr → StrtodResult) (root : SConfNode) (e : yaml_event_t)
    (state : SConfYAMLState) (res : Int × SConfNode × SConfYAMLState)
    (hr : sconf_yaml_consume_event strtod root e state = some res) (p : CStr) (n : SConfNode)
    (hg : sconf_get (some root) (some p) = (1, some n)) :
    ∃ n', sconf_get (some res.2.1) (some p) = (1, some n') ∧ sconf_type n' = sconf_type n := by
  simp only [sconf_get] at hg ⊢
  obtain ⟨n', h1, h2⟩ := get_loop_ext same_type _ _ _ _ _ _
    (consume_event_ext strtod root e state res hr) hg
  exact ⟨n', h1, ext_type same_type n n' h2⟩

/-- The loop of `sconf_yaml_read`, whatever it returns, keeps what `sconf_get`
finds. -/
theorem yaml_read_loop_keeps (strtod : CStr → StrtodResult) (events : List yaml_event_t) :
    ∀ (root : SConfNode) (state : SConfYAMLState) (res : Int × SConfNode) (p : CStr)
      (n : SConfNode),
      sconf_yaml_read_loop strtod root state events = some res →
      sconf_get (some root) (some p) = (1, some n) →
      ∃ n', sconf_get (some res.2) (some p) = (1, some n') ∧ sconf_type n' = sconf_type n := by
  induction events with
  | nil =>
    intro root state res p n hr hg
    simp only [sconf_yaml_read_loop, Option.some.injEq] at hr
    rw [← hr]
    exact ⟨n, hg, rfl⟩
  | cons e t ih =>
    intro root state res p n hr hg
    simp only [sconf_yaml_read_loop] at hr
    cases hc : sconf_yaml_consume_event strtod root e state with
    | none => rw [hc] at hr; cases hr
    | some y =>
      obtain ⟨s, r1, s1⟩ := y
      rw [hc] at hr
      obtain ⟨n1, hg1, ht1⟩ := consume_event_keeps strtod root e state _ hc p n hg
      simp only at hr hg1
      split_ifs at hr
      · simp only [Option.some.injEq] at hr
        rw [← hr]
        exact ⟨n1, hg1, ht1⟩
      · obtain ⟨n2, hg2, ht2⟩ := ih r1 s1 res p n1 hr hg1
        exact ⟨n2, hg2, by rw [ht2, ht1]⟩
      · simp only [Option.some.injEq] at hr
        rw [← hr]
        exact ⟨n1, hg1, ht1⟩

/-- C25: an event whose consumption has no defined result. The events are those
of the document `a: [[1], "[4294967295]", [2]]` up to the start of the last
sequence: after the nested sequence the state is `SCONF_YAML_STATE_BLOCK` with
the array on top of the stack, so the scalar `[4294967295]` is taken as a key,
and at the next event `sconf_node_create_and_insert` reads the index from the
key. Before that event `sconf_get` returns 1 at `a.[0].[0]`; at the event
`sconf_array_insert` reads `entries[4294967295]` of a store of one entry
(`index + 1` wraps to 0, so the grow step does nothing), and neither the event
nor `sconf_yaml_read` has a defined result. -/
theorem sconf_yaml_read_key_on_array_out_of_bounds :
    yaml_run strtod_no_number (.dict []) ⟨SCONF_YAML_STATE_START, 0, none, []⟩
        [.stream_start, .document_start, .mapping_start,
          .scalar "a".toList YAML_PLAIN_SCALAR_STYLE, .sequence_start, .sequence_start,
          .scalar "1".toList YAML_PLAIN_SCALAR_STYLE, .sequence_end,
          .scalar "[4294967295]".toList YAML_DOUBLE_QUOTED_SCALAR_STYLE] =
      some (1, .dict [("a".toList, .array [some (.array [some (.int 1)])])],
        ⟨SCONF_YAML_STATE_BLOCK_CONTENT, 2, some "[4294967295]".toList,
          [⟨[.name "a".toList], 1⟩, ⟨[], 0⟩]⟩) ∧
    sconf_get (some (.dict [("a".toList, .array [some (.array [some (.int 1)])])]))
        (some "a.[0].[0]".toList) = (1, some (.int 1)) ∧
    sconf_yaml_consume_event strtod_no_number
        (.dict [("a".toList, .array [some (.array [some (.int 1)])])]) .sequence_start
        ⟨SCONF_YAML_STATE_BLOCK_CONTENT, 2, some "[4294967295]".toList,
          [⟨[.name "a".toList], 1⟩, ⟨[], 0⟩]⟩ = none ∧
    sconf_yaml_read strtod_no_number (fun _ => some
        [.stream_start, .document_start, .mapping_start,
          .scalar "a".toList YAML_PLAIN_SCALAR_STYLE, .sequence_start, .sequence_start,
          .scalar "1".toList YAML_PLAIN_SCALAR_STYLE, .sequence_end,
          .scalar "[4294967295]".toList YAML_DOUBLE_QUOTED_SCALAR_STYLE, .sequence_start,
          .scalar "2".toList YAML_PLAIN_SCALAR_STYLE, .sequence_end, .sequence_end,
          .mapping_end, .document_end, .stream_end])
      (.dict []) "f.yml".toList = none :=
  ⟨rfl, rfl, rfl, rfl⟩

/-! ### `sconf_set` at a path that is absent -/

theorem eq_refl_scalar (n : SConfNode) (_ : 3 ≤ sconf_type n) : n = n := rfl

theorem set_slot_eq_create_slot (parent : SConfNode) (name : Option CStr) :
    set_slot parent name = create_slot parent name 0 := by
  cases parent <;> cases name <;> rfl

/-- After `sconf_node_create_and_insert` on a slot that is empty, the parent
extends the parent before the call and keeps its scalars. -/
theorem create_and_insert_ext_eq (name : Option CStr) (ty : Nat) (parent : SConfNode)
    (data : Option SConfData) (r : SConfInserted)
    (h : sconf_node_create_and_insert name ty parent 0 data = some r)
    (hempty : ∀ slot, set_slot parent name = some slot → parent.fetch slot = none) :
    NodeExt Eq parent r.parent := by
  rcases create_and_insert_outcome name ty parent 0 data r h with
    ⟨_, h2⟩ | ⟨slot, n, _, hs, ⟨hf, _, _, hty, hfr⟩ | ⟨m, hf, _, _, _⟩⟩
  · rw [h2]
    exact ext_refl Eq eq_refl_scalar parent
  · have hcont : sconf_type parent ≤ 2 := by
      rcases create_slot_kind _ _ _ _ hs with ⟨d, k, rfl, _⟩ | ⟨a, i, rfl, _⟩ <;> simp
    exact ext_frame Eq eq_refl_scalar parent r.parent slot hty hcont hf hfr
  · rw [hempty slot (by rw [set_slot_eq_create_slot]; exact hs)] at hf
    cases hf

/-- The loop of `sconf_set` at tokens at which `sconf_get` finds nothing, whatever
it returns, leaves a tree that extends the tree before the call and keeps its
scalars: it writes to slots that were empty only. -/
theorem set_absent_ext (ty : Nat) (d : SConfData) (toks : List CStr) :
    ∀ (parent : SConfNode) (c : Option CStr) (pidx depth : Nat) (rc : Int)
      (parent' : SConfNode),
      sconf_get_loop parent pidx c toks = (0, none) →
      get_slot parent c pidx = set_slot parent c →
      (toks ≠ [] → ∀ s, c = some s → s.head? = some '[' → sconf_type parent ≠ 1) →
      (toks ≠ [] → c ≠ none) →
      sconf_set_loop ty (some d) parent c depth toks = some (rc, parent') →
      NodeExt Eq parent parent' := by
  induction toks with
  | nil =>
    intro parent c pidx depth rc parent' hget hslot _ _ hset
    simp only [sconf_set_loop] at hset
    cases hci : sconf_node_create_and_insert c ty parent 0 (some d) with
    | none => rw [hci] at hset; cases hset
    | some r =>
      rw [hci] at hset
      have hext := create_and_insert_ext_eq c ty parent (some d) r hci (by
        intro slot hs
        rw [get_loop_nil_eq, hslot, hs] at hget
        cases hf : parent.fetch slot with
        | none => rfl
        | some m => simp [hf] at hget)
      simp only at hset
      split at hset <;> simp only [Option.some.injEq, Prod.mk.injEq] at hset <;>
        rw [← hset.2] <;> exact hext
  | cons next rest ih =>
    intro parent c pidx depth rc parent' hget hslot hkind hc hset
    cases c with
    | none => exact absurd rfl (hc (by simp))
    | some c =>
      simp only [sconf_set_loop] at hset
      cases hci : sconf_node_create_and_insert (some c)
          (if next.head? = some '[' then SCONF_TYPE_ARRAY else SCONF_TYPE_DICT) parent 0
          none with
      | none => rw [hci] at hset; cases hset
      | some r =>
        rw [hci] at hset
        simp only at hset
        rcases create_and_insert_outcome _ _ _ _ _ r hci with
          ⟨hn, h2⟩ | ⟨slot, n, hn, hs, ⟨hf, _, hfs, hty, hfr⟩ | ⟨m, hf, hm, hrep, hp⟩⟩
        · rw [hn] at hset
          simp only [Option.some.injEq, Prod.mk.injEq] at hset
          rw [← hset.2, h2]
          exact ext_refl Eq eq_refl_scalar parent
        · have hcont : sconf_type parent ≤ 2 := by
            rcases create_slot_kind _ _ _ _ hs with ⟨dd, k, rfl, _⟩ | ⟨a, i, rfl, _⟩ <;> simp
          rw [hn] at hset
          simp only at hset
          split_ifs at hset
          · simp only [Option.some.injEq, Prod.mk.injEq] at hset
            rw [← hset.2]
            exact ext_frame Eq eq_refl_scalar parent r.parent slot hty hcont hf hfr
          · split at hset
            · cases hset
            · rename_i rc' child' _
              simp only [Option.some.injEq, Prod.mk.injEq] at hset
              rw [← hset.2]
              refine ext_frame Eq eq_refl_scalar parent _ slot ?_ hcont hf ?_
              · rw [sconf_type_store, hty]
              · intro other ho
                rw [fetch_store_ne _ _ _ _ ho, hfr other ho]
        · have hct : (if next.head? = some '[' then SCONF_TYPE_ARRAY else SCONF_TYPE_DICT) = 1 ∨
              (if next.head? = some '[' then SCONF_TYPE_ARRAY else SCONF_TYPE_DICT) = 2 := by
            split_ifs
            · exact Or.inr rfl
            · exact Or.inl rfl
          rw [replace_container _ m none hct] at hrep
          simp only [Option.some.injEq, Prod.mk.injEq, true_and] at hrep
          subst hrep
          rw [store_same _ _ _ hf] at hp
          rw [hn] at hset
          simp only at hset
          split_ifs at hset with hdepth
          · simp only [Option.some.injEq, Prod.mk.injEq] at hset
            rw [← hset.2, hp]
            exact ext_refl Eq eq_refl_scalar parent
          · cases hrec : sconf_set_loop ty (some d) m (some next) (depth + 1) rest with
            | none => rw [hrec] at hset; cases hset
            | some x =>
              obtain ⟨rc', child'⟩ := x
              rw [hrec] at hset
              simp only [Option.some.injEq, Prod.mk.injEq] at hset
              rw [← hset.2, hp]
              have hss : set_slot parent (some c) = some slot := by
                rw [set_slot_eq_create_slot]
                exact hs
              have hpc : sconf_type parent = 1 ∨ sconf_type parent = 2 := by
                rcases create_slot_kind _ _ _ _ hs with ⟨dd, k, rfl, _⟩ | ⟨a, i, rfl, _⟩
                · exact Or.inl rfl
                · exact Or.inr rfl
              have hguard : ¬ (c.head? = some '[' ∧ sconf_type parent ≠ SCONF_TYPE_ARRAY) := by
                rintro ⟨hb, hna⟩
                have := hkind (by simp) c rfl hb
                rcases hpc with h1 | h1
                · exact this h1
                · exact hna h1
              rw [get_loop_cons_eq, get_descend_eq, if_neg hguard, hslot, hss] at hget
              simp only [hf] at hget
              by_cases hb : next.head? = some '['
              · rw [if_pos hb] at hm
                have hma : sconf_type m = SCONF_TYPE_ARRAY := hm
                unfold get_continue at hget
                rw [if_pos ⟨hma, hb⟩] at hget
                rcases index_from_string_cases next with hfail | ⟨v, hv⟩
                · simp [hfail] at hget
                · simp only [hv] at hget
                  rw [if_neg (by decide)] at hget
                  have hslot' : get_slot m (some next) v = set_slot m (some next) := by
                    cases m <;> simp [SCONF_TYPE_ARRAY] at hma
                    simp [get_slot, set_slot, hb, hv]
                  refine ext_store Eq eq_refl_scalar parent m child' slot hf
                    (ih m (some next) v (depth + 1) rc' child' hget hslot' ?_ (by simp) hrec)
                  intro _ s hs' _
                  rw [hma]
                  decide
              · rw [if_neg hb] at hm
                have hmd : sconf_type m = 1 := hm
                unfold get_continue at hget
                rw [if_neg (fun hh => hb hh.2)] at hget
                have hslot' : get_slot m (some next) pidx = set_slot m (some next) := by
                  rw [get_slot_dict _ _ _ hmd, set_slot_dict _ _ hmd]
                refine ext_store Eq eq_refl_scalar parent m child' slot hf
                  (ih m (some next) pidx (depth + 1) rc' child' hget hslot' ?_ (by simp) hrec)
                intro _ s hs' hb'
                simp only [Option.some.injEq] at hs'
                subst hs'
                exact absurd hb' hb

/-- The call of `sconf_set` at a path at which `sconf_get` finds nothing, on a
dictionary at a path that does not begin with a bracketed segment that other
segments follow: whatever it returns, the tree after it extends the tree
before it and keeps its scalars. -/
theorem sconf_set_absent_ext (root root' : SConfNode) (p : CStr) (ty : Nat) (d : SConfData)
    (rc : Int)
    (hget : sconf_get (some root) (some p) = (0, none))
    (hguard : sconf_type root = 1 → ((strtok_r p []).head?.bind List.head?) = some '[' →
      (strtok_r p []).length ≤ 1)
    (hset : sconf_set (some root) (some p) ty (some d) = some (rc, some root')) :
    NodeExt Eq root root' := by
  rw [sconf_set_some] at hset
  simp only [sconf_get] at hget
  cases htoks : strtok_r p [] with
  | nil =>
    rw [htoks] at hget hset
    refine set_absent_ext ty d [] root none 0 1 rc root' hget ?_ (fun h => absurd rfl h)
      (fun h => absurd rfl h) hset
    cases root <;> rfl
  | cons t rest =>
    rw [htoks] at hget hset hguard
    simp only [sconf_set_loop] at hset
    rw [if_neg (by decide)] at hset
    rw [get_loop_cons_eq] at hget
    simp only [sconf_get_descend] at hget
    unfold get_continue at hget
    by_cases ha : sconf_type root = SCONF_TYPE_ARRAY ∧ t.head? = some '['
    · rw [if_pos ha] at hget
      rcases index_from_string_cases t with hfail | ⟨v, hv⟩
      · simp [hfail] at hget
      · simp only [hv] at hget
        rw [if_neg (by decide)] at hget
        refine set_absent_ext ty d rest root (some t) v 2 rc root' hget ?_ ?_ (by simp) hset
        · obtain ⟨h1, h2⟩ := ha
          cases root <;> simp [SCONF_TYPE_ARRAY] at h1
          simp [get_slot, set_slot, h2, hv]
        · intro _ s _ _
          rw [ha.1]
          decide
    · rw [if_neg ha] at hget
      refine set_absent_ext ty d rest root (some t) 0 2 rc root' hget ?_ ?_ (by simp) hset
      · cases root with
        | array a =>
          have hb : ¬ t.head? = some '[' := fun hb => ha ⟨rfl, hb⟩
          simp [get_slot, set_slot, hb]
        | _ => rfl
      · intro hne s hs hb hdict
        simp only [Option.some.injEq] at hs
        subst hs
        have := hguard hdict (by simpa using hb)
        simp only [List.length_cons] at this
        cases rest with
        | nil => exact hne rfl
        | cons a b => simp at this

/-! ### The defaults stage -/

theorem sconf_get_absent (root : SConfNode) (p : CStr)
    (h1 : (sconf_get (some root) (some p)).1 ≠ 1) (h2 : (sconf_get (some root) (some p)).1 ≠ -1) :
    sconf_get (some root) (some p) = (0, none) := by
  rcases sconf_get_cases (some root) (some p) with ⟨n, h⟩ | h | h
  · rw [h] at h1
    exact absurd rfl h1
  · exact h
  · rw [h] at h2
    exact absurd rfl h2

theorem defaults_lookup_absent (root : SConfNode) (ty : Nat) (p : CStr)
    (h1 : defaults_lookup root ty p ≠ 1) (h2 : defaults_lookup root ty p ≠ -1) :
    sconf_get (some root) (some p) = (0, none) := by
  unfold defaults_lookup at h1 h2
  split_ifs at h1 h2 with hs
  · rcases sconf_get_cases (some root) (some p) with ⟨n, h⟩ | h | h
    · exfalso
      simp only [sconf_get_str, h, ne_eq, not_true_eq_false, if_false] at h1 h2
      cases n <;> simp at h1 h2
    · exact h
    · exfalso
      simp [sconf_get_str, h] at h2
  · exact sconf_get_absent root p h1 h2

/-- The step of the loop of `sconf_defaults` on an entry of a scalar type with a
default and a path: nothing is done when the lookup finds a node, and
otherwise the default, coerced to the type, is set with `sconf_set`. -/
theorem defaults_loop_entry {σ : Type} (strtod : CStr → StrtodResult)
    (fopen_events : CStr → Option (List yaml_event_t)) (root : SConfNode) (e : SConfMap σ)
    (rest : List (SConfMap σ)) (p dv : CStr)
    (hT : e.type = SCONF_TYPE_STR ∨ e.type = SCONF_TYPE_INT ∨ e.type = SCONF_TYPE_BOOL ∨
      e.type = SCONF_TYPE_FLOAT)
    (hp : e.path = some p) (hdv : e.default_value = some dv) :
    sconf_defaults_loop strtod fopen_events root (e :: rest) =
      if defaults_lookup root e.type p = -1 then some (-1, root)
      else if defaults_lookup root e.type p = 1 then
        sconf_defaults_loop strtod fopen_events root rest
      else
        match spec_coerce strtod e.type dv with
        | none => some (-1, root)
        | some d =>
          match sconf_set (some root) (some p) e.type (some d) with
          | none => none
          | some s =>
            if s.1 = -1 then some (-1, s.2.getD root)
            else sconf_defaults_loop strtod fopen_events (s.2.getD root) rest := by
  have h0 : e.type ≠ 0 := by
    rcases hT with h | h | h | h <;> rw [h] <;> decide
  rw [sconf_defaults_loop, if_neg h0]
  simp only [hdv, hp]
  rcases hT with h | h | h | h
  · rw [h]
    by_cases h1 : (sconf_get_str (some root) (some p)).1 = -1
    · simp [sconf_defaults_handle_str, defaults_lookup, h1]
    · by_cases h2 : (sconf_get_str (some root) (some p)).1 = 1
      · simp [sconf_defaults_handle_str, defaults_lookup, h1, h2]
      · simp only [sconf_defaults_handle_str, defaults_lookup, spec_coerce, sconf_set_str,
          if_true, if_neg h1, if_neg h2, Option.map_some']
        cases sconf_set (some root) (some p) SCONF_TYPE_STR (some ⟨dv, 0, false, 0, none⟩) with
        | none => rfl
        | some s =>
          simp only [Option.map_some']
          split_ifs <;> rfl
  · rw [h]
    by_cases h1 : (sconf_get (some root) (some p)).1 = -1
    · simp [sconf_defaults_handle_int, defaults_lookup, h1]
    · by_cases h2 : (sconf_get (some root) (some p)).1 = 1
      · simp [sconf_defaults_handle_int, defaults_lookup, h1, h2]
      · rcases string_to_integer_rc dv with hc | hc | hc
        · simp [sconf_defaults_handle_int, defaults_lookup, spec_coerce, sconf_set_int, h1, h2,
            hc]
          cases sconf_set (some root) (some p) SCONF_TYPE_INT
              (some ⟨[], (sconf_string_to_integer dv).2, false, 0, none⟩) with
          | none => rfl
          | some s =>
            simp only [Option.map_some']
            split_ifs <;> rfl
        · simp [sconf_defaults_handle_int, defaults_lookup, spec_coerce, h1, h2, hc]
        · simp [sconf_defaults_handle_int, defaults_lookup, spec_coerce, h1, h2, hc]
  · rw [h]
    by_cases h1 : (sconf_get (some root) (some p)).1 = -1
    · simp [sconf_defaults_handle_bool, defaults_lookup, h1]
    · by_cases h2 : (sconf_get (some root) (some p)).1 = 1
      · simp [sconf_defaults_handle_bool, defaults_lookup, h1, h2]
      · rcases string_to_bool_rc dv with hc | hc
        · simp [sconf_defaults_handle_bool, defaults_lookup, spec_coerce, sconf_set_bool, h1,
            h2, hc]
          cases sconf_set (some root) (some p) SCONF_TYPE_BOOL
              (some ⟨[], 0, ((sconf_string_to_bool dv).2).getD false, 0, none⟩) with
          | none => rfl
          | some s =>
            simp only [Option.map_some']
            split_ifs <;> rfl
        · simp [sconf_defaults_handle_bool, defaults_lookup, spec_coerce, h1, h2, hc]
  · rw [h]
    by_cases h1 : (sconf_get (some root) (some p)).1 = -1
    · simp [sconf_defaults_handle_float, defaults_lookup, h1]
    · by_cases h2 : (sconf_get (some root) (some p)).1 = 1
      · simp [sconf_defaults_handle_float, defaults_lookup, h1, h2]
      · rcases string_to_float_rc strtod dv with hc | hc | hc
        · simp [sconf_defaults_handle_float, defaults_lookup, spec_coerce, sconf_set_float, h1,
            h2, hc]
          cases sconf_set (some root) (some p) SCONF_TYPE_FLOAT
              (some ⟨[], 0, false, (sconf_string_to_float strtod dv).2, none⟩) with
          | none => rfl
          | some s =>
            simp only [Option.map_some']
            split_ifs <;> rfl
        · simp [sconf_defaults_handle_float, defaults_lookup, spec_coerce, h1, h2, hc]
        · simp [sconf_defaults_handle_float, defaults_lookup, spec_coerce, h1, h2, hc]

theorem scalars_kept_refl (root : SConfNode) : scalars_kept root root :=
  ⟨rfl, fun _ _ h _ => h⟩

theorem scalars_kept_trans (a b c : SConfNode) (h1 : scalars_kept a b)
    (h2 : scalars_kept b c) : scalars_kept a c :=
  ⟨h2.1.trans h1.1, fun q n hg hn => h2.2 q n (h1.2 q n hg hn) hn⟩

theorem scalars_kept_of_ext (root root' : SConfNode) (h : NodeExt Eq root root') :
    scalars_kept root root' :=
  ⟨ext_type Eq root root' h, fun q n hg hn => sconf_get_ext_eq root root' q n h hg hn⟩

theorem map_entries_step {σ : Type} (e : SConfMap σ) (t : List (SConfMap σ))
    (h : e.type ≠ 0) : map_entries (e :: t) = e :: map_entries t := by
  simp [map_entries, List.takeWhile, h]

theorem map_entries_type {σ : Type} (m : List (SConfMap σ)) :
    ∀ e ∈ map_entries m, e.type ≠ 0 := by
  intro e he
  have := List.mem_takeWhile_imp he
  simpa using this

theorem map_entries_mem {σ : Type} (m : List (SConfMap σ)) :
    ∀ e ∈ map_entries m, e ∈ m :=
  fun _ he => (List.takeWhile_sublist _).subset he

theorem defaults_loop_entries {σ : Type} (strtod : CStr → StrtodResult)
    (fopen_events : CStr → Option (List yaml_event_t)) (m : List (SConfMap σ)) :
    ∀ root, sconf_defaults_loop strtod fopen_events root m =
      sconf_defaults_loop strtod fopen_events root (map_entries m) := by
  induction m with
  | nil => intro root; rfl
  | cons e t ih =>
    intro root
    by_cases h0 : e.type = 0
    · have : map_entries (e :: t) = [] := by simp [map_entries, List.takeWhile, h0]
      rw [this]
      simp only [sconf_defaults_loop, if_pos h0]
    · rw [map_entries_step e t h0, sconf_defaults_loop, sconf_defaults_loop, if_neg h0,
        if_neg h0]
      simp only [ih]

theorem defaults_loop_append {σ : Type} (strtod : CStr → StrtodResult)
    (fopen_events : CStr → Option (List yaml_event_t)) (pre l : List (SConfMap σ)) :
    ∀ root root_i, (∀ e ∈ pre, e.type ≠ 0) →
      sconf_defaults_loop strtod fopen_events root pre = some (0, root_i) →
      sconf_defaults_loop strtod fopen_events root (pre ++ l) =
        sconf_defaults_loop strtod fopen_events root_i l := by
  induction pre with
  | nil =>
    intro root root_i _ h
    simp only [sconf_defaults_loop, Option.some.injEq, Prod.mk.injEq, true_and] at h
    rw [List.nil_append, h]
  | cons e pre ih =>
    intro root root_i hne h
    have h0 : e.type ≠ 0 := hne e (List.mem_cons_self _ _)
    have hne' : ∀ x ∈ pre, x.type ≠ 0 := fun x hx => hne x (List.mem_cons_of_mem _ hx)
    rw [List.cons_append, sconf_defaults_loop, if_neg h0]
    rw [sconf_defaults_loop, if_neg h0] at h
    cases hdv : e.default_value with
    | none =>
      simp only [hdv] at h ⊢
      exact ih root root_i hne' h
    | some dv =>
      cases hp : e.path with
      | none =>
        simp only [hdv, hp, Option.some.injEq, Prod.mk.injEq] at h
        exact absurd h.1 (by decide)
      | some p =>
        simp only [hdv, hp] at h ⊢
        generalize (if e.type = SCONF_TYPE_STR then
            some (sconf_defaults_handle_str root p dv)
          else if e.type = SCONF_TYPE_INT then some (sconf_defaults_handle_int root p dv)
          else if e.type = SCONF_TYPE_FLOAT then
            some (sconf_defaults_handle_float strtod root p dv)
          else if e.type = SCONF_TYPE_BOOL then some (sconf_defaults_handle_bool root p dv)
          else if e.type = SCONF_TYPE_YAML_FILE then
            some (sconf_defaults_handle_yaml_file strtod fopen_events root p dv)
          else none) = H at h ⊢
        cases H with
        | none =>
          simp only [Option.some.injEq, Prod.mk.injEq] at h
          exact absurd h.1 (by decide)
        | some o =>
          cases o with
          | none => cases h
          | some hh =>
            simp only at h ⊢
            by_cases h1 : hh.1 = -1
            · rw [if_pos h1] at h
              simp only [Option.some.injEq, Prod.mk.injEq] at h
              exact absurd h.1 (by decide)
            · rw [if_neg h1] at h ⊢
              exact ih hh.2 root_i hne' h

theorem defaults_lookup_zero (root : SConfNode) (ty : Nat) (p : CStr)
    (h : sconf_get (some root) (some p) = (0, none)) : defaults_lookup root ty p = 0 := by
  unfold defaults_lookup
  split_ifs <;> simp [sconf_get_str, h]

theorem sconf_set_result (root : SConfNode) (p : CStr) (ty : Nat) (d : SConfData)
    (s : Int × Option SConfNode) (h : sconf_set (some root) (some p) ty (some d) = some s) :
    ∃ root1, s = (s.1, some root1) ∧ s.2.getD root = root1 ∧
      sconf_set (some root) (some p) ty (some d) = some (s.1, some root1) := by
  have h' := h
  simp only [sconf_set, Option.map_eq_some'] at h'
  obtain ⟨y, _, hys⟩ := h'
  refine ⟨y.2, ?_, ?_, ?_⟩
  · rw [← hys]
  · rw [← hys]; rfl
  · rw [h, ← hys]

/-- The loop of `sconf_defaults` keeps the scalars of the tree when no entry
with a default reads a file and the paths are plain, whatever it returns. -/
theorem defaults_loop_keeps {σ : Type} (strtod : CStr → StrtodResult)
    (fopen_events : CStr → Option (List yaml_event_t)) (m : List (SConfMap σ)) :
    ∀ root res, (∀ e ∈ map_entries m, spec_default_plain (sconf_type root) e) →
      sconf_defaults_loop strtod fopen_events root m = some res →
      scalars_kept root res.2 := by
  induction m with
  | nil =>
    intro root res _ h
    simp only [sconf_defaults_loop, Option.some.injEq] at h
    rw [← h]
    exact scalars_kept_refl root
  | cons e rest ih =>
    intro root res hm h
    by_cases h0 : e.type = 0
    · rw [sconf_defaults_loop, if_pos h0] at h
      simp only [Option.some.injEq] at h
      rw [← h]
      exact scalars_kept_refl root
    · rw [map_entries_step e rest h0] at hm
      have he := hm e (List.mem_cons_self _ _)
      have hrest : ∀ r1, sconf_type r1 = sconf_type root →
          ∀ x ∈ map_entries rest, spec_default_plain (sconf_type r1) x := by
        intro r1 h1 x hx
        rw [h1]
        exact hm x (List.mem_cons_of_mem _ hx)
      cases hdv : e.default_value with
      | none =>
        rw [sconf_defaults_loop, if_neg h0] at h
        simp only [hdv] at h
        exact ih root res (hrest root rfl) h
      | some dv =>
        cases hp : e.path with
        | none =>
          rw [sconf_defaults_loop, if_neg h0] at h
          simp only [hdv, hp, Option.some.injEq] at h
          rw [← h]
          exact scalars_kept_refl root
        | some p =>
          obtain ⟨hny, hplain⟩ := he (by rw [hdv]; simp)
          by_cases hT : e.type = SCONF_TYPE_STR ∨ e.type = SCONF_TYPE_INT ∨
              e.type = SCONF_TYPE_BOOL ∨ e.type = SCONF_TYPE_FLOAT
          · rw [defaults_loop_entry strtod fopen_events root e rest p dv hT hp hdv] at h
            by_cases h1 : defaults_lookup root e.type p = -1
            · rw [if_pos h1] at h
              simp only [Option.some.injEq] at h
              rw [← h]
              exact scalars_kept_refl root
            · rw [if_neg h1] at h
              by_cases h2 : defaults_lookup root e.type p = 1
              · rw [if_pos h2] at h
                exact ih root res (hrest root rfl) h
              · rw [if_neg h2] at h
                cases hc : spec_coerce strtod e.type dv with
                | none =>
                  simp only [hc, Option.some.injEq] at h
                  rw [← h]
                  exact scalars_kept_refl root
                | some d =>
                  simp only [hc] at h
                  cases hs : sconf_set (some root) (some p) e.type (some d) with
                  | none => rw [hs] at h; cases h
                  | some s =>
                    rw [hs] at h
                    simp only at h
                    obtain ⟨root1, _, hr1, hset⟩ := sconf_set_result root p e.type d s hs
                    rw [hr1] at h
                    have hk : scalars_kept root root1 :=
                      scalars_kept_of_ext root root1
                        (sconf_set_absent_ext root root1 p e.type d s.1
                          (defaults_lookup_absent root e.type p h2 h1) (hplain p hp) hset)
                    by_cases hs1 : s.1 = -1
                    · rw [if_pos hs1] at h
                      simp only [Option.some.injEq] at h
                      rw [← h]
                      exact hk
                    · rw [if_neg hs1] at h
                      exact scalars_kept_trans root root1 res.2 hk
                        (ih root1 res (hrest root1 hk.1) h)
          · rw [sconf_defaults_loop, if_neg h0] at h
            simp only [hdv, hp] at h
            push_neg at hT
            rw [if_neg hT.1, if_neg hT.2.1, if_neg hT.2.2.2, if_neg hT.2.2.1, if_neg hny] at h
            simp only [Option.some.injEq] at h
            rw [← h]
            exact scalars_kept_refl root

/-- C27: defaults only fill gaps, for a map in which no entry with a default is
of the type `SCONF_TYPE_YAML_FILE` and no path of such an entry begins, on a
dictionary root, with a bracketed segment that other segments follow. Whatever
`sconf_defaults` returns, every path at which `sconf_get` found a scalar node
before it finds the same node after it. And for an entry of a scalar type with
a default that is a valid value of the type, whose path is absent when the loop
reaches the entry: when `sconf_defaults` returns 0, the getter of the type
returns the default, coerced to the type, at the path. -/
theorem sconf_defaults_fill_gaps {σ : Type} (strtod : CStr → StrtodResult)
    (fopen_events : CStr → Option (List yaml_event_t)) (root : SConfNode)
    (m : List (SConfMap σ))
    (hmap : ∀ e ∈ map_entries m, spec_default_plain (sconf_type root) e) :
    (∀ rc root', sconf_defaults strtod fopen_events (some root) (some m) =
        some (rc, some root') →
      ∀ q n, sconf_get (some root) (some q) = (1, some n) → 3 ≤ sconf_type n →
        sconf_get (some root') (some q) = (1, some n)) ∧
    (∀ pre e post p dv d root_i root', map_entries m = pre ++ e :: post →
      e.path = some p → e.default_value = some dv →
      spec_coerce strtod e.type dv = some d →
      sconf_defaults_loop strtod fopen_events root pre = some (0, root_i) →
      sconf_get (some root_i) (some p) = (0, none) →
      sconf_defaults strtod fopen_events (some root) (some m) = some (0, some root') →
      (e.type = SCONF_TYPE_STR →
        sconf_get_str (some root') (some p) = (1, some d.string)) ∧
      (e.type = SCONF_TYPE_INT →
        sconf_get_int (some root') (some p) = (1, some d.integer)) ∧
      (e.type = SCONF_TYPE_BOOL →
        sconf_get_bool (some root') (some p) = (1, some d.boolean)) ∧
      (e.type = SCONF_TYPE_FLOAT →
        sconf_get_float (some root') (some p) = (1, some d.fp))) := by
  constructor
  · intro rc root' hret q n hg hn
    simp only [sconf_defaults, Option.map_eq_some', Prod.mk.injEq, Option.some.injEq] at hret
    obtain ⟨x, hloop, _, hxr⟩ := hret
    have hk := defaults_loop_keeps strtod fopen_events m root x hmap hloop
    rw [hxr] at hk
    exact hk.2 q n hg hn
  · intro pre e post p dv d root_i root' hm hp hdv hc hpre hget hret
    have hT := spec_coerce_type strtod e.type dv d hc
    have h3 : 3 ≤ e.type := by rcases hT with h | h | h | h <;> rw [h] <;> decide
    have h6 : e.type ≤ 6 := by rcases hT with h | h | h | h <;> rw [h] <;> decide
    have hmem : ∀ x, x ∈ pre ∨ x = e ∨ x ∈ post → x ∈ map_entries m := by
      intro x hx
      rw [hm]
      simp only [List.mem_append, List.mem_cons]
      exact hx
    have hpre_ne : ∀ x ∈ pre, x.type ≠ 0 :=
      fun x hx => map_entries_type m x (hmem x (Or.inl hx))
    have hki : scalars_kept root root_i :=
      defaults_loop_keeps strtod fopen_events pre root (0, root_i)
        (fun x hx => hmap x (hmem x (Or.inl (map_entries_mem pre x hx)))) hpre
    simp only [sconf_defaults, Option.map_eq_some', Prod.mk.injEq, Option.some.injEq] at hret
    obtain ⟨x, hloop, hx0, hxr⟩ := hret
    rw [defaults_loop_entries, hm,
      defaults_loop_append strtod fopen_events pre (e :: post) root root_i hpre_ne hpre,
      defaults_loop_entry strtod fopen_events root_i e post p dv hT hp hdv,
      defaults_lookup_zero root_i e.type p hget, if_neg (by decide), if_neg (by decide)]
      at hloop
    simp only [hc] at hloop
    cases hs : sconf_set (some root_i) (some p) e.type (some d) with
    | none => rw [hs] at hloop; cases hloop
    | some s =>
      rw [hs] at hloop
      simp only at hloop
      obtain ⟨root1, _, hr1, hset⟩ := sconf_set_result root_i p e.type d s hs
      rw [hr1] at hloop
      by_cases hs1 : s.1 = -1
      · rw [if_pos hs1] at hloop
        simp only [Option.some.injEq] at hloop
        rw [← hloop] at hx0
        simp at hx0
      · rw [if_neg hs1] at hloop
        rw [sconf_set_some] at hset
        have hrc : s.1 = 0 := by
          rcases set_loop_rc _ _ _ _ _ _ _ _ hset with h | h
          · exact h
          · exact absurd h hs1
        rw [hrc] at hset
        have hplain := (hmap e (hmem e (Or.inr (Or.inl rfl))) (by rw [hdv]; simp)).2 p hp
        obtain ⟨n, hg, hcr⟩ := roundtrip_tokens e.type d h3 h6
          (fun _ => spec_coerce_freed strtod e.type dv d hc) root_i root1 _ hset
          (by rw [hki.1]; exact hplain)
        have hpay := create_scalar_payload e.type d n hcr
        have hk1 : scalars_kept root_i root1 :=
          scalars_kept_of_ext root_i root1
            (sconf_set_absent_ext root_i root1 p e.type d 0 hget
              (by rw [hki.1]; exact hplain) ((sconf_set_some _ _ _ _ _ _).2 hset))
        have hkp : scalars_kept root1 x.2 :=
          defaults_loop_keeps strtod fopen_events post root1 x
            (fun y hy => by
              rw [hk1.1, hki.1]
              exact hmap y (hmem y (Or.inr (Or.inr (map_entries_mem post y hy))))) hloop
        rw [hxr] at hkp
        have hfin : sconf_get (some root') (some p) = (1, some n) :=
          hkp.2 p n (by simpa [sconf_get] using hg) (by rw [hpay.1]; exact h3)
        refine ⟨fun h => ?_, fun h => ?_, fun h => ?_, fun h => ?_⟩
        · simp [sconf_get_str, hfin, hpay.2.1 h]
        · simp [sconf_get_int, hfin, hpay.2.2.1 h]
        · simp [sconf_get_bool, hfin, hpay.2.2.2.1 h]
        · simp [sconf_get_float, hfin, hpay.2.2.2.2 h]

/-- C27, instance: the map with the string entry `a` (default `dflt`) and the
integer entry `b` (default `5`), on the tree that holds `x` at `a`: after
`sconf_defaults` the path `a` still holds `x`, and `sconf_get_int` returns 5
at `b`. -/
theorem sconf_defaults_fill_gaps_witness :
    sconf_get (some (.dict [("a".toList, .str "x".toList), ("b".toList, .int 5)]))
        (some "a".toList) = (1, some (.str "x".toList)) ∧
    sconf_get_int (some (.dict [("a".toList, .str "x".toList), ("b".toList, .int 5)]))
        (some "b".toList) = (1, some 5) :=
  have T := @sconf_defaults_fill_gaps Unit strtod_no_number (fun _ => none)
    (.dict [("a".toList, .str "x".toList)])
    [⟨some "a".toList, SCONF_TYPE_STR, none, some "dflt".toList, false, none⟩,
      ⟨some "b".toList, SCONF_TYPE_INT, none, some "5".toList, false, none⟩,
      ⟨none, 0, none, none, false, none⟩]
    (List.forall_mem_cons.2
      ⟨fun _ => ⟨by decide, fun p hp => by
          cases hp
          intro _ hb
          exact absurd hb (by decide)⟩,
        List.forall_mem_cons.2
          ⟨fun _ => ⟨by decide, fun p hp => by
              cases hp
              intro _ hb
              exact absurd hb (by decide)⟩,
            fun _ h => absurd h (List.not_mem_nil _)⟩⟩)
  ⟨T.1 0 (.dict [("a".toList, .str "x".toList), ("b".toList, .int 5)]) rfl "a".toList
      (.str "x".toList) rfl (by decide),
    (T.2 [⟨some "a".toList, SCONF_TYPE_STR, none, some "dflt".toList, false, none⟩]
      ⟨some "b".toList, SCONF_TYPE_INT, none, some "5".toList, false, none⟩ []
      "b".toList "5".toList ⟨[], 5, false, 0, none⟩ (.dict [("a".toList, .str "x".toList)])
      (.dict [("a".toList, .str "x".toList), ("b".toList, .int 5)])
      rfl rfl rfl rfl rfl rfl rfl).2.1 rfl⟩

/-- C27, counterexample: a default of the type `SCONF_TYPE_YAML_FILE` overwrites.
The map has the entry `c` of that type with the default `d.yml`, a file that
holds the document `a: 2`, and the integer entry `a` with the default `5`; the
tree holds 1 at `a`. The path `a` of the second entry holds a node of its
type, `sconf_defaults` returns 0, and after it `sconf_get_int` returns 2 at
`a`: the handler of the first entry has read the file into the tree. -/
theorem sconf_defaults_yaml_file_overwrites :
    sconf_get_int (some (.dict [("a".toList, .int 1)])) (some "a".toList) = (1, some 1) ∧
    @sconf_defaults Unit strtod_no_number
        (fun f => if f = "d.yml".toList then
          some (stream_events
            [.mapping [("a".toList, .scalar "2".toList YAML_PLAIN_SCALAR_STYLE)]])
          else none)
        (some (.dict [("a".toList, .int 1)]))
        (some [⟨some "c".toList, SCONF_TYPE_YAML_FILE, none, some "d.yml".toList, false, none⟩,
          ⟨some "a".toList, SCONF_TYPE_INT, none, some "5".toList, false, none⟩,
          ⟨none, 0, none, none, false, none⟩]) =
      some (0, some (.dict [("a".toList, .int 2), ("c".toList, .str "d.yml".toList)])) ∧
    sconf_get_int (some (.dict [("a".toList, .int 2), ("c".toList, .str "d.yml".toList)]))
        (some "a".toList) = (1, some 2) :=
  ⟨rfl, rfl, rfl⟩

/-- The defaults on a path that begins with a bracketed segment, on a
dictionary root: for the map with the integer entry `[0].a` and the default
`5` on the empty dictionary, `sconf_get_int` returns 0 at the path before
`sconf_defaults` and after it, although `sconf_defaults` returns 0: `sconf_set`
has stored the value under the key `[0]` of the root, and `sconf_get` does not
follow a bracketed segment into a dictionary. -/
theorem sconf_defaults_bracket_path_example :
    sconf_get_int (some (.dict [])) (some "[0].a".toList) = (0, none) ∧
    @sconf_defaults Unit strtod_no_number (fun _ => none) (some (.dict []))
        (some [⟨some "[0].a".toList, SCONF_TYPE_INT, none, some "5".toList, false, none⟩,
          ⟨none, 0, none, none, false, none⟩]) =
      some (0, some (.dict [("[0]".toList, .dict [("a".toList, .int 5)])])) ∧
    sconf_get_int (some (.dict [("[0]".toList, .dict [("a".toList, .int 5)])]))
        (some "[0].a".toList) = (0, none) :=
  ⟨rfl, rfl, rfl⟩

/-! ### Integer coercion of a text without a digit -/

theorem not_base_digit_decimal (c : Char) (h : isdigit c = false) :
    is_base_digit 10 c = false := by
  simp only [isdigit, Bool.and_eq_false_iff, decide_eq_false_iff_not, not_le] at h
  unfold is_base_digit digit_value
  split_ifs with h1 h2 h3
  · omega
  · simp
  · simp
  · rfl

theorem takeWhile_no_digit (l : List Char) (h : ∀ c ∈ l, isdigit c = false) :
    l.takeWhile (is_base_digit 10) = [] := by
  cases l with
  | nil => rfl
  | cons c cs =>
    simp [List.takeWhile, not_base_digit_decimal c (h c (List.mem_cons_self _ _))]

theorem strtoll_scan_no_digit (s : CStr) (h : ∀ c ∈ s, isdigit c = false) :
    strtoll_scan s 10 = (0, 0) := by
  have hsub : ∀ n, ∀ c ∈ ((s.dropWhile isspace).drop n).drop 0, isdigit c = false := by
    intro n c hc
    rw [List.drop_zero] at hc
    exact h c ((List.dropWhile_suffix isspace).subset (List.mem_of_mem_drop hc))
  unfold strtoll_scan
  simp only [show ¬ ((10 : Nat) = 16) from by decide, false_and, if_false]
  rw [takeWhile_no_digit _ (hsub _)]
  rfl

/-- C40: the integer coercion of a text without a digit. For the empty string
`sconf_string_to_integer` returns 1 with the value 0, so the return value 1
does not tell that the text holds a digit; for every string that is not empty
and holds no decimal digit it returns 0 (`strtoll` consumes nothing and
`*endptr` is the first character). -/
theorem sconf_string_to_integer_without_digit :
    sconf_string_to_integer [] = (1, 0) ∧
    (∀ c ∈ ([] : CStr), isdigit c = false) ∧
    ∀ s : CStr, s ≠ [] → (∀ c ∈ s, isdigit c = false) →
      sconf_string_to_integer s = (0, 0) := by
  refine ⟨rfl, fun c hc => absurd hc (List.not_mem_nil c), ?_⟩
  intro s hne h
  have hhead : s.head? ≠ some '0' := by
    intro h0
    have hm : '0' ∈ s := List.mem_of_mem_head? h0
    exact absurd (h '0' hm) (by decide)
  have hbase : sconf_integer_base s = 10 := by
    simp only [sconf_integer_base, hhead, false_and, if_false]
  have hlen : 0 < s.length := List.length_pos.2 hne
  have hr : strtoll s 10 = ⟨0, 0, false⟩ := by
    unfold strtoll
    rw [strtoll_scan_no_digit s h]
    rfl
  unfold sconf_string_to_integer
  rw [hbase, hr]
  simp only
  rw [if_pos hlen]

/-- Texts without a digit: a blank, a sign, a word and a hexadecimal word are
not integers, and the empty text is the integer 0. -/
theorem string_to_integer_no_digit_examples :
    sconf_string_to_integer " ".toList = (0, 0) ∧
    sconf_string_to_integer "-".toList = (0, 0) ∧
    sconf_string_to_integer "abc".toList = (0, 0) ∧
    sconf_string_to_integer "ff".toList = (0, 0) ∧
    sconf_string_to_integer "".toList = (1, 0) := by
  refine ⟨?_, ?_, ?_, ?_, ?_⟩ <;> rfl

/-! ### Required entries of the type `SCONF_TYPE_YAML_FILE` -/

theorem sconf_type_ne_yaml_file (n : SConfNode) : sconf_type n ≠ SCONF_TYPE_YAML_FILE := by
  cases n <;> simp [sconf_type]

theorem check_required_yaml_file {σ : Type} (root : SConfNode) (e : SConfMap σ)
    (ht : e.type = SCONF_TYPE_YAML_FILE) (hr : e.required = true) :
    sconf_validate_check_required root e = -1 := by
  unfold sconf_validate_check_required
  rw [if_neg (by rw [hr]; decide)]
  cases e.path with
  | none => rfl
  | some path =>
    simp only
    rcases sconf_get_cases (some root) (some path) with ⟨n, hg⟩ | hg | hg
    · rw [hg]
      simp only
      rw [if_neg (by decide), if_neg (by decide), if_pos]
      rw [ht]
      exact fun h => sconf_type_ne_yaml_file n h.symm
    · rw [hg]
      rfl
    · rw [hg]
      rfl

/-- C39: a required entry of the type `SCONF_TYPE_YAML_FILE` never validates.
For every map with such an entry before the terminating entry, every root
(`NULL` or a tree) and every user data, `sconf_validate` returns -1: on every
tree `sconf_validate_check_required` returns -1 for the entry, since the type of
a node is one of the six node types and never `SCONF_TYPE_YAML_FILE`. -/
theorem sconf_validate_required_yaml_file {σ : Type} (root : Option SConfNode)
    (m : List (SConfMap σ)) (user : σ) (e : SConfMap σ) (he : e ∈ map_entries m)
    (ht : e.type = SCONF_TYPE_YAML_FILE) (hr : e.required = true) :
    (sconf_validate root (some m) user).1 = -1 ∧
    (∀ tree : SConfNode, sconf_validate_check_required tree e = -1) ∧
    (∀ n : SConfNode, 1 ≤ sconf_type n ∧ sconf_type n ≤ 6 ∧
      sconf_type n ≠ SCONF_TYPE_YAML_FILE) := by
  refine ⟨?_, fun tree => check_required_yaml_file tree e ht hr, ?_⟩
  · cases root with
    | none => rfl
    | some r =>
      simp only [sconf_validate]
      apply validate_loop_fail r m user
      refine ⟨e, he, Or.inl ?_⟩
      intro hok
      obtain ⟨path, node, _, _, hty⟩ := hok hr
      rw [ht] at hty
      exact sconf_type_ne_yaml_file node hty
  · intro n
    cases n <;> simp only [sconf_type] <;> decide

/-- C39, instance: the map with the required entry `cfg` of the type
`SCONF_TYPE_YAML_FILE`, on the tree that holds at `cfg` the name of a file as a
string (what the defaults stage stores for the entry): `sconf_validate` returns
-1. -/
theorem sconf_validate_required_yaml_file_witness :
    (@sconf_validate Unit (some (.dict [("cfg".toList, .str "d.yml".toList)]))
      (some [⟨some "cfg".toList, SCONF_TYPE_YAML_FILE, none, some "d.yml".toList, true, none⟩,
        ⟨none, 0, none, none, false, none⟩]) ()).1 = -1 :=
  (@sconf_validate_required_yaml_file Unit
    (some (.dict [("cfg".toList, .str "d.yml".toList)]))
    [⟨some "cfg".toList, SCONF_TYPE_YAML_FILE, none, some "d.yml".toList, true, none⟩,
      ⟨none, 0, none, none, false, none⟩] ()
    ⟨some "cfg".toList, SCONF_TYPE_YAML_FILE, none, some "d.yml".toList, true, none⟩
    (by simp [map_entries, List.takeWhile]) rfl rfl).1

/-! ### The bounds of `sconf_array_insert` -/

theorem array_grow_in_bounds (a : SConfArray) (index : Nat) (hi : index + 1 < UINT32_MOD)
    (hg : (sconf_array_grow a ((index + 1) % UINT32_MOD)).1 = 0) :
    index < (sconf_array_grow a ((index + 1) % UINT32_MOD)).2.length := by
  rw [Nat.mod_eq_of_lt hi] at hg ⊢
  rcases array_grow_cases a (index + 1) with h | ⟨h, _⟩
  · rw [h] at hg
    simp at hg
  · rw [h]
    simp only [List.length_append, List.length_replicate]
    omega

/-- C35: the access of `sconf_array_insert` is in bounds for every index but
`2 ^ 32 - 1`. For an index below `2 ^ 32 - 1`, when the grow step
`sconf_array_grow(array, index + 1)` returns 0 the index is below the size of
the store. For the index `4294967295` the argument `index + 1` of the grow step
is 0 in `uint32_t`: on every store of at most `SCONF_ARRAY_MAX_SIZE` entries the
grow step returns 0 and leaves the store as it is, the index is not below the
size, and `entries[4294967295]` is read outside the store, so the call has no
defined result. So it is for `sconf_node_array_insert` on a fresh array node
and for `sconf_set` at the path `a.[4294967295]` on the empty dictionary. -/
theorem sconf_array_insert_out_of_bounds :
    (∀ (a : SConfArray) (index : Nat), index + 1 < UINT32_MOD →
      (sconf_array_grow a ((index + 1) % UINT32_MOD)).1 = 0 →
      index < (sconf_array_grow a ((index + 1) % UINT32_MOD)).2.length) ∧
    (∀ (a : SConfArray) (n : SConfNode), a.length ≤ SCONF_ARRAY_MAX_SIZE →
      sconf_array_grow a ((4294967295 + 1) % UINT32_MOD) = (0, a) ∧
      ¬ 4294967295 < a.length ∧
      sconf_array_insert a 4294967295 (some n) = none) ∧
    sconf_node_array_insert 4294967295 (some (.array [none])) (some (.int 1)) = none ∧
    sconf_set (some (.dict [])) (some "a.[4294967295]".toList) SCONF_TYPE_INT
      (some ⟨[], 1, false, 0, none⟩) = none := by
  refine ⟨array_grow_in_bounds, ?_, rfl, rfl⟩
  intro a n ha
  simp only [SCONF_ARRAY_MAX_SIZE] at ha
  exact ⟨(array_insert_wraps a n (by omega)).1, by omega,
    (array_insert_wraps a n (by omega)).2⟩

/-! ### What a depth-cap failure of `sconf_set` leaves behind -/

theorem get_loop_empty_dict (toks : List CStr) (c : CStr) (hc : c.head? ≠ some '[') :
    sconf_get_loop (.dict []) 0 (some c) toks = (0, none) := by
  cases toks with
  | nil => simp [sconf_get_loop, sconf_node_dict_search, art_search]
  | cons next rest =>
    simp [sconf_get_loop, sconf_get_descend, sconf_node_dict_search, art_search, hc]

/-- The loop of `sconf_set` on an empty dictionary, entered with plain names that
take it to the depth cap: it returns -1 after it has created the dictionaries
of all the names but the last, so `sconf_get` finds an empty dictionary at the
names without the last one. -/
theorem set_loop_cap_partial (ty : Nat) (d : SConfData) (rest : List CStr) :
    ∀ (c : CStr) (depth : Nat), rest ≠ [] → c.head? ≠ some '[' →
      (∀ t ∈ rest, t.head? ≠ some '[') → depth + rest.length = 21 →
      ∃ parent', sconf_set_loop ty (some d) (.dict []) (some c) depth rest =
          some (-1, parent') ∧
        sconf_get_loop parent' 0 (some c) rest.dropLast = (1, some (.dict [])) := by
  induction rest with
  | nil => intro _ _ h; exact absurd rfl h
  | cons next rest ih =>
    intro c depth _ hc hplain hlen
    have hnext : next.head? ≠ some '[' := hplain next (List.mem_cons_self _ _)
    simp only [List.length_cons] at hlen
    cases rest with
    | nil =>
      have hd : depth ≥ SCONF_MAX_DEPTH := by
        simp only [SCONF_MAX_DEPTH, List.length_nil] at hlen ⊢
        omega
      refine ⟨.dict [(c, .dict [])], ?_, ?_⟩
      · simp [sconf_set_loop, create_and_insert_eq, set_slot, SConfNode.fetch, art_search,
          sconf_node_create, insert_at, hnext, hd]
      · simp [sconf_get_loop, sconf_node_dict_search, art_search]
    | cons n2 rest2 =>
      obtain ⟨child', hrec, hget⟩ := ih next (depth + 1) (by simp) hnext
        (fun t ht => hplain t (List.mem_cons_of_mem _ ht)) (by omega)
      have hd : ¬ depth ≥ SCONF_MAX_DEPTH := by
        simp only [SCONF_MAX_DEPTH, List.length_cons, ge_iff_le, not_le] at hlen ⊢
        omega
      refine ⟨.dict [(c, child')], ?_, ?_⟩
      · have hci : sconf_node_create_and_insert (some c) SCONF_TYPE_DICT (.dict []) 0 none =
            some ⟨.dict [(c, .dict [])], some (.name c, .dict [])⟩ := by
          simp [create_and_insert_eq, set_slot, SConfNode.fetch, art_search,
            sconf_node_create, insert_at]
        rw [sconf_set_loop]
        simp only [hnext, if_false, hci, hd, hrec]
        simp [SConfNode.store, art_store]
      · have hdl : (next :: n2 :: rest2).dropLast = next :: (n2 :: rest2).dropLast := rfl
        rw [hdl]
        simp only [sconf_get_loop, sconf_get_descend, hc, false_and, if_false,
          sconf_node_dict_search, art_search, if_true]
        rw [if_neg (by decide)]
        simp only
        rw [if_neg (fun h => hnext h.2)]
        exact hget

/-- C38: a failure of `sconf_set` at the depth cap is not atomic. For every
path of 20 plain names, on the empty dictionary: `sconf_get` returns 0 at the
path of the first 19 names before the call, `sconf_set` returns -1, and after
it `sconf_get` returns 1 at the path of the first 19 names, with an empty
dictionary: the containers of the first 19 names have been created. -/
theorem sconf_set_depth_cap_not_atomic (p q : CStr) (ty : Nat) (d : SConfData)
    (hlen : (strtok_r p []).length = 20)
    (hplain : ∀ k ∈ strtok_r p [], k.head? ≠ some '[')
    (hq : strtok_r q [] = (strtok_r p []).dropLast) :
    sconf_get (some (.dict [])) (some q) = (0, none) ∧
    ∃ root', sconf_set (some (.dict [])) (some p) ty (some d) = some (-1, some root') ∧
      sconf_get (some root') (some q) = (1, some (.dict [])) := by
  cases htok : strtok_r p [] with
  | nil => rw [htok] at hlen; simp at hlen
  | cons k rest =>
    rw [htok] at hlen hplain hq
    simp only [List.length_cons] at hlen
    have hk : k.head? ≠ some '[' := hplain k (List.mem_cons_self _ _)
    have hrest : rest ≠ [] := by
      intro h
      rw [h] at hlen
      simp at hlen
    obtain ⟨root', hset, hget⟩ := set_loop_cap_partial ty d rest k 2 hrest hk
      (fun t ht => hplain t (List.mem_cons_of_mem _ ht)) (by omega)
    have hdl : (k :: rest).dropLast = k :: rest.dropLast := by
      cases rest with
      | nil => exact absurd rfl hrest
      | cons a b => rfl
    rw [hdl] at hq
    refine ⟨?_, root', ?_, ?_⟩
    · simp only [sconf_get, hq]
      rw [sconf_get_loop, sconf_get_descend]
      have := get_loop_empty_dict rest.dropLast k hk
      simpa using this
    · simp only [sconf_set, htok]
      rw [set_loop_start, hset]
      rfl
    · simp only [sconf_get, hq]
      rw [sconf_get_loop, sconf_get_descend]
      have hty : sconf_type root' = SCONF_TYPE_DICT := by
        have := set_loop_type ty (some d) rest (.dict []) (some k) 2 (-1) root' hset
        simpa using this
      simpa [hty] using hget

/-- C38, instance: the paths of the test `test_sconf_set_string_reach_max_depth`.
On the empty dictionary `sconf_set` of the path of 20 names returns -1, and the
path of its first 19 names, at which nothing was found before, then holds an
empty dictionary. -/
theorem sconf_set_depth_cap_not_atomic_witness :
    sconf_get (some (.dict [])) (some "b.b.c.d.e.f.g.h.i.j.k.l.m.n.o.p.q.r.s".toList) =
      (0, none) ∧
    ∃ root', sconf_set (some (.dict []))
        (some "b.b.c.d.e.f.g.h.i.j.k.l.m.n.o.p.q.r.s.t".toList) SCONF_TYPE_STR
        (some ⟨"lol".toList, 0, false, 0, none⟩) = some (-1, some root') ∧
      sconf_get (some root') (some "b.b.c.d.e.f.g.h.i.j.k.l.m.n.o.p.q.r.s".toList) =
        (1, some (.dict [])) :=
  sconf_set_depth_cap_not_atomic "b.b.c.d.e.f.g.h.i.j.k.l.m.n.o.p.q.r.s.t".toList
    "b.b.c.d.e.f.g.h.i.j.k.l.m.n.o.p.q.r.s".toList SCONF_TYPE_STR ⟨"lol".toList, 0, false, 0, none⟩
    (by decide) (by decide) (by decide)

/-! ### Empty segments of a path -/

theorem strtok_r_eq_go (p : CStr) : ∀ acc : CStr,
    strtok_r p acc =
      (List.splitOnP.go (fun c => c == '.') p acc).filter (fun s => decide (s ≠ [])) := by
  induction p with
  | nil =>
    intro acc
    by_cases h : acc = []
    · subst h
      simp [strtok_r, List.splitOnP.go]
    · simp [strtok_r, List.splitOnP.go, h]
  | cons c cs ih =>
    intro acc
    by_cases hc : c = '.'
    · subst hc
      by_cases h : acc = []
      · subst h
        simp [strtok_r, List.splitOnP.go, ih]
      · simp [strtok_r, List.splitOnP.go, ih, h]
    · simp [strtok_r, List.splitOnP.go, ih, hc]

theorem strtok_r_eq_segments (p : CStr) : strtok_r p [] = spec_segments p := by
  rw [strtok_r_eq_go]
  rfl

theorem strtok_r_tokens (p : CStr) : ∀ acc : CStr, '.' ∉ acc →
    ∀ t ∈ strtok_r p acc, t ≠ [] ∧ '.' ∉ t := by
  induction p with
  | nil =>
    intro acc hacc t ht
    by_cases h : acc = []
    · simp [strtok_r, h] at ht
    · simp only [strtok_r, h, if_false, List.mem_singleton] at ht
      subst ht
      exact ⟨by simpa using h, by simpa using hacc⟩
  | cons c cs ih =>
    intro acc hacc t ht
    by_cases hc : c = '.'
    · subst hc
      by_cases h : acc = []
      · simp only [strtok_r, h, if_true] at ht
        exact ih [] (by simp) t ht
      · simp only [strtok_r, h, if_true, if_false, List.mem_cons] at ht
        rcases ht with ht | ht
        · subst ht
          exact ⟨by simpa using h, by simpa using hacc⟩
        · exact ih [] (by simp) t ht
    · simp only [strtok_r, hc, if_false] at ht
      refine ih (c :: acc) ?_ t ht
      simp only [List.mem_cons, not_or]
      exact ⟨fun h => hc h.symm, hacc⟩

theorem strtok_r_intercalate (ls : List CStr) (h : ∀ l ∈ ls, l ≠ [] ∧ '.' ∉ l) :
    strtok_r (['.'].intercalate ls) [] = ls := by
  by_cases hls : ls = []
  · subst hls
    rfl
  · rw [strtok_r_eq_segments, spec_segments,
      List.splitOn_intercalate ls '.' (fun l hl => (h l hl).2) hls]
    rw [List.filter_eq_self]
    intro l hl
    simpa using (h l hl).1

theorem strtok_r_normalise (p : CStr) : strtok_r (spec_normalise p) [] = strtok_r p [] := by
  unfold spec_normalise
  rw [← strtok_r_eq_segments]
  exact strtok_r_intercalate _ (strtok_r_tokens p [] (by simp))

/-- C36: empty segments of a path are ignored. For every root, path, type and
value, `sconf_get` and `sconf_set` give on the path what they give on its normal
form, the segments that are not empty joined by single dots: `strtok_r` returns
the same tokens for both. The paths `a..b`, `.a.b` and `a.b.` have the normal
form `a.b`. -/
theorem sconf_path_empty_segments (root : Option SConfNode) (p : CStr) (ty : Nat)
    (v : Option SConfData) :
    strtok_r p [] = spec_segments p ∧
    sconf_get root (some p) = sconf_get root (some (spec_normalise p)) ∧
    sconf_set root (some p) ty v = sconf_set root (some (spec_normalise p)) ty v ∧
    spec_normalise "a..b".toList = "a.b".toList ∧
    spec_normalise ".a.b".toList = "a.b".toList ∧
    spec_normalise "a.b.".toList = "a.b".toList := by
  refine ⟨strtok_r_eq_segments p, ?_, ?_, by decide, by decide, by decide⟩
  · cases root with
    | none => rfl
    | some r => simp only [sconf_get, strtok_r_normalise]
  · cases root with
    | none => simp only [sconf_set]
    | some r =>
      cases v with
      | none => simp only [sconf_set]
      | some d => simp only [sconf_set, strtok_r_normalise]

/-- The three paths of the claim on a tree: each of them is set and read as
`a.b`. -/
theorem path_empty_segments_example :
    sconf_set (some (.dict [])) (some "a..b".toList) SCONF_TYPE_INT (some ⟨[], 1, false, 0, none⟩) =
      some (0, some (.dict [("a".toList, .dict [("b".toList, .int 1)])])) ∧
    sconf_get (some (.dict [("a".toList, .dict [("b".toList, .int 1)])]))
      (some ".a.b".toList) = (1, some (.int 1)) ∧
    sconf_get (some (.dict [("a".toList, .dict [("b".toList, .int 1)])]))
      (some "a.b.".toList) = (1, some (.int 1)) ∧
    sconf_get (some (.dict [("a".toList, .dict [("b".toList, .int 1)])]))
      (some "a.b".toList) = (1, some (.int 1)) :=
  ⟨rfl, rfl, rfl, rfl⟩

/-! ### The end of a sequence and of a mapping -/

theorem consume_block_empty_stack (strtod : CStr → StrtodResult) (root : SConfNode)
    (state : SConfYAMLState) (hs : state.state = SCONF_YAML_STATE_BLOCK)
    (he : state.curr_parent = []) :
    sconf_yaml_consume_event strtod root .mapping_end state = some (0, root, state) ∧
    sconf_yaml_consume_event strtod root .sequence_end state = some (0, root, state) := by
  rw [consume_event_block strtod root _ state hs, consume_event_block strtod root _ state hs]
  simp [yaml_consume_block, sconf_yaml_parent_remove, he]

theorem consume_block_sequence_end (strtod : CStr → StrtodResult) (root : SConfNode)
    (state : SConfYAMLState) (p : SConfYAMLParent) (next : List SConfYAMLParent)
    (hs : state.state = SCONF_YAML_STATE_BLOCK) (hp : state.curr_parent = p :: next) :
    sconf_yaml_consume_event strtod root .sequence_end state =
      some (1, root, ⟨SCONF_YAML_STATE_BLOCK, state.depth - 1, state.curr_key, next⟩) := by
  rw [consume_event_block strtod root _ state hs]
  simp [yaml_consume_block, sconf_yaml_parent_remove, sconf_yaml_parent_stack_pop, hp, hs]

theorem consume_block_mapping_end (strtod : CStr → StrtodResult) (root : SConfNode)
    (state : SConfYAMLState) (p : SConfYAMLParent) (next : List SConfYAMLParent)
    (hs : state.state = SCONF_YAML_STATE_BLOCK) (hp : state.curr_parent = p :: next) :
    (next = [] →
      sconf_yaml_consume_event strtod root .mapping_end state =
        some (1, root, ⟨SCONF_YAML_STATE_BLOCK, state.depth - 1, state.curr_key, []⟩)) ∧
    (∀ q rest pn, next = q :: rest → root.fetch_path q.parent = some pn →
      sconf_yaml_consume_event strtod root .mapping_end state =
        some (1, root,
          ⟨if sconf_type pn = SCONF_TYPE_ARRAY then SCONF_YAML_STATE_SEQUENCE
            else SCONF_YAML_STATE_BLOCK, state.depth - 1, state.curr_key, next⟩)) := by
  rw [consume_event_block strtod root _ state hs]
  constructor
  · intro hn
    simp [yaml_consume_block, sconf_yaml_parent_remove, sconf_yaml_parent_stack_pop, hp, hs, hn]
  · intro q rest pn hn hf
    simp only [yaml_consume_block, sconf_yaml_parent_remove, sconf_yaml_parent_stack_pop, hp,
      hn, hf]
    by_cases ha : sconf_type pn = SCONF_TYPE_ARRAY
    · simp [ha]
    · simp [ha, hs]

/-- C31: a sequence that follows a nested sequence is refused. The events are
those of the document `a: [[1, 2], [3, 4], 5]`. After the end of the sequence
`[1, 2]` the state is `SCONF_YAML_STATE_BLOCK` with the outer array on top of
the stack (the `case YAML_SEQUENCE_END_EVENT` of the sequence state sets the
state to block whatever the parent is), the start of the sequence `[3, 4]`
has no case in that state, and `sconf_yaml_read` returns -1 with `[1, 2]` as
the only entry of `a`. With the scalar as the next sibling, `a: [[1, 2], 5]`,
the scalar is taken as a key and the read returns -1 as well. With a mapping
as the next sibling, as in the test `test_valid_yaml_array`, the read returns 0
and the siblings are at the next indices. -/
theorem sconf_yaml_read_sibling_after_nested_sequence :
    yaml_run strtod_no_number (.dict []) ⟨SCONF_YAML_STATE_START, 0, none, []⟩
        [.stream_start, .document_start, .mapping_start,
          .scalar "a".toList YAML_PLAIN_SCALAR_STYLE, .sequence_start, .sequence_start,
          .scalar "1".toList YAML_PLAIN_SCALAR_STYLE,
          .scalar "2".toList YAML_PLAIN_SCALAR_STYLE, .sequence_end] =
      some (1, .dict [("a".toList, .array [some (.array [some (.int 1), some (.int 2)])])],
        ⟨SCONF_YAML_STATE_BLOCK, 2, none, [⟨[.name "a".toList], 1⟩, ⟨[], 0⟩]⟩) ∧
    sconf_yaml_consume_event strtod_no_number
        (.dict [("a".toList, .array [some (.array [some (.int 1), some (.int 2)])])])
        .sequence_start
        ⟨SCONF_YAML_STATE_BLOCK, 2, none, [⟨[.name "a".toList], 1⟩, ⟨[], 0⟩]⟩ =
      some (0, .dict [("a".toList, .array [some (.array [some (.int 1), some (.int 2)])])],
        ⟨SCONF_YAML_STATE_BLOCK, 2, none, [⟨[.name "a".toList], 1⟩, ⟨[], 0⟩]⟩) ∧
    sconf_yaml_read strtod_no_number (fun _ => some (stream_events
        [.mapping [("a".toList, .sequence
          [.sequence [.scalar "1".toList YAML_PLAIN_SCALAR_STYLE,
              .scalar "2".toList YAML_PLAIN_SCALAR_STYLE],
            .sequence [.scalar "3".toList YAML_PLAIN_SCALAR_STYLE,
              .scalar "4".toList YAML_PLAIN_SCALAR_STYLE],
            .scalar "5".toList YAML_PLAIN_SCALAR_STYLE])]]))
        (.dict []) "f.yml".toList =
      some (-1, .dict [("a".toList, .array [some (.array [some (.int 1), some (.int 2)])])]) ∧
    sconf_yaml_read strtod_no_number (fun _ => some (stream_events
        [.mapping [("a".toList, .sequence
          [.sequence [.scalar "1".toList YAML_PLAIN_SCALAR_STYLE,
              .scalar "2".toList YAML_PLAIN_SCALAR_STYLE],
            .scalar "5".toList YAML_PLAIN_SCALAR_STYLE])]]))
        (.dict []) "f.yml".toList =
      some (-1, .dict [("a".toList, .array [some (.array [some (.int 1), some (.int 2)])])]) ∧
    sconf_yaml_read strtod_no_number (fun _ => some (stream_events
        [.mapping [("a".toList, .sequence
          [.sequence [.scalar "1".toList YAML_PLAIN_SCALAR_STYLE,
              .scalar "2".toList YAML_PLAIN_SCALAR_STYLE],
            .mapping [("h".toList, .scalar "x".toList YAML_PLAIN_SCALAR_STYLE)],
            .scalar "5".toList YAML_PLAIN_SCALAR_STYLE])]]))
        (.dict []) "f.yml".toList =
      some (0, .dict [("a".toList, .array [some (.array [some (.int 1), some (.int 2)]),
        some (.dict [("h".toList, .str "x".toList)]), some (.int 5)])]) :=
  ⟨rfl, rfl, rfl, rfl, rfl⟩

/-- C32: the end of a sequence in the block state does not lead to the sequence
state. In the state `SCONF_YAML_STATE_BLOCK` with an empty stack both end events
fail. With a frame on the stack `YAML_MAPPING_END_EVENT` pops it, and the state
after it is `SCONF_YAML_STATE_SEQUENCE` when the container of the new top frame
is an array and `SCONF_YAML_STATE_BLOCK` otherwise; `YAML_SEQUENCE_END_EVENT` pops
it and the state after it is `SCONF_YAML_STATE_BLOCK` whatever the new top frame
is. In the document `a: [[[1]]]` the second end of a sequence is consumed in
the block state, the container of the new top frame is the array `a`, and the
state after it is `SCONF_YAML_STATE_BLOCK`. -/
theorem sconf_yaml_block_sequence_end_stays_block (strtod : CStr → StrtodResult) :
    (∀ root state, state.state = SCONF_YAML_STATE_BLOCK → state.curr_parent = [] →
      sconf_yaml_consume_event strtod root .mapping_end state = some (0, root, state) ∧
      sconf_yaml_consume_event strtod root .sequence_end state = some (0, root, state)) ∧
    (∀ root state p next, state.state = SCONF_YAML_STATE_BLOCK →
      state.curr_parent = p :: next →
      (next = [] →
        sconf_yaml_consume_event strtod root .mapping_end state =
          some (1, root, ⟨SCONF_YAML_STATE_BLOCK, state.depth - 1, state.curr_key, []⟩)) ∧
      (∀ q rest pn, next = q :: rest → root.fetch_path q.parent = some pn →
        sconf_yaml_consume_event strtod root .mapping_end state =
          some (1, root,
            ⟨if sconf_type pn = SCONF_TYPE_ARRAY then SCONF_YAML_STATE_SEQUENCE
              else SCONF_YAML_STATE_BLOCK, state.depth - 1, state.curr_key, next⟩))) ∧
    (∀ root state p next, state.state = SCONF_YAML_STATE_BLOCK →
      state.curr_parent = p :: next →
      sconf_yaml_consume_event strtod root .sequence_end state =
        some (1, root, ⟨SCONF_YAML_STATE_BLOCK, state.depth - 1, state.curr_key, next⟩)) ∧
    yaml_run strtod_no_number (.dict []) ⟨SCONF_YAML_STATE_START, 0, none, []⟩
        [.stream_start, .document_start, .mapping_start,
          .scalar "a".toList YAML_PLAIN_SCALAR_STYLE, .sequence_start, .sequence_start,
          .sequence_start, .scalar "1".toList YAML_PLAIN_SCALAR_STYLE, .sequence_end] =
      some (1, .dict [("a".toList, .array [some (.array [some (.array [some (.int 1)])])])],
        ⟨SCONF_YAML_STATE_BLOCK, 3, none,
          [⟨[.name "a".toList, .index 0], 1⟩, ⟨[.name "a".toList], 1⟩, ⟨[], 0⟩]⟩) ∧
    sconf_yaml_consume_event strtod_no_number
        (.dict [("a".toList, .array [some (.array [some (.array [some (.int 1)])])])])
        .sequence_end
        ⟨SCONF_YAML_STATE_BLOCK, 3, none,
          [⟨[.name "a".toList, .index 0], 1⟩, ⟨[.name "a".toList], 1⟩, ⟨[], 0⟩]⟩ =
      some (1, .dict [("a".toList, .array [some (.array [some (.array [some (.int 1)])])])],
        ⟨SCONF_YAML_STATE_BLOCK, 2, none, [⟨[.name "a".toList], 1⟩, ⟨[], 0⟩]⟩) ∧
    (SConfNode.dict [("a".toList, .array [some (.array [some (.array [some (.int 1)])])])]
      ).fetch_path [.name "a".toList] =
        some (.array [some (.array [some (.array [some (.int 1)])])]) :=
  ⟨fun root state hs he => consume_block_empty_stack strtod root state hs he,
    fun root state p next hs hp => consume_block_mapping_end strtod root state p next hs hp,
    fun root state p next hs hp => consume_block_sequence_end strtod root state p next hs hp,
    rfl, rfl, rfl⟩

/-! ### The invariant of the ingestion -/

theorem ext_fetch_path (S : SConfNode → SConfNode → Prop) (P : List SConfSlot) :
    ∀ (root root' n : SConfNode), NodeExt S root root' → root.fetch_path P = some n →
      ∃ n', root'.fetch_path P = some n' ∧ NodeExt S n n' := by
  induction P with
  | nil =>
    intro root root' n hext h
    simp only [SConfNode.fetch_path, Option.some.injEq] at h
    subst h
    exact ⟨root', rfl, hext⟩
  | cons s rest ih =>
    intro root root' n hext h
    simp only [SConfNode.fetch_path] at h ⊢
    cases hf : root.fetch s with
    | none => rw [hf] at h; cases h
    | some c =>
      rw [hf] at h
      obtain ⟨c', hc', hcext⟩ := ext_fetch S root root' s c hext hf
      rw [hc']
      exact ih c c' n hcext h

theorem create_and_insert_node_type (name : Option CStr) (ty : Nat) (parent : SConfNode)
    (index : Nat) (data : Option SConfData) (r : SConfInserted) (slot : SConfSlot)
    (n : SConfNode)
    (h : sconf_node_create_and_insert name ty parent index data = some r)
    (hn : r.node = some (slot, n)) : r.parent.fetch slot = some n ∧ sconf_type n = ty := by
  rcases create_and_insert_outcome name ty parent index data r h with ⟨h1, _⟩ |
    ⟨slot', n', h1, _, h2⟩
  · rw [h1] at hn
    cases hn
  · rw [h1] at hn
    simp only [Option.some.injEq, Prod.mk.injEq] at hn
    obtain ⟨hs, hnn⟩ := hn
    subst hs hnn
    rcases h2 with ⟨_, hcr, hf, _⟩ | ⟨m, hm, hty, hrep, hpar⟩
    · exact ⟨hf, sconf_type_create ty data _ hcr⟩
    · refine ⟨?_, ?_⟩
      · rw [hpar]
        exact fetch_store parent slot' n' m hm
      · have := ext_type same_type m n' (replace_ext ty m n' data hty hrep)
        rw [this, hty]

theorem parent_add_result (root : SConfNode) (state : SConfYAMLState) (ty : Nat)
    (r : Int) (root' : SConfNode) (state' : SConfYAMLState)
    (hr : sconf_yaml_parent_add root state ty = some (r, root', state')) :
    state'.state = state.state ∧ (r ≠ 0 → state' = state) ∧
    (r = 0 → ∃ p next slot c q, state.curr_parent = p :: next ∧
      state'.curr_parent = ⟨p.parent ++ [slot], 0⟩ :: q :: next ∧
      root'.fetch_path (p.parent ++ [slot]) = some c ∧ sconf_type c = ty) := by
  unfold sconf_yaml_parent_add at hr
  cases hc : state.curr_parent with
  | nil =>
    rw [hc] at hr
    simp only [Option.some.injEq, Prod.mk.injEq] at hr
    obtain ⟨h1, _, h3⟩ := hr
    subst h1 h3
    exact ⟨rfl, fun _ => rfl, fun h => absurd h (by decide)⟩
  | cons p next =>
    rw [hc] at hr
    simp only at hr
    cases hfp : root.fetch_path p.parent with
    | none => rw [hfp] at hr; cases hr
    | some pn =>
      rw [hfp] at hr
      simp only at hr
      by_cases h1 : sconf_type pn = SCONF_TYPE_DICT ∧ state.curr_key = none
      · rw [if_pos h1] at hr
        simp only [Option.some.injEq, Prod.mk.injEq] at hr
        obtain ⟨h1, _, h3⟩ := hr
        subst h1 h3
        exact ⟨rfl, fun _ => rfl, fun h => absurd h (by decide)⟩
      · rw [if_neg h1] at hr
        cases hci : sconf_node_create_and_insert state.curr_key ty pn p.curr_index none with
        | none => rw [hci] at hr; cases hr
        | some ins =>
          rw [hci] at hr
          simp only at hr
          cases hn : ins.node with
          | none =>
            rw [hn] at hr
            simp only [Option.some.injEq, Prod.mk.injEq] at hr
            obtain ⟨h1, _, h3⟩ := hr
            subst h1 h3
            exact ⟨rfl, fun _ => rfl, fun h => absurd h (by decide)⟩
          | some sn =>
            obtain ⟨slot, n⟩ := sn
            rw [hn] at hr
            simp only at hr
            obtain ⟨hfetch, hty⟩ := create_and_insert_node_type _ _ _ _ _ ins slot n hci hn
            have hpath : (root.store_path p.parent ins.parent).fetch_path
                (p.parent ++ [slot]) = some n :=
              fetch_path_child _ ins.parent n p.parent slot
                (fetch_path_store_path root ins.parent pn p.parent hfp) hfetch
            rcases stack_push_cases (p.parent ++ [slot]) state with ⟨_, h2⟩ | ⟨_, h2⟩
            · rw [h2] at hr
              simp only [ne_eq, Int.reduceNeg, neg_eq_zero, one_ne_zero, not_false_eq_true,
                if_true, Option.some.injEq, Prod.mk.injEq] at hr
              obtain ⟨h1, _, h3⟩ := hr
              subst h1 h3
              exact ⟨rfl, fun _ => rfl, fun h => absurd h (by decide)⟩
            · rw [h2] at hr
              simp only [ne_eq, not_true_eq_false, if_false] at hr
              split_ifs at hr
              · simp only [Option.some.injEq, Prod.mk.injEq] at hr
                obtain ⟨h1, hroot, h3⟩ := hr
                subst h1 h3 hroot
                exact ⟨rfl, fun h => absurd rfl h, fun _ =>
                  ⟨p, next, slot, n, _, rfl, rfl, hpath, hty⟩⟩
              · simp only [Option.some.injEq, Prod.mk.injEq] at hr
                obtain ⟨h1, hroot, h3⟩ := hr
                subst h1 h3 hroot
                exact ⟨rfl, fun h => absurd rfl h, fun _ =>
                  ⟨p, next, slot, n, p, by simp [hc], by simp [hc], hpath, hty⟩⟩
              · simp only [Option.some.injEq, Prod.mk.injEq] at hr
                obtain ⟨h1, hroot, h3⟩ := hr
                subst h1 h3 hroot
                exact ⟨rfl, fun h => absurd rfl h, fun _ =>
                  ⟨p, next, slot, n, p, by simp [hc], by simp [hc], hpath, hty⟩⟩

theorem node_add_result (strtod : CStr → StrtodResult) (root : SConfNode)
    (state : SConfYAMLState) (pt : Nat) (value : CStr) (style : Nat)
    (r : Int) (root' : SConfNode) (state' : SConfYAMLState)
    (hr : sconf_yaml_node_add strtod root state pt value style = some (r, root', state')) :
    state'.state = state.state ∧ (r ≠ 0 → state' = state) ∧
    (∀ p next, state.curr_parent = p :: next →
      ∃ q, q.parent = p.parent ∧ state'.curr_parent = q :: next) := by
  have hfail : ∀ (x : SConfNode), (-1, x, state) = (r, root', state') →
      state'.state = state.state ∧ (r ≠ 0 → state' = state) ∧
      (∀ p next, state.curr_parent = p :: next →
        ∃ q, q.parent = p.parent ∧ state'.curr_parent = q :: next) := by
    intro x hx
    simp only [Prod.mk.injEq] at hx
    obtain ⟨_, _, h3⟩ := hx
    subst h3
    exact ⟨rfl, fun _ => rfl, fun p next hp => ⟨p, rfl, hp⟩⟩
  unfold sconf_yaml_node_add at hr
  cases hc : state.curr_parent with
  | nil =>
    rw [hc] at hr
    simp only [Option.some.injEq] at hr
    rw [← hc]
    exact hfail _ hr
  | cons p next =>
    rw [hc] at hr
    simp only at hr
    cases hfp : root.fetch_path p.parent with
    | none => rw [hfp] at hr; cases hr
    | some pn =>
      rw [hfp] at hr
      simp only at hr
      by_cases h1 : pt ≠ sconf_type pn
      · rw [if_pos h1] at hr
        simp only [Option.some.injEq] at hr
        rw [← hc]
        exact hfail _ hr
      · rw [if_neg h1] at hr
        by_cases h2 : (yaml_scalar_infer strtod value style).1 = -1
        · rw [if_pos h2] at hr
          simp only [Option.some.injEq] at hr
          rw [← hc]
          exact hfail _ hr
        · rw [if_neg h2] at hr
          cases hci : sconf_node_create_and_insert state.curr_key
              (yaml_scalar_infer strtod value style).2.1 pn p.curr_index
              (some (yaml_scalar_infer strtod value style).2.2) with
          | none => rw [hci] at hr; cases hr
          | some ins =>
            rw [hci] at hr
            simp only at hr
            cases hn : ins.node with
            | none =>
              rw [hn] at hr
              simp only [Option.some.injEq] at hr
              rw [← hc]
              exact hfail _ hr
            | some sn =>
              rw [hn] at hr
              simp only at hr
              split_ifs at hr
              · simp only [Option.some.injEq, Prod.mk.injEq] at hr
                obtain ⟨h1, _, h3⟩ := hr
                subst h1 h3
                refine ⟨rfl, fun h => absurd rfl h, ?_⟩
                intro p' next' hp'
                simp only [List.cons.injEq] at hp'
                obtain ⟨hp1, hp2⟩ := hp'
                subst hp1 hp2
                exact ⟨⟨p.parent, (p.curr_index + 1) % UINT32_MOD⟩, rfl, rfl⟩
              · simp only [Option.some.injEq, Prod.mk.injEq] at hr
                obtain ⟨h1, _, h3⟩ := hr
                subst h1 h3
                refine ⟨rfl, fun h => absurd rfl h, ?_⟩
                intro p' next' hp'
                exact ⟨p', rfl, by simp [hc, hp']⟩
              · simp only [Option.some.injEq, Prod.mk.injEq] at hr
                obtain ⟨h1, _, h3⟩ := hr
                subst h1 h3
                refine ⟨rfl, fun h => absurd rfl h, ?_⟩
                intro p' next' hp'
                exact ⟨p', rfl, by rw [hc, hp']⟩

theorem top_array_keep (root root' : SConfNode) (s s' : SConfYAMLState)
    (hext : NodeExt same_type root root') (h : yaml_top_array root s)
    (hs : ∀ p next, s.curr_parent = p :: next →
      ∃ q, q.parent = p.parent ∧ s'.curr_parent = q :: next) :
    yaml_top_array root' s' := by
  obtain ⟨p, next, pn, hp, hf, hty⟩ := h
  obtain ⟨q, hq, hq'⟩ := hs p next hp
  obtain ⟨pn', hf', hext'⟩ := ext_fetch_path same_type p.parent root root' pn hext hf
  refine ⟨q, next, pn', hq', ?_, ?_⟩
  · rw [hq]
    exact hf'
  · rw [ext_type same_type pn pn' hext', hty]

theorem parent_remove_state (state : SConfYAMLState) :
    (sconf_yaml_parent_remove state).2.state = state.state := by
  unfold sconf_yaml_parent_remove sconf_yaml_parent_stack_pop
  cases state.curr_parent <;> rfl

theorem stack_push_state (parent : List SConfSlot) (state : SConfYAMLState) :
    (sconf_yaml_parent_stack_push parent state).2.state = state.state := by
  rcases stack_push_cases parent state with ⟨_, h⟩ | ⟨_, h⟩ <;> rw [h]

theorem sound_const (root : SConfNode) (s : SConfYAMLState) (x : Nat) (hx : s.state = x)
    (hk : yaml_state_steps x ∨ x = SCONF_YAML_STATE_STOP)
    (hn : x ≠ SCONF_YAML_STATE_SEQUENCE) : yaml_state_sound root s := by
  refine ⟨by rw [hx]; exact hk, fun h => ?_⟩
  rw [hx] at h
  exact absurd h hn

theorem sound_keep (root root' : SConfNode) (s s' : SConfYAMLState)
    (h : yaml_state_sound root s) (hext : NodeExt same_type root root')
    (hstate : s'.state = s.state)
    (hs : ∀ p next, s.curr_parent = p :: next →
      ∃ q, q.parent = p.parent ∧ s'.curr_parent = q :: next) :
    yaml_state_sound root' s' := by
  refine ⟨by rw [hstate]; exact h.1, fun hq => ?_⟩
  rw [hstate] at hq
  exact top_array_keep root root' s s' hext (h.2 hq) hs

theorem sound_pushed (root : SConfNode) (state : SConfYAMLState) (ty : Nat) (r : Int)
    (root' : SConfNode) (state' : SConfYAMLState) (s : SConfYAMLState)
    (hr : sconf_yaml_parent_add root state ty = some (r, root', state'))
    (h0 : r = 0) (hty : ty = SCONF_TYPE_ARRAY) (hs : s.state = SCONF_YAML_STATE_SEQUENCE)
    (hp : s.curr_parent = state'.curr_parent) : yaml_state_sound root' s := by
  obtain ⟨_, _, h3⟩ := parent_add_result root state ty r root' state' hr
  obtain ⟨p, next, slot, c, q, _, hc, hpath, hct⟩ := h3 h0
  refine ⟨Or.inl (by rw [hs]; simp [yaml_state_steps]), fun _ => ?_⟩
  exact ⟨⟨p.parent ++ [slot], 0⟩, q :: next, c, by rw [hp, hc], hpath, by rw [hct, hty]⟩

/-- One event keeps the invariant of the ingestion, whether it is consumed with
success or not. -/
theorem consume_event_invariant (strtod : CStr → StrtodResult) (root : SConfNode)
    (e : yaml_event_t) (state : SConfYAMLState) (res : Int × SConfNode × SConfYAMLState)
    (h : yaml_invariant root state)
    (hr : sconf_yaml_consume_event strtod root e state = some res) :
    yaml_invariant res.2.1 res.2.2 := by
  refine ⟨consume_event_ok strtod root e state res h.1 hr, ?_⟩
  obtain ⟨_, hsound⟩ := h
  have hsteps : ∀ x : Nat, x = 0 ∨ x = 2 ∨ x = 3 ∨ x = 4 ∨ x = 5 →
      (yaml_state_steps x ∨ x = SCONF_YAML_STATE_STOP) ∧ x ≠ SCONF_YAML_STATE_SEQUENCE := by
    intro x hx
    rcases hx with h | h | h | h | h <;> subst h <;> simp [yaml_state_steps]
  have hconst : ∀ (r' : SConfNode) (s : SConfYAMLState) (x : Nat), s.state = x →
      (x = 0 ∨ x = 2 ∨ x = 3 ∨ x = 4 ∨ x = 5) → yaml_state_sound r' s :=
    fun r' s x hx hk => sound_const r' s x hx (hsteps x hk).1 (hsteps x hk).2
  have hstop : ∀ (r' : SConfNode) (s : SConfYAMLState), s.state = SCONF_YAML_STATE_STOP →
      yaml_state_sound r' s :=
    fun r' s hx => sound_const r' s _ hx (Or.inr rfl) (by decide)
  have hpadd : ∀ (ty : Nat) (y : Int × SConfNode × SConfYAMLState),
      sconf_yaml_parent_add root state ty = some y →
      y.2.2.state = state.state ∧ (y.1 ≠ 0 → yaml_state_sound y.2.1 y.2.2) := by
    intro ty y hy
    obtain ⟨h1, h2, _⟩ := parent_add_result root state ty y.1 y.2.1 y.2.2 hy
    refine ⟨h1, fun hne => ?_⟩
    rw [h2 hne]
    exact sound_keep root y.2.1 state state hsound (parent_add_ext root state ty y hy) rfl
      (fun p next hp => ⟨p, rfl, hp⟩)
  have hnadd : ∀ (pt : Nat) (value : CStr) (style : Nat)
      (y : Int × SConfNode × SConfYAMLState),
      sconf_yaml_node_add strtod root state pt value style = some y →
      y.2.2.state = state.state ∧ yaml_state_sound y.2.1 y.2.2 := by
    intro pt value style y hy
    obtain ⟨h1, _, h3⟩ := node_add_result strtod root state pt value style y.1 y.2.1 y.2.2 hy
    exact ⟨h1, sound_keep root y.2.1 state y.2.2 hsound
      (node_add_ext strtod root state pt value style y hy) h1 h3⟩
  unfold sconf_yaml_consume_event at hr
  split_ifs at hr with h0 h2 h3 h4 h5 h6
  · unfold yaml_consume_start at hr
    cases e with
    | stream_start =>
      simp only [Option.some.injEq] at hr
      rw [← hr]
      exact hconst _ _ 2 rfl (by simp)
    | _ =>
      simp only [Option.some.injEq] at hr
      rw [← hr]
      exact hsound
  · unfold yaml_consume_stream at hr
    cases e with
    | document_start =>
      simp only [Option.some.injEq] at hr
      rw [← hr]
      exact hconst _ _ 3 rfl (by simp)
    | stream_end =>
      simp only [Option.some.injEq] at hr
      rw [← hr]
      exact hstop _ _ rfl
    | _ =>
      simp only [Option.some.injEq] at hr
      rw [← hr]
      exact hsound
  · unfold yaml_consume_document at hr
    cases e with
    | mapping_start =>
      simp only at hr
      split_ifs at hr
      · simp only [Option.some.injEq] at hr
        rw [← hr]
        exact hsound
      · simp only [Option.some.injEq] at hr
        rw [← hr]
        exact hconst _ _ 4 rfl (by simp)
    | document_end =>
      simp only [Option.some.injEq] at hr
      rw [← hr]
      exact hconst _ _ 2 rfl (by simp)
    | _ =>
      simp only [Option.some.injEq] at hr
      rw [← hr]
      exact hsound
  · unfold yaml_consume_block at hr
    cases e with
    | scalar value style =>
      simp only at hr
      cases hk : state.curr_key with
      | none =>
        rw [hk] at hr
        simp only [Option.some.injEq] at hr
        rw [← hr]
        exact hconst _ _ 5 rfl (by simp)
      | some k =>
        rw [hk] at hr
        simp only [Option.some.injEq] at hr
        rw [← hr]
        exact hconst _ _ 4 h4 (by simp)
    | sequence_end =>
      simp only at hr
      split_ifs at hr
      · simp only [Option.some.injEq] at hr
        rw [← hr]
        exact hsound
      · simp only [Option.some.injEq] at hr
        rw [← hr]
        exact hconst _ _ 4 ((parent_remove_state state).trans h4) (by simp)
    | mapping_end =>
      simp only at hr
      by_cases hz : (sconf_yaml_parent_remove state).1 ≠ 0
      · rw [if_pos hz] at hr
        simp only [Option.some.injEq] at hr
        rw [← hr]
        exact hsound
      · rw [if_neg hz] at hr
        cases hcp : (sconf_yaml_parent_remove state).2.curr_parent with
        | nil =>
          rw [hcp] at hr
          simp only [Option.some.injEq] at hr
          rw [← hr]
          exact hconst _ _ 4 ((parent_remove_state state).trans h4) (by simp)
        | cons p rest =>
          rw [hcp] at hr
          simp only at hr
          cases hfp : root.fetch_path p.parent with
          | none => rw [hfp] at hr; cases hr
          | some pn =>
            rw [hfp] at hr
            simp only at hr
            by_cases hty : sconf_type pn = SCONF_TYPE_ARRAY
            · rw [if_pos hty] at hr
              simp only [Option.some.injEq] at hr
              rw [← hr]
              exact ⟨Or.inl (by simp [yaml_state_steps]),
                fun _ => ⟨p, rest, pn, rfl, hfp, hty⟩⟩
            · rw [if_neg hty] at hr
              simp only [Option.some.injEq] at hr
              rw [← hr]
              exact hconst _ _ 4 ((parent_remove_state state).trans h4) (by simp)
    | mapping_start =>
      simp only at hr
      cases hp : sconf_yaml_parent_add root state SCONF_TYPE_DICT with
      | none => rw [hp] at hr; cases hr
      | some y =>
        obtain ⟨r, root', state'⟩ := y
        rw [hp] at hr
        have hy := (hpadd _ _ hp).1
        simp only at hr hy
        split_ifs at hr <;> simp only [Option.some.injEq] at hr <;> rw [← hr] <;>
          exact hconst _ _ 4 (hy.trans h4) (by simp)
    | document_end =>
      simp only [Option.some.injEq] at hr
      rw [← hr]
      exact hconst _ _ 2 rfl (by simp)
    | _ =>
      simp only [Option.some.injEq] at hr
      rw [← hr]
      exact hsound
  · unfold yaml_consume_block_content at hr
    cases e with
    | scalar value style =>
      simp only at hr
      cases hp : sconf_yaml_node_add strtod root state SCONF_TYPE_DICT value style with
      | none => rw [hp] at hr; cases hr
      | some y =>
        obtain ⟨r, root', state'⟩ := y
        rw [hp] at hr
        have hy := (hnadd _ _ _ _ hp).1
        simp only at hr hy
        by_cases hr0 : r ≠ 0
        · rw [if_pos hr0] at hr
          simp only [Option.some.injEq] at hr
          rw [← hr]
          exact hconst _ _ 5 (hy.trans h5) (by simp)
        · rw [if_neg hr0] at hr
          simp only [Option.some.injEq] at hr
          rw [← hr]
          exact hconst _ _ 4 rfl (by simp)
    | mapping_start =>
      simp only at hr
      cases hp : sconf_yaml_parent_add root state SCONF_TYPE_DICT with
      | none => rw [hp] at hr; cases hr
      | some y =>
        obtain ⟨r, root', state'⟩ := y
        rw [hp] at hr
        have hy := (hpadd _ _ hp).1
        simp only at hr hy
        by_cases hr0 : r ≠ 0
        · rw [if_pos hr0] at hr
          simp only [Option.some.injEq] at hr
          rw [← hr]
          exact hconst _ _ 5 (hy.trans h5) (by simp)
        · rw [if_neg hr0] at hr
          simp only [Option.some.injEq] at hr
          rw [← hr]
          exact hconst _ _ 4 rfl (by simp)
    | sequence_start =>
      simp only at hr
      cases hp : sconf_yaml_parent_add root state SCONF_TYPE_ARRAY with
      | none => rw [hp] at hr; cases hr
      | some y =>
        obtain ⟨r, root', state'⟩ := y
        rw [hp] at hr
        have hy := (hpadd _ _ hp).1
        simp only at hr hy
        by_cases hr0 : r ≠ 0
        · rw [if_pos hr0] at hr
          simp only [Option.some.injEq] at hr
          rw [← hr]
          exact hconst _ _ 5 (hy.trans h5) (by simp)
        · rw [if_neg hr0] at hr
          simp only [Option.some.injEq] at hr
          rw [← hr]
          exact sound_pushed root state SCONF_TYPE_ARRAY r root' state' _ hp
            (not_not.mp hr0) rfl rfl rfl
    | _ =>
      simp only [Option.some.injEq] at hr
      rw [← hr]
      exact hsound
  · unfold yaml_consume_sequence at hr
    cases e with
    | scalar value style =>
      simp only at hr
      cases hp : sconf_yaml_node_add strtod root state SCONF_TYPE_ARRAY value style with
      | none => rw [hp] at hr; cases hr
      | some y =>
        obtain ⟨r, root', state'⟩ := y
        rw [hp] at hr
        have hy := (hnadd _ _ _ _ hp).2
        simp only at hr hy
        split_ifs at hr <;> simp only [Option.some.injEq] at hr <;> rw [← hr] <;>
          exact hy
    | mapping_start =>
      simp only at hr
      cases hp : sconf_yaml_parent_add root state SCONF_TYPE_DICT with
      | none => rw [hp] at hr; cases hr
      | some y =>
        obtain ⟨r, root', state'⟩ := y
        rw [hp] at hr
        have hy := (hpadd _ _ hp).2
        simp only at hr hy
        by_cases hr0 : r ≠ 0
        · rw [if_pos hr0] at hr
          simp only [Option.some.injEq] at hr
          rw [← hr]
          exact hy hr0
        · rw [if_neg hr0] at hr
          simp only [Option.some.injEq] at hr
          rw [← hr]
          exact hconst _ _ 4 rfl (by simp)
    | sequence_start =>
      simp only at hr
      cases hp : sconf_yaml_parent_add root state SCONF_TYPE_ARRAY with
      | none => rw [hp] at hr; cases hr
      | some y =>
        obtain ⟨r, root', state'⟩ := y
        rw [hp] at hr
        have hy := (hpadd _ _ hp).2
        simp only at hr hy
        by_cases hr0 : r ≠ 0
        · rw [if_pos hr0] at hr
          simp only [Option.some.injEq] at hr
          rw [← hr]
          exact hy hr0
        · rw [if_neg hr0] at hr
          simp only [Option.some.injEq] at hr
          rw [← hr]
          exact sound_pushed root state SCONF_TYPE_ARRAY r root' state' _ hp
            (not_not.mp hr0) rfl rfl rfl
    | sequence_end =>
      simp only at hr
      split_ifs at hr
      · simp only [Option.some.injEq] at hr
        rw [← hr]
        exact hsound
      · simp only [Option.some.injEq] at hr
        rw [← hr]
        exact hconst _ _ 4 rfl (by simp)
    | _ =>
      simp only [Option.some.injEq] at hr
      rw [← hr]
      exact hsound
  · simp only [Option.some.injEq] at hr
    rw [← hr]
    exact hsound

/-- Along the events of an ingestion the invariant holds. -/
theorem yaml_run_invariant (strtod : CStr → StrtodResult) (events : List yaml_event_t) :
    ∀ (root : SConfNode) (state : SConfYAMLState) (res : Int × SConfNode × SConfYAMLState),
      yaml_invariant root state → yaml_run strtod root state events = some res →
      yaml_invariant res.2.1 res.2.2 := by
  induction events with
  | nil =>
    intro root state res h hr
    simp only [yaml_run, Option.some.injEq] at hr
    rw [← hr]
    exact h
  | cons e es ih =>
    intro root state res h hr
    simp only [yaml_run] at hr
    cases hc : sconf_yaml_consume_event strtod root e state with
    | none => rw [hc] at hr; cases hr
    | some y =>
      obtain ⟨s, root', state'⟩ := y
      rw [hc] at hr
      have hy := consume_event_invariant strtod root e state _ h hc
      simp only at hr hy
      split_ifs at hr
      · simp only [Option.some.injEq] at hr
        rw [← hr]
        exact hy
      · exact ih root' state' res hy hr
      · simp only [Option.some.injEq] at hr
        rw [← hr]
        exact hy

theorem yaml_invariant_initial (root : SConfNode) :
    yaml_invariant root ⟨SCONF_YAML_STATE_START, 0, none, []⟩ :=
  ⟨⟨rfl, by simp⟩, Or.inl (Or.inl rfl), fun h => absurd h (by decide)⟩

/-! ### Events without a case -/

theorem consume_event_no_case (strtod : CStr → StrtodResult) (root : SConfNode)
    (e : yaml_event_t) (state : SConfYAMLState) (hs : yaml_state_steps state.state)
    (hc : yaml_event_has_case state.state e = false) :
    sconf_yaml_consume_event strtod root e state = some (0, root, state) := by
  rcases hs with h | h | h | h | h | h
  · rw [consume_event_start strtod root e state h]
    rw [h] at hc
    cases e <;> first | rfl | (simp [yaml_event_has_case] at hc)
  · rw [consume_event_stream strtod root e state h]
    rw [h] at hc
    cases e <;> first | rfl | (simp [yaml_event_has_case] at hc)
  · rw [consume_event_document strtod root e state h]
    rw [h] at hc
    cases e <;> first | rfl | (simp [yaml_event_has_case] at hc)
  · rw [consume_event_block strtod root e state h]
    rw [h] at hc
    cases e <;> first | rfl | (simp [yaml_event_has_case] at hc)
  · rw [consume_event_block_content strtod root e state h]
    rw [h] at hc
    cases e <;> first | rfl | (simp [yaml_event_has_case] at hc)
  · rw [consume_event_sequence strtod root e state h]
    rw [h] at hc
    cases e <;> first | rfl | (simp [yaml_event_has_case] at hc)

theorem consume_document_mapping_start (strtod : CStr → StrtodResult) (root : SConfNode)
    (state : SConfYAMLState) (hs : state.state = SCONF_YAML_STATE_DOCUMENT) :
    (state.depth < 19 →
      sconf_yaml_consume_event strtod root .mapping_start state =
        some (1, root, ⟨SCONF_YAML_STATE_BLOCK, state.depth + 1, state.curr_key,
          ⟨[], 0⟩ :: state.curr_parent⟩)) ∧
    (19 ≤ state.depth →
      sconf_yaml_consume_event strtod root .mapping_start state = some (0, root, state)) := by
  rw [consume_event_document strtod root _ state hs]
  unfold yaml_consume_document
  constructor
  · intro hd
    rcases stack_push_cases [] state with ⟨h1, _⟩ | ⟨_, h2⟩
    · omega
    · rw [h2]
      rfl
  · intro hd
    rcases stack_push_cases [] state with ⟨_, h2⟩ | ⟨h1, _⟩
    · rw [h2]
      rfl
    · omega

/-- C33: events without a transition are fatal and leave everything as it was.
In the state start `sconf_yaml_consume_event` accepts only the stream start (to
the state stream); in the state stream only the document start (to document)
and the stream end (to stop); in the state document only the mapping start,
which pushes the root as a frame (as the first frame when the stack is empty)
and leads to block unless the stack is full, and the document end (to stream).
In each of the six states in which an event is consumed (all but stop, at which
the loop of `sconf_yaml_read` ends), an event without a `case` of its own makes
the call return 0 with the tree and the state (the state number, the parent
stack, the key, the depth) as they were. Every state that the loop reaches
from its initial state is one of these six or stop. -/
theorem sconf_yaml_invalid_events (strtod : CStr → StrtodResult) :
    (∀ root state, state.state = SCONF_YAML_STATE_START →
      sconf_yaml_consume_event strtod root .stream_start state =
        some (1, root, ⟨SCONF_YAML_STATE_STREAM, state.depth, state.curr_key,
          state.curr_parent⟩) ∧
      ∀ e, e ≠ .stream_start →
        sconf_yaml_consume_event strtod root e state = some (0, root, state)) ∧
    (∀ root state, state.state = SCONF_YAML_STATE_STREAM →
      sconf_yaml_consume_event strtod root .document_start state =
        some (1, root, ⟨SCONF_YAML_STATE_DOCUMENT, state.depth, state.curr_key,
          state.curr_parent⟩) ∧
      sconf_yaml_consume_event strtod root .stream_end state =
        some (1, root, ⟨SCONF_YAML_STATE_STOP, state.depth, state.curr_key,
          state.curr_parent⟩) ∧
      ∀ e, e ≠ .document_start → e ≠ .stream_end →
        sconf_yaml_consume_event strtod root e state = some (0, root, state)) ∧
    (∀ root state, state.state = SCONF_YAML_STATE_DOCUMENT →
      (state.depth < 19 →
        sconf_yaml_consume_event strtod root .mapping_start state =
          some (1, root, ⟨SCONF_YAML_STATE_BLOCK, state.depth + 1, state.curr_key,
            ⟨[], 0⟩ :: state.curr_parent⟩)) ∧
      (19 ≤ state.depth →
        sconf_yaml_consume_event strtod root .mapping_start state = some (0, root, state)) ∧
      sconf_yaml_consume_event strtod root .document_end state =
        some (1, root, ⟨SCONF_YAML_STATE_STREAM, state.depth, state.curr_key,
          state.curr_parent⟩) ∧
      ∀ e, e ≠ .mapping_start → e ≠ .document_end →
        sconf_yaml_consume_event strtod root e state = some (0, root, state)) ∧
    (∀ root state e, yaml_state_steps state.state →
      yaml_event_has_case state.state e = false →
      sconf_yaml_consume_event strtod root e state = some (0, root, state)) ∧
    (∀ root events res,
      yaml_run strtod root ⟨SCONF_YAML_STATE_START, 0, none, []⟩ events = some res →
      yaml_state_steps res.2.2.state ∨ res.2.2.state = SCONF_YAML_STATE_STOP) := by
  refine ⟨?_, ?_, ?_, fun root state e hs hc => consume_event_no_case strtod root e state hs hc,
    fun root events res hr =>
      (yaml_run_invariant strtod events root _ res (yaml_invariant_initial root) hr).2.1⟩
  · intro root state hs
    refine ⟨?_, ?_⟩
    · rw [consume_event_start strtod root _ state hs]
      rfl
    · intro e he
      apply consume_event_no_case strtod root e state (Or.inl hs)
      rw [hs]
      cases e <;> first | rfl | exact absurd rfl he
  · intro root state hs
    refine ⟨?_, ?_, ?_⟩
    · rw [consume_event_stream strtod root _ state hs]
      rfl
    · rw [consume_event_stream strtod root _ state hs]
      rfl
    · intro e he1 he2
      apply consume_event_no_case strtod root e state (Or.inr (Or.inl hs))
      rw [hs]
      cases e <;> first | rfl | exact absurd rfl he1 | exact absurd rfl he2
  · intro root state hs
    refine ⟨(consume_document_mapping_start strtod root state hs).1,
      (consume_document_mapping_start strtod root state hs).2, ?_, ?_⟩
    · rw [consume_event_document strtod root _ state hs]
      rfl
    · intro e he1 he2
      apply consume_event_no_case strtod root e state (Or.inr (Or.inr (Or.inl hs)))
      rw [hs]
      cases e <;> first | rfl | exact absurd rfl he1 | exact absurd rfl he2

/-- Two streams of events: the events of an empty file, as in the test
`test_valid_yaml_empty_file`, are read with return value 0 and leave the tree
as it was; a stream that begins with the start of a document is refused at
its first event. -/
theorem yaml_read_empty_file_example :
    sconf_yaml_read strtod_no_number (fun _ => some [.stream_start, .stream_end])
        (.dict [("a".toList, .int 1)]) "f.yml".toList =
      some (0, .dict [("a".toList, .int 1)]) ∧
    sconf_yaml_read strtod_no_number
        (fun _ => some [.document_start, .mapping_start, .mapping_end, .document_end])
        (.dict [("a".toList, .int 1)]) "f.yml".toList =
      some (-1, .dict [("a".toList, .int 1)]) :=
  ⟨rfl, rfl⟩

/-! ### The state invariant -/

theorem node_add_in_sequence (strtod : CStr → StrtodResult) (root : SConfNode)
    (state : SConfYAMLState) (p : SConfYAMLParent) (next : List SConfYAMLParent)
    (pn : SConfNode) (value : CStr) (style : Nat)
    (hp : state.curr_parent = p :: next) (hf : root.fetch_path p.parent = some pn)
    (hty : sconf_type pn = SCONF_TYPE_ARRAY) :
    sconf_yaml_node_add strtod root state SCONF_TYPE_ARRAY value style =
      if (yaml_scalar_infer strtod value style).1 = -1 then some (-1, root, state)
      else
        match sconf_node_create_and_insert state.curr_key
            (yaml_scalar_infer strtod value style).2.1 pn p.curr_index
            (some (yaml_scalar_infer strtod value style).2.2) with
        | none => none
        | some r =>
          match r.node with
          | none => some (-1, root.store_path p.parent r.parent, state)
          | some _ =>
            some (0, root.store_path p.parent r.parent,
              { state with curr_parent :=
                  ⟨p.parent, (p.curr_index + 1) % UINT32_MOD⟩ :: next }) := by
  unfold sconf_yaml_node_add
  simp only [hp, hf, hty, ne_eq, not_true_eq_false, if_false, if_true]

/-- C37: the invariant of the ingestion. In every state that the events
consumed from the initial state of `sconf_yaml_read` lead to (the state after
an event that fails included), the counter `depth` is the number of frames of
the parent stack and is at most 19; and when the state is
`SCONF_YAML_STATE_SEQUENCE`, the stack is not empty and the container of its top
frame is an array, so for a scalar event `sconf_yaml_node_add` passes the check
of the stack and of the parent type and goes on to the inference and the
insertion. -/
theorem sconf_yaml_state_invariant (strtod : CStr → StrtodResult) (root : SConfNode)
    (events : List yaml_event_t) (res : Int × SConfNode × SConfYAMLState)
    (hr : yaml_run strtod root ⟨SCONF_YAML_STATE_START, 0, none, []⟩ events = some res) :
    (res.2.2.depth = (res.2.2.curr_parent.length : Int) ∧ res.2.2.curr_parent.length ≤ 19) ∧
    (res.2.2.state = SCONF_YAML_STATE_SEQUENCE →
      ∃ p next pn, res.2.2.curr_parent = p :: next ∧
        res.2.1.fetch_path p.parent = some pn ∧ sconf_type pn = SCONF_TYPE_ARRAY ∧
        ∀ value style,
          sconf_yaml_node_add strtod res.2.1 res.2.2 SCONF_TYPE_ARRAY value style =
            if (yaml_scalar_infer strtod value style).1 = -1 then
              some (-1, res.2.1, res.2.2)
            else
              match sconf_node_create_and_insert res.2.2.curr_key
                  (yaml_scalar_infer strtod value style).2.1 pn p.curr_index
                  (some (yaml_scalar_infer strtod value style).2.2) with
              | none => none
              | some r =>
                match r.node with
                | none => some (-1, res.2.1.store_path p.parent r.parent, res.2.2)
                | some _ =>
                  some (0, res.2.1.store_path p.parent r.parent,
                    { res.2.2 with curr_parent :=
                        ⟨p.parent, (p.curr_index + 1) % UINT32_MOD⟩ :: next })) := by
  obtain ⟨hok, _, hseq⟩ :=
    yaml_run_invariant strtod events root _ res (yaml_invariant_initial root) hr
  refine ⟨hok, fun hs => ?_⟩
  obtain ⟨p, next, pn, hp, hf, hty⟩ := hseq hs
  exact ⟨p, next, pn, hp, hf, hty, fun value style =>
    node_add_in_sequence strtod res.2.1 res.2.2 p next pn value style hp hf hty⟩

/-- C37, instance: the events of `a: [1, 2` up to the first item. The state is
`SCONF_YAML_STATE_SEQUENCE` with two frames, the counter is 2, and the container
of the top frame, at `a`, is an array. -/
theorem sconf_yaml_state_invariant_witness :
    yaml_run strtod_no_number (.dict []) ⟨SCONF_YAML_STATE_START, 0, none, []⟩
        [.stream_start, .document_start, .mapping_start,
          .scalar "a".toList YAML_PLAIN_SCALAR_STYLE, .sequence_start,
          .scalar "1".toList YAML_PLAIN_SCALAR_STYLE] =
      some (1, .dict [("a".toList, .array [some (.int 1)])],
        ⟨SCONF_YAML_STATE_SEQUENCE, 2, none, [⟨[.name "a".toList], 1⟩, ⟨[], 0⟩]⟩) ∧
    ((2 : Int) = (([⟨[.name "a".toList], 1⟩, ⟨[], 0⟩] : List SConfYAMLParent).length : Int) ∧
      ([⟨[.name "a".toList], 1⟩, ⟨[], 0⟩] : List SConfYAMLParent).length ≤ 19) ∧
    ∃ p next pn,
      ([⟨[.name "a".toList], 1⟩, ⟨[], 0⟩] : List SConfYAMLParent) = p :: next ∧
      (SConfNode.dict [("a".toList, .array [some (.int 1)])]).fetch_path p.parent = some pn ∧
      sconf_type pn = SCONF_TYPE_ARRAY :=
  have T := sconf_yaml_state_invariant strtod_no_number (.dict [])
    [.stream_start, .document_start, .mapping_start,
      .scalar "a".toList YAML_PLAIN_SCALAR_STYLE, .sequence_start,
      .scalar "1".toList YAML_PLAIN_SCALAR_STYLE]
    (1, .dict [("a".toList, .array [some (.int 1)])],
      ⟨SCONF_YAML_STATE_SEQUENCE, 2, none, [⟨[.name "a".toList], 1⟩, ⟨[], 0⟩]⟩) rfl
  ⟨rfl, T.1,
    match T.2 rfl with
    | ⟨p, next, pn, h1, h2, h3, _⟩ => ⟨p, next, pn, h1, h2, h3⟩⟩

/-! ### The frame of `sconf_set` -/

/-- The frame of `sconf_set` where a path goes through an array: in the tree
with the array `a` that holds 1 at index 0, `sconf_get` finds 1 at `a.x` (a
plain name in an array reads the entry at `parent_index`), and `sconf_set` at
`a.y` returns -1 and leaves the tree as it is, since the name `y` asks for a
dictionary at `a`. -/
theorem set_frame_array_example :
    sconf_get (some (.dict [("a".toList, .array [some (.int 1)])])) (some "a.x".toList) =
      (1, some (.int 1)) ∧
    sconf_set (some (.dict [("a".toList, .array [some (.int 1)])])) (some "a.y".toList)
        SCONF_TYPE_INT (some ⟨[], 5, false, 0, none⟩) =
      some (-1, some (.dict [("a".toList, .array [some (.int 1)])])) :=
  ⟨rfl, rfl⟩

/-! ### The depth cap of the ingestion along keys and indices -/

theorem scalars_wf (strtod : CStr → StrtodResult) (before : List (CStr × Nat))
    (h : ∀ s ∈ before, (yaml_scalar_infer strtod s.1 s.2).1 ≠ -1) :
    items_wf strtod (yaml_scalars before) := by
  induction before with
  | nil => simp [yaml_scalars, items_wf]
  | cons s t ih =>
    simp only [yaml_scalars, List.map_cons, items_wf, YamlValue.is_sequence, YamlValue.wf,
      true_and]
    exact ⟨h s (List.mem_cons_self _ _), ih (fun x hx => h x (List.mem_cons_of_mem _ hx))⟩

theorem scalars_depth (before : List (CStr × Nat)) : items_depth (yaml_scalars before) = 0 := by
  induction before with
  | nil => simp [yaml_scalars, items_depth]
  | cons s t ih =>
    simp only [yaml_scalars, List.map_cons, items_depth, YamlValue.depth]
    simp only [yaml_scalars] at ih
    rw [ih]
    rfl

theorem scalars_length (before : List (CStr × Nat)) :
    (yaml_scalars before).length = before.length := by
  simp [yaml_scalars]

/-- The start of a container when the stack holds 19 frames or more: the
container is put in the slot, the push fails and the event is refused. -/
theorem container_start_fail (strtod : CStr → StrtodResult) (root : SConfNode) (d : Int)
    (key : Option CStr) (P : List SConfSlot) (ci : Nat) (rest : List SConfYAMLParent)
    (pn : SConfNode) (slot : SConfSlot) (ty : Nat) (e : yaml_event_t)
    (he : (e = .mapping_start ∧ ty = 1) ∨ (e = .sequence_start ∧ ty = 2))
    (hfp : root.fetch_path P = some pn) (hs : create_slot pn key ci = some slot)
    (hcap : spec_slot_in_capacity slot = true) (hd : 19 ≤ d)
    (hc : pn.fetch slot = none) :
    ∃ root' st',
      sconf_yaml_consume_event strtod root e ⟨value_state pn, d, key, ⟨P, ci⟩ :: rest⟩ =
        some (0, root', st') := by
  have hty : ty = 1 ∨ ty = 2 := by
    rcases he with ⟨_, h⟩ | ⟨_, h⟩
    · exact Or.inl h
    · exact Or.inr h
  obtain ⟨pn', n, hci, _⟩ :=
    create_and_insert_fills key ty pn ci none slot hs hcap
      (by rcases hty with h | h <;> subst h <;> exact ⟨_, rfl⟩)
      (fun m _ => ⟨m, replace_container ty m none hty⟩)
      (fun m hm => by rw [hc] at hm; cases hm)
  have hpush : ∀ st, sconf_yaml_parent_stack_push (P ++ [slot])
      ⟨st, d, key, ⟨P, ci⟩ :: rest⟩ = (-1, ⟨st, d, key, ⟨P, ci⟩ :: rest⟩) := by
    intro st
    rcases stack_push_cases (P ++ [slot]) ⟨st, d, key, ⟨P, ci⟩ :: rest⟩ with ⟨_, h⟩ | ⟨h, _⟩
    · exact h
    · simp only at h
      omega
  rcases create_slot_kind _ _ _ _ hs with ⟨dd, k, rfl, rfl⟩ | ⟨a, i, rfl, rfl⟩
  · have hk : key ≠ none := by
      intro h
      subst h
      simp [create_slot] at hs
    rw [consume_event_block_content _ _ _ _ (by simp [value_state])]
    rcases he with ⟨rfl, rfl⟩ | ⟨rfl, rfl⟩
    · simp only [yaml_consume_block_content, sconf_yaml_parent_add, hfp, SCONF_TYPE_DICT, hci,
        hpush]
      simp [hk]
    · simp only [yaml_consume_block_content, sconf_yaml_parent_add, hfp, SCONF_TYPE_DICT,
        SCONF_TYPE_ARRAY, hci, hpush]
      simp [hk]
  · rw [consume_event_sequence _ _ _ _ (by simp [value_state])]
    rcases he with ⟨rfl, rfl⟩ | ⟨rfl, rfl⟩
    · simp only [yaml_consume_sequence, sconf_yaml_parent_add, hfp, SCONF_TYPE_DICT, hci,
        hpush]
      simp
    · simp only [yaml_consume_sequence, sconf_yaml_parent_add, hfp, SCONF_TYPE_DICT,
        SCONF_TYPE_ARRAY, hci, hpush]
      simp

theorem nest_events_key (k : CStr) (t : List YamlLink) (v : YamlValue) :
    (yaml_nest (.key k :: t) v).events =
      .mapping_start :: .scalar k YAML_PLAIN_SCALAR_STYLE ::
        ((yaml_nest t v).events ++ [.mapping_end]) := by
  simp only [yaml_nest, YamlValue.events, entries_events, List.cons_append, List.append_nil]

theorem nest_events_item (before : List (CStr × Nat)) (t : List YamlLink) (v : YamlValue) :
    (yaml_nest (.item before :: t) v).events =
      .sequence_start :: (items_events (yaml_scalars before) ++
        ((yaml_nest t v).events ++ [.sequence_end])) := by
  simp only [yaml_nest, YamlValue.events, items_events_append, items_events, List.append_nil,
    List.append_assoc]

/-- The end of a sequence, after the last item: the frame of the sequence is
popped and the state is `SCONF_YAML_STATE_BLOCK`, whether the item left the
state `SCONF_YAML_STATE_SEQUENCE` or `SCONF_YAML_STATE_BLOCK`. -/
theorem sequence_end_any (strtod : CStr → StrtodResult) (root : SConfNode) (d : Int)
    (s : Nat) (hs : s = 4 ∨ s = 6) (f : SConfYAMLParent) (stack : List SConfYAMLParent) :
    sconf_yaml_consume_event strtod root .sequence_end ⟨s, d + 1, none, f :: stack⟩ =
      some (1, root, ⟨4, d, none, stack⟩) := by
  rcases hs with rfl | rfl
  · rw [consume_block_sequence_end strtod root _ f stack rfl rfl]
    simp [SCONF_YAML_STATE_BLOCK]
  · exact sequence_end_step strtod root d f stack

/-- The events of a scalar under a chain of links, consumed below the depth cap
with the parent `pn` on top of the stack and the slot of the value empty: every
event is accepted; afterwards the frame of `pn` is on top again, and the state
is `SCONF_YAML_STATE_BLOCK` when `pn` is a dictionary. -/
theorem nest_ok (strtod : CStr → StrtodResult) (value : CStr) (style : Nat)
    (hv : (yaml_scalar_infer strtod value style).1 ≠ -1) (ls : List YamlLink) :
    ∀ (root : SConfNode) (d : Int) (key : Option CStr) (P : List SConfSlot) (ci : Nat)
      (rest : List SConfYAMLParent) (pn : SConfNode) (slot : SConfSlot),
      (∀ l ∈ ls, l.ok strtod) →
      root.fetch_path P = some pn → create_slot pn key ci = some slot →
      spec_slot_in_capacity slot = true → (sconf_type pn = 2 → key = none) →
      pn.fetch slot = none → d + (ls.length : Int) ≤ 19 →
      ∃ pn' s',
        yaml_run strtod root ⟨value_state pn, d, key, ⟨P, ci⟩ :: rest⟩
            (yaml_nest ls (.scalar value style)).events =
          some (1, root.store_path P pn', ⟨s', d, none, ⟨P, next_index pn ci⟩ :: rest⟩) ∧
        sconf_type pn' = sconf_type pn ∧ (s' = 4 ∨ s' = 6) ∧ (sconf_type pn ≠ 2 → s' = 4) := by
  induction ls with
  | nil =>
    intro root d key P ci rest pn slot _ hfp hs hcap harr hc hd
    obtain ⟨pn', n, hrun, hty, _⟩ := scalar_value_ok strtod value style root d key P ci rest pn
      slot hfp hs hcap (fun h => ⟨harr h, rfl⟩) (by simp only [YamlValue.wf]; exact hv)
      (by simp only [yaml_compat, hc]; intro n hn; cases hn)
      (by simp only [YamlValue.depth]; simpa using hd)
    refine ⟨pn', after_state pn, ?_, hty, ?_, ?_⟩
    · simpa only [yaml_nest] using hrun
    · unfold after_state
      split_ifs
      · exact Or.inr rfl
      · exact Or.inl rfl
    · intro h
      simp [after_state, h]
  | cons l t ih =>
    intro root d key P ci rest pn slot hok hfp hs hcap harr hc hd
    simp only [List.length_cons, Nat.cast_add, Nat.cast_one] at hd
    have hd19 : d < 19 := by omega
    have hokt : ∀ l' ∈ t, l'.ok strtod := fun l' hl' => hok l' (List.mem_cons_of_mem _ hl')
    cases l with
    | key k =>
      obtain ⟨pn1, c, hstep, hty1, hfs1, _, _, hnew, _⟩ :=
        container_start_step strtod root d key P ci rest pn slot 1 .mapping_start
          (Or.inl ⟨rfl, rfl⟩) hfp hs hcap hd19 harr
          (fun m hm => by rw [hc] at hm; cases hm)
      rw [if_pos rfl] at hstep
      have hcd : c = .dict [] := by
        rcases hnew with ⟨_, h⟩ | ⟨h, _⟩
        · simp only [sconf_node_create, SCONF_TYPE_DICT, if_true, Option.some.injEq] at h
          exact h.symm
        · rw [hc] at h
          cases h
      subst hcd
      have hfp1 : (root.store_path P pn1).fetch_path P = some pn1 :=
        fetch_path_store_path root pn1 _ P hfp
      have hfpc : (root.store_path P pn1).fetch_path (P ++ [slot]) = some (.dict []) :=
        fetch_path_child _ pn1 _ P _ hfp1 hfs1
      have hkey := key_step strtod (root.store_path P pn1) (d + 1) k YAML_PLAIN_SCALAR_STYLE
        (⟨P ++ [slot], 0⟩ :: ⟨P, next_index pn ci⟩ :: rest)
      obtain ⟨pn2, s1, hrun, hty2, _, hs1⟩ := ih (root.store_path P pn1) (d + 1) (some k)
        (P ++ [slot]) 0 (⟨P, next_index pn ci⟩ :: rest) (.dict []) (.name k) hokt hfpc rfl rfl
        (fun h => by simp at h) rfl (by omega)
      have hs14 : s1 = 4 := hs1 (by simp)
      subst hs14
      have hvs : value_state (.dict []) = 5 := by simp [value_state]
      rw [hvs] at hrun
      have hroot2 : (root.store_path P pn1).store_path (P ++ [slot]) pn2 =
          root.store_path P (pn1.store slot pn2) := by
        rw [store_path_child _ pn1 (.dict []) pn2 P slot hfp1 hfs1,
          store_path_store_path root pn1 _ pn P hfp]
      rw [hroot2] at hrun
      have hfp2 : (root.store_path P (pn1.store slot pn2)).fetch_path P =
          some (pn1.store slot pn2) := fetch_path_store_path root _ _ P hfp
      have hend := mapping_end_step strtod (root.store_path P (pn1.store slot pn2)) d
        ⟨P ++ [slot], next_index (.dict []) 0⟩ P (next_index pn ci) rest _ hfp2
      have htyp : sconf_type (pn1.store slot pn2) = sconf_type pn := by
        rw [sconf_type_store, hty1]
      refine ⟨pn1.store slot pn2, after_state (pn1.store slot pn2), ?_, htyp, ?_, ?_⟩
      · rw [nest_events_key,
          yaml_run_cons strtod _ _ _ _ _ _ hstep (by simp [SCONF_YAML_STATE_STOP]),
          yaml_run_cons strtod _ _ _ _ _ _ hkey (by simp [SCONF_YAML_STATE_STOP]),
          yaml_run_append strtod _ _ _ _ _ _ hrun (by simp [SCONF_YAML_STATE_STOP])]
        exact yaml_run_single strtod _ _ _ _ _ hend
      · unfold after_state
        split_ifs
        · exact Or.inr rfl
        · exact Or.inl rfl
      · intro h
        simp [after_state, htyp, h]
    | item before =>
      obtain ⟨hlen, hsc⟩ : before.length < SCONF_ARRAY_MAX_SIZE ∧
          ∀ s ∈ before, (yaml_scalar_infer strtod s.1 s.2).1 ≠ -1 :=
        hok (.item before) (List.mem_cons_self _ _)
      obtain ⟨pn1, c, hstep, hty1, hfs1, _, _, hnew, _⟩ :=
        container_start_step strtod root d key P ci rest pn slot 2 .sequence_start
          (Or.inr ⟨rfl, rfl⟩) hfp hs hcap hd19 harr
          (fun m hm => by rw [hc] at hm; cases hm)
      rw [if_neg (by decide)] at hstep
      have hcd : c = .array [none] := by
        rcases hnew with ⟨_, h⟩ | ⟨h, _⟩
        · simp [sconf_node_create, sconf_array_create] at h
          exact h.symm
        · rw [hc] at h
          cases h
      subst hcd
      have hfp1 : (root.store_path P pn1).fetch_path P = some pn1 :=
        fetch_path_store_path root pn1 _ P hfp
      have hfpc : (root.store_path P pn1).fetch_path (P ++ [slot]) = some (.array [none]) :=
        fetch_path_child _ pn1 _ P _ hfp1 hfs1
      obtain ⟨a', hitems, _, hframe, _⟩ := yaml_items_ok_all strtod (yaml_scalars before)
        (root.store_path P pn1) (d + 1) (P ++ [slot]) 0 (⟨P, next_index pn ci⟩ :: rest) [none]
        hfpc (scalars_wf strtod before hsc)
        (by rw [scalars_length]; simp only [SCONF_ARRAY_MAX_SIZE] at hlen ⊢; omega)
        (items_compat_empty strtod _ 0) (by rw [scalars_depth]; simp; omega)
      rw [scalars_length, Nat.zero_add] at hitems
      have hfpa : ((root.store_path P pn1).store_path (P ++ [slot]) (.array a')).fetch_path
          (P ++ [slot]) = some (.array a') := fetch_path_store_path _ _ _ _ hfpc
      have hempty : (SConfNode.array a').fetch (.index before.length) = none := by
        simp only [SConfNode.fetch]
        rw [hframe before.length (Or.inr (by rw [scalars_length]; omega))]
        cases before.length <;> rfl
      obtain ⟨pn2, s1, hrun, _, hs1, _⟩ := ih
        ((root.store_path P pn1).store_path (P ++ [slot]) (.array a')) (d + 1) none
        (P ++ [slot]) before.length (⟨P, next_index pn ci⟩ :: rest) (.array a')
        (.index before.length) hokt hfpa rfl
        (by simp only [spec_slot_in_capacity, decide_eq_true_eq]; exact hlen)
        (fun _ => rfl) hempty (by omega)
      have hvs : value_state (.array a') = 6 := by simp [value_state]
      rw [hvs] at hrun
      have hroot2 : ((root.store_path P pn1).store_path (P ++ [slot]) (.array a')).store_path
          (P ++ [slot]) pn2 = root.store_path P (pn1.store slot pn2) := by
        rw [store_path_store_path _ _ pn2 _ (P ++ [slot]) hfpc,
          store_path_child _ pn1 (.array [none]) pn2 P slot hfp1 hfs1,
          store_path_store_path root pn1 _ pn P hfp]
      rw [hroot2] at hrun
      have hend := sequence_end_any strtod (root.store_path P (pn1.store slot pn2)) d s1 hs1
        ⟨P ++ [slot], next_index (.array a') before.length⟩ (⟨P, next_index pn ci⟩ :: rest)
      have htyp : sconf_type (pn1.store slot pn2) = sconf_type pn := by
        rw [sconf_type_store, hty1]
      refine ⟨pn1.store slot pn2, 4, ?_, htyp, Or.inl rfl, fun _ => rfl⟩
      have hs1ne : s1 ≠ SCONF_YAML_STATE_STOP := by
        rcases hs1 with h | h <;> rw [h] <;> decide
      rw [nest_events_item,
        yaml_run_cons strtod _ _ _ _ _ _ hstep (by simp [SCONF_YAML_STATE_STOP]),
        yaml_run_append strtod _ _ _ _ _ _ hitems (by simp [SCONF_YAML_STATE_STOP]),
        yaml_run_append strtod _ _ _ _ _ _ hrun hs1ne]
      exact yaml_run_single strtod _ _ _ _ _ hend

/-- A chain of links that takes the stack to 20 frames: the start of the
container that would be the 20th frame is refused. -/
theorem nest_too_deep (strtod : CStr → StrtodResult) (v : YamlValue) (ls : List YamlLink) :
    ∀ (root : SConfNode) (d : Int) (key : Option CStr) (P : List SConfSlot) (ci : Nat)
      (rest : List SConfYAMLParent) (pn : SConfNode) (slot : SConfSlot)
      (more : List yaml_event_t),
      (∀ l ∈ ls, l.ok strtod) →
      root.fetch_path P = some pn → create_slot pn key ci = some slot →
      spec_slot_in_capacity slot = true → (sconf_type pn = 2 → key = none) →
      pn.fetch slot = none → ls ≠ [] → 20 ≤ d + (ls.length : Int) →
      ∃ root' st',
        yaml_run strtod root ⟨value_state pn, d, key, ⟨P, ci⟩ :: rest⟩
            ((yaml_nest ls v).events ++ more) = some (0, root', st') := by
  induction ls with
  | nil => intro _ _ _ _ _ _ _ _ _ _ _ _ _ _ _ h; exact absurd rfl h
  | cons l t ih =>
    intro root d key P ci rest pn slot more hok hfp hs hcap harr hc _ hd
    simp only [List.length_cons, Nat.cast_add, Nat.cast_one] at hd
    have hokt : ∀ l' ∈ t, l'.ok strtod := fun l' hl' => hok l' (List.mem_cons_of_mem _ hl')
    by_cases hd19 : 19 ≤ d
    · cases l with
      | key k =>
        obtain ⟨root', st', hf⟩ := container_start_fail strtod root d key P ci rest pn slot 1
          .mapping_start (Or.inl ⟨rfl, rfl⟩) hfp hs hcap hd19 hc
        refine ⟨root', st', ?_⟩
        rw [nest_events_key]
        simp only [List.cons_append, yaml_run, hf, if_true]
      | item before =>
        obtain ⟨root', st', hf⟩ := container_start_fail strtod root d key P ci rest pn slot 2
          .sequence_start (Or.inr ⟨rfl, rfl⟩) hfp hs hcap hd19 hc
        refine ⟨root', st', ?_⟩
        rw [nest_events_item]
        simp only [List.cons_append, yaml_run, hf, if_true]
    · have hlt : d < 19 := by omega
      have ht : t ≠ [] := by
        intro h
        rw [h] at hd
        simp only [List.length_nil, Nat.cast_zero] at hd
        omega
      cases l with
      | key k =>
        obtain ⟨pn1, c, hstep, _, hfs1, _, _, hnew, _⟩ :=
          container_start_step strtod root d key P ci rest pn slot 1 .mapping_start
            (Or.inl ⟨rfl, rfl⟩) hfp hs hcap hlt harr
            (fun m hm => by rw [hc] at hm; cases hm)
        rw [if_pos rfl] at hstep
        have hcd : c = .dict [] := by
          rcases hnew with ⟨_, h⟩ | ⟨h, _⟩
          · simp only [sconf_node_create, SCONF_TYPE_DICT, if_true, Option.some.injEq] at h
            exact h.symm
          · rw [hc] at h
            cases h
        subst hcd
        have hfp1 : (root.store_path P pn1).fetch_path P = some pn1 :=
          fetch_path_store_path root pn1 _ P hfp
        have hfpc : (root.store_path P pn1).fetch_path (P ++ [slot]) = some (.dict []) :=
          fetch_path_child _ pn1 _ P _ hfp1 hfs1
        have hkey := key_step strtod (root.store_path P pn1) (d + 1) k YAML_PLAIN_SCALAR_STYLE
          (⟨P ++ [slot], 0⟩ :: ⟨P, next_index pn ci⟩ :: rest)
        obtain ⟨root', st', hrec⟩ := ih (root.store_path P pn1) (d + 1) (some k)
          (P ++ [slot]) 0 (⟨P, next_index pn ci⟩ :: rest) (.dict []) (.name k)
          (.mapping_end :: more) hokt hfpc rfl rfl (fun h => by simp at h) rfl ht (by omega)
        have hvs : value_state (.dict []) = 5 := by simp [value_state]
        rw [hvs] at hrec
        refine ⟨root', st', ?_⟩
        rw [nest_events_key]
        simp only [List.cons_append, List.append_assoc, List.singleton_append]
        rw [yaml_run_cons strtod _ _ _ _ _ _ hstep (by simp [SCONF_YAML_STATE_STOP]),
          yaml_run_cons strtod _ _ _ _ _ _ hkey (by simp [SCONF_YAML_STATE_STOP])]
        exact hrec
      | item before =>
        obtain ⟨hlen, hsc⟩ : before.length < SCONF_ARRAY_MAX_SIZE ∧
            ∀ s ∈ before, (yaml_scalar_infer strtod s.1 s.2).1 ≠ -1 :=
          hok (.item before) (List.mem_cons_self _ _)
        obtain ⟨pn1, c, hstep, _, hfs1, _, _, hnew, _⟩ :=
          container_start_step strtod root d key P ci rest pn slot 2 .sequence_start
            (Or.inr ⟨rfl, rfl⟩) hfp hs hcap hlt harr
            (fun m hm => by rw [hc] at hm; cases hm)
        rw [if_neg (by decide)] at hstep
        have hcd : c = .array [none] := by
          rcases hnew with ⟨_, h⟩ | ⟨h, _⟩
          · simp [sconf_node_create, sconf_array_create] at h
            exact h.symm
          · rw [hc] at h
            cases h
        subst hcd
        have hfp1 : (root.store_path P pn1).fetch_path P = some pn1 :=
          fetch_path_store_path root pn1 _ P hfp
        have hfpc : (root.store_path P pn1).fetch_path (P ++ [slot]) = some (.array [none]) :=
          fetch_path_child _ pn1 _ P _ hfp1 hfs1
        obtain ⟨a', hitems, _, hframe, _⟩ := yaml_items_ok_all strtod (yaml_scalars before)
          (root.store_path P pn1) (d + 1) (P ++ [slot]) 0 (⟨P, next_index pn ci⟩ :: rest)
          [none] hfpc (scalars_wf strtod before hsc)
          (by rw [scalars_length]; simp only [SCONF_ARRAY_MAX_SIZE] at hlen ⊢; omega)
          (items_compat_empty strtod _ 0) (by rw [scalars_depth]; simp; omega)
        rw [scalars_length, Nat.zero_add] at hitems
        have hfpa : ((root.store_path P pn1).store_path (P ++ [slot]) (.array a')).fetch_path
            (P ++ [slot]) = some (.array a') := fetch_path_store_path _ _ _ _ hfpc
        have hempty : (SConfNode.array a').fetch (.index before.length) = none := by
          simp only [SConfNode.fetch]
          rw [hframe before.length (Or.inr (by rw [scalars_length]; omega))]
          cases before.length <;> rfl
        obtain ⟨root', st', hrec⟩ := ih
          ((root.store_path P pn1).store_path (P ++ [slot]) (.array a')) (d + 1) none
          (P ++ [slot]) before.length (⟨P, next_index pn ci⟩ :: rest) (.array a')
          (.index before.length) (.sequence_end :: more) hokt hfpa rfl
          (by simp only [spec_slot_in_capacity, decide_eq_true_eq]; exact hlen)
          (fun _ => rfl) hempty ht (by omega)
        have hvs : value_state (.array a') = 6 := by simp [value_state]
        rw [hvs] at hrec
        refine ⟨root', st', ?_⟩
        rw [nest_events_item]
        simp only [List.cons_append, List.append_assoc, List.singleton_append]
        rw [yaml_run_cons strtod _ _ _ _ _ _ hstep (by simp [SCONF_YAML_STATE_STOP]),
          yaml_run_append strtod _ _ _ _ _ _ hitems (by simp [SCONF_YAML_STATE_STOP])]
        exact hrec

/-- A scalar under a key of the root mapping and a chain of links is read
exactly when the key and the links are at most 19. -/
theorem nest_read (strtod : CStr → StrtodResult) (k1 : CStr) (ls : List YamlLink)
    (value : CStr) (style : Nat) (hok : ∀ l ∈ ls, l.ok strtod)
    (hv : (yaml_scalar_infer strtod value style).1 ≠ -1) :
    (ls.length + 1 ≤ 19 → ∃ root', sconf_yaml_read_loop strtod (.dict []) ⟨0, 0, none, []⟩
        (stream_events [yaml_nest (.key k1 :: ls) (.scalar value style)]) = some (0, root')) ∧
    (20 ≤ ls.length + 1 → ∃ root', sconf_yaml_read_loop strtod (.dict []) ⟨0, 0, none, []⟩
        (stream_events [yaml_nest (.key k1 :: ls) (.scalar value style)]) =
          some (-1, root')) := by
  have h2 : sconf_yaml_consume_event strtod (.dict []) .document_start ⟨2, 0, none, []⟩ =
      some (1, .dict [], ⟨3, 0, none, []⟩) := by
    rw [consume_event_stream _ _ _ _ rfl]
    rfl
  have h3 : sconf_yaml_consume_event strtod (.dict []) .mapping_start ⟨3, 0, none, []⟩ =
      some (1, .dict [], ⟨4, 1, none, [⟨[], 0⟩]⟩) := by
    rw [consume_event_document _ _ _ _ rfl]
    rfl
  have h4 := key_step strtod (.dict []) 1 k1 YAML_PLAIN_SCALAR_STYLE [⟨[], 0⟩]
  have hvs : value_state (.dict []) = 5 := by simp [value_state]
  constructor
  · intro hlen
    obtain ⟨pn', s', hrun, hty, _, hs'⟩ := nest_ok strtod value style hv ls (.dict []) 1
      (some k1) [] 0 [] (.dict []) (.name k1) hok rfl rfl rfl (fun h => by simp at h) rfl
      (by omega)
    have hs4 : s' = 4 := hs' (by simp)
    subst hs4
    rw [hvs] at hrun
    have hni : next_index (.dict []) 0 = 0 := by simp [next_index]
    rw [hni] at hrun
    have hsp : (SConfNode.dict []).store_path [] pn' = pn' := rfl
    rw [hsp] at hrun
    have h5 : sconf_yaml_consume_event strtod pn' .mapping_end ⟨4, 1, none, [⟨[], 0⟩]⟩ =
        some (1, pn', ⟨4, 0, none, []⟩) := by
      rw [consume_event_block _ _ _ _ rfl]
      rfl
    have h6 : sconf_yaml_consume_event strtod pn' .document_end ⟨4, 0, none, []⟩ =
        some (1, pn', ⟨2, 0, none, []⟩) := by
      rw [consume_event_block _ _ _ _ rfl]
      rfl
    refine ⟨pn', ?_⟩
    rw [stream_events_one]
    apply yaml_read_stream
    rw [nest_events_key]
    simp only [List.cons_append, List.append_assoc, List.singleton_append]
    rw [yaml_run_cons strtod _ _ _ _ _ _ h2 (by decide),
      yaml_run_cons strtod _ _ _ _ _ _ h3 (by decide),
      yaml_run_cons strtod _ _ _ _ _ _ h4 (by simp [SCONF_YAML_STATE_STOP]),
      yaml_run_append strtod _ _ _ _ _ _ hrun (by decide),
      yaml_run_cons strtod _ _ _ _ _ _ h5 (by decide)]
    exact yaml_run_single strtod _ _ _ _ _ h6
  · intro hlen
    have h1 : sconf_yaml_consume_event strtod (.dict []) .stream_start ⟨0, 0, none, []⟩ =
        some (1, .dict [], ⟨2, 0, none, []⟩) := by
      rw [consume_event_start _ _ _ _ rfl]
      rfl
    have ht : ls ≠ [] := by
      intro h
      rw [h] at hlen
      simp at hlen
    obtain ⟨root', st', hrec⟩ := nest_too_deep strtod (.scalar value style) ls (.dict []) 1
      (some k1) [] 0 [] (.dict []) (.name k1) [.mapping_end, .document_end, .stream_end]
      hok rfl rfl rfl (fun h => by simp at h) rfl ht (by omega)
    rw [hvs] at hrec
    refine ⟨root', ?_⟩
    rw [stream_events_one, nest_events_key]
    simp only [List.cons_append, List.append_assoc, List.singleton_append, List.nil_append]
    rw [yaml_read_loop_cons strtod _ _ _ _ _ _ h1 (by decide),
      yaml_read_loop_cons strtod _ _ _ _ _ _ h2 (by decide),
      yaml_read_loop_cons strtod _ _ _ _ _ _ h3 (by decide),
      yaml_read_loop_cons strtod _ _ _ _ _ _ h4 (by simp [SCONF_YAML_STATE_STOP])]
    exact yaml_read_loop_fail strtod _ _ _ _ _ hrec

/-- The call of `sconf_node_create_and_insert` for a segment on the container
that `sconf_set` has created for it: the node is created in an empty slot. -/
theorem create_and_insert_fresh (c : CStr) (hc : spec_segment_fresh c) (ty : Nat)
    (data : Option SConfData) (n : SConfNode)
    (hn : sconf_node_create ty data = some (some n)) :
    ∃ parent' slot,
      sconf_node_create_and_insert (some c) ty
          (if c.head? = some '[' then .array [none] else .dict []) 0 data =
        some ⟨parent', some (slot, n)⟩ := by
  rw [create_and_insert_eq]
  rcases hc with hp | ⟨i, hi, hlt⟩
  · rw [if_neg hp]
    simp only [set_slot, SConfNode.fetch, art_search, hn, insert_at]
    exact ⟨_, _, rfl⟩
  · have hh := spec_index_head c i hi
    rw [if_pos hh]
    have hidx := index_from_string_of_spec c i hi
      (by simp only [SCONF_ARRAY_MAX_SIZE] at hlt; simp only [UINT32_MOD]; omega) 0
    have hslot : set_slot (.array [none]) (some c) = some (.index i) := by
      simp [set_slot, hh, hidx]
    have hf : (SConfNode.array [none]).fetch (.index i) = none := by
      simp only [SConfNode.fetch]
      cases i <;> rfl
    obtain ⟨parent', hins, _, _⟩ := insert_at_empty (.array [none]) (.index i) n
      (Or.inr ⟨_, _, rfl, rfl⟩) hf
      (by simp only [spec_slot_in_capacity, decide_eq_true_eq]; exact hlt)
    rw [hslot]
    simp only [hf, hn, hins]
    exact ⟨_, _, rfl⟩

/-- Segments on fresh containers: below the depth cap the loop of `sconf_set`
creates the container of every segment, a dictionary for a name and an array
for an index segment, and the leaf, and returns `0`. -/
theorem set_loop_fresh (ty : Nat) (d : SConfData) (h3 : 3 ≤ ty) (h6 : ty ≤ 6)
    (toks : List CStr) :
    ∀ (c : CStr) (depth : Nat), spec_segment_fresh c →
      (∀ t ∈ toks, spec_segment_fresh t) → depth + toks.length ≤ 20 →
      ∃ parent', sconf_set_loop ty (some d)
          (if c.head? = some '[' then .array [none] else .dict []) (some c) depth toks =
        some (0, parent') := by
  have hcreate : ∃ leaf, sconf_node_create ty (some d) = some (some leaf) := by
    have : ty = 3 ∨ ty = 4 ∨ ty = 5 ∨ ty = 6 := by omega
    rcases this with h | h | h | h <;> subst h <;>
      simp [sconf_node_create, sconf_node_str_init, sconf_node_int_init,
        sconf_node_bool_init, sconf_node_float_init]
  induction toks with
  | nil =>
    intro c depth hc _ _
    obtain ⟨leaf, hleaf⟩ := hcreate
    obtain ⟨parent', slot, hci⟩ := create_and_insert_fresh c hc ty (some d) leaf hleaf
    exact ⟨parent', by simp only [sconf_set_loop, hci]⟩
  | cons next rest ih =>
    intro c depth hc hrest hlen
    have hnext : spec_segment_fresh next := hrest next (List.mem_cons_self _ _)
    simp only [List.length_cons] at hlen
    obtain ⟨child', hrec⟩ := ih next (depth + 1) hnext
      (fun t ht => hrest t (List.mem_cons_of_mem _ ht)) (by omega)
    have hd : ¬ depth ≥ SCONF_MAX_DEPTH := by
      simp only [SCONF_MAX_DEPTH, ge_iff_le, not_le]; omega
    have hkind : sconf_node_create
        (if next.head? = some '[' then SCONF_TYPE_ARRAY else SCONF_TYPE_DICT) none =
        some (some (if next.head? = some '[' then .array [none] else .dict [])) := by
      split_ifs <;> simp [sconf_node_create, sconf_array_create]
    obtain ⟨parent', slot, hci⟩ := create_and_insert_fresh c hc _ none _ hkind
    refine ⟨parent'.store slot child', ?_⟩
    simp only [sconf_set_loop, hci, hd, if_false, hrec]

theorem named_segments_fresh (strtod : CStr → StrtodResult) (ls : List YamlLink) :
    ∀ (toks : List CStr), List.Forall₂ YamlLink.named ls toks → (∀ l ∈ ls, l.ok strtod) →
      toks.length = ls.length ∧ ∀ t ∈ toks, spec_segment_fresh t := by
  induction ls with
  | nil =>
    intro toks h _
    cases h
    exact ⟨rfl, fun t ht => by cases ht⟩
  | cons l ls' ih =>
    intro toks h hok
    cases h with
    | cons hl hrest =>
      rename_i t toks'
      obtain ⟨hlen, hall⟩ := ih toks' hrest (fun x hx => hok x (List.mem_cons_of_mem _ hx))
      refine ⟨by simp [hlen], ?_⟩
      intro x hx
      rcases List.mem_cons.mp hx with rfl | hx'
      · have hlok := hok l (List.mem_cons_self _ _)
        cases l with
        | key k =>
          simp only [YamlLink.named] at hl
          simp only [YamlLink.ok] at hlok
          subst hl
          exact Or.inl hlok.2.2
        | item before =>
          simp only [YamlLink.named] at hl
          simp only [YamlLink.ok] at hlok
          exact Or.inr ⟨before.length, hl, hlok.1⟩
      · exact hall x hx'

/-- C24: the depth cap of the ingestion is that of the resolver. (i) With
the counter `depth` equal to the number of frames of the parent stack and at
most 19 frames, `sconf_yaml_parent_stack_push` fails (returns -1) exactly when
the stack holds `SCONF_MAX_DEPTH - 1 = 19` frames, and otherwise returns 0 with
one frame more. (ii) Every event consumed by `sconf_yaml_consume_event` keeps
the counter equal to the number of frames and the frames at most 19, so from
the initial state of `sconf_yaml_read` the stack never holds more than 19
frames. (iii) A scalar in range nested under `d ≥ 1` keys and indices, the
first a key of the root mapping and each of the others a key of a mapping or an
item of a sequence (at an index within the capacity, after scalars in range),
is read into the empty dictionary with return value 0 exactly when `d ≤ 19`,
and `sconf_set` of a scalar on the empty dictionary at a path whose `d` segments
name these keys and indices returns 0 exactly when `d ≤ 19`. -/
theorem sconf_yaml_depth_cap (strtod : CStr → StrtodResult) :
    (∀ (parent : List SConfSlot) (state : SConfYAMLState),
      state.depth = (state.curr_parent.length : Int) → state.curr_parent.length ≤ 19 →
      ((sconf_yaml_parent_stack_push parent state).1 = -1 ↔ state.curr_parent.length = 19) ∧
      ((sconf_yaml_parent_stack_push parent state).1 ≠ -1 →
        (sconf_yaml_parent_stack_push parent state).1 = 0 ∧
        (sconf_yaml_parent_stack_push parent state).2.curr_parent.length =
          state.curr_parent.length + 1)) ∧
    (∀ (root : SConfNode) (e : yaml_event_t) (state : SConfYAMLState)
      (res : Int × SConfNode × SConfYAMLState),
      state.depth = (state.curr_parent.length : Int) → state.curr_parent.length ≤ 19 →
      sconf_yaml_consume_event strtod root e state = some res →
      res.2.2.depth = (res.2.2.curr_parent.length : Int) ∧ res.2.2.curr_parent.length ≤ 19) ∧
    (∀ (root : SConfNode) (events : List yaml_event_t)
      (res : Int × SConfNode × SConfYAMLState),
      yaml_run strtod root ⟨SCONF_YAML_STATE_START, 0, none, []⟩ events = some res →
      res.2.2.curr_parent.length ≤ 19) ∧
    (∀ (k1 : CStr) (ls : List YamlLink) (value : CStr) (style : Nat),
      spec_key_ok k1 → (∀ l ∈ ls, l.ok strtod) →
      (yaml_scalar_infer strtod value style).1 ≠ -1 →
      (((sconf_yaml_read_loop strtod (.dict []) ⟨SCONF_YAML_STATE_START, 0, none, []⟩
          (stream_events [yaml_nest (.key k1 :: ls) (.scalar value style)])).map Prod.fst =
            some 0 ↔ ls.length + 1 ≤ 19) ∧
       ∀ (p : CStr) (ty : Nat) (d : SConfData),
        (ty = SCONF_TYPE_STR ∨ ty = SCONF_TYPE_INT ∨ ty = SCONF_TYPE_BOOL ∨
          ty = SCONF_TYPE_FLOAT) →
        List.Forall₂ YamlLink.named (.key k1 :: ls) (strtok_r p []) →
        ((sconf_set (some (.dict [])) (some p) ty (some d)).map Prod.fst = some 0 ↔
          ls.length + 1 ≤ 19))) := by
  refine ⟨?_, ?_, ?_, ?_⟩
  · intro parent state hd hl
    rcases stack_push_cases parent state with ⟨h1, h2⟩ | ⟨h1, h2⟩
    · rw [h2]
      refine ⟨⟨fun _ => by omega, fun _ => rfl⟩, fun h => absurd rfl h⟩
    · rw [h2]
      refine ⟨⟨fun h => absurd h (by simp), fun h => by omega⟩, fun _ => ⟨rfl, rfl⟩⟩
  · intro root e state res hd hl hr
    exact consume_event_ok strtod root e state res ⟨hd, hl⟩ hr
  · intro root events res hr
    exact (yaml_run_ok strtod events root _ res ⟨rfl, by decide⟩ hr).2
  · intro k1 ls value style hk1 hok hv
    obtain ⟨hacc, hrej⟩ := nest_read strtod k1 ls value style hok hv
    refine ⟨⟨?_, ?_⟩, ?_⟩
    · intro h
      by_contra hc
      obtain ⟨root', hr⟩ := hrej (by omega)
      simp only [SCONF_YAML_STATE_START] at h
      rw [hr] at h
      simp at h
    · intro h
      obtain ⟨root', hr⟩ := hacc h
      simp only [SCONF_YAML_STATE_START]
      rw [hr]
      rfl
    · intro p ty d hT hnamed
      have h3 : 3 ≤ ty := by rcases hT with h | h | h | h <;> subst h <;> decide
      have h6 : ty ≤ 6 := by rcases hT with h | h | h | h <;> subst h <;> decide
      cases htok : strtok_r p [] with
      | nil =>
        rw [htok] at hnamed
        cases hnamed
      | cons t rest =>
        rw [htok] at hnamed
        cases hnamed with
        | cons hl hrest =>
          simp only [YamlLink.named] at hl
          subst hl
          obtain ⟨hlen, hfresh⟩ := named_segments_fresh strtod ls rest hrest hok
          constructor
          · intro h
            by_contra hc
            rcases sconf_set_depth_cap (some (.dict [])) p ty (some d)
              (by rw [htok, List.length_cons, hlen]; omega) with h2 | ⟨root', h2⟩
            · rw [h2] at h
              simp at h
            · rw [h2] at h
              simp at h
          · intro h
            obtain ⟨root', hrec⟩ := set_loop_fresh ty d h3 h6 rest t 2 (Or.inl hk1.2.2) hfresh
              (by rw [hlen]; omega)
            rw [if_neg hk1.2.2] at hrec
            simp [sconf_set, htok, sconf_set_loop, hrec]

set_option maxRecDepth 100000 in
/-- Instances at the depth cap with sequences on the way: `a: [[ … [v] … ]]`
with 18 nested sequences (19 keys and indices) is read, with 19 nested
sequences it is refused; so is `sconf_set` at the path of `a` followed by 18 and
by 19 segments `[0]`. -/
theorem yaml_read_depth_sequences_example :
    (sconf_yaml_read_loop strtod_no_number (.dict []) ⟨SCONF_YAML_STATE_START, 0, none, []⟩
        (stream_events [yaml_nest (.key "a".toList :: List.replicate 18 (.item []))
          (.scalar "v".toList YAML_DOUBLE_QUOTED_SCALAR_STYLE)])).map Prod.fst = some 0 ∧
    (sconf_yaml_read_loop strtod_no_number (.dict []) ⟨SCONF_YAML_STATE_START, 0, none, []⟩
        (stream_events [yaml_nest (.key "a".toList :: List.replicate 19 (.item []))
          (.scalar "v".toList YAML_DOUBLE_QUOTED_SCALAR_STYLE)])).map Prod.fst = some (-1) ∧
    (sconf_set (some (.dict []))
        (some ("a".toList ++ (List.replicate 18 ".[0]".toList).flatten)) SCONF_TYPE_STR
        (some ⟨"v".toList, 0, false, 0, none⟩)).map Prod.fst = some 0 ∧
    (sconf_set (some (.dict []))
        (some ("a".toList ++ (List.replicate 19 ".[0]".toList).flatten)) SCONF_TYPE_STR
        (some ⟨"v".toList, 0, false, 0, none⟩)).map Prod.fst = some (-1) :=
  ⟨rfl, rfl, rfl, rfl⟩

/-- An instance with items after scalars and a mapping inside a sequence: the
document `a: [1, x, [{b: [v]}]]` is read, and the scalar is at the path
`a.[2].[0].b.[0]`. -/
theorem yaml_read_nest_example :
    sconf_yaml_read_loop strtod_no_number (.dict []) ⟨SCONF_YAML_STATE_START, 0, none, []⟩
        (stream_events [yaml_nest
          [.key "a".toList, .item [("1".toList, YAML_PLAIN_SCALAR_STYLE),
            ("x".toList, YAML_PLAIN_SCALAR_STYLE)], .item [], .key "b".toList, .item []]
          (.scalar "v".toList YAML_PLAIN_SCALAR_STYLE)]) =
      some (0, .dict [("a".toList, .array [some (.int 1), some (.str "x".toList),
        some (.array [some (.dict [("b".toList, .array [some (.str "v".toList)])])])])]) ∧
    sconf_get (some (.dict [("a".toList, .array [some (.int 1), some (.str "x".toList),
        some (.array [some (.dict [("b".toList, .array [some (.str "v".toList)])])])])]))
      (some "a.[2].[0].b.[0]".toList) = (1, some (.str "v".toList)) :=
  ⟨rfl, rfl⟩

end SConf
